import Mathlib

/-!
AutoreleasePoolTest: the paged autorelease-pool stack of `main.cpp`.

A shallow embedding of `AutoreleasePoolPage` (LP64 build, so
`SUPPORT_AUTORELEASEPOOL_DEDUP_PTRS` is 1) and a verification of its scope
protocol.

Memory model.  Page blocks are numbered in allocation order; a pointer to a
slot is a pair of a block number and a slot index counted from `begin()`, so
`begin()` is index `0` and `end()` is index `(SIZE - sizeof(*this)) / sizeof(id)`.
A freed block number is never handed out again.  The contents of newly
allocated memory and the constant `PAGE_MIN_SIZE` come from outside the
repository and are parameters (`Config.fresh`, `Config.SIZE`), as are the five
`OPTION` switches of the absent `objc-env.h`.

Output.  The text that `add` and `release()` print is not part of the model,
but the reads that produce it are: `->description()` dereferences its operand,
so `add` does not return when the operand is not the address of an object
(`isObject`).
-/

namespace AutoreleasePool

/-! ## Data model -/

/-- Ways in which a call does not return: a failed `ASSERT`, a dereference of
`nil` or of a page whose magic is gone (`busted_die`), and exhaustion of the
iteration bound of a loop. -/
inductive Fault where
  | assertion
  | badAccess
  | fuel
deriving DecidableEq, Repr

/-- The bit-field pair `AutoreleasePoolEntry` with `ptr : 48` and `count : 16`. -/
structure AutoreleasePoolEntry where
  ptr : Nat
  count : Nat
deriving DecidableEq, Repr

/-- The constant `AutoreleasePoolEntry::maxCount`. -/
def maxCount : Nat := 65535

/-- The macro `POOL_BOUNDARY`, which is `nil`. -/
def POOL_BOUNDARY : Nat := 0

/-- The slot word seen through `*(id *)entry`: `ptr` in the low 48 bits. -/
def idOfEntry (e : AutoreleasePoolEntry) : Nat := e.ptr + 2 ^ 48 * e.count

/-- The entry seen after the store `*next = obj` of a 64-bit word. -/
def entryOfId (obj : Nat) : AutoreleasePoolEntry := ⟨obj % 2 ^ 48, obj / 2 ^ 48 % 2 ^ 16⟩

/-- A slot after `memset(slot, SCRIBBLE, 8)` with `SCRIBBLE = 0xA3`. -/
def scribbled : AutoreleasePoolEntry := ⟨0xA3A3A3A3A3A3, 0xA3A3⟩

/-- Values of type `id *`: `nil`, the macro `EMPTY_POOL_PLACEHOLDER`, or slot
`idx` (counted from `begin()`) of page block `page`. -/
inductive SlotPtr where
  | nil
  | EMPTY_POOL_PLACEHOLDER
  | slot (page : Nat) (idx : Nat)
deriving DecidableEq, Repr

/-- The value kept under `AUTORELEASE_POOL_KEY` in thread-local storage. -/
inductive Tls where
  | nil
  | EMPTY_POOL_PLACEHOLDER
  | page (p : Nat)
deriving DecidableEq, Repr

/-- The header fields of `AutoreleasePoolPageData` (magic and thread apart)
and the slot array that follows the header. -/
structure AutoreleasePoolPage where
  next : Nat
  parent : Option Nat
  child : Option Nat
  depth : Nat
  hiwat : Nat
  slots : Nat → AutoreleasePoolEntry

/-- One thread: the live page blocks, the number of blocks allocated so far,
the thread-local value, the sequence of `release()` calls made so far, and the
static flag `complained` of `badPop`. -/
structure State where
  pages : Nat → Option AutoreleasePoolPage
  brk : Nat
  tls : Tls
  released : List Nat
  complained : Bool

/-- The `OPTION` switches, the page size `SIZE` and the contents of fresh
memory. -/
structure Config where
  DisableAutoreleaseCoalescing : Bool
  DisableAutoreleaseCoalescingLRU : Bool
  DebugPoolAllocation : Bool
  DebugMissingPools : Bool
  PrintPoolHiwat : Bool
  SIZE : Nat
  fresh : Nat → Nat → AutoreleasePoolEntry

/-- The value of `sizeof(id)` under LP64. -/
def sizeofId : Nat := 8

/-- The value of `sizeof(AutoreleasePoolPage)` under LP64: magic 16, next 8,
thread 8, parent 8, child 8, depth 4, hiwat 4. -/
def sizeofPage : Nat := 56

/-- The constant `COUNT = SIZE / sizeof(id)`. -/
def Config.COUNT (c : Config) : Nat := c.SIZE / sizeofId

/-- The slot index of `end()`, that is `end() - begin()`. -/
def Config.pageEnd (c : Config) : Nat := (c.SIZE - sizeofPage) / sizeofId

/-- The state of a thread on which nothing has happened yet. -/
def State.init : State :=
  { pages := fun _ => none, brk := 0, tls := Tls.nil, released := [], complained := false }

/-- Store a page header and slot array back into its block. -/
def setPage (s : State) (p : Nat) (pg : AutoreleasePoolPage) : State :=
  { s with pages := Function.update s.pages p (some pg) }

/-- The effect of `operator delete` on the block table. -/
def freePage (s : State) (p : Nat) : State :=
  { s with pages := Function.update s.pages p none }

/-- The test `empty()`: `next == begin()`. -/
def AutoreleasePoolPage.empty (pg : AutoreleasePoolPage) : Bool := pg.next == 0

/-- The test `full()`: `next == end()`. -/
def AutoreleasePoolPage.full (c : Config) (pg : AutoreleasePoolPage) : Bool :=
  pg.next == c.pageEnd

/-- The test `lessThanHalfFull()`: `next - begin() < (end() - begin()) / 2`. -/
def AutoreleasePoolPage.lessThanHalfFull (c : Config) (pg : AutoreleasePoolPage) : Bool :=
  decide (pg.next - 0 < (c.pageEnd - 0) / 2)

/-! ## Thread-local cache -/

/-- The function `hotPage()`: the placeholder reads as `nil`, a page pointer
is `fastcheck`ed. -/
def hotPage (s : State) : Except Fault (Option Nat) :=
  match s.tls with
  | Tls.nil => Except.ok none
  | Tls.EMPTY_POOL_PLACEHOLDER => Except.ok none
  | Tls.page p =>
    match s.pages p with
    | some _ => Except.ok (some p)
    | none => Except.error Fault.badAccess

/-- The function `setHotPage(page)`. -/
def setHotPage (s : State) (page : Option Nat) : Except Fault State :=
  match page with
  | none => Except.ok { s with tls := Tls.nil }
  | some p =>
    match s.pages p with
    | some _ => Except.ok { s with tls := Tls.page p }
    | none => Except.error Fault.badAccess

/-- The function `haveEmptyPoolPlaceholder()`. -/
def haveEmptyPoolPlaceholder (s : State) : Bool :=
  decide (s.tls = Tls.EMPTY_POOL_PLACEHOLDER)

/-- The function `setEmptyPoolPlaceholder()`. -/
def setEmptyPoolPlaceholder (s : State) : Except Fault (State × SlotPtr) :=
  if s.tls = Tls.nil then
    Except.ok ({ s with tls := Tls.EMPTY_POOL_PLACEHOLDER }, SlotPtr.EMPTY_POOL_PLACEHOLDER)
  else Except.error Fault.assertion

/-- The parent walk of `coldPage()`. -/
def coldLoop : Nat → State → Nat → Except Fault Nat
  | 0, _, _ => Except.error Fault.fuel
  | fuel + 1, s, p =>
    match s.pages p with
    | none => Except.error Fault.badAccess
    | some pg =>
      match pg.parent with
      | none => Except.ok p
      | some par => coldLoop fuel s par

/-- The function `coldPage()`. -/
def coldPage (s : State) : Except Fault (Option Nat) :=
  match hotPage s with
  | Except.error e => Except.error e
  | Except.ok none => Except.ok none
  | Except.ok (some p) =>
    match coldLoop (s.brk + 1) s p with
    | Except.error e => Except.error e
    | Except.ok r => Except.ok (some r)

/-! ## `add` -/

/-- The `for (offset = 0; offset < 4; offset++)` scan of the LRU branch of
`add`, with `n` iterations left: the offset below `topEntry` of the entry to
coalesce with, if the scan reaches one before it breaks. -/
def lruScan (pg : AutoreleasePoolPage) (obj : Nat) (top : Nat) : Nat → Nat → Option Nat
  | 0, _ => none
  | n + 1, offset =>
    if top ≤ offset ∨ idOfEntry (pg.slots (top - offset)) = POOL_BOUNDARY then none
    else if (pg.slots (top - offset)).ptr = obj ∧ (pg.slots (top - offset)).count < maxCount then
      some offset
    else lruScan pg obj top n (offset + 1)

/-- The call `memmove(offsetEntry, offsetEntry + 1, offset * sizeof(*offsetEntry))`
with `offsetEntry` at index `k`. -/
def memmoveDown (slots : Nat → AutoreleasePoolEntry) (k offset : Nat) :
    Nat → AutoreleasePoolEntry :=
  fun j => if k ≤ j ∧ j < k + offset then slots (j + 1) else slots j

/-- The statement `entry->count++` on the 16-bit field. -/
def bumpCount (e : AutoreleasePoolEntry) : AutoreleasePoolEntry :=
  { e with count := (e.count + 1) % 2 ^ 16 }

/-- The LRU branch of `add`: the page after coalescing, when the branch ends
in `goto done`. -/
def coalesceLRU (pg : AutoreleasePoolPage) (obj : Nat) : Option AutoreleasePoolPage :=
  if pg.empty = false ∧ obj ≠ POOL_BOUNDARY then
    match lruScan pg obj (pg.next - 1) 4 0 with
    | none => none
    | some offset =>
      let top := pg.next - 1
      let found := pg.slots (top - offset)
      let slots1 :=
        if 0 < offset then Function.update (memmoveDown pg.slots (top - offset) offset) top found
        else pg.slots
      some { pg with slots := Function.update slots1 top (bumpCount (slots1 top)) }
  else none

/-- The non-LRU branch of `add`: the page after coalescing with `prevEntry`,
when the branch ends in `goto done`. -/
def coalesceTop (pg : AutoreleasePoolPage) (obj : Nat) : Option AutoreleasePoolPage :=
  if pg.empty = false ∧ obj ≠ POOL_BOUNDARY then
    let prev := pg.next - 1
    if (pg.slots prev).ptr = obj ∧ (pg.slots prev).count < maxCount then
      some { pg with slots := Function.update pg.slots prev (bumpCount (pg.slots prev)) }
    else none
  else none

/-- The coalescing part of `add` under the two switches. -/
def coalesce (c : Config) (pg : AutoreleasePoolPage) (obj : Nat) : Option AutoreleasePoolPage :=
  if c.DisableAutoreleaseCoalescing = false ∨ c.DisableAutoreleaseCoalescingLRU = false then
    if c.DisableAutoreleaseCoalescingLRU = false then coalesceLRU pg obj
    else coalesceTop pg obj
  else none

/-- Whether the word `w`, used as an `Object *`, can be dereferenced: the
objects are the client's, so every address that is not nil and fits the 48
bits of `MACH_VM_MAX_ADDRESS` counts as one; a word with a bit above them set
is not an address. -/
def isObject (w : Nat) : Bool := decide (w ≠ 0 ∧ w < 2 ^ 48)

/-- The method `add(obj)` of page `self`.  Of the text that `add` prints only
the reads matter: `((Object *)obj)->description()` on both paths, and on the
path that stores a new slot `(*(Object **)(ret - 1))->description()`, which
reads the whole word of the slot below `next`, count included, when the page
is not empty and that word is not `POOL_BOUNDARY`. -/
def add (c : Config) (s : State) (self : Nat) (obj : Nat) : Except Fault (State × SlotPtr) :=
  match s.pages self with
  | none => Except.error Fault.badAccess
  | some pg =>
    if pg.full c then Except.error Fault.assertion
    else
      match coalesce c pg obj with
      | some pg1 =>
        if isObject obj = false then Except.error Fault.badAccess
        else Except.ok (setPage s self pg1, SlotPtr.slot self (pg.next - 1))
      | none =>
        if pg.next ≠ 0 ∧ idOfEntry (pg.slots (pg.next - 1)) ≠ POOL_BOUNDARY ∧
            isObject (idOfEntry (pg.slots (pg.next - 1))) = false then
          Except.error Fault.badAccess
        else if obj ≠ POOL_BOUNDARY ∧ isObject obj = false then Except.error Fault.badAccess
        else if (entryOfId obj).ptr = obj then
          Except.ok
            (setPage s self
              { pg with slots := Function.update pg.slots pg.next (entryOfId obj),
                        next := pg.next + 1 },
             SlotPtr.slot self pg.next)
        else Except.error Fault.assertion

/-! ## `releaseUntil` -/

/-- The inner loop `while (page->empty()) { page = page->parent; setHotPage(page); }`. -/
def skipEmpty : Nat → State → Nat → Except Fault (State × Nat)
  | 0, _, _ => Except.error Fault.fuel
  | fuel + 1, s, page =>
    match s.pages page with
    | none => Except.error Fault.badAccess
    | some pg =>
      if pg.empty then
        match pg.parent with
        | none => Except.error Fault.badAccess
        | some par =>
          match setHotPage s (some par) with
          | Except.error e => Except.error e
          | Except.ok s1 => skipEmpty fuel s1 par
      else Except.ok (s, page)

/-- The `release()` calls made for one popped entry: `count + 1` calls on
`(id)entry->ptr`, the word without its count, and none for `POOL_BOUNDARY`. -/
def releaseEntry (s : State) (entry : AutoreleasePoolEntry) : State :=
  if entry.ptr ≠ POOL_BOUNDARY then
    { s with released := s.released ++ List.replicate (entry.count + 1) entry.ptr }
  else s

/-- The outer loop `while (this->next != stop)` of `releaseUntil`. -/
def releaseLoop (self : Nat) (stop : SlotPtr) : Nat → State → Except Fault State
  | 0, _ => Except.error Fault.fuel
  | fuel + 1, s =>
    match s.pages self with
    | none => Except.error Fault.badAccess
    | some me =>
      if SlotPtr.slot self me.next = stop then Except.ok s
      else
        match hotPage s with
        | Except.error e => Except.error e
        | Except.ok none => Except.error Fault.badAccess
        | Except.ok (some hp) =>
          match skipEmpty (s.brk + 1) s hp with
          | Except.error e => Except.error e
          | Except.ok (s1, page) =>
            match s1.pages page with
            | none => Except.error Fault.badAccess
            | some pg =>
              let entry := pg.slots (pg.next - 1)
              let s2 := setPage s1 page
                { pg with next := pg.next - 1,
                          slots := Function.update pg.slots (pg.next - 1) scribbled }
              releaseLoop self stop fuel (releaseEntry s2 entry)

/-- The number of occupied slots over all blocks: each turn of the outer loop
of `releaseUntil` lowers it by one. -/
def occupied (s : State) : Nat :=
  ((List.range s.brk).map
    (fun p => match s.pages p with
      | some pg => pg.next
      | none => 0)).sum

/-- The method `releaseUntil(stop)` of page `self`. -/
def releaseUntil (s : State) (self : Nat) (stop : SlotPtr) : Except Fault State :=
  match releaseLoop self stop (occupied s + 1) s with
  | Except.error e => Except.error e
  | Except.ok s1 => setHotPage s1 (some self)

/-! ## `kill` -/

/-- The loop `while (page->child) page = page->child;` of `kill`. -/
def killDescend : Nat → State → Nat → Except Fault Nat
  | 0, _, _ => Except.error Fault.fuel
  | fuel + 1, s, page =>
    match s.pages page with
    | none => Except.error Fault.badAccess
    | some pg =>
      match pg.child with
      | none => Except.ok page
      | some ch => killDescend fuel s ch

/-- The unlinking step `page = page->parent; if (page) page->child = nil;`. -/
def unlinkFromParent (s : State) (parent : Option Nat) : Except Fault State :=
  match parent with
  | none => Except.ok s
  | some par =>
    match s.pages par with
    | none => Except.error Fault.badAccess
    | some ppg => Except.ok (setPage s par { ppg with child := none })

/-- The statement `delete deathptr`: the destructor checks the page, asserts
`empty()` and `!child`, and the block is freed. -/
def deletePage (s : State) (p : Nat) : Except Fault State :=
  match s.pages p with
  | none => Except.error Fault.badAccess
  | some dp =>
    if dp.empty = false then Except.error Fault.assertion
    else if dp.child ≠ none then Except.error Fault.assertion
    else Except.ok (freePage s p)

/-- The loop `do { ... } while (deathptr != this)` of `kill`, with `page`
the value of the variable `page` at the top of the body. -/
def killAscend (self : Nat) : Nat → State → Nat → Except Fault State
  | 0, _, _ => Except.error Fault.fuel
  | fuel + 1, s, page =>
    match s.pages page with
    | none => Except.error Fault.badAccess
    | some pg =>
      match unlinkFromParent s pg.parent with
      | Except.error e => Except.error e
      | Except.ok s1 =>
        match deletePage s1 page with
        | Except.error e => Except.error e
        | Except.ok s2 =>
          if page = self then Except.ok s2
          else
            match pg.parent with
            | none => Except.error Fault.badAccess
            | some par => killAscend self fuel s2 par

/-- The method `kill()` of page `self`. -/
def kill (s : State) (self : Nat) : Except Fault State :=
  match killDescend (s.brk + 1) s self with
  | Except.error e => Except.error e
  | Except.ok leaf => killAscend self (s.brk + 1) s leaf

/-! ## Registration -/

/-- The expression `new AutoreleasePoolPage(newParent)`: block `brk` is
allocated, the header is initialised and the page is linked below its parent. -/
def newPage (c : Config) (s : State) (newParent : Option Nat) : Except Fault (State × Nat) :=
  match newParent with
  | none =>
    Except.ok
      ({ s with
          pages := Function.update s.pages s.brk
            (some { next := 0, parent := none, child := none, depth := 0, hiwat := 0,
                    slots := c.fresh s.brk }),
          brk := s.brk + 1 }, s.brk)
  | some par =>
    match s.pages par with
    | none => Except.error Fault.badAccess
    | some ppg =>
      if ppg.child ≠ none then Except.error Fault.assertion
      else
        Except.ok
          ({ s with
              pages := Function.update
                (Function.update s.pages par (some { ppg with child := some s.brk })) s.brk
                (some { next := 0, parent := some par, child := none,
                        depth := (1 + ppg.depth) % 2 ^ 32, hiwat := ppg.hiwat,
                        slots := c.fresh s.brk }),
              brk := s.brk + 1 }, s.brk)

/-- The loop `do { ... } while (page->full())` of `autoreleaseFullPage`. -/
def fullPageLoop (c : Config) : Nat → State → Nat → Except Fault (State × Nat)
  | 0, _, _ => Except.error Fault.fuel
  | fuel + 1, s, page =>
    match s.pages page with
    | none => Except.error Fault.badAccess
    | some pg =>
      let r : Except Fault (State × Nat) :=
        match pg.child with
        | some ch => Except.ok (s, ch)
        | none => newPage c s (some page)
      match r with
      | Except.error e => Except.error e
      | Except.ok (s1, page1) =>
        match s1.pages page1 with
        | none => Except.error Fault.badAccess
        | some pg1 =>
          if pg1.full c then fullPageLoop c fuel s1 page1 else Except.ok (s1, page1)

/-- The function `autoreleaseFullPage(obj, page)`. -/
def autoreleaseFullPage (c : Config) (s : State) (obj : Nat) (page : Nat) :
    Except Fault (State × SlotPtr) :=
  match hotPage s with
  | Except.error e => Except.error e
  | Except.ok hp =>
    if hp ≠ some page then Except.error Fault.assertion
    else
      match s.pages page with
      | none => Except.error Fault.badAccess
      | some pg =>
        if pg.full c = false then Except.error Fault.assertion
        else
          match fullPageLoop c (s.brk + 1) s page with
          | Except.error e => Except.error e
          | Except.ok (s1, page1) =>
            match setHotPage s1 (some page1) with
            | Except.error e => Except.error e
            | Except.ok s2 => add c s2 page1 obj

/-- The function `autoreleaseNoPage(obj)`. -/
def autoreleaseNoPage (c : Config) (s : State) (obj : Nat) : Except Fault (State × SlotPtr) :=
  match hotPage s with
  | Except.error e => Except.error e
  | Except.ok (some _) => Except.error Fault.assertion
  | Except.ok none =>
    if haveEmptyPoolPlaceholder s then
      match newPage c s none with
      | Except.error e => Except.error e
      | Except.ok (s1, page) =>
        match setHotPage s1 (some page) with
        | Except.error e => Except.error e
        | Except.ok s2 =>
          match add c s2 page POOL_BOUNDARY with
          | Except.error e => Except.error e
          | Except.ok (s3, _) => add c s3 page obj
    else if obj ≠ POOL_BOUNDARY ∧ c.DebugMissingPools = true then
      Except.ok (s, SlotPtr.nil)
    else if obj = POOL_BOUNDARY ∧ c.DebugPoolAllocation = false then
      setEmptyPoolPlaceholder s
    else
      match newPage c s none with
      | Except.error e => Except.error e
      | Except.ok (s1, page) =>
        match setHotPage s1 (some page) with
        | Except.error e => Except.error e
        | Except.ok s2 => add c s2 page obj

/-- The function `autoreleaseFast(obj)`. -/
def autoreleaseFast (c : Config) (s : State) (obj : Nat) : Except Fault (State × SlotPtr) :=
  match hotPage s with
  | Except.error e => Except.error e
  | Except.ok none => autoreleaseNoPage c s obj
  | Except.ok (some page) =>
    match s.pages page with
    | none => Except.error Fault.badAccess
    | some pg =>
      if pg.full c = false then add c s page obj
      else autoreleaseFullPage c s obj page

/-- The function `autoreleaseNewPage(obj)`. -/
def autoreleaseNewPage (c : Config) (s : State) (obj : Nat) : Except Fault (State × SlotPtr) :=
  match hotPage s with
  | Except.error e => Except.error e
  | Except.ok (some page) => autoreleaseFullPage c s obj page
  | Except.ok none => autoreleaseNoPage c s obj

/-- The public function `autorelease(obj)`, with the `ASSERT` on the landed
slot; it returns `obj`. -/
def autorelease (c : Config) (s : State) (obj : Nat) : Except Fault (State × Nat) :=
  match autoreleaseFast c s obj with
  | Except.error e => Except.error e
  | Except.ok (s1, SlotPtr.nil) => Except.ok (s1, obj)
  | Except.ok (s1, SlotPtr.EMPTY_POOL_PLACEHOLDER) => Except.ok (s1, obj)
  | Except.ok (s1, SlotPtr.slot p i) =>
    match s1.pages p with
    | none => Except.error Fault.badAccess
    | some pg => if (pg.slots i).ptr = obj then Except.ok (s1, obj) else Except.error Fault.assertion

/-- The public function `push()`, with the `ASSERT` on the landed slot. -/
def push (c : Config) (s : State) : Except Fault (State × SlotPtr) :=
  match (if c.DebugPoolAllocation then autoreleaseNewPage c s POOL_BOUNDARY
         else autoreleaseFast c s POOL_BOUNDARY) with
  | Except.error e => Except.error e
  | Except.ok (s1, SlotPtr.EMPTY_POOL_PLACEHOLDER) =>
    Except.ok (s1, SlotPtr.EMPTY_POOL_PLACEHOLDER)
  | Except.ok (_, SlotPtr.nil) => Except.error Fault.badAccess
  | Except.ok (s1, SlotPtr.slot p i) =>
    match s1.pages p with
    | none => Except.error Fault.badAccess
    | some pg =>
      if idOfEntry (pg.slots i) = POOL_BOUNDARY then Except.ok (s1, SlotPtr.slot p i)
      else Except.error Fault.assertion

/-! ## `pop` -/

/-- The function `badPop(token)`: the warn-once flag is its only effect. -/
def badPop (s : State) : State := { s with complained := true }

/-- The parent walk `for (; p; p = p->parent) p->hiwat = mark` of `printHiwat`. -/
def hiwatLoop (mark : Nat) : Nat → State → Option Nat → Except Fault State
  | 0, _, _ => Except.error Fault.fuel
  | _ + 1, s, none => Except.ok s
  | fuel + 1, s, some p =>
    match s.pages p with
    | none => Except.error Fault.badAccess
    | some pg => hiwatLoop mark fuel (setPage s p { pg with hiwat := mark }) pg.parent

/-- The function `printHiwat()`, in 32-bit unsigned arithmetic. -/
def printHiwat (c : Config) (s : State) : Except Fault State :=
  match hotPage s with
  | Except.error e => Except.error e
  | Except.ok none => Except.error Fault.badAccess
  | Except.ok (some p) =>
    match s.pages p with
    | none => Except.error Fault.badAccess
    | some pg =>
      let mark := (pg.depth * c.COUNT + (pg.next - 0)) % 2 ^ 32
      if mark > (pg.hiwat + 256) % 2 ^ 32 then hiwatLoop mark (s.brk + 1) s (some p)
      else Except.ok s

/-- The retention step at the end of `popPage`: the `else if (page->child)`
branch. -/
def hysteresis (c : Config) (s : State) (page : Nat) : Except Fault State :=
  match s.pages page with
  | none => Except.error Fault.badAccess
  | some pg =>
    match pg.child with
    | none => Except.ok s
    | some ch =>
      if pg.lessThanHalfFull c then kill s ch
      else
        match s.pages ch with
        | none => Except.error Fault.badAccess
        | some cpg =>
          match cpg.child with
          | none => Except.ok s
          | some gch => kill s gch

/-- The function template `popPage<allowDebug>(token, page, stop)`. -/
def popPage (c : Config) (allowDebug : Bool) (s : State) (page : Nat) (stop : SlotPtr) :
    Except Fault State :=
  match (if allowDebug ∧ c.PrintPoolHiwat then printHiwat c s else Except.ok s) with
  | Except.error e => Except.error e
  | Except.ok s0 =>
    match releaseUntil s0 page stop with
    | Except.error e => Except.error e
    | Except.ok s1 =>
      match s1.pages page with
      | none => Except.error Fault.badAccess
      | some pg =>
        if allowDebug ∧ c.DebugPoolAllocation ∧ pg.empty then
          match kill s1 page with
          | Except.error e => Except.error e
          | Except.ok s2 => setHotPage s2 pg.parent
        else if allowDebug ∧ c.DebugMissingPools ∧ pg.empty ∧ pg.parent = none then
          match kill s1 page with
          | Except.error e => Except.error e
          | Except.ok s2 => setHotPage s2 none
        else hysteresis c s1 page

/-- The function `pageForPointer(p)` on a slot pointer: the block that
contains it, `fastcheck`ed. -/
def pageForPointer (s : State) (token : SlotPtr) : Except Fault Nat :=
  match token with
  | SlotPtr.nil => Except.error Fault.assertion
  | SlotPtr.EMPTY_POOL_PLACEHOLDER => Except.error Fault.assertion
  | SlotPtr.slot p _ =>
    match s.pages p with
    | none => Except.error Fault.badAccess
    | some _ => Except.ok p

/-- The part of `pop` after `page` and `token` are fixed, the token being
slot `i` of `page`: the boundary test, `badPop`, and the choice of
`popPageDebug` or `popPage<false>`. -/
def popAt (c : Config) (s : State) (page : Nat) (i : Nat) : Except Fault State :=
  match s.pages page with
  | none => Except.error Fault.badAccess
  | some pg =>
    if c.pageEnd ≤ i then Except.error Fault.badAccess
    else if idOfEntry (pg.slots i) ≠ POOL_BOUNDARY ∧ ¬ (i = 0 ∧ pg.parent = none) then
      Except.ok (badPop s)
    else if c.PrintPoolHiwat ∨ c.DebugPoolAllocation ∨ c.DebugMissingPools then
      popPage c true s page (SlotPtr.slot page i)
    else popPage c false s page (SlotPtr.slot page i)

/-- The public function `pop(token)`. -/
def pop (c : Config) (s : State) (token : SlotPtr) : Except Fault State :=
  match token with
  | SlotPtr.EMPTY_POOL_PLACEHOLDER =>
    match hotPage s with
    | Except.error e => Except.error e
    | Except.ok none => setHotPage s none
    | Except.ok (some _) =>
      match coldPage s with
      | Except.error e => Except.error e
      | Except.ok none => Except.error Fault.badAccess
      | Except.ok (some page) => popAt c s page 0
  | SlotPtr.nil => Except.error Fault.assertion
  | SlotPtr.slot p i =>
    match pageForPointer s (SlotPtr.slot p i) with
    | Except.error e => Except.error e
    | Except.ok page => popAt c s page i

/-- A reference: a non-nil object pointer that fits the 48-bit `ptr` field
(the `static_assert` on `MACH_VM_MAX_ADDRESS`). -/
def IsRef (obj : Nat) : Prop := obj ≠ 0 ∧ obj < 2 ^ 48

/-- The configuration in which `pop` takes `popPage<false>`: the three
diagnostic switches are off, as `OPTION` leaves them. -/
def Config.nonDebug (c : Config) : Prop :=
  c.DebugPoolAllocation = false ∧ c.DebugMissingPools = false ∧ c.PrintPoolHiwat = false

/-- A call a client makes: `push()`, `autorelease(obj)`, or `pop(token)` with
the token of the `k`-th open scope counted from the innermost. -/
inductive Op where
  | push
  | autorelease (obj : Nat)
  | pop (k : Nat)
deriving DecidableEq, Repr

/-- One client call on a thread; the client keeps the tokens of its open
scopes, innermost first.  A `pop` for a scope that is not open is not a call
of the protocol and stops the run. -/
def step (c : Config) (st : State × List SlotPtr) : Op → Except Fault (State × List SlotPtr)
  | Op.push =>
    match push c st.1 with
    | Except.error e => Except.error e
    | Except.ok (s, t) => Except.ok (s, t :: st.2)
  | Op.autorelease obj =>
    match autorelease c st.1 obj with
    | Except.error e => Except.error e
    | Except.ok (s, _) => Except.ok (s, st.2)
  | Op.pop k =>
    match st.2.drop k with
    | [] => Except.error Fault.assertion
    | t :: outer =>
      match pop c st.1 t with
      | Except.error e => Except.error e
      | Except.ok s => Except.ok (s, outer)

/-- A sequence of client calls. -/
def run (c : Config) : State × List SlotPtr → List Op → Except Fault (State × List SlotPtr)
  | st, [] => Except.ok st
  | st, op :: ops =>
    match step c st op with
    | Except.error e => Except.error e
    | Except.ok st1 => run c st1 ops

/-- The references registered by a sequence of calls, in order. -/
def registrations : List Op → List Nat
  | [] => []
  | Op.autorelease obj :: ops => obj :: registrations ops
  | _ :: ops => registrations ops

/-- A correctly nested sequence seen from nesting depth `d`: every `pop`
closes the innermost open scope, every registration is of a reference and is
made inside a scope, and the sequence ends with every scope closed. -/
def Nested : Nat → List Op → Prop
  | d, [] => d = 0
  | d, Op.push :: ops => Nested (d + 1) ops
  | d, Op.autorelease obj :: ops => 0 < d ∧ IsRef obj ∧ Nested d ops
  | d, Op.pop k :: ops => 0 < d ∧ k = 0 ∧ Nested (d - 1) ops

/-- A sequence of registrations and nested pushes, with no `pop`. -/
def Opening : List Op → Prop
  | [] => True
  | Op.push :: ops => Opening ops
  | Op.autorelease obj :: ops => IsRef obj ∧ Opening ops
  | Op.pop _ :: _ => False

/-- The states a thread reaches from `State.init` by `push`, `autorelease` of
references and `pop` of tokens of open scopes, with the tokens of the scopes
that are open, innermost first. -/
inductive Reach (c : Config) : State → List SlotPtr → Prop
  | init : Reach c State.init []
  | push {s : State} {toks : List SlotPtr} {s1 : State} {t : SlotPtr} :
      Reach c s toks → push c s = Except.ok (s1, t) → Reach c s1 (t :: toks)
  | autorelease {s : State} {toks : List SlotPtr} {obj : Nat} {s1 : State} {r : Nat} :
      Reach c s toks → IsRef obj → autorelease c s obj = Except.ok (s1, r) → Reach c s1 toks
  | pop {s : State} {inner : List SlotPtr} {t : SlotPtr} {outer : List SlotPtr} {s1 : State} :
      Reach c s (inner ++ t :: outer) → pop c s t = Except.ok s1 → Reach c s1 outer

/-! ## The program -/

/-- The switches as `OPTION` initialises them, all `false`, with pages of 4096
bytes and fresh memory that holds the byte `0xA3` throughout. -/
def defaultConfig : Config :=
  { DisableAutoreleaseCoalescing := false, DisableAutoreleaseCoalescingLRU := false,
    DebugPoolAllocation := false, DebugMissingPools := false, PrintPoolHiwat := false,
    SIZE := 4096, fresh := fun _ _ => scribbled }

/-- As `defaultConfig` with both coalescing switches set, so that `add` takes
neither coalescing branch: every registration gets a slot of its own. -/
def plainConfig : Config :=
  { DisableAutoreleaseCoalescing := true, DisableAutoreleaseCoalescingLRU := true,
    DebugPoolAllocation := false, DebugMissingPools := false, PrintPoolHiwat := false,
    SIZE := 4096, fresh := fun _ _ => scribbled }

/-- As `defaultConfig` with pages of 72 bytes, which have two slots. -/
def smallConfig : Config :=
  { DisableAutoreleaseCoalescing := false, DisableAutoreleaseCoalescingLRU := false,
    DebugPoolAllocation := false, DebugMissingPools := false, PrintPoolHiwat := false,
    SIZE := 72, fresh := fun _ _ => scribbled }

/-- The calls that `main` makes on `object` and `object2`. -/
def main (object object2 : Nat) : List Op :=
  [Op.push, Op.autorelease object, Op.autorelease object2, Op.autorelease object,
    Op.autorelease object, Op.autorelease object2, Op.pop 0]

/-- The thread and the open tokens after a sequence of calls on a new thread;
the new thread itself if a call does not return. -/
def reached (c : Config) (ops : List Op) : State × List SlotPtr :=
  match run c (State.init, []) ops with
  | Except.ok st => st
  | Except.error _ => (State.init, [])

/-! ## Vocabulary of the proofs -/

/-- The entry that is a boundary marker. -/
def boundary : AutoreleasePoolEntry := ⟨0, 0⟩

/-- The `release()` calls that popping one entry makes. -/
def releasesOfEntry (e : AutoreleasePoolEntry) : List Nat :=
  if e.ptr = POOL_BOUNDARY then [] else List.replicate (e.count + 1) e.ptr

/-- The `release()` calls that popping a run of entries makes, the last entry
of the run first. -/
def releasesOf : List AutoreleasePoolEntry → List Nat
  | [] => []
  | e :: es => releasesOf es ++ releasesOfEntry e

/-- The occupied slots of one page, from `begin()` up to `next`, each with its
address. -/
def cellsOfPage (q : Nat) (pg : AutoreleasePoolPage) : List (SlotPtr × AutoreleasePoolEntry) :=
  (List.range pg.next).map (fun k => (SlotPtr.slot q k, pg.slots k))

/-- The occupied slots of block `q`, none if the block is not live. -/
def pageCells (s : State) (q : Nat) : List (SlotPtr × AutoreleasePoolEntry) :=
  match s.pages q with
  | none => []
  | some pg => cellsOfPage q pg

/-- The occupied slots of the pages `ids`, in order; a thread that holds the
placeholder has the one boundary the placeholder stands for. -/
def cellsOf (s : State) (ids : List Nat) : List (SlotPtr × AutoreleasePoolEntry) :=
  if s.tls = Tls.EMPTY_POOL_PLACEHOLDER then [(SlotPtr.EMPTY_POOL_PLACEHOLDER, boundary)]
  else ids.flatMap (pageCells s)

/-- The pages `ids` are the live blocks and form the chain of the thread from
the cold page down, and `ids[h]` is the hot page: links, depths, cursors in
range, every page above the hot page full and every page below it empty. -/
structure Chain (c : Config) (s : State) (ids : List Nat) (h : Nat) : Prop where
  nodup : ids.Nodup
  live : ∀ p, s.pages p ≠ none ↔ p ∈ ids
  below : ∀ p ∈ ids, p < s.brk
  links : ∀ j p, ids[j]? = some p → ∃ pg, s.pages p = some pg ∧
    pg.parent = (if j = 0 then none else ids[j - 1]?) ∧ pg.child = ids[j + 1]? ∧
    pg.depth = j % 2 ^ 32 ∧ pg.next ≤ c.pageEnd ∧
    (j < h → pg.next = c.pageEnd) ∧ (h < j → pg.next = 0)
  hot : (ids = [] ∧ (s.tls = Tls.nil ∨ s.tls = Tls.EMPTY_POOL_PLACEHOLDER)) ∨
    (∃ p, ids[h]? = some p ∧ s.tls = Tls.page p)

/-- The state is well formed and `cells` are its pending slots, oldest first. -/
def Inv (c : Config) (s : State) (cells : List (SlotPtr × AutoreleasePoolEntry)) : Prop :=
  ∃ ids h, Chain c s ids h ∧ cells = cellsOf s ids

/-- The tokens of the open scopes, innermost first, sit on boundary markers of
the pending slots, each below the one before, and `base` is what is pending
below the outermost open scope; the placeholder token stands for a boundary in
the first slot. -/
inductive TokensIn (base : List (SlotPtr × AutoreleasePoolEntry)) :
    List SlotPtr → List (SlotPtr × AutoreleasePoolEntry) → Prop
  | nil : TokensIn base [] base
  | cons {t : SlotPtr} {toks : List SlotPtr} {lo : List (SlotPtr × AutoreleasePoolEntry)}
      {a : SlotPtr} (hi : List (SlotPtr × AutoreleasePoolEntry)) :
      TokensIn base toks lo → (t = a ∨ (t = SlotPtr.EMPTY_POOL_PLACEHOLDER ∧ lo = [])) →
      TokensIn base (t :: toks) (lo ++ (a, boundary) :: hi)

/-- How one registration of `obj` that lands in slot `t` changes the pending
slots of a thread that has a page: a new entry is appended; or an entry `e`
for `obj` among the top slots moves to the top with its count raised by one,
the entries `R` above it shifting down. -/
def AddCore (c : Config) (obj : Nat) (t : SlotPtr)
    (cells cells1 : List (SlotPtr × AutoreleasePoolEntry)) : Prop :=
  cells1 = cells ++ [(t, ⟨obj, 0⟩)] ∨
  (∃ A addrs e R, cells = A ++ List.zip addrs (e :: R) ∧
    cells1 = A ++ List.zip addrs (R ++ [⟨obj, e.count + 1⟩]) ∧
    addrs.length = R.length + 1 ∧ addrs.getLast? = some t ∧
    obj ≠ POOL_BOUNDARY ∧ e.ptr = obj ∧ e.count < maxCount ∧
    (∀ x ∈ e :: R, x ≠ boundary) ∧ R.length ≤ 3 ∧
    (c.DisableAutoreleaseCoalescingLRU = true →
      R = [] ∧ c.DisableAutoreleaseCoalescing = false))

/-- How one registration changes the pending slots: as `AddCore`, or the
placeholder becomes a page with its boundary and the new entry. -/
def AddRel (c : Config) (obj : Nat) (t : SlotPtr)
    (cells cells1 : List (SlotPtr × AutoreleasePoolEntry)) : Prop :=
  AddCore c obj t cells cells1 ∨
  (∃ a, cells = [(SlotPtr.EMPTY_POOL_PLACEHOLDER, boundary)] ∧
    cells1 = [(a, boundary), (t, ⟨obj, 0⟩)])

/-- How one registration of `obj` changes a run of pending entries: a new
entry is appended, or an entry `e` for `obj` among the top four moves to the
top with its count raised by one. -/
def AddEntries (c : Config) (obj : Nat) (es es1 : List AutoreleasePoolEntry) : Prop :=
  es1 = es ++ [⟨obj, 0⟩] ∨
  (obj ≠ POOL_BOUNDARY ∧ ∃ A e R, es = A ++ e :: R ∧ es1 = A ++ (R ++ [⟨obj, e.count + 1⟩]) ∧
    e.ptr = obj ∧ e.count < maxCount ∧ (∀ x ∈ e :: R, x ≠ boundary) ∧ R.length ≤ 3 ∧
    (c.DisableAutoreleaseCoalescingLRU = true →
      R = [] ∧ c.DisableAutoreleaseCoalescing = false))

/-- How a sequence of registrations and nested pushes changes the entries
pending above a boundary. -/
def AddsRel (c : Config) : List Op → List AutoreleasePoolEntry → List AutoreleasePoolEntry → Prop
  | [], es, es1 => es1 = es
  | Op.push :: ops, es, es1 => AddsRel c ops (es ++ [boundary]) es1
  | Op.autorelease obj :: ops, es, es1 =>
    ∃ es0, AddEntries c obj es es0 ∧ AddsRel c ops es0 es1
  | Op.pop _ :: _, _, _ => False

/-- The slot below `next` can be read by the diagnostic of `add`: the page is
empty, or the slot holds a boundary marker or the address of an object. -/
def PrevOK (pg : AutoreleasePoolPage) : Prop :=
  pg.next = 0 ∨ idOfEntry (pg.slots (pg.next - 1)) = POOL_BOUNDARY ∨
    isObject (idOfEntry (pg.slots (pg.next - 1))) = true

/-- A registration of `obj` does not read a slot that holds a count as an
object: if the hot page has room and `obj` is not coalesced, the slot below
`next` is `PrevOK`. -/
def HotOK (c : Config) (s : State) (obj : Nat) : Prop :=
  ∀ p pg, s.tls = Tls.page p → s.pages p = some pg → pg.next < c.pageEnd →
    coalesce c pg obj = none → PrevOK pg

/-- An entry that holds no count: a boundary marker or one registration of a
48-bit address. -/
def PlainEntry (e : AutoreleasePoolEntry) : Prop := e.count = 0 ∧ e.ptr < 2 ^ 48

/-- The thread after the placeholder has become a page: block `brk` is a
parentless page that holds a boundary marker and `x`, and is the hot page. -/
def materialised (c : Config) (s : State) (x : Nat) : State :=
  { s with
      pages := Function.update s.pages s.brk
        (some { next := 2, parent := none, child := none, depth := 0, hiwat := 0,
                slots := Function.update (Function.update (c.fresh s.brk) 0 ⟨POOL_BOUNDARY, 0⟩)
                  1 ⟨x, 0⟩ }),
      brk := s.brk + 1, tls := Tls.page s.brk }

/-- Block `p` is live in both states with the same cursor, slots, parent,
depth and mark. -/
def PageKept (s s1 : State) (p : Nat) : Prop :=
  ∃ pg pg1, s.pages p = some pg ∧ s1.pages p = some pg1 ∧ pg1.next = pg.next ∧
    pg1.slots = pg.slots ∧ pg1.parent = pg.parent ∧ pg1.depth = pg.depth ∧
    pg1.hiwat = pg.hiwat

/-! ## Further configurations -/

/-- As `defaultConfig` with `DisableAutoreleaseCoalescingLRU` set: `add` takes
the branch that coalesces with the top slot only. -/
def topConfig : Config :=
  { DisableAutoreleaseCoalescing := false, DisableAutoreleaseCoalescingLRU := true,
    DebugPoolAllocation := false, DebugMissingPools := false, PrintPoolHiwat := false,
    SIZE := 4096, fresh := fun _ _ => scribbled }

/-- As `defaultConfig` with `DisableAutoreleaseCoalescing` set and
`DisableAutoreleaseCoalescingLRU` as `OPTION` initialises it. -/
def coalescingOffConfig : Config :=
  { DisableAutoreleaseCoalescing := true, DisableAutoreleaseCoalescingLRU := false,
    DebugPoolAllocation := false, DebugMissingPools := false, PrintPoolHiwat := false,
    SIZE := 4096, fresh := fun _ _ => scribbled }

/-- As `defaultConfig` with `DebugMissingPools` set. -/
def missingPoolsConfig : Config :=
  { DisableAutoreleaseCoalescing := false, DisableAutoreleaseCoalescingLRU := false,
    DebugPoolAllocation := false, DebugMissingPools := true, PrintPoolHiwat := false,
    SIZE := 4096, fresh := fun _ _ => scribbled }

/-! ## The LRU scan in words -/

/-- Offset `m` below the top slot is inside what the LRU scan of `add` looks
at: it is one of the top four slots, it is not the page's first slot, and
neither it nor a slot above it holds a boundary marker. -/
def InWindow (pg : AutoreleasePoolPage) (m : Nat) : Prop :=
  m < 4 ∧ m < pg.next - 1 ∧ ∀ j, j ≤ m → pg.slots (pg.next - 1 - j) ≠ boundary

/-- The entry at offset `m` below the top slot is an entry for `x` whose count
is below `maxCount`. -/
def Matches (pg : AutoreleasePoolPage) (x m : Nat) : Prop :=
  (pg.slots (pg.next - 1 - m)).ptr = x ∧ (pg.slots (pg.next - 1 - m)).count < maxCount

/-! ## Position in the chain -/

/-- Page `q` is above page `p` in the chain: `q` is reached from `p` by
`parent` links. -/
inductive Above (s : State) : Nat → Nat → Prop
  | parent {p q : Nat} {pg : AutoreleasePoolPage} :
      s.pages p = some pg → pg.parent = some q → Above s q p
  | up {p q r : Nat} {pg : AutoreleasePoolPage} :
      s.pages p = some pg → pg.parent = some r → Above s q r → Above s q p

/-- The calls `autorelease(lo)`, ..., `autorelease(lo + n - 1)`. -/
def registerRange (lo n : Nat) : List Op :=
  (List.range n).map (fun k => Op.autorelease (lo + k))

/-- A scope with 502 registrations of distinct references on a new thread:
the cursor of the first page is left at slot 503 of 505. -/
def fillOps : List Op := Op.push :: registerRange 1 502

/-- The calls `fillOps` followed by a `push`, whose boundary takes slot 503. -/
def edgeOps : List Op := fillOps ++ [Op.push]

/-- The calls `edgeOps` followed by three registrations of one reference. -/
def tripleOps : List Op :=
  edgeOps ++ [Op.autorelease 7000, Op.autorelease 7000, Op.autorelease 7000]

/-! ## A page filled to just under half -/

/-- A scope with 251 registrations of distinct references on a new thread: the
cursor of the first page is left at slot 252 of 505. -/
def underHalfOps : List Op := Op.push :: registerRange 1 251

/-! ## The landed slot -/

/-- What the callers of `autoreleaseFast(obj)` assert of the pointer it
returns: it is `nil` (for an object), the placeholder (for a boundary marker),
or the address of a slot that decodes to `obj`, and holds a boundary marker
with no count if `obj` is `POOL_BOUNDARY`. -/
def Landed (s1 : State) (obj : Nat) (dest : SlotPtr) : Prop :=
  (dest = SlotPtr.nil ∧ obj ≠ POOL_BOUNDARY) ∨
  (dest = SlotPtr.EMPTY_POOL_PLACEHOLDER ∧ obj = POOL_BOUNDARY) ∨
  ∃ p i pg, dest = SlotPtr.slot p i ∧ s1.pages p = some pg ∧ (pg.slots i).ptr = obj ∧
    (obj = POOL_BOUNDARY → pg.slots i = boundary)

/-! ## The cursor invariant -/

/-- The cursor of every live page lies between `begin()` and `end()`: as a slot
index counted from `begin()` it is at most `pageEnd`. -/
def Bounded (c : Config) (s : State) : Prop :=
  ∀ p pg, s.pages p = some pg → pg.next ≤ c.pageEnd

/-! ## High-water marks -/

/-- The configuration with high-water reporting switched off and every other
switch as it is. -/
def Config.quiet (c : Config) : Config := { c with PrintPoolHiwat := false }

/-- The page with its high-water mark set aside. -/
def AutoreleasePoolPage.unmarked (pg : AutoreleasePoolPage) : AutoreleasePoolPage :=
  { pg with hiwat := 0 }

/-- Two states of a thread that differ at most in the high-water marks of
their pages. -/
def SameButHiwat (s s0 : State) : Prop :=
  s0.brk = s.brk ∧ s0.tls = s.tls ∧ s0.released = s.released ∧
    s0.complained = s.complained ∧
    ∀ p, (s0.pages p).map AutoreleasePoolPage.unmarked =
      (s.pages p).map AutoreleasePoolPage.unmarked

/-- The thread after the mark `mark` has been recorded at the pages `qs`. -/
def markPages (s : State) (qs : List Nat) (mark : Nat) : State :=
  { s with
      pages := fun q =>
        if q ∈ qs then (s.pages q).map (fun pg => { pg with hiwat := mark }) else s.pages q }

/-- Every page of `s` is a page of `s1` with the same parent, depth and mark:
what a registration does to the pages that exist. -/
def Survive (s s1 : State) : Prop :=
  ∀ p pg, s.pages p = some pg →
    ∃ pg1, s1.pages p = some pg1 ∧ pg1.parent = pg.parent ∧ pg1.depth = pg.depth ∧
      pg1.hiwat = pg.hiwat

/-- Every page of `s1` is a page of `s` with the same parent, depth and mark,
and no block was allocated: what a `pop` without reporting does. -/
def Shrink (s s1 : State) : Prop :=
  s1.brk = s.brk ∧
    ∀ p pg1, s1.pages p = some pg1 →
      ∃ pg, s.pages p = some pg ∧ pg1.parent = pg.parent ∧ pg1.depth = pg.depth ∧
        pg1.hiwat = pg.hiwat

/-- The marks of the thread fit their 32 bits: the number of blocks allocated
so far, times `COUNT`, plus the noise threshold 256, is below 2^32. -/
def NoWrap (c : Config) (s : State) : Prop := s.brk * c.COUNT + 256 < 2 ^ 32

/-- What holds of the recorded marks of a thread that reports high-water
marks: every mark is below `brk * COUNT`; the mark of a page is at most the
mark of its parent, and the two are equal unless the mark of the parent is one
that was computed at the parent or above it; and a page below the hot page has
a mark within 256 of `depth * COUNT`. -/
def HiwatInv (c : Config) (s : State) : Prop :=
  (∀ p pg, s.pages p = some pg → pg.hiwat < s.brk * c.COUNT) ∧
  (∀ p pg q qg, s.pages p = some pg → s.pages q = some qg → qg.parent = some p →
    qg.hiwat ≤ pg.hiwat ∧
      (pg.hiwat = qg.hiwat ∨ pg.hiwat ≤ pg.depth * c.COUNT + c.pageEnd)) ∧
  (∀ hot hg q qg, s.tls = Tls.page hot → s.pages hot = some hg → s.pages q = some qg →
    hg.depth < qg.depth → qg.depth * c.COUNT ≤ qg.hiwat + 256)

/-- From `s` to `s1` the allocator only moved forward, no block that was free
and behind the allocator became a page again, and no recorded mark of a page
went down. -/
def Grow (s s1 : State) : Prop :=
  s.brk ≤ s1.brk ∧ (∀ p, p < s.brk → s.pages p = none → s1.pages p = none) ∧
    ∀ p pg pg1, s.pages p = some pg → s1.pages p = some pg1 → pg.hiwat ≤ pg1.hiwat

/-- As `defaultConfig` with high-water reporting (`PrintPoolHiwat`) switched
on. -/
def hiwatConfig : Config :=
  { DisableAutoreleaseCoalescing := false, DisableAutoreleaseCoalescingLRU := false,
    DebugPoolAllocation := false, DebugMissingPools := false, PrintPoolHiwat := true,
    SIZE := 4096, fresh := fun _ _ => scribbled }

/-- A scope with 505 registrations of distinct references on a new thread: the
boundary marker and 504 references fill the first page, and the last reference
is the one slot of a second page, of depth 1. -/
def spillOps : List Op := Op.push :: registerRange 1 505

/-! ## Elementary facts -/

theorem idOfEntry_eq_zero (e : AutoreleasePoolEntry) :
    idOfEntry e = POOL_BOUNDARY ↔ e = boundary := by
  cases e with
  | mk p n =>
    simp only [idOfEntry, POOL_BOUNDARY, boundary, AutoreleasePoolEntry.mk.injEq]
    omega

theorem entryOfId_of_lt {obj : Nat} (h : obj < 2 ^ 48) : entryOfId obj = ⟨obj, 0⟩ := by
  simp only [entryOfId, AutoreleasePoolEntry.mk.injEq]
  omega

theorem entryOfId_boundary : entryOfId POOL_BOUNDARY = boundary := by
  decide

theorem lruScan_top_zero (pg : AutoreleasePoolPage) (obj n off : Nat) :
    lruScan pg obj 0 n off = none := by
  cases n with
  | zero => rfl
  | succ n => simp [lruScan]

theorem coalesce_nil (c : Config) (pg : AutoreleasePoolPage) :
    coalesce c pg POOL_BOUNDARY = none := by
  simp [coalesce, coalesceLRU, coalesceTop]

theorem coalesce_empty (c : Config) (pg : AutoreleasePoolPage) (obj : Nat) (h : pg.next = 0) :
    coalesce c pg obj = none := by
  simp [coalesce, coalesceLRU, coalesceTop, AutoreleasePoolPage.empty, h]

theorem coalesce_boundary_top (c : Config) (pg : AutoreleasePoolPage) (obj : Nat)
    (h : pg.slots (pg.next - 1) = boundary) : coalesce c pg obj = none := by
  have hb : idOfEntry (pg.slots (pg.next - 1)) = POOL_BOUNDARY := (idOfEntry_eq_zero _).2 h
  unfold coalesce coalesceLRU coalesceTop
  by_cases ho : obj = POOL_BOUNDARY
  · simp [ho]
  · have hp : ¬ ((pg.slots (pg.next - 1)).ptr = obj) := by
      rw [h]; simpa [boundary, POOL_BOUNDARY, eq_comm] using ho
    simp [lruScan, hb, hp]

theorem add_append (c : Config) (s : State) (self obj : Nat) (pg : AutoreleasePoolPage)
    (hlive : s.pages self = some pg) (hroom : pg.next < c.pageEnd)
    (hco : coalesce c pg obj = none) (hobj : obj < 2 ^ 48) (hprev : PrevOK pg) :
    add c s self obj = Except.ok
      (setPage s self { pg with slots := Function.update pg.slots pg.next ⟨obj, 0⟩,
                                next := pg.next + 1 },
       SlotPtr.slot self pg.next) := by
  have hfull : pg.full c = false := by
    simp only [AutoreleasePoolPage.full, beq_eq_false_iff_ne, ne_eq]
    omega
  have h1 : ¬ (pg.next ≠ 0 ∧ idOfEntry (pg.slots (pg.next - 1)) ≠ POOL_BOUNDARY ∧
      isObject (idOfEntry (pg.slots (pg.next - 1))) = false) := by
    rintro ⟨a1, a2, a3⟩
    rcases hprev with h | h | h
    · exact a1 h
    · exact a2 h
    · rw [h] at a3
      cases a3
  have h2 : ¬ (obj ≠ POOL_BOUNDARY ∧ isObject obj = false) := by
    rintro ⟨a1, a2⟩
    simp only [isObject, decide_eq_false_iff_not, not_and, not_lt] at a2
    have := a2 a1
    omega
  simp only [add, hlive, hfull, hco, entryOfId_of_lt hobj, if_neg h1, if_neg h2]
  simp

theorem setPage_pages_self (s : State) (p : Nat) (pg : AutoreleasePoolPage) :
    (setPage s p pg).pages p = some pg := by
  simp [setPage]

theorem lruScan_some (pg : AutoreleasePoolPage) (obj top : Nat) :
    ∀ n off m, lruScan pg obj top n off = some m →
      off ≤ m ∧ m < off + n ∧ m < top ∧
      (∀ j, off ≤ j → j ≤ m → pg.slots (top - j) ≠ boundary) ∧
      (pg.slots (top - m)).ptr = obj ∧ (pg.slots (top - m)).count < maxCount := by
  intro n
  induction n with
  | zero => intro off m h; simp [lruScan] at h
  | succ n ih =>
    intro off m h
    unfold lruScan at h
    split_ifs at h with h1 h2
    · have hm : off = m := by simpa using h
      subst hm
      refine ⟨le_refl _, by omega, by omega, ?_, h2.1, h2.2⟩
      intro j hj1 hj2
      have : j = off := by omega
      subst this
      intro hb
      exact h1 (Or.inr ((idOfEntry_eq_zero _).2 hb))
    · obtain ⟨a1, a2, a3, a4, a5, a6⟩ := ih (off + 1) m h
      refine ⟨by omega, by omega, a3, ?_, a5, a6⟩
      intro j hj1 hj2
      by_cases hj : j = off
      · subst hj
        intro hb
        exact h1 (Or.inr ((idOfEntry_eq_zero _).2 hb))
      · exact a4 j (by omega) hj2

/-- The page that coalescing leaves, described slot by slot. -/
theorem coalesce_some (c : Config) (pg pg1 : AutoreleasePoolPage) (obj : Nat)
    (h : coalesce c pg obj = some pg1) :
    ∃ m, m < pg.next ∧ m ≤ 3 ∧ obj ≠ POOL_BOUNDARY ∧
      (∀ j, j ≤ m → pg.slots (pg.next - 1 - j) ≠ boundary) ∧
      (pg.slots (pg.next - 1 - m)).ptr = obj ∧ (pg.slots (pg.next - 1 - m)).count < maxCount ∧
      (c.DisableAutoreleaseCoalescingLRU = true →
        m = 0 ∧ c.DisableAutoreleaseCoalescing = false) ∧
      pg1.next = pg.next ∧ pg1.parent = pg.parent ∧ pg1.child = pg.child ∧
      pg1.depth = pg.depth ∧ pg1.hiwat = pg.hiwat ∧
      ∀ k, pg1.slots k =
        if k = pg.next - 1 then ⟨obj, (pg.slots (pg.next - 1 - m)).count + 1⟩
        else if pg.next - 1 - m ≤ k ∧ k < pg.next - 1 then pg.slots (k + 1) else pg.slots k := by
  unfold coalesce at h
  split_ifs at h with h1 h2
  · -- LRU
    unfold coalesceLRU at h
    split_ifs at h with h3
    cases hs : lruScan pg obj (pg.next - 1) 4 0 with
    | none => simp [hs] at h
    | some m =>
      simp only [hs, Option.some.injEq] at h
      obtain ⟨a1, a2, a3, a4, a5, a6⟩ := lruScan_some pg obj _ 4 0 m hs
      have hne : pg.next ≠ 0 := by
        simpa [AutoreleasePoolPage.empty] using h3.1
      refine ⟨m, by omega, by omega, h3.2, fun j hj => a4 j (by omega) hj, a5, a6, ?_, ?_⟩
      · intro hl; rw [hl] at h2; exact absurd h2 (by decide)
      · subst h
        refine ⟨rfl, rfl, rfl, rfl, rfl, ?_⟩
        intro k
        have hmod : ((pg.slots (pg.next - 1 - m)).count + 1) % 2 ^ 16
            = (pg.slots (pg.next - 1 - m)).count + 1 := by
          apply Nat.mod_eq_of_lt
          have := a6
          simp only [maxCount] at this
          omega
        by_cases hk : k = pg.next - 1
        · subst hk
          simp only [if_true, Function.update_same, bumpCount]
          by_cases hm0 : 0 < m
          · simp only [hm0, if_true, Function.update_same, hmod, a5]
          · have : m = 0 := by omega
            subst this
            simp only [Nat.sub_zero] at hmod a5
            simp only [lt_irrefl, if_false, Nat.sub_zero, hmod, a5]
        · simp only [hk, if_false]
          rw [Function.update_noteq hk]
          by_cases hm0 : 0 < m
          · simp only [hm0, if_true]
            rw [Function.update_noteq hk]
            simp only [memmoveDown]
            have : pg.next - 1 - m + m = pg.next - 1 := by omega
            rw [this]
          · have : m = 0 := by omega
            subst this
            simp only [lt_irrefl, if_false, Nat.sub_zero]
            rw [if_neg (by omega)]
  · -- top of stack only
    unfold coalesceTop at h
    split_ifs at h with h3
    dsimp only at h
    split_ifs at h with h4
    have hne : pg.next ≠ 0 := by
      simpa [AutoreleasePoolPage.empty] using h3.1
    simp only [Option.some.injEq] at h
    refine ⟨0, by omega, by omega, h3.2, ?_, h4.1, h4.2, ?_, ?_⟩
    · intro j hj hb
      have : j = 0 := by omega
      subst this
      have hp := h4.1
      rw [Nat.sub_zero] at hb
      rw [hb] at hp
      exact h3.2 (by simpa [boundary, POOL_BOUNDARY] using hp.symm)
    · intro _
      refine ⟨rfl, ?_⟩
      cases hd : c.DisableAutoreleaseCoalescing with
      | false => rfl
      | true =>
        rcases h1 with h1 | h1
        · rw [hd] at h1; exact absurd h1 (by decide)
        · exact absurd h1 h2
    · subst h
      refine ⟨rfl, rfl, rfl, rfl, rfl, ?_⟩
      intro k
      have hmod : ((pg.slots (pg.next - 1)).count + 1) % 2 ^ 16
          = (pg.slots (pg.next - 1)).count + 1 := by
        apply Nat.mod_eq_of_lt
        have := h4.2
        simp only [maxCount] at this
        omega
      by_cases hk : k = pg.next - 1
      · subst hk
        simp only [if_true, Function.update_same, bumpCount, Nat.sub_zero, hmod, h4.1]
      · simp only [hk, if_false, Nat.sub_zero]
        rw [Function.update_noteq hk, if_neg (by omega)]


theorem cellsOfPage_append (q : Nat) (pg : AutoreleasePoolPage) (e : AutoreleasePoolEntry) :
    cellsOfPage q { pg with slots := Function.update pg.slots pg.next e, next := pg.next + 1 } =
      cellsOfPage q pg ++ [(SlotPtr.slot q pg.next, e)] := by
  simp only [cellsOfPage, List.range_succ, List.map_append, List.map_cons, List.map_nil,
    Function.update_same]
  congr 1
  apply List.map_congr_left
  intro k hk
  have : k ≠ pg.next := by
    have := List.mem_range.1 hk
    omega
  rw [Function.update_noteq this]

theorem map_succ_range' (b m : Nat) :
    List.map (fun k => k + 1) (List.range' b m) = List.range' (b + 1) m := by
  have := List.map_add_range' 1 b m 1
  simpa [Nat.add_comm] using this

/-- The cells of a page before and after coalescing at offset `m`. -/
theorem cellsOfPage_coalesce (q : Nat) (pg pg1 : AutoreleasePoolPage) (m : Nat)
    (new : AutoreleasePoolEntry) (hm : m < pg.next) (hnext : pg1.next = pg.next)
    (hslots : ∀ k, pg1.slots k =
        if k = pg.next - 1 then new
        else if pg.next - 1 - m ≤ k ∧ k < pg.next - 1 then pg.slots (k + 1) else pg.slots k) :
    ∃ A addrs R,
      cellsOfPage q pg = A ++ List.zip addrs (pg.slots (pg.next - 1 - m) :: R) ∧
      cellsOfPage q pg1 = A ++ List.zip addrs (R ++ [new]) ∧
      addrs.length = R.length + 1 ∧ addrs.getLast? = some (SlotPtr.slot q (pg.next - 1)) ∧
      R.length = m ∧
      (∀ x ∈ pg.slots (pg.next - 1 - m) :: R, ∃ j, j ≤ m ∧ x = pg.slots (pg.next - 1 - j)) := by
  obtain ⟨b, hb⟩ : ∃ b, pg.next = b + m + 1 := ⟨pg.next - 1 - m, by omega⟩
  have hb1 : pg.next - 1 - m = b := by omega
  have hb2 : pg.next - 1 = b + m := by omega
  have hsplit : List.range pg.next = List.range' 0 b ++ List.range' b (m + 1) := by
    rw [List.range_eq_range', hb]
    have := List.range'_append 0 b (m + 1) 1
    simp only [Nat.zero_add, Nat.one_mul] at this
    rw [this]
    congr 1
    omega
  refine ⟨(List.range' 0 b).map (fun k => (SlotPtr.slot q k, pg.slots k)),
    (List.range' b (m + 1)).map (fun k => SlotPtr.slot q k),
    (List.range' (b + 1) m).map pg.slots, ?_, ?_, ?_, ?_, ?_, ?_⟩
  · rw [hb1]
    have : pg.slots b :: (List.range' (b + 1) m).map pg.slots
        = (List.range' b (m + 1)).map pg.slots := by
      rw [List.range'_succ, List.map_cons]
    rw [this, List.zip_map', cellsOfPage, hsplit, List.map_append]
  · have h1 : (List.range' (b + 1) m).map pg.slots ++ [new]
        = (List.range' b (m + 1)).map pg1.slots := by
      rw [List.range'_1_concat, List.map_append, List.map_cons, List.map_nil]
      congr 1
      · rw [← map_succ_range', List.map_map]
        apply List.map_congr_left
        intro k hk
        have hk1 := List.mem_range'_1.1 hk
        simp only [Function.comp]
        rw [hslots, if_neg (by omega), if_pos (by omega)]
      · rw [hslots, if_pos (by omega)]
    rw [h1, List.zip_map', cellsOfPage, hnext, hsplit, List.map_append]
    congr 1
    apply List.map_congr_left
    intro k hk
    have hk1 := List.mem_range'_1.1 hk
    rw [hslots, if_neg (by omega), if_neg (by omega)]
  · simp
  · rw [List.range'_1_concat, List.map_append, List.map_cons, List.map_nil,
      List.getLast?_concat, hb2]
  · simp
  · intro x hx
    rw [hb1] at hx
    have : pg.slots b :: (List.range' (b + 1) m).map pg.slots
        = (List.range' b (m + 1)).map pg.slots := by
      rw [List.range'_succ, List.map_cons]
    rw [this, List.mem_map] at hx
    obtain ⟨k, hk, rfl⟩ := hx
    have hk1 := List.mem_range'_1.1 hk
    refine ⟨b + m - k, by omega, ?_⟩
    congr 1
    omega

/-- What `add` does to a page that has room. -/
theorem add_spec (c : Config) (s : State) (self obj : Nat) (pg : AutoreleasePoolPage)
    (hlive : s.pages self = some pg) (hroom : pg.next < c.pageEnd) (hobj : obj < 2 ^ 48)
    (hprev : coalesce c pg obj = none → PrevOK pg) :
    ∃ pg1 r, add c s self obj = Except.ok (setPage s self pg1, SlotPtr.slot self r) ∧
      pg1.parent = pg.parent ∧ pg1.child = pg.child ∧ pg1.depth = pg.depth ∧
      pg1.hiwat = pg.hiwat ∧ pg1.next ≤ c.pageEnd ∧ 0 < pg1.next ∧ r < pg1.next ∧
      (pg1.slots r).ptr = obj ∧ (obj = POOL_BOUNDARY → pg1.slots r = boundary) ∧
      AddCore c obj (SlotPtr.slot self r) (cellsOfPage self pg) (cellsOfPage self pg1) := by
  cases hco : coalesce c pg obj with
  | none =>
    refine ⟨_, _, add_append c s self obj pg hlive hroom hco hobj (hprev hco),
      rfl, rfl, rfl, rfl, ?_, ?_, ?_,
      ?_, ?_, ?_⟩
    · show pg.next + 1 ≤ c.pageEnd
      omega
    · show 0 < pg.next + 1
      omega
    · show pg.next < pg.next + 1
      omega
    · simp
    · intro h0
      simp [h0, boundary, POOL_BOUNDARY]
    · exact Or.inl (cellsOfPage_append self pg _)
  | some pg1 =>
    obtain ⟨m, hm, hm3, hne, hnb, hptr, hcnt, hlru, hnext, hpar, hch, hdep, hhi, hslots⟩ :=
      coalesce_some c pg pg1 obj hco
    have hfull : pg.full c = false := by
      simp only [AutoreleasePoolPage.full, beq_eq_false_iff_ne, ne_eq]
      omega
    obtain ⟨A, addrs, R, e1, e2, e3, e4, e5, e6⟩ :=
      cellsOfPage_coalesce self pg pg1 m _ hm hnext hslots
    have hisobj : isObject obj = true := by
      simp only [isObject, decide_eq_true_eq]
      exact ⟨hne, hobj⟩
    refine ⟨pg1, pg.next - 1, ?_, hpar, hch, hdep, hhi, by omega, by omega, by omega, ?_, ?_, ?_⟩
    · simp only [add, hlive, hfull, hco, hisobj]
      simp
    · rw [hslots, if_pos rfl]
    · intro h0
      exact absurd h0 hne
    · refine Or.inr ⟨A, addrs, _, R, e1, e2, e3, e4, hne, hptr, hcnt, ?_, by omega, ?_⟩
      · intro x hx
        obtain ⟨j, hj, rfl⟩ := e6 x hx
        exact hnb j hj
      · intro hl
        obtain ⟨h0, h1⟩ := hlru hl
        refine ⟨?_, h1⟩
        apply List.eq_nil_of_length_eq_zero
        omega


@[simp] theorem setPage_pages (s : State) (p : Nat) (pg : AutoreleasePoolPage) (q : Nat) :
    (setPage s p pg).pages q = if q = p then some pg else s.pages q := by
  simp only [setPage, Function.update_apply]

@[simp] theorem setPage_tls (s : State) (p : Nat) (pg : AutoreleasePoolPage) :
    (setPage s p pg).tls = s.tls := rfl

@[simp] theorem setPage_brk (s : State) (p : Nat) (pg : AutoreleasePoolPage) :
    (setPage s p pg).brk = s.brk := rfl

@[simp] theorem setPage_released (s : State) (p : Nat) (pg : AutoreleasePoolPage) :
    (setPage s p pg).released = s.released := rfl

@[simp] theorem setPage_complained (s : State) (p : Nat) (pg : AutoreleasePoolPage) :
    (setPage s p pg).complained = s.complained := rfl

theorem nodup_idx_unique {ids : List Nat} (hnd : ids.Nodup) {i j p : Nat}
    (hi : ids[i]? = some p) (hj : ids[j]? = some p) : i = j := by
  obtain ⟨hi1, hi2⟩ := List.getElem?_eq_some.1 hi
  obtain ⟨hj1, hj2⟩ := List.getElem?_eq_some.1 hj
  exact (List.Nodup.getElem_inj_iff hnd).1 (hi2.trans hj2.symm)

theorem pageCells_congr {s1 s2 : State} {q : Nat} (h : s1.pages q = s2.pages q) :
    pageCells s1 q = pageCells s2 q := by
  simp only [pageCells, h]

theorem pageCells_of_live {s : State} {q : Nat} {pg : AutoreleasePoolPage}
    (h : s.pages q = some pg) : pageCells s q = cellsOfPage q pg := by
  simp only [pageCells, h]

theorem cellsOfPage_of_empty (q : Nat) (pg : AutoreleasePoolPage) (h : pg.next = 0) :
    cellsOfPage q pg = [] := by
  simp [cellsOfPage, h]

theorem cellsOfPage_length (q : Nat) (pg : AutoreleasePoolPage) :
    (cellsOfPage q pg).length = pg.next := by
  simp [cellsOfPage]

theorem cellsOf_of_page {s : State} {ids : List Nat} {q : Nat} (h : s.tls = Tls.page q) :
    cellsOf s ids = ids.flatMap (pageCells s) := by
  simp [cellsOf, h]

theorem flatMap_congr_pages {s1 s2 : State} {l : List Nat}
    (h : ∀ p ∈ l, s1.pages p = s2.pages p) :
    l.flatMap (pageCells s1) = l.flatMap (pageCells s2) := by
  induction l with
  | nil => rfl
  | cons a l ih =>
    simp only [List.flatMap_cons]
    rw [pageCells_congr (h a (List.mem_cons_self _ _)),
      ih (fun p hp => h p (List.mem_cons_of_mem _ hp))]

/-- The chain split at the hot page. -/
theorem Chain.split_at_idx {c : Config} {s : State} {ids : List Nat} {h j q : Nat}
    (hc : Chain c s ids h) (hq : ids[j]? = some q) :
    ∃ pre post, ids = pre ++ q :: post ∧ pre.length = j ∧ q ∉ pre ∧ q ∉ post ∧
      (∀ p ∈ pre, ∃ i, i < j ∧ ids[i]? = some p) ∧
      (∀ p ∈ post, ∃ i, j < i ∧ ids[i]? = some p) := by
  obtain ⟨hj1, hj2⟩ := List.getElem?_eq_some.1 hq
  have hdec : ids = ids.take j ++ q :: ids.drop (j + 1) := by
    rw [← hj2, ← List.drop_eq_getElem_cons hj1, List.take_append_drop]
  have hpre : ∀ p ∈ ids.take j, ∃ i, i < j ∧ ids[i]? = some p := by
    intro p hp
    obtain ⟨i, hi⟩ := List.mem_iff_getElem?.1 hp
    rw [List.getElem?_take] at hi
    split_ifs at hi with h1
    exact ⟨i, h1, hi⟩
  have hpost : ∀ p ∈ ids.drop (j + 1), ∃ i, j < i ∧ ids[i]? = some p := by
    intro p hp
    obtain ⟨i, hi⟩ := List.mem_iff_getElem?.1 hp
    rw [List.getElem?_drop] at hi
    exact ⟨j + 1 + i, by omega, hi⟩
  refine ⟨ids.take j, ids.drop (j + 1), hdec, ?_, ?_, ?_, hpre, hpost⟩
  · rw [List.length_take]; omega
  · intro hp
    obtain ⟨i, hi1, hi2⟩ := hpre q hp
    have := nodup_idx_unique hc.nodup hi2 hq
    omega
  · intro hp
    obtain ⟨i, hi1, hi2⟩ := hpost q hp
    have := nodup_idx_unique hc.nodup hi2 hq
    omega

/-- The pending slots are those of the pages above the hot page, all full,
followed by those of the hot page. -/
theorem Chain.cells_hot {c : Config} {s : State} {ids : List Nat} {h q : Nat}
    (hc : Chain c s ids h) (hq : ids[h]? = some q) (htls : s.tls = Tls.page q) :
    cellsOf s ids = (ids.take h).flatMap (pageCells s) ++ pageCells s q := by
  obtain ⟨pre, post, hdec, hlen, _, _, _, hpost⟩ := hc.split_at_idx hq
  have htake : ids.take h = pre := by
    rw [hdec, ← hlen, List.take_left]
  have hpost0 : post.flatMap (pageCells s) = [] := by
    rw [List.flatMap_eq_nil_iff]
    intro p hp
    obtain ⟨i, hi1, hi2⟩ := hpost p hp
    obtain ⟨pg, hpg, _, _, _, _, _, h0⟩ := hc.links i p hi2
    rw [pageCells_of_live hpg, cellsOfPage_of_empty _ _ (h0 hi1)]
  rw [cellsOf_of_page htls, htake]
  conv_lhs => rw [hdec]
  rw [List.flatMap_append, List.flatMap_cons, hpost0, List.append_nil]


theorem Chain.mem_of_idx {c : Config} {s : State} {ids : List Nat} {h j q : Nat}
    (_hc : Chain c s ids h) (hq : ids[j]? = some q) : q ∈ ids :=
  List.mem_iff_getElem?.2 ⟨j, hq⟩

theorem Chain.update {c : Config} {s : State} {ids : List Nat} {h j q : Nat}
    {pg pg1 : AutoreleasePoolPage} (hc : Chain c s ids h) (hq : ids[j]? = some q)
    (hpg : s.pages q = some pg) (hpar : pg1.parent = pg.parent) (hch : pg1.child = pg.child)
    (hdep : pg1.depth = pg.depth) (hle : pg1.next ≤ c.pageEnd)
    (h1 : j < h → pg1.next = c.pageEnd) (h2 : h < j → pg1.next = 0) :
    Chain c (setPage s q pg1) ids h := by
  refine ⟨hc.nodup, ?_, hc.below, ?_, hc.hot⟩
  · intro p
    by_cases hp : p = q
    · subst hp
      simp only [setPage_pages, if_true, ne_eq, not_false_eq_true, true_iff, reduceCtorEq]
      exact hc.mem_of_idx hq
    · simp only [setPage_pages, hp, if_false]
      exact hc.live p
  · intro i p hi
    by_cases hp : p = q
    · subst hp
      have hij : i = j := nodup_idx_unique hc.nodup hi hq
      subst hij
      obtain ⟨pg0, hpg0, a1, a2, a3, _, _, _⟩ := hc.links i p hi
      rw [hpg] at hpg0
      cases hpg0
      exact ⟨pg1, by simp, hpar.trans a1, hch.trans a2, hdep.trans a3, hle, h1, h2⟩
    · obtain ⟨pg0, hpg0, rest⟩ := hc.links i p hi
      exact ⟨pg0, by simp [hp, hpg0], rest⟩

theorem Chain.cells_setPage_hot {c : Config} {s : State} {ids : List Nat} {h q : Nat}
    {pg pg1 : AutoreleasePoolPage} (hc : Chain c s ids h) (hq : ids[h]? = some q)
    (htls : s.tls = Tls.page q)
    (hpg : s.pages q = some pg) (hpar : pg1.parent = pg.parent) (hch : pg1.child = pg.child)
    (hdep : pg1.depth = pg.depth) (hle : pg1.next ≤ c.pageEnd) :
    cellsOf (setPage s q pg1) ids = (ids.take h).flatMap (pageCells s) ++ cellsOfPage q pg1 := by
  have hc1 : Chain c (setPage s q pg1) ids h :=
    hc.update hq hpg hpar hch hdep hle (fun hlt => absurd hlt (lt_irrefl _))
      (fun hlt => absurd hlt (lt_irrefl _))
  rw [hc1.cells_hot hq htls, pageCells_of_live (setPage_pages_self s q pg1)]
  congr 1
  apply flatMap_congr_pages
  intro p hp
  obtain ⟨pre, post, hdec, hlen, hnot, _, _, _⟩ := hc.split_at_idx hq
  have htake : ids.take h = pre := by
    rw [hdec, ← hlen, List.take_left]
  rw [htake] at hp
  have : p ≠ q := fun hpq => hnot (hpq ▸ hp)
  simp [this]

theorem AddCore.prepend {c : Config} {obj : Nat} {t : SlotPtr}
    {cells cells1 : List (SlotPtr × AutoreleasePoolEntry)}
    (pre : List (SlotPtr × AutoreleasePoolEntry)) (h : AddCore c obj t cells cells1) :
    AddCore c obj t (pre ++ cells) (pre ++ cells1) := by
  rcases h with h | ⟨A, addrs, e, R, h1, h2, rest⟩
  · exact Or.inl (by rw [h, List.append_assoc])
  · exact Or.inr ⟨pre ++ A, addrs, e, R, by rw [h1, List.append_assoc],
      by rw [h2, List.append_assoc], rest⟩

/-- Registration on a hot page that has room. -/
theorem Chain.add_hot {c : Config} {s : State} {ids : List Nat} {h q : Nat}
    {pg : AutoreleasePoolPage} (hc : Chain c s ids h) (hq : ids[h]? = some q)
    (htls : s.tls = Tls.page q) (hpg : s.pages q = some pg) (hroom : pg.next < c.pageEnd)
    (obj : Nat) (hobj : obj < 2 ^ 48) (hprev : coalesce c pg obj = none → PrevOK pg) :
    ∃ s1 r pg1, add c s q obj = Except.ok (s1, SlotPtr.slot q r) ∧ Chain c s1 ids h ∧
      AddCore c obj (SlotPtr.slot q r) (cellsOf s ids) (cellsOf s1 ids) ∧
      s1.released = s.released ∧ s1.complained = s.complained ∧ s1.brk = s.brk ∧
      s1.tls = s.tls ∧
      s1.pages q = some pg1 ∧ (pg1.slots r).ptr = obj ∧
      (obj = POOL_BOUNDARY → pg1.slots r = boundary) := by
  obtain ⟨pg1, r, hadd, a1, a2, a3, _, a5, _, _, a8, a9, a10⟩ :=
    add_spec c s q obj pg hpg hroom hobj hprev
  refine ⟨_, r, pg1, hadd, ?_, ?_, rfl, rfl, rfl, rfl, setPage_pages_self _ _ _, a8, a9⟩
  · exact hc.update hq hpg a1 a2 a3 a5 (fun hlt => absurd hlt (lt_irrefl _))
      (fun hlt => absurd hlt (lt_irrefl _))
  · rw [hc.cells_setPage_hot hq htls hpg a1 a2 a3 a5, hc.cells_hot hq htls,
      pageCells_of_live hpg]
    exact a10.prepend _

theorem flatMap_congr_cells {s1 s2 : State} {l : List Nat}
    (h : ∀ p ∈ l, pageCells s1 p = pageCells s2 p) :
    l.flatMap (pageCells s1) = l.flatMap (pageCells s2) := by
  induction l with
  | nil => rfl
  | cons a l ih =>
    simp only [List.flatMap_cons]
    rw [h a (List.mem_cons_self _ _), ih (fun p hp => h p (List.mem_cons_of_mem _ hp))]

theorem cellsOf_congr {s1 s2 : State} {ids : List Nat}
    (htls : s1.tls = Tls.EMPTY_POOL_PLACEHOLDER ↔ s2.tls = Tls.EMPTY_POOL_PLACEHOLDER)
    (h : ∀ p ∈ ids, pageCells s1 p = pageCells s2 p) : cellsOf s1 ids = cellsOf s2 ids := by
  unfold cellsOf
  by_cases h1 : s1.tls = Tls.EMPTY_POOL_PLACEHOLDER
  · rw [if_pos h1, if_pos (htls.1 h1)]
  · rw [if_neg h1, if_neg (fun h2 => h1 (htls.2 h2))]
    exact flatMap_congr_cells h

theorem Chain.hot_page {c : Config} {s : State} {ids : List Nat} {h q : Nat}
    (hc : Chain c s ids h) (htls : s.tls = Tls.page q) : ids[h]? = some q := by
  rcases hc.hot with ⟨_, h1 | h1⟩ | ⟨p, hp, h1⟩
  · rw [htls] at h1; cases h1
  · rw [htls] at h1; cases h1
  · rw [htls] at h1; cases h1; exact hp

/-- The hot page is full and has a child: the child becomes the hot page. -/
theorem Chain.move_down {c : Config} {s : State} {ids : List Nat} {h q ch : Nat}
    {pg : AutoreleasePoolPage} (hc : Chain c s ids h) (hq : ids[h]? = some q)
    (hpg : s.pages q = some pg) (hfull : pg.next = c.pageEnd) (hch : ids[h + 1]? = some ch) :
    Chain c { s with tls := Tls.page ch } ids (h + 1) := by
  refine ⟨hc.nodup, hc.live, hc.below, ?_, Or.inr ⟨ch, hch, rfl⟩⟩
  intro j p hj
  obtain ⟨pg0, hpg0, a1, a2, a3, a4, a5, a6⟩ := hc.links j p hj
  refine ⟨pg0, hpg0, a1, a2, a3, a4, ?_, fun hlt => a6 (by omega)⟩
  intro hlt
  by_cases hjh : j = h
  · subst hjh
    rw [hq] at hj
    cases hj
    rw [hpg] at hpg0
    cases hpg0
    exact hfull
  · exact a5 (by omega)

/-- The hot page is full and is the last page: a new page is linked below it
and becomes the hot page. -/
theorem Chain.alloc {c : Config} {s : State} {ids : List Nat} {h q : Nat}
    {pg : AutoreleasePoolPage} (hc : Chain c s ids h) (hq : ids[h]? = some q)
    (htls : s.tls = Tls.page q)
    (hpg : s.pages q = some pg) (hfull : pg.next = c.pageEnd) (hch : ids[h + 1]? = none) :
    ∃ s1 npg, newPage c s (some q) = Except.ok (s1, s.brk) ∧
      s1.pages s.brk = some npg ∧ npg.next = 0 ∧
      s1.released = s.released ∧ s1.complained = s.complained ∧ s1.tls = s.tls ∧
      s1.brk = s.brk + 1 ∧
      Chain c { s1 with tls := Tls.page s.brk } (ids ++ [s.brk]) (h + 1) ∧
      (ids ++ [s.brk])[h + 1]? = some s.brk ∧
      cellsOf { s1 with tls := Tls.page s.brk } (ids ++ [s.brk]) = cellsOf s ids := by
  obtain ⟨pg0, hpg0, a1, a2, a3, a4, a5, a6⟩ := hc.links h q hq
  rw [hpg] at hpg0
  cases hpg0
  have hlen : ids.length = h + 1 := by
    have h1 := List.getElem?_eq_none_iff.1 hch
    obtain ⟨h2, _⟩ := List.getElem?_eq_some.1 hq
    omega
  have hchild : pg.child = none := by rw [a2, hch]
  have hbq : q ≠ s.brk := by
    have := hc.below q (hc.mem_of_idx hq)
    omega
  have hfresh : ∀ p ∈ ids, p ≠ s.brk := by
    intro p hp
    have := hc.below p hp
    omega
  have hlast : (ids ++ [s.brk])[h + 1]? = some s.brk := by
    rw [← hlen, List.getElem?_append_right (le_refl _)]
    simp
  refine ⟨{ s with
      pages := Function.update
        (Function.update s.pages q (some { pg with child := some s.brk })) s.brk
        (some { next := 0, parent := some q, child := none,
                depth := (1 + pg.depth) % 2 ^ 32, hiwat := pg.hiwat,
                slots := c.fresh s.brk }),
      brk := s.brk + 1 },
    { next := 0, parent := some q, child := none,
      depth := (1 + pg.depth) % 2 ^ 32, hiwat := pg.hiwat, slots := c.fresh s.brk },
    ?_, ?_, rfl, rfl, rfl, rfl, rfl, ?_, hlast, ?_⟩
  · simp only [newPage, hpg, hchild, ne_eq, not_true_eq_false, if_false]
  · simp
  · refine ⟨?_, ?_, ?_, ?_, Or.inr ⟨s.brk, hlast, rfl⟩⟩
    · rw [List.nodup_append]
      refine ⟨hc.nodup, List.nodup_singleton _, ?_⟩
      intro a ha hb
      rw [List.mem_singleton] at hb
      exact hfresh a ha hb
    · intro p
      simp only [Function.update_apply, List.mem_append, List.mem_singleton]
      by_cases hp : p = s.brk
      · simp [hp]
      · by_cases hpq : p = q
        · subst hpq
          simp only [hp, if_false, if_true, ne_eq, not_false_eq_true, true_iff, or_false,
            reduceCtorEq]
          exact hc.mem_of_idx hq
        · simp only [hp, hpq, if_false, or_false]
          exact hc.live p
    · intro p hp
      simp only [List.mem_append, List.mem_singleton] at hp
      rcases hp with hp | hp
      · have := hc.below p hp
        show p < s.brk + 1
        omega
      · show p < s.brk + 1
        omega
    · intro j p hj
      by_cases hjl : j < ids.length
      · rw [List.getElem?_append_left hjl] at hj
        have hpb : p ≠ s.brk := hfresh p (hc.mem_of_idx hj)
        obtain ⟨pg0, hpg0, b1, b2, b3, b4, b5, b6⟩ := hc.links j p hj
        have hpar : (if j = 0 then none else (ids ++ [s.brk])[j - 1]?) =
            (if j = 0 then none else ids[j - 1]?) := by
          by_cases hj0 : j = 0
          · simp [hj0]
          · simp only [hj0, if_false]
            rw [List.getElem?_append_left (by omega)]
        by_cases hjh : j = h
        · subst hjh
          rw [hq] at hj
          cases hj
          rw [hpg] at hpg0
          cases hpg0
          refine ⟨{ pg with child := some s.brk }, ?_, ?_, ?_, b3, b4, fun _ => hfull,
            fun hlt => absurd hlt (by omega)⟩
          · simp only [Function.update_apply, hpb, if_false, if_true]
          · rw [hpar]; exact b1
          · exact hlast.symm
        · refine ⟨pg0, ?_, ?_, ?_, b3, b4, fun hlt => b5 (by omega), fun hlt => absurd hlt (by omega)⟩
          · have hpq : p ≠ q := by
              intro hpq
              subst hpq
              exact hjh (nodup_idx_unique hc.nodup hj hq)
            simp only [Function.update_apply, hpb, hpq, if_false]
            exact hpg0
          · rw [hpar]; exact b1
          · rw [List.getElem?_append_left (by omega)]; exact b2
      · have hjl2 : j = h + 1 := by
          have := List.getElem?_eq_some.1 hj
          obtain ⟨h1, _⟩ := this
          simp only [List.length_append, List.length_singleton] at h1
          omega
        subst hjl2
        rw [hlast] at hj
        cases hj
        refine ⟨⟨0, some q, none, (1 + pg.depth) % 2 ^ 32, pg.hiwat, c.fresh s.brk⟩,
          by simp, ?_, ?_, ?_, Nat.zero_le _, fun hlt => absurd hlt (lt_irrefl _),
          fun hlt => absurd hlt (lt_irrefl _)⟩
        · simp only [Nat.add_one_ne_zero, if_false, Nat.add_sub_cancel]
          rw [List.getElem?_append_left (by omega), hq]
        · symm
          apply List.getElem?_eq_none_iff.2
          simp only [List.length_append, List.length_singleton]
          omega
        · show (1 + pg.depth) % 2 ^ 32 = (h + 1) % 2 ^ 32
          rw [a3]
          omega
  · rw [cellsOf_of_page htls, cellsOf_of_page (q := s.brk) rfl, List.flatMap_append,
      List.flatMap_singleton]
    have e2 : pageCells
        { s with
          pages := Function.update
            (Function.update s.pages q (some { pg with child := some s.brk })) s.brk
            (some { next := 0, parent := some q, child := none,
                    depth := (1 + pg.depth) % 2 ^ 32, hiwat := pg.hiwat,
                    slots := c.fresh s.brk }),
          brk := s.brk + 1, tls := Tls.page s.brk } s.brk = [] := by
      simp [pageCells, cellsOfPage]
    rw [e2, List.append_nil]
    apply flatMap_congr_cells
    intro p hp
    have hpb : p ≠ s.brk := hfresh p hp
    by_cases hpq : p = q
    · subst hpq
      simp [pageCells, hpb, hpg, cellsOfPage]
    · simp [pageCells, hpb, hpq]

theorem Chain.ids_nil {c : Config} {s : State} {ids : List Nat} {h : Nat}
    (hc : Chain c s ids h) (htls : s.tls = Tls.nil ∨ s.tls = Tls.EMPTY_POOL_PLACEHOLDER) :
    ids = [] := by
  rcases hc.hot with ⟨h1, _⟩ | ⟨p, _, h1⟩
  · exact h1
  · rcases htls with h2 | h2 <;> rw [h1] at h2 <;> cases h2

/-- The first page of a thread. -/
theorem Chain.alloc_root {c : Config} {s : State} {h : Nat} (hc : Chain c s [] h) :
    ∃ s1 npg, newPage c s none = Except.ok (s1, s.brk) ∧
      s1.pages s.brk = some npg ∧ npg.next = 0 ∧
      s1.released = s.released ∧ s1.complained = s.complained ∧ s1.tls = s.tls ∧
      s1.brk = s.brk + 1 ∧
      Chain c { s1 with tls := Tls.page s.brk } [s.brk] 0 ∧
      cellsOf { s1 with tls := Tls.page s.brk } [s.brk] = [] := by
  refine ⟨{ s with
      pages := Function.update s.pages s.brk
        (some ⟨0, none, none, 0, 0, c.fresh s.brk⟩),
      brk := s.brk + 1 }, ⟨0, none, none, 0, 0, c.fresh s.brk⟩, rfl, by simp, rfl, rfl, rfl,
    rfl, rfl, ?_, ?_⟩
  · refine ⟨List.nodup_singleton _, ?_, ?_, ?_, Or.inr ⟨s.brk, rfl, rfl⟩⟩
    · intro p
      simp only [Function.update_apply, List.mem_singleton]
      by_cases hp : p = s.brk
      · simp [hp]
      · simp only [hp, if_false, iff_false, ne_eq, not_not]
        have := hc.live p
        simp only [List.not_mem_nil, iff_false, ne_eq, not_not] at this
        exact this
    · intro p hp
      rw [List.mem_singleton] at hp
      show p < s.brk + 1
      omega
    · intro j p hj
      have hj0 : j = 0 := by
        obtain ⟨h1, _⟩ := List.getElem?_eq_some.1 hj
        simp only [List.length_singleton] at h1
        omega
      subst hj0
      simp only [List.getElem?_cons_zero, Option.some.injEq] at hj
      subst hj
      exact ⟨⟨0, none, none, 0, 0, c.fresh s.brk⟩, by simp, by simp, by simp, by simp,
        Nat.zero_le _, fun hlt => absurd hlt (lt_irrefl _), fun hlt => absurd hlt (lt_irrefl _)⟩
  · rw [cellsOf_of_page (q := s.brk) rfl]
    simp [pageCells, cellsOfPage]

theorem zip_cons_ne_nil {α β : Type} (A : List (α × β)) (addrs : List α) (e : β) (R : List β)
    (hlen : addrs.length = R.length + 1) :
    ∃ a rest, A ++ List.zip addrs (e :: R) = A ++ (a, e) :: rest := by
  cases addrs with
  | nil => simp at hlen
  | cons a as => exact ⟨a, List.zip as R, by simp⟩

/-- A boundary marker is appended, never coalesced. -/
theorem AddCore.of_boundary {c : Config} {t : SlotPtr}
    {cells cells1 : List (SlotPtr × AutoreleasePoolEntry)}
    (h : AddCore c POOL_BOUNDARY t cells cells1) : cells1 = cells ++ [(t, boundary)] := by
  rcases h with h | ⟨A, addrs, e, R, _, _, _, _, h5, _⟩
  · exact h
  · exact absurd rfl h5

/-- Above a boundary marker at the top, an entry is appended. -/
theorem AddCore.of_top_boundary {c : Config} {obj : Nat} {t a : SlotPtr}
    {lo cells1 : List (SlotPtr × AutoreleasePoolEntry)}
    (h : AddCore c obj t (lo ++ [(a, boundary)]) cells1) :
    cells1 = lo ++ [(a, boundary), (t, ⟨obj, 0⟩)] := by
  rcases h with h | ⟨A, addrs, e, R, h1, _, h3, _, _, _, _, h8, _⟩
  · rw [h, List.append_assoc]
    rfl
  · exfalso
    cases addrs with
    | nil => simp at h3
    | cons a0 as =>
      have hz : List.zip (a0 :: as) (e :: R) ≠ [] := by simp
      have hl := congrArg List.getLast? h1
      rw [List.getLast?_append, List.getLast?_append] at hl
      have : (List.zip (a0 :: as) (e :: R)).getLast? = some
          ((List.zip (a0 :: as) (e :: R)).getLast hz) := List.getLast?_eq_getLast _ hz
      rw [this] at hl
      simp only [List.getLast?_singleton, Option.or, Option.some.injEq] at hl
      have hmem : (List.zip (a0 :: as) (e :: R)).getLast hz ∈ List.zip (a0 :: as) (e :: R) :=
        List.getLast_mem hz
      rw [← hl] at hmem
      have := (List.of_mem_zip hmem).2
      exact h8 _ this rfl

theorem full_eq_false {c : Config} {pg : AutoreleasePoolPage} (h : pg.next < c.pageEnd) :
    pg.full c = false := by
  simp only [AutoreleasePoolPage.full, beq_eq_false_iff_ne, ne_eq]
  omega

theorem full_eq_true {c : Config} {pg : AutoreleasePoolPage} (h : pg.next = c.pageEnd) :
    pg.full c = true := by
  simp only [AutoreleasePoolPage.full, beq_iff_eq]
  exact h

/-- Registration when the thread has a hot page and `HotOK` holds. -/
theorem Chain.autoreleaseFast_page {c : Config} {s : State} {ids : List Nat} {h q : Nat}
    (hcap : 1 ≤ c.pageEnd) (hc : Chain c s ids h) (htls : s.tls = Tls.page q)
    (obj : Nat) (hobj : obj < 2 ^ 48) (hok : HotOK c s obj) :
    ∃ s1 p r pg1 ids1 h1, autoreleaseFast c s obj = Except.ok (s1, SlotPtr.slot p r) ∧
      Chain c s1 ids1 h1 ∧ s1.tls = Tls.page p ∧
      AddCore c obj (SlotPtr.slot p r) (cellsOf s ids) (cellsOf s1 ids1) ∧
      s1.released = s.released ∧ s1.complained = s.complained ∧
      s1.pages p = some pg1 ∧ (pg1.slots r).ptr = obj ∧
      (obj = POOL_BOUNDARY → pg1.slots r = boundary) := by
  have hq := hc.hot_page htls
  obtain ⟨pg, hpg, a1, a2, a3, a4, a5, a6⟩ := hc.links h q hq
  have hhot : hotPage s = Except.ok (some q) := by
    simp only [hotPage, htls, hpg]
  by_cases hfull : pg.next = c.pageEnd
  · -- the hot page is full
    have hpre : autoreleaseFast c s obj = autoreleaseFullPage c s obj q := by
      simp only [autoreleaseFast, hhot, hpg, full_eq_true hfull]
      simp
    cases hch : ids[h + 1]? with
    | some ch =>
      obtain ⟨cpg, hcpg, _, _, _, _, _, c6⟩ := hc.links (h + 1) ch hch
      have hc2 := hc.move_down hq hpg hfull hch
      have hloop : fullPageLoop c (s.brk + 1) s q = Except.ok (s, ch) := by
        simp only [fullPageLoop, hpg, a2, hch, hcpg, full_eq_false (by rw [c6 (by omega)]; omega :
          cpg.next < c.pageEnd)]
        simp
      obtain ⟨s1, r, pg1, hadd, b1, b2, b3, b4, _, b6, b7, b8, b9⟩ :=
        hc2.add_hot hch rfl hcpg (by rw [c6 (by omega)]; omega) obj hobj
          (fun _ => Or.inl (c6 (by omega)))
      refine ⟨s1, ch, r, pg1, ids, h + 1, ?_, b1, b6, ?_, b3, b4, b7, b8, b9⟩
      · rw [hpre]
        simp only [autoreleaseFullPage, hhot, hpg, full_eq_true hfull, hloop, setHotPage, hcpg]
        simpa using hadd
      · have : cellsOf s ids = cellsOf { s with tls := Tls.page ch } ids := by
          apply cellsOf_congr
          · simp [htls]
          · intro p _; rfl
        rw [this]
        exact b2
    | none =>
      obtain ⟨s1, npg, hnew, hnpg, hn0, d1, d2, d3, d4, d5, d6, d7⟩ :=
        hc.alloc hq htls hpg hfull hch
      have hloop : fullPageLoop c (s.brk + 1) s q = Except.ok (s1, s.brk) := by
        simp only [fullPageLoop, hpg, a2, hch, hnew, hnpg, full_eq_false (by rw [hn0]; omega :
          npg.next < c.pageEnd)]
        simp
      obtain ⟨s2, r, pg1, hadd, b1, b2, b3, b4, _, b6, b7, b8, b9⟩ :=
        d5.add_hot d6 rfl hnpg (by rw [hn0]; omega) obj hobj (fun _ => Or.inl hn0)
      refine ⟨s2, s.brk, r, pg1, ids ++ [s.brk], h + 1, ?_, b1, b6, ?_, b3.trans d1,
        b4.trans d2, b7, b8, b9⟩
      · rw [hpre]
        simp only [autoreleaseFullPage, hhot, hpg, full_eq_true hfull, hloop, setHotPage, hnpg]
        simpa using hadd
      · rw [← d7]
        exact b2
  · -- the hot page has room
    have hroom : pg.next < c.pageEnd := by omega
    obtain ⟨s1, r, pg1, hadd, b1, b2, b3, b4, _, b6, b7, b8, b9⟩ :=
      hc.add_hot hq htls hpg hroom obj hobj (hok q pg htls hpg hroom)
    refine ⟨s1, q, r, pg1, ids, h, ?_, b1, b6.trans htls, b2, b3, b4, b7, b8, b9⟩
    simp only [autoreleaseFast, hhot, hpg, full_eq_false hroom]
    simpa using hadd

/-- Registration in a thread that is well formed, when `add` reads no slot
that holds a count as an object (`HotOK`): the call returns, the state stays
well formed, and the pending slots change as `AddRel` says. -/
theorem autoreleaseFast_spec {c : Config} {s : State}
    {cells : List (SlotPtr × AutoreleasePoolEntry)} (hnd : c.nonDebug) (hcap : 2 ≤ c.pageEnd)
    (hinv : Inv c s cells) (obj : Nat) (hobj : obj < 2 ^ 48) (hok : HotOK c s obj) :
    ∃ s1 t cells1, autoreleaseFast c s obj = Except.ok (s1, t) ∧ Inv c s1 cells1 ∧
      AddRel c obj t cells cells1 ∧ s1.released = s.released ∧
      s1.complained = s.complained ∧
      ((t = SlotPtr.EMPTY_POOL_PLACEHOLDER ∧ obj = POOL_BOUNDARY ∧ s.tls = Tls.nil) ∨
        ∃ p i pg, t = SlotPtr.slot p i ∧ s1.pages p = some pg ∧ (pg.slots i).ptr = obj ∧
          s1.tls = Tls.page p ∧ (obj = POOL_BOUNDARY → pg.slots i = boundary)) := by
  obtain ⟨ids, h, hc, hcells⟩ := hinv
  subst hcells
  obtain ⟨hd1, hd2, hd3⟩ := hnd
  cases htls : s.tls with
  | page q =>
    obtain ⟨s1, p, r, pg1, ids1, h1, e1, e2, e3, e4, e5, e6, e7, e8, e9⟩ :=
      hc.autoreleaseFast_page (by omega) htls obj hobj hok
    exact ⟨s1, _, _, e1, ⟨ids1, h1, e2, rfl⟩, Or.inl e4, e5, e6,
      Or.inr ⟨p, r, pg1, rfl, e7, e8, e3, e9⟩⟩
  | nil =>
    have hids : ids = [] := hc.ids_nil (Or.inl htls)
    subst hids
    have hcells : cellsOf s [] = [] := by simp [cellsOf, htls]
    have hhot : hotPage s = Except.ok none := by simp only [hotPage, htls]
    by_cases h0 : obj = POOL_BOUNDARY
    · subst h0
      refine ⟨{ s with tls := Tls.EMPTY_POOL_PLACEHOLDER }, SlotPtr.EMPTY_POOL_PLACEHOLDER,
        [(SlotPtr.EMPTY_POOL_PLACEHOLDER, boundary)], ?_, ⟨[], 0, ?_, ?_⟩, ?_, rfl, rfl,
        Or.inl ⟨rfl, rfl, rfl⟩⟩
      · simp [autoreleaseFast, hhot, autoreleaseNoPage, haveEmptyPoolPlaceholder, htls, hd1,
          setEmptyPoolPlaceholder]
      · exact ⟨hc.nodup, hc.live, hc.below, fun j p hj => by simp at hj,
          Or.inl ⟨rfl, Or.inr rfl⟩⟩
      · simp [cellsOf]
      · rw [hcells]
        exact Or.inl (Or.inl rfl)
    · obtain ⟨s1, npg, hnew, hnpg, hn0, d1, d2, d3, d4, d5, d6⟩ := hc.alloc_root
      obtain ⟨s2, r, pg1, hadd, b1, b2, b3, b4, _, b6, b7, b8, b9⟩ :=
        d5.add_hot (q := s.brk) rfl rfl hnpg (by rw [hn0]; omega) obj hobj
          (fun _ => Or.inl hn0)
      refine ⟨s2, _, _, ?_, ⟨_, _, b1, rfl⟩, Or.inl ?_, b3.trans d1, b4.trans d2,
        Or.inr ⟨s.brk, r, pg1, rfl, b7, b8, b6, b9⟩⟩
      · simp only [autoreleaseFast, hhot, autoreleaseNoPage, haveEmptyPoolPlaceholder, htls,
          hd2, h0, hnew, setHotPage, hnpg]
        simpa using hadd
      · rw [hcells, ← d6]
        exact b2
  | EMPTY_POOL_PLACEHOLDER =>
    have hids : ids = [] := hc.ids_nil (Or.inr htls)
    subst hids
    have hcells : cellsOf s [] = [(SlotPtr.EMPTY_POOL_PLACEHOLDER, boundary)] := by
      simp [cellsOf, htls]
    have hhot : hotPage s = Except.ok none := by simp only [hotPage, htls]
    obtain ⟨s1, npg, hnew, hnpg, hn0, d1, d2, d3, d4, d5, d6⟩ := hc.alloc_root
    obtain ⟨s2, r, pg1, hadd, b1, b2, b3, b4, _, b6, b7, b8, b9⟩ :=
      d5.add_hot (q := s.brk) rfl rfl hnpg (by rw [hn0]; omega) POOL_BOUNDARY (by decide)
        (fun _ => Or.inl hn0)
    have hcells2 := b2.of_boundary
    rw [d6, List.nil_append] at hcells2
    have hnext : pg1.next = 1 := by
      have : (cellsOf s2 [s.brk]).length = 1 := by rw [hcells2]; rfl
      rw [cellsOf_of_page b6, List.flatMap_singleton, pageCells_of_live b7,
        cellsOfPage_length] at this
      exact this
    have htop : pg1.slots 0 = boundary := by
      have hl : cellsOf s2 [s.brk] = [(SlotPtr.slot s.brk 0, pg1.slots 0)] := by
        rw [cellsOf_of_page b6, List.flatMap_singleton, pageCells_of_live b7, cellsOfPage, hnext]
        rfl
      rw [hl] at hcells2
      simp only [List.cons.injEq, Prod.mk.injEq, and_true] at hcells2
      exact hcells2.2
    obtain ⟨s3, r3, pg3, hadd3, g1, g2, g3, g4, _, g6, g7, g8, g9⟩ :=
      b1.add_hot (q := s.brk) rfl b6 b7 (by rw [hnext]; omega) obj hobj
        (fun _ => Or.inr (Or.inl (by rw [hnext, htop]; rfl)))
    rw [hcells2] at g2
    have hcells3 := @AddCore.of_top_boundary c obj _ _ [] _ g2
    refine ⟨s3, _, _, ?_, ⟨_, _, g1, rfl⟩, Or.inr ⟨_, hcells, hcells3⟩,
      (g3.trans b3).trans d1, (g4.trans b4).trans d2,
      Or.inr ⟨s.brk, r3, pg3, rfl, g7, g8, g6.trans b6, g9⟩⟩
    simp only [autoreleaseFast, hhot, autoreleaseNoPage, haveEmptyPoolPlaceholder, htls,
      hnew, setHotPage, hnpg]
    simp only [decide_True, if_true]
    have hadd1 : add c { s1 with tls := Tls.page s.brk } s.brk POOL_BOUNDARY
        = Except.ok (s2, SlotPtr.slot s.brk r) := hadd
    rw [hadd1]
    exact hadd3

theorem flatMap_length_const {α : Type} (f : Nat → List α) (k : Nat) :
    ∀ l : List Nat, (∀ p ∈ l, (f p).length = k) → (l.flatMap f).length = l.length * k := by
  intro l
  induction l with
  | nil => intro _; simp
  | cons a l ih =>
    intro h
    simp only [List.flatMap_cons, List.length_append, List.length_cons]
    rw [h a (List.mem_cons_self _ _), ih (fun p hp => h p (List.mem_cons_of_mem _ hp))]
    rw [Nat.add_mul, Nat.one_mul, Nat.add_comm]

/-- The pages above page `j`, for `j` not below the hot page, hold `j` full
pages of slots. -/
theorem Chain.prefix_length {c : Config} {s : State} {ids : List Nat} {h j : Nat}
    (hc : Chain c s ids h) (hj : j ≤ h) (hjl : j ≤ ids.length) :
    ((ids.take j).flatMap (pageCells s)).length = j * c.pageEnd := by
  have := flatMap_length_const (pageCells s) c.pageEnd (ids.take j) (by
    intro p hp
    obtain ⟨i, hi⟩ := List.mem_iff_getElem?.1 hp
    rw [List.getElem?_take] at hi
    split_ifs at hi with h1
    obtain ⟨pg, hpg, _, _, _, _, a5, _⟩ := hc.links i p hi
    rw [pageCells_of_live hpg, cellsOfPage_length, a5 (by omega)])
  rw [this, List.length_take, Nat.min_eq_left hjl]

theorem Chain.idx_lt {c : Config} {s : State} {ids : List Nat} {h j q : Nat}
    (_hc : Chain c s ids h) (hq : ids[j]? = some q) : j < ids.length :=
  (List.getElem?_eq_some.1 hq).1

theorem Chain.cells_length {c : Config} {s : State} {ids : List Nat} {h q : Nat}
    {pg : AutoreleasePoolPage} (hc : Chain c s ids h) (htls : s.tls = Tls.page q)
    (hpg : s.pages q = some pg) :
    (cellsOf s ids).length = h * c.pageEnd + pg.next := by
  have hq := hc.hot_page htls
  rw [hc.cells_hot hq htls, List.length_append, hc.prefix_length (le_refl _)
    (le_of_lt (hc.idx_lt hq)), pageCells_of_live hpg, cellsOfPage_length]

theorem mem_cellsOfPage {q : Nat} {pg : AutoreleasePoolPage} {x : SlotPtr × AutoreleasePoolEntry} :
    x ∈ cellsOfPage q pg ↔ ∃ i, i < pg.next ∧ x = (SlotPtr.slot q i, pg.slots i) := by
  simp only [cellsOfPage, List.mem_map, List.mem_range]
  constructor
  · rintro ⟨i, hi, rfl⟩
    exact ⟨i, hi, rfl⟩
  · rintro ⟨i, hi, rfl⟩
    exact ⟨i, hi, rfl⟩

/-- The pending slots of a thread with a page are the occupied slots of its
live pages. -/
theorem Chain.mem_cells {c : Config} {s : State} {ids : List Nat} {h : Nat}
    (hc : Chain c s ids h) (hph : s.tls ≠ Tls.EMPTY_POOL_PLACEHOLDER) (p i : Nat)
    (e : AutoreleasePoolEntry) :
    (SlotPtr.slot p i, e) ∈ cellsOf s ids ↔
      ∃ pg, s.pages p = some pg ∧ i < pg.next ∧ pg.slots i = e := by
  simp only [cellsOf, hph, if_false, List.mem_flatMap]
  constructor
  · rintro ⟨q, hq, hmem⟩
    cases hpg : s.pages q with
    | none => simp [pageCells, hpg] at hmem
    | some pg =>
      rw [pageCells_of_live hpg, mem_cellsOfPage] at hmem
      obtain ⟨k, hk, heq⟩ := hmem
      simp only [Prod.mk.injEq, SlotPtr.slot.injEq] at heq
      obtain ⟨⟨rfl, rfl⟩, rfl⟩ := heq
      exact ⟨pg, hpg, hk, rfl⟩
  · rintro ⟨pg, hpg, hi, rfl⟩
    refine ⟨p, (hc.live p).1 (by rw [hpg]; simp), ?_⟩
    rw [pageCells_of_live hpg, mem_cellsOfPage]
    exact ⟨i, hi, rfl⟩

theorem cellsOfPage_fst_nodup (q : Nat) (pg : AutoreleasePoolPage) :
    ((cellsOfPage q pg).map Prod.fst).Nodup := by
  simp only [cellsOfPage, List.map_map]
  apply List.Nodup.map _ (List.nodup_range _)
  intro a b hab
  simpa using hab

theorem fst_mem_pageCells {s : State} {q : Nat} {a : SlotPtr}
    (h : a ∈ (pageCells s q).map Prod.fst) : ∃ i, a = SlotPtr.slot q i := by
  cases hpg : s.pages q with
  | none => simp [pageCells, hpg] at h
  | some pg =>
    rw [pageCells_of_live hpg, List.mem_map] at h
    obtain ⟨x, hx, rfl⟩ := h
    obtain ⟨i, _, rfl⟩ := mem_cellsOfPage.1 hx
    exact ⟨i, rfl⟩

theorem flatMap_fst_nodup (s : State) :
    ∀ l : List Nat, l.Nodup → ((l.flatMap (pageCells s)).map Prod.fst).Nodup := by
  intro l
  induction l with
  | nil => intro _; simp
  | cons q l ih =>
    intro hnd
    rw [List.nodup_cons] at hnd
    simp only [List.flatMap_cons, List.map_append]
    rw [List.nodup_append]
    refine ⟨?_, ih hnd.2, ?_⟩
    · cases hpg : s.pages q with
      | none => simp [pageCells, hpg]
      | some pg => rw [pageCells_of_live hpg]; exact cellsOfPage_fst_nodup q pg
    · intro a ha hb
      obtain ⟨i, rfl⟩ := fst_mem_pageCells ha
      rw [List.mem_map] at hb
      obtain ⟨x, hx, hx2⟩ := hb
      rw [List.mem_flatMap] at hx
      obtain ⟨q2, hq2, hx3⟩ := hx
      obtain ⟨i2, hi2⟩ := fst_mem_pageCells (List.mem_map_of_mem Prod.fst hx3)
      rw [hx2] at hi2
      cases hi2
      exact hnd.1 hq2

/-- No two pending slots have the same address. -/
theorem Chain.cells_nodup {c : Config} {s : State} {ids : List Nat} {h : Nat}
    (hc : Chain c s ids h) : ((cellsOf s ids).map Prod.fst).Nodup := by
  unfold cellsOf
  split_ifs
  · simp
  · exact flatMap_fst_nodup s ids hc.nodup

theorem split_unique {α β : Type} {lo lo1 hi hi1 : List (α × β)} {a : α} {e e1 : β}
    (hnd : ((lo ++ (a, e) :: hi).map Prod.fst).Nodup)
    (h : lo ++ (a, e) :: hi = lo1 ++ (a, e1) :: hi1) : lo = lo1 ∧ e = e1 ∧ hi = hi1 := by
  induction lo generalizing lo1 with
  | nil =>
    cases lo1 with
    | nil =>
      simp only [List.nil_append, List.cons.injEq, Prod.mk.injEq, true_and] at h
      exact ⟨rfl, h.1, h.2⟩
    | cons x l1 =>
      exfalso
      simp only [List.nil_append, List.cons_append, List.cons.injEq] at h
      obtain ⟨h1, h2⟩ := h
      simp only [List.nil_append, List.map_cons, List.nodup_cons] at hnd
      apply hnd.1
      rw [h2]
      simp
  | cons y l ih =>
    cases lo1 with
    | nil =>
      exfalso
      simp only [List.nil_append, List.cons_append, List.cons.injEq] at h
      obtain ⟨h1, h2⟩ := h
      simp only [List.cons_append, List.map_cons, List.nodup_cons] at hnd
      apply hnd.1
      rw [h1]
      simp
    | cons x l1 =>
      simp only [List.cons_append, List.cons.injEq] at h
      obtain ⟨h1, h2⟩ := h
      simp only [List.cons_append, List.map_cons, List.nodup_cons] at hnd
      obtain ⟨r1, r2, r3⟩ := ih hnd.2 h2
      exact ⟨by rw [h1, r1], r2, r3⟩

theorem Chain.congr {c : Config} {s1 s2 : State} {ids : List Nat} {h : Nat}
    (hc : Chain c s1 ids h) (hp : s2.pages = s1.pages) (hb : s2.brk = s1.brk)
    (ht : s2.tls = s1.tls) : Chain c s2 ids h := by
  refine ⟨hc.nodup, ?_, ?_, ?_, ?_⟩
  · rw [hp]; exact hc.live
  · rw [hb]; exact hc.below
  · rw [hp]; exact hc.links
  · rw [ht]; exact hc.hot

theorem cellsOf_eq_of_fields {s1 s2 : State} (ids : List Nat) (hp : s2.pages = s1.pages)
    (ht : s2.tls = s1.tls) : cellsOf s2 ids = cellsOf s1 ids := by
  apply cellsOf_congr
  · rw [ht]
  · intro p _
    simp only [pageCells, hp]

theorem releaseEntry_released (s : State) (e : AutoreleasePoolEntry) :
    (releaseEntry s e).released = s.released ++ releasesOfEntry e := by
  unfold releaseEntry releasesOfEntry
  by_cases h : e.ptr = POOL_BOUNDARY
  · simp [h]
  · simp [h]

theorem releaseEntry_pages (s : State) (e : AutoreleasePoolEntry) :
    (releaseEntry s e).pages = s.pages := by
  unfold releaseEntry; split_ifs <;> rfl

theorem releaseEntry_brk (s : State) (e : AutoreleasePoolEntry) :
    (releaseEntry s e).brk = s.brk := by
  unfold releaseEntry; split_ifs <;> rfl

theorem releaseEntry_tls (s : State) (e : AutoreleasePoolEntry) :
    (releaseEntry s e).tls = s.tls := by
  unfold releaseEntry; split_ifs <;> rfl

theorem releaseEntry_complained (s : State) (e : AutoreleasePoolEntry) :
    (releaseEntry s e).complained = s.complained := by
  unfold releaseEntry; split_ifs <;> rfl

theorem releasesOf_append (a b : List AutoreleasePoolEntry) :
    releasesOf (a ++ b) = releasesOf b ++ releasesOf a := by
  induction a with
  | nil => simp [releasesOf]
  | cons x a ih => simp [releasesOf, ih, List.append_assoc]

/-- The hot page is empty and not the cold page: its parent becomes hot. -/
theorem Chain.move_up {c : Config} {s : State} {ids : List Nat} {h q par : Nat}
    {pg : AutoreleasePoolPage} (hc : Chain c s ids (h + 1)) (hq : ids[h + 1]? = some q)
    (hpg : s.pages q = some pg) (hempty : pg.next = 0) (hpar : ids[h]? = some par) :
    Chain c { s with tls := Tls.page par } ids h := by
  refine ⟨hc.nodup, hc.live, hc.below, ?_, Or.inr ⟨par, hpar, rfl⟩⟩
  intro j p hj
  obtain ⟨pg0, hpg0, a1, a2, a3, a4, a5, a6⟩ := hc.links j p hj
  refine ⟨pg0, hpg0, a1, a2, a3, a4, fun hlt => a5 (by omega), ?_⟩
  intro hlt
  by_cases hjh : j = h + 1
  · subst hjh
    rw [hq] at hj
    cases hj
    rw [hpg] at hpg0
    cases hpg0
    exact hempty
  · exact a6 (by omega)

/-- The inner loop of `releaseUntil` on a well-formed thread with a pending
slot: it stops at once or after one step to the parent. -/
theorem Chain.skipEmpty_spec {c : Config} {s : State} {ids : List Nat} {h q : Nat}
    (hcap : 1 ≤ c.pageEnd) (hc : Chain c s ids h) (htls : s.tls = Tls.page q)
    (hpos : 0 < (cellsOf s ids).length) :
    ∃ s1 q1 h1 pg1, skipEmpty (s.brk + 1) s q = Except.ok (s1, q1) ∧ Chain c s1 ids h1 ∧
      s1.tls = Tls.page q1 ∧ s1.pages q1 = some pg1 ∧ 0 < pg1.next ∧
      s1.pages = s.pages ∧ s1.brk = s.brk ∧ s1.released = s.released ∧
      s1.complained = s.complained ∧
      ((h1 = h ∧ q1 = q) ∨ (h1 + 1 = h ∧ ∃ pg, s.pages q = some pg ∧ pg.next = 0)) := by
  have hq := hc.hot_page htls
  obtain ⟨pg, hpg, a1, a2, a3, a4, a5, a6⟩ := hc.links h q hq
  by_cases hne : pg.next = 0
  · have hlen := hc.cells_length htls hpg
    rw [hne] at hlen
    have hh : h ≠ 0 := by
      intro h0
      rw [h0] at hlen
      omega
    obtain ⟨h0, rfl⟩ : ∃ h0, h = h0 + 1 := ⟨h - 1, by omega⟩
    have hlt := hc.idx_lt hq
    have hbound0 : h0 < ids.length := by omega
    have hparidx : ids[h0]? = some ids[h0] := List.getElem?_eq_getElem hbound0
    obtain ⟨par, hpar⟩ : ∃ par, ids[h0]? = some par := ⟨_, hparidx⟩
    obtain ⟨ppg, hppg, _, _, _, _, p5, _⟩ := hc.links h0 par hpar
    have hparent : pg.parent = some par := by
      rw [a1]
      simp only [Nat.add_one_ne_zero, if_false, Nat.add_sub_cancel]
      exact hpar
    have hb : s.brk ≠ 0 := by
      have := hc.below par (hc.mem_of_idx hpar)
      omega
    obtain ⟨b0, hb0⟩ : ∃ b0, s.brk = b0 + 1 := ⟨s.brk - 1, by omega⟩
    refine ⟨{ s with tls := Tls.page par }, par, h0, ppg, ?_, hc.move_up hq hpg hne hpar, rfl,
      hppg, ?_, rfl, rfl, rfl, rfl, Or.inr ⟨rfl, pg, hpg, hne⟩⟩
    · rw [hb0]
      simp only [skipEmpty, hpg, AutoreleasePoolPage.empty, hne, beq_self_eq_true, if_true,
        hparent, setHotPage, hppg]
      have : (ppg.next == 0) = false := by
        simp only [beq_eq_false_iff_ne, ne_eq]
        rw [p5 (by omega)]
        omega
      simp [this, hb0]
    · rw [p5 (by omega)]
      omega
  · refine ⟨s, q, h, pg, ?_, hc, htls, hpg, by omega, rfl, rfl, rfl, rfl, Or.inl ⟨rfl, rfl⟩⟩
    have : (pg.next == 0) = false := by
      simp only [beq_eq_false_iff_ne, ne_eq]
      exact hne
    simp [skipEmpty, hpg, AutoreleasePoolPage.empty, this]

/-- Popping the top slot of the hot page. -/
theorem Chain.pop_top {c : Config} {s : State} {ids : List Nat} {h q n : Nat}
    {pg : AutoreleasePoolPage} (hc : Chain c s ids h) (htls : s.tls = Tls.page q)
    (hpg : s.pages q = some pg) (hn : pg.next = n + 1) (e : AutoreleasePoolEntry) :
    Chain c (setPage s q { pg with next := n, slots := Function.update pg.slots n e }) ids h ∧
    cellsOf s ids =
      cellsOf (setPage s q { pg with next := n, slots := Function.update pg.slots n e }) ids
        ++ [(SlotPtr.slot q n, pg.slots n)] := by
  have hq := hc.hot_page htls
  obtain ⟨pg0, hpg0, a1, a2, a3, a4, a5, a6⟩ := hc.links h q hq
  rw [hpg] at hpg0
  cases hpg0
  have hle : n ≤ c.pageEnd := by omega
  refine ⟨hc.update hq hpg rfl rfl rfl hle (fun hlt => absurd hlt (lt_irrefl _))
      (fun hlt => absurd hlt (lt_irrefl _)), ?_⟩
  have hx : cellsOf (setPage s q { pg with next := n, slots := Function.update pg.slots n e })
      ids = (ids.take h).flatMap (pageCells s) ++
        cellsOfPage q { pg with next := n, slots := Function.update pg.slots n e } :=
    hc.cells_setPage_hot hq htls hpg rfl rfl rfl hle
  rw [hx, hc.cells_hot hq htls, pageCells_of_live hpg, List.append_assoc]
  congr 1
  simp only [cellsOfPage, hn, List.range_succ, List.map_append, List.map_cons, List.map_nil]
  congr 1
  apply List.map_congr_left
  intro k hk
  have : k ≠ n := by
    have := List.mem_range.1 hk
    omega
  rw [Function.update_noteq this]

theorem mul_succ_le {j h k : Nat} (hjh : j < h) : j * k + k ≤ h * k := by
  have := Nat.mul_le_mul_right k (Nat.succ_le_of_lt hjh)
  rw [Nat.succ_mul] at this
  exact this

/-- The outer loop of `releaseUntil(stop)` on a well-formed thread, for `stop`
slot `i` of page `ids[j]` above which `hi` is pending: with fuel for each
pending slot it returns, having popped exactly `hi`. -/
theorem Chain.releaseLoop_spec {c : Config} {ids : List Nat} {self j i : Nat}
    (hcap : 1 ≤ c.pageEnd) (hself : ids[j]? = some self) :
    ∀ (n : Nat) (s : State) (h q : Nat) (lo hi : List (SlotPtr × AutoreleasePoolEntry))
      (fuel : Nat),
      Chain c s ids h → s.tls = Tls.page q → j ≤ h → (j < h → i < c.pageEnd) →
      cellsOf s ids = lo ++ hi → lo.length = j * c.pageEnd + i → hi.length = n → n < fuel →
      ∃ s1 me1, releaseLoop self (SlotPtr.slot self i) fuel s = Except.ok s1 ∧
        Chain c s1 ids j ∧ s1.tls = Tls.page self ∧ s1.pages self = some me1 ∧
        me1.next = i ∧ cellsOf s1 ids = lo ∧
        s1.released = s.released ++ releasesOf (hi.map Prod.snd) ∧
        s1.complained = s.complained ∧ s1.brk = s.brk ∧
        (hi ≠ [] → me1.slots i = scribbled) ∧ (hi = [] → s1 = s) ∧
        (∀ k q0, k < j → ids[k]? = some q0 → s1.pages q0 = s.pages q0) := by
  intro n
  induction n with
  | zero =>
    intro s h q lo hi fuel hc htls hjh hi_lt hcells hlo hhi hfuel
    have hnil : hi = [] := List.eq_nil_of_length_eq_zero hhi
    subst hnil
    rw [List.append_nil] at hcells
    have hq := hc.hot_page htls
    obtain ⟨pg, hpg, _⟩ := hc.links h q hq
    have hlen := hc.cells_length htls hpg
    rw [hcells, hlo] at hlen
    have hjeq : j = h := by
      by_contra hne
      have hlt : j < h := by omega
      have h1 := mul_succ_le (k := c.pageEnd) hlt
      have h2 := hi_lt hlt
      omega
    subst hjeq
    have hsq : self = q := by
      rw [hself] at hq
      exact Option.some.inj hq
    subst hsq
    have hnext : pg.next = i := by omega
    obtain ⟨f, rfl⟩ : ∃ f, fuel = f + 1 := ⟨fuel - 1, by omega⟩
    refine ⟨s, pg, ?_, hc, htls, hpg, hnext, hcells, by simp [releasesOf], rfl, rfl,
      fun hne => absurd rfl hne, fun _ => rfl, fun _ _ _ _ => rfl⟩
    simp [releaseLoop, hpg, hnext]
  | succ n ih =>
    intro s h q lo hi fuel hc htls hjh hi_lt hcells hlo hhi hfuel
    have hne : hi ≠ [] := by
      intro h0
      rw [h0] at hhi
      simp at hhi
    obtain ⟨f, rfl⟩ : ∃ f, fuel = f + 1 := ⟨fuel - 1, by omega⟩
    have hq := hc.hot_page htls
    obtain ⟨hpg, hhpg, _⟩ := hc.links h q hq
    have hlen := hc.cells_length htls hhpg
    rw [hcells, List.length_append, hlo, hhi] at hlen
    -- the page of `stop`
    obtain ⟨me, hme, _, _, _, _, m5, _⟩ := hc.links j self hself
    have hmenext : me.next ≠ i := by
      by_cases hjeq : j = h
      · subst hjeq
        have hsq : self = q := by
          rw [hself] at hq
          exact Option.some.inj hq
        subst hsq
        rw [hme] at hhpg
        cases hhpg
        omega
      · have hlt : j < h := by omega
        rw [m5 hlt]
        have := hi_lt hlt
        omega
    have hpos : 0 < (cellsOf s ids).length := by
      rw [hcells, List.length_append, hhi]
      omega
    obtain ⟨s1, q1, h1, pg1, hskip, hc1, htls1, hpg1, hpos1, e1, e2, e3, e4, hcase⟩ :=
      hc.skipEmpty_spec hcap htls hpos
    have hh1 : h1 ≤ h := by
      rcases hcase with ⟨r, _⟩ | ⟨r, _⟩ <;> omega
    have hjh1 : j ≤ h1 := by
      rcases hcase with ⟨r, _⟩ | ⟨r, pg0, hpg0, hz⟩
      · omega
      · rw [hhpg] at hpg0
        cases hpg0
        by_contra hcon
        have : j = h := by omega
        subst this
        omega
    obtain ⟨m, hm⟩ : ∃ m, pg1.next = m + 1 := ⟨pg1.next - 1, by omega⟩
    obtain ⟨hc2, hcells2⟩ := hc1.pop_top htls1 hpg1 hm scribbled
    have hcells1 : cellsOf s1 ids = cellsOf s ids := by
      apply cellsOf_congr
      · rw [htls1, htls]
        simp
      · intro p _
        simp only [pageCells, e1]
    obtain ⟨hi0, last, rfl⟩ : ∃ hi0 last, hi = hi0 ++ [last] :=
      ⟨hi.dropLast, hi.getLast hne, (List.dropLast_append_getLast hne).symm⟩
    rw [hcells1, hcells, ← List.append_assoc] at hcells2
    obtain ⟨hcells3, hlast⟩ := List.append_inj' hcells2 rfl
    simp only [List.cons.injEq, and_true] at hlast
    have hhi0 : hi0.length = n := by
      simp only [List.length_append, List.length_singleton] at hhi
      omega
    -- the state after the entry is released
    have hc3 : Chain c
        (releaseEntry (setPage s1 q1
          { pg1 with next := m, slots := Function.update pg1.slots m scribbled }) (pg1.slots m))
        ids h1 :=
      hc2.congr (releaseEntry_pages _ _) (releaseEntry_brk _ _) (releaseEntry_tls _ _)
    have hcells4 : cellsOf
        (releaseEntry (setPage s1 q1
          { pg1 with next := m, slots := Function.update pg1.slots m scribbled }) (pg1.slots m))
        ids = lo ++ hi0 := by
      rw [cellsOf_eq_of_fields ids (releaseEntry_pages _ _) (releaseEntry_tls _ _)]
      exact hcells3.symm
    obtain ⟨s4, me4, r1, r2, r3, r4, r5, r6, r7, r8, r9, r10, r11, r12⟩ :=
      ih _ h1 q1 lo hi0 f hc3 (by rw [releaseEntry_tls]; exact htls1) hjh1
        (fun hlt => hi_lt (by omega)) hcells4 hlo hhi0 (by omega)
    have hframe : ∀ k q0, k < j → ids[k]? = some q0 → s4.pages q0 = s.pages q0 := by
      intro k q0 hk hq0
      have hq1 := hc1.hot_page htls1
      have hne01 : q0 ≠ q1 := by
        intro heq
        rw [heq] at hq0
        have := nodup_idx_unique hc.nodup hq0 hq1
        omega
      rw [r12 k q0 hk hq0, releaseEntry_pages, setPage_pages, if_neg hne01, e1]
    refine ⟨s4, me4, ?_, r2, r3, r4, r5, r6, ?_, ?_, ?_, ?_, fun h0 => absurd h0 hne, hframe⟩
    · have hhot : hotPage s = Except.ok (some q) := by
        simp only [hotPage, htls, hhpg]
      have hnot : ¬ (SlotPtr.slot self me.next = SlotPtr.slot self i) := by
        intro heq
        simp only [SlotPtr.slot.injEq, true_and] at heq
        exact hmenext heq
      have hm1 : pg1.next - 1 = m := by omega
      simp only [releaseLoop, hme, hnot, if_false, hhot, hskip, hpg1, hm1]
      exact r1
    · rw [r7, releaseEntry_released, List.map_append, releasesOf_append, List.append_assoc]
      simp only [setPage_released, e3, List.map_cons, List.map_nil, releasesOf, List.nil_append,
        hlast]
    · rw [r8, releaseEntry_complained]
      exact e4
    · rw [r9, releaseEntry_brk]
      exact e2
    · intro _
      by_cases h0 : hi0 = []
      · have hs4 := r11 h0
        subst h0
        rw [List.append_nil] at hcells4
        have hpg3 : (releaseEntry (setPage s1 q1
            { pg1 with next := m, slots := Function.update pg1.slots m scribbled })
            (pg1.slots m)).pages q1
            = some { pg1 with next := m, slots := Function.update pg1.slots m scribbled } := by
          rw [releaseEntry_pages]
          simp
        have hlen3 := hc3.cells_length (by rw [releaseEntry_tls]; exact htls1) hpg3
        rw [hcells4, hlo] at hlen3
        have hjeq : j = h1 := by
          by_contra hcon
          have hlt : j < h1 := by omega
          have h2 := mul_succ_le (k := c.pageEnd) hlt
          have h3 := hi_lt (by omega : j < h)
          simp only at hlen3
          omega
        subst hjeq
        have hsq : self = q1 := by
          have := hc1.hot_page htls1
          rw [hself] at this
          exact Option.some.inj this
        subst hsq
        have hmi : m = i := by
          simp only at hlen3
          omega
        subst hmi
        rw [hs4, hpg3] at r4
        cases r4
        simp
      · exact r10 h0

theorem pageCells_length (s : State) (p : Nat) :
    (pageCells s p).length =
      (match s.pages p with
        | some pg => pg.next
        | none => 0) := by
  cases hpg : s.pages p with
  | none => simp [pageCells, hpg]
  | some pg => simp [pageCells, hpg, cellsOfPage_length]

theorem Chain.subperm_range {c : Config} {s : State} {ids : List Nat} {h : Nat}
    (hc : Chain c s ids h) : ids.Subperm (List.range s.brk) :=
  List.subperm_of_subset hc.nodup (fun p hp => List.mem_range.2 (hc.below p hp))

theorem Chain.length_le_brk {c : Config} {s : State} {ids : List Nat} {h : Nat}
    (hc : Chain c s ids h) : ids.length ≤ s.brk := by
  have := hc.subperm_range.length_le
  simpa using this

/-- The pending slots are no more than the bound that `releaseUntil` iterates to. -/
theorem Chain.cells_le_occupied {c : Config} {s : State} {ids : List Nat} {h q : Nat}
    (hc : Chain c s ids h) (htls : s.tls = Tls.page q) :
    (cellsOf s ids).length ≤ occupied s := by
  rw [cellsOf_of_page htls, List.length_flatMap]
  obtain ⟨l, hperm, hsub⟩ := hc.subperm_range
  have h1 : (List.map (List.length ∘ pageCells s) ids).sum
      = (List.map (List.length ∘ pageCells s) l).sum :=
    (List.Perm.sum_eq (hperm.map _)).symm
  rw [h1]
  have h2 := List.Sublist.sum_le_sum (hsub.map (List.length ∘ pageCells s))
    (fun a _ => Nat.zero_le a)
  refine le_trans h2 (le_of_eq ?_)
  unfold occupied
  congr 1
  apply List.map_congr_left
  intro p _
  exact pageCells_length s p

/-- The method `releaseUntil(stop)` on a well-formed thread, for `stop` slot
`i` of page `ids[j]` above which `hi` is pending. -/
theorem Chain.releaseUntil_spec {c : Config} {s : State} {ids : List Nat} {self j i h q : Nat}
    {lo hi : List (SlotPtr × AutoreleasePoolEntry)}
    (hcap : 1 ≤ c.pageEnd) (hself : ids[j]? = some self)
    (hc : Chain c s ids h) (htls : s.tls = Tls.page q) (hjh : j ≤ h)
    (hi_lt : j < h → i < c.pageEnd) (hcells : cellsOf s ids = lo ++ hi)
    (hlo : lo.length = j * c.pageEnd + i) :
    ∃ s1 me1, releaseUntil s self (SlotPtr.slot self i) = Except.ok s1 ∧
      Chain c s1 ids j ∧ s1.tls = Tls.page self ∧ s1.pages self = some me1 ∧
      me1.next = i ∧ cellsOf s1 ids = lo ∧
      s1.released = s.released ++ releasesOf (hi.map Prod.snd) ∧
      s1.complained = s.complained ∧ s1.brk = s.brk ∧
      (hi ≠ [] → me1.slots i = scribbled) ∧
      (∀ k q0, k < j → ids[k]? = some q0 → s1.pages q0 = s.pages q0) := by
  have hfuel : hi.length < occupied s + 1 := by
    have h1 := hc.cells_le_occupied htls
    rw [hcells, List.length_append] at h1
    omega
  obtain ⟨s1, me1, r1, r2, r3, r4, r5, r6, r7, r8, r9, r10, _, r12⟩ :=
    Chain.releaseLoop_spec hcap hself hi.length s h q lo hi _ hc htls hjh hi_lt hcells hlo rfl
      hfuel
  refine ⟨s1, me1, ?_, r2, r3, r4, r5, r6, r7, r8, r9, r10, r12⟩
  simp only [releaseUntil, r1, setHotPage, r4]
  congr 1
  cases s1
  simp only at r3
  simp [r3]

theorem PageKept.trans {s s1 s2 : State} {p : Nat} (h1 : PageKept s s1 p)
    (h2 : PageKept s1 s2 p) : PageKept s s2 p := by
  obtain ⟨pg, pg1, a1, a2, a3, a4, a5, a6, a7⟩ := h1
  obtain ⟨pg1b, pg2, b1, b2, b3, b4, b5, b6, b7⟩ := h2
  rw [a2] at b1
  cases b1
  exact ⟨pg, pg2, a1, b2, b3.trans a3, b4.trans a4, b5.trans a5, b6.trans a6, b7.trans a7⟩

theorem PageKept.refl {s : State} {p : Nat} {pg : AutoreleasePoolPage}
    (h : s.pages p = some pg) : PageKept s s p :=
  ⟨pg, pg, h, h, rfl, rfl, rfl, rfl, rfl⟩

@[simp] theorem freePage_pages (s : State) (p q : Nat) :
    (freePage s p).pages q = if q = p then none else s.pages q := by
  simp only [freePage, Function.update_apply]

/-- One turn of the loop of `kill` on the last page of the chain, which lies
below the hot page: the page is unlinked and freed. -/
theorem Chain.drop_last {c : Config} {s : State} {init : List Nat} {last h : Nat}
    (hc : Chain c s (init ++ [last]) h) (hh : h < init.length) :
    ∃ lpg par ppg s1 s2, s.pages last = some lpg ∧ lpg.parent = some par ∧
      init.getLast? = some par ∧ s.pages par = some ppg ∧
      unlinkFromParent s lpg.parent = Except.ok s1 ∧ deletePage s1 last = Except.ok s2 ∧
      Chain c s2 init h ∧ cellsOf s2 init = cellsOf s (init ++ [last]) ∧
      s2.released = s.released ∧ s2.complained = s.complained ∧ s2.brk = s.brk ∧
      s2.tls = s.tls ∧ (∀ p ∈ init, PageKept s s2 p) ∧
      (∀ k q, k + 1 < init.length → init[k]? = some q → s2.pages q = s.pages q) := by
  have hlen : (init ++ [last]).length = init.length + 1 := by simp
  have hlastidx : (init ++ [last])[init.length]? = some last := by
    rw [List.getElem?_append_right (le_refl _)]
    simp
  obtain ⟨lpg, hlpg, l1, l2, l3, l4, l5, l6⟩ := hc.links init.length last hlastidx
  have hlnext : lpg.next = 0 := l6 hh
  have hlchild : lpg.child = none := by
    rw [l2]
    apply List.getElem?_eq_none_iff.2
    omega
  have hi0 : init.length ≠ 0 := by omega
  obtain ⟨k, hk⟩ : ∃ k, init.length = k + 1 := ⟨init.length - 1, by omega⟩
  have hbound0 : k < init.length := by omega
  have hparidx0 : init[k]? = some init[k] := List.getElem?_eq_getElem hbound0
  obtain ⟨par, hparidx⟩ : ∃ par, init[k]? = some par := ⟨_, hparidx0⟩
  have hparidx2 : (init ++ [last])[k]? = some par := by
    rw [List.getElem?_append_left (by omega)]
    exact hparidx
  have hlparent : lpg.parent = some par := by
    rw [l1, hk]
    simp only [Nat.add_one_ne_zero, if_false, Nat.add_sub_cancel]
    exact hparidx2
  obtain ⟨ppg, hppg, p1, p2, p3, p4, p5, p6⟩ := hc.links k par hparidx2
  have hnd := hc.nodup
  rw [List.nodup_append] at hnd
  have hlast_notin : last ∉ init := by
    intro hmem
    exact hnd.2.2 hmem (List.mem_singleton_self _)
  have hpar_in : par ∈ init := List.mem_iff_getElem?.2 ⟨k, hparidx⟩
  have hpar_ne : par ≠ last := fun heq => hlast_notin (heq ▸ hpar_in)
  have hgetlast : init.getLast? = some par := by
    rw [List.getLast?_eq_getElem?, hk]
    simp only [Nat.add_sub_cancel]
    exact hparidx
  have htls : ∃ q, s.tls = Tls.page q ∧ init[h]? = some q := by
    rcases hc.hot with ⟨h1, _⟩ | ⟨q, hq, h1⟩
    · simp at h1
    · rw [List.getElem?_append_left hh] at hq
      exact ⟨q, h1, hq⟩
  obtain ⟨q, htlsq, hq⟩ := htls
  refine ⟨lpg, par, ppg, setPage s par { ppg with child := none },
    freePage (setPage s par { ppg with child := none }) last, hlpg, hlparent, hgetlast, hppg,
    ?_, ?_, ?_, ?_, rfl, rfl, rfl, rfl, ?_, ?_⟩
  · simp only [hlparent, unlinkFromParent, hppg]
  · have hne : last ≠ par := fun heq => hpar_ne heq.symm
    simp only [deletePage, setPage_pages, hne, if_false, hlpg, AutoreleasePoolPage.empty, hlnext,
      hlchild]
    simp
  · refine ⟨hnd.1, ?_, ?_, ?_, Or.inr ⟨q, hq, htlsq⟩⟩
    · intro p
      simp only [freePage_pages, setPage_pages]
      by_cases hpl : p = last
      · subst hpl
        simp only [if_true, ne_eq, not_true_eq_false, false_iff]
        exact hlast_notin
      · simp only [hpl, if_false]
        by_cases hpp : p = par
        · subst hpp
          simp only [if_true, ne_eq, not_false_eq_true, true_iff, reduceCtorEq]
          exact hpar_in
        · simp only [hpp, if_false]
          rw [hc.live p]
          simp [hpl]
    · intro p hp
      exact hc.below p (List.mem_append_left _ hp)
    · intro j p hj
      have hjl := (List.getElem?_eq_some.1 hj).1
      have hj2 : (init ++ [last])[j]? = some p := by
        rw [List.getElem?_append_left hjl]
        exact hj
      have hpin : p ∈ init := List.mem_iff_getElem?.2 ⟨j, hj⟩
      have hpl : p ≠ last := fun heq => hlast_notin (heq ▸ hpin)
      obtain ⟨pg, hpg, b1, b2, b3, b4, b5, b6⟩ := hc.links j p hj2
      have hpar2 : (if j = 0 then none else (init ++ [last])[j - 1]?) =
          (if j = 0 then none else init[j - 1]?) := by
        by_cases hj0 : j = 0
        · simp [hj0]
        · simp only [hj0, if_false]
          rw [List.getElem?_append_left (by omega)]
      by_cases hjk : j = k
      · subst hjk
        rw [hparidx] at hj
        cases hj
        rw [hppg] at hpg
        cases hpg
        refine ⟨{ ppg with child := none }, by simp [hpl], ?_, ?_, b3, b4, b5, b6⟩
        · rw [← hpar2]; exact b1
        · symm
          apply List.getElem?_eq_none_iff.2
          omega
      · have hpp : p ≠ par := by
          intro heq
          subst heq
          exact hjk (nodup_idx_unique hnd.1 hj hparidx)
        refine ⟨pg, by simp [hpl, hpp, hpg], ?_, ?_, b3, b4, b5, b6⟩
        · rw [← hpar2]; exact b1
        · rw [b2, List.getElem?_append_left (by omega)]
  · rw [cellsOf_of_page (q := q) (by exact htlsq), cellsOf_of_page htlsq, List.flatMap_append,
      List.flatMap_singleton, pageCells_of_live hlpg, cellsOfPage_of_empty _ _ hlnext,
      List.append_nil]
    apply flatMap_congr_cells
    intro p hp
    have hpl : p ≠ last := fun heq => hlast_notin (heq ▸ hp)
    by_cases hpp : p = par
    · subst hpp
      simp [pageCells, hpl, hppg, cellsOfPage]
    · simp [pageCells, hpl, hpp]
  · intro p hp
    have hpl : p ≠ last := fun heq => hlast_notin (heq ▸ hp)
    obtain ⟨j, hj⟩ := List.mem_iff_getElem?.1 hp
    have hjl := (List.getElem?_eq_some.1 hj).1
    have hj2 : (init ++ [last])[j]? = some p := by
      rw [List.getElem?_append_left hjl]
      exact hj
    obtain ⟨pg, hpg, _⟩ := hc.links j p hj2
    by_cases hpp : p = par
    · subst hpp
      rw [hppg] at hpg
      cases hpg
      exact ⟨ppg, { ppg with child := none }, hppg, by simp [hpl], rfl, rfl, rfl, rfl, rfl⟩
    · exact ⟨pg, pg, hpg, by simp [hpl, hpp, hpg], rfl, rfl, rfl, rfl, rfl⟩
  · intro k0 q0 hk0 hq0
    have hq0in : q0 ∈ init := List.mem_iff_getElem?.2 ⟨k0, hq0⟩
    have hq0l : q0 ≠ last := fun heq => hlast_notin (heq ▸ hq0in)
    have hq0p : q0 ≠ par := by
      intro heq
      rw [heq] at hq0
      have := nodup_idx_unique hnd.1 hq0 hparidx
      omega
    simp [hq0l, hq0p]

/-- The first loop of `kill` walks to the last page of the chain. -/
theorem Chain.killDescend_spec {c : Config} {s : State} {ids : List Nat} {h : Nat}
    (hc : Chain c s ids h) :
    ∀ (n k q fuel : Nat), ids[k]? = some q → ids.length = k + n + 1 → n < fuel →
      ∃ last, ids[k + n]? = some last ∧ killDescend fuel s q = Except.ok last := by
  intro n
  induction n with
  | zero =>
    intro k q fuel hq hlen hfuel
    obtain ⟨f, rfl⟩ : ∃ f, fuel = f + 1 := ⟨fuel - 1, by omega⟩
    obtain ⟨pg, hpg, _, a2, _⟩ := hc.links k q hq
    have hchild : pg.child = none := by
      rw [a2]
      apply List.getElem?_eq_none_iff.2
      omega
    exact ⟨q, hq, by simp only [killDescend, hpg, hchild]⟩
  | succ n ih =>
    intro k q fuel hq hlen hfuel
    obtain ⟨f, rfl⟩ : ∃ f, fuel = f + 1 := ⟨fuel - 1, by omega⟩
    obtain ⟨pg, hpg, _, a2, _⟩ := hc.links k q hq
    have hbound0 : k + 1 < ids.length := by omega
    have hchidx : ids[k + 1]? = some ids[k + 1] := List.getElem?_eq_getElem hbound0
    obtain ⟨ch, hch⟩ : ∃ ch, ids[k + 1]? = some ch := ⟨_, hchidx⟩
    obtain ⟨last, h1, h2⟩ := ih (k + 1) ch f hch (by omega) (by omega)
    refine ⟨last, ?_, ?_⟩
    · rw [← h1]
      congr 1
      omega
    · simp only [killDescend, hpg, a2, hch]
      exact h2

/-- The second loop of `kill` frees the pages from the last one up to `self`,
all of them below the hot page. -/
theorem Chain.killAscend_spec {c : Config} {h self : Nat} :
    ∀ (n : Nat) (s : State) (keep mid : List Nat) (last fuel : Nat),
      Chain c s (keep ++ mid ++ [last]) h → h < keep.length → mid.length = n →
      (keep ++ mid ++ [last])[keep.length]? = some self → n < fuel →
      ∃ s1, killAscend self fuel s last = Except.ok s1 ∧ Chain c s1 keep h ∧
        cellsOf s1 keep = cellsOf s (keep ++ mid ++ [last]) ∧
        s1.released = s.released ∧ s1.complained = s.complained ∧ s1.brk = s.brk ∧
        s1.tls = s.tls ∧ (∀ p ∈ keep, PageKept s s1 p) ∧
        (∀ k q, k + 1 < keep.length → keep[k]? = some q → s1.pages q = s.pages q) := by
  intro n
  induction n with
  | zero =>
    intro s keep mid last fuel hc hh hmid hself hfuel
    have hnil : mid = [] := List.eq_nil_of_length_eq_zero hmid
    subst hnil
    rw [List.append_nil] at hc hself ⊢
    obtain ⟨f, rfl⟩ : ∃ f, fuel = f + 1 := ⟨fuel - 1, by omega⟩
    have hsl : self = last := by
      rw [List.getElem?_append_right (le_refl _)] at hself
      simpa using hself.symm
    subst hsl
    obtain ⟨lpg, par, ppg, s1, s2, d1, d2, d3, d4, d5, d6, d7, d8, d9, d10, d11, d12, d13,
      d14⟩ := hc.drop_last hh
    refine ⟨s2, ?_, d7, d8, d9, d10, d11, d12, d13, d14⟩
    simp only [killAscend, d1, d5, d6, if_true]
  | succ n ih =>
    intro s keep mid last fuel hc hh hmid hself hfuel
    obtain ⟨f, rfl⟩ : ∃ f, fuel = f + 1 := ⟨fuel - 1, by omega⟩
    have hne : mid ≠ [] := by
      intro h0
      rw [h0] at hmid
      simp at hmid
    obtain ⟨mid0, x, rfl⟩ : ∃ mid0 x, mid = mid0 ++ [x] :=
      ⟨mid.dropLast, mid.getLast hne, (List.dropLast_append_getLast hne).symm⟩
    have hmid0 : mid0.length = n := by
      simp only [List.length_append, List.length_singleton] at hmid
      omega
    have hh2 : h < (keep ++ (mid0 ++ [x])).length := by
      simp only [List.length_append]
      omega
    obtain ⟨lpg, par, ppg, s1, s2, d1, d2, d3, d4, d5, d6, d7, d8, d9, d10, d11, d12, d13,
      d14⟩ := hc.drop_last hh2
    have hparx : par = x := by
      rw [← List.append_assoc, List.getLast?_concat] at d3
      exact (Option.some.inj d3).symm
    subst hparx
    have hself2 : (keep ++ mid0 ++ [par])[keep.length]? = some self := by
      have hl : keep.length < (keep ++ mid0 ++ [par]).length := by
        simp only [List.length_append, List.length_singleton]
        omega
      rw [← List.append_assoc, List.getElem?_append_left hl] at hself
      exact hself
    have hlast_ne : last ≠ self := by
      intro heq
      subst heq
      have hidx : (keep ++ (mid0 ++ [par]) ++ [last])[(keep ++ (mid0 ++ [par])).length]?
          = some last := by
        rw [List.getElem?_append_right (le_refl _)]
        simp
      have := nodup_idx_unique hc.nodup hidx hself
      simp only [List.length_append, List.length_singleton] at this
      omega
    rw [← List.append_assoc] at d7 d8 d13
    obtain ⟨s3, r1, r2, r3, r4, r5, r6, r7, r8, r9⟩ :=
      ih s2 keep mid0 par f d7 hh hmid0 hself2 (by omega)
    refine ⟨s3, ?_, r2, ?_, r4.trans d9, r5.trans d10, r6.trans d11, r7.trans d12, ?_, ?_⟩
    · rw [d2] at d5
      simp only [killAscend, d1, d2, d5, d6, hlast_ne, if_false]
      exact r1
    · rw [r3, d8, List.append_assoc keep]
    · intro p hp
      exact (d13 p (List.mem_append_left _ (List.mem_append_left _ hp))).trans (r8 p hp)
    · intro k q hk hq
      rw [r9 k q hk hq]
      apply d14 k q
      · simp only [List.length_append, List.length_singleton]
        omega
      · rw [List.getElem?_append_left (by omega)]
        exact hq

/-- The method `kill()` of a page below the hot page frees that page and all
pages below it. -/
theorem Chain.kill_spec {c : Config} {s : State} {ids : List Nat} {h m self : Nat}
    (hc : Chain c s ids h) (hm : h < m) (hself : ids[m]? = some self) :
    ∃ s1, kill s self = Except.ok s1 ∧ Chain c s1 (ids.take m) h ∧
      cellsOf s1 (ids.take m) = cellsOf s ids ∧
      s1.released = s.released ∧ s1.complained = s.complained ∧ s1.brk = s.brk ∧
      s1.tls = s.tls ∧ (∀ p ∈ ids.take m, PageKept s s1 p) ∧
      (∀ k q, k + 1 < m → ids[k]? = some q → s1.pages q = s.pages q) := by
  have hml := hc.idx_lt hself
  obtain ⟨n, hn⟩ : ∃ n, ids.length = m + n + 1 := ⟨ids.length - m - 1, by omega⟩
  have hbrk := hc.length_le_brk
  obtain ⟨last, hlast, hdesc⟩ := hc.killDescend_spec n m self (s.brk + 1) hself hn (by omega)
  have hdec : ids = ids.take m ++ (ids.drop m).dropLast ++ [last] := by
    have hdne : ids.drop m ≠ [] := by
      intro h0
      have := congrArg List.length h0
      simp only [List.length_drop, List.length_nil] at this
      omega
    have hgl : (ids.drop m).getLast hdne = last := by
      have h1 : (ids.drop m).getLast? = some last := by
        rw [List.getLast?_drop, if_neg (by omega), List.getLast?_eq_getElem?]
        rw [← hlast]
        congr 1
        omega
      rw [List.getLast?_eq_getLast _ hdne] at h1
      exact Option.some.inj h1
    rw [List.append_assoc, ← hgl, List.dropLast_append_getLast hdne, List.take_append_drop]
  have hklen : (ids.take m).length = m := by
    rw [List.length_take]
    omega
  have hmidlen : ((ids.drop m).dropLast).length = n := by
    simp only [List.length_dropLast, List.length_drop]
    omega
  rw [hdec] at hc
  have hself2 : (ids.take m ++ (ids.drop m).dropLast ++ [last])[(ids.take m).length]?
      = some self := by
    rw [← hdec, hklen]
    exact hself
  obtain ⟨s1, r1, r2, r3, r4, r5, r6, r7, r8, r9⟩ :=
    Chain.killAscend_spec n s (ids.take m) ((ids.drop m).dropLast) last (s.brk + 1) hc
      (by omega) hmidlen hself2 (by omega)
  refine ⟨s1, ?_, r2, ?_, r4, r5, r6, r7, r8, ?_⟩
  · simp only [kill, hdesc]
    exact r1
  · rw [r3, ← hdec]
  · intro k q hk hq
    apply r9 k q (by omega)
    rw [List.getElem?_take, if_pos (by omega)]
    exact hq

theorem Chain.kept_refl {c : Config} {s : State} {ids : List Nat} {h : Nat}
    (hc : Chain c s ids h) : ∀ p ∈ ids, PageKept s s p := by
  intro p hp
  obtain ⟨j, hj⟩ := List.mem_iff_getElem?.1 hp
  obtain ⟨pg, hpg, _⟩ := hc.links j p hj
  exact PageKept.refl hpg

/-- The retention step of `popPage` on a well-formed thread whose hot page is
`self`: pages below the hot page are freed or kept, nothing else changes. -/
theorem Chain.hysteresis_spec {c : Config} {s : State} {ids : List Nat} {j self : Nat}
    {pg : AutoreleasePoolPage} (hc : Chain c s ids j) (hself : ids[j]? = some self)
    (hpg : s.pages self = some pg) :
    ∃ s1 ids1, hysteresis c s self = Except.ok s1 ∧ Chain c s1 ids1 j ∧
      ids1[j]? = some self ∧ cellsOf s1 ids1 = cellsOf s ids ∧
      s1.released = s.released ∧ s1.complained = s.complained ∧ s1.brk = s.brk ∧
      s1.tls = s.tls ∧ (∀ p ∈ ids1, PageKept s s1 p) ∧ (∀ p ∈ ids1, p ∈ ids) ∧
      (pg.next < c.pageEnd / 2 → ids1[j + 1]? = none) ∧ ids1[j + 1 + 1]? = none ∧
      (∀ k q, k < j → ids[k]? = some q → s1.pages q = s.pages q) := by
  obtain ⟨pg0, hpg0, _, a2, _⟩ := hc.links j self hself
  rw [hpg] at hpg0
  cases hpg0
  have hhalf_iff : pg.lessThanHalfFull c = true ↔ pg.next < c.pageEnd / 2 := by
    simp [AutoreleasePoolPage.lessThanHalfFull]
  have hsame : (ids[j + 1]? = none ∨ ¬ pg.next < c.pageEnd / 2) → ids[j + 1 + 1]? = none →
      ∃ s1 ids1, (Except.ok s : Except Fault State) = Except.ok s1 ∧
      Chain c s1 ids1 j ∧
      ids1[j]? = some self ∧ cellsOf s1 ids1 = cellsOf s ids ∧
      s1.released = s.released ∧ s1.complained = s.complained ∧ s1.brk = s.brk ∧
      s1.tls = s.tls ∧ (∀ p ∈ ids1, PageKept s s1 p) ∧ (∀ p ∈ ids1, p ∈ ids) ∧
      (pg.next < c.pageEnd / 2 → ids1[j + 1]? = none) ∧ ids1[j + 1 + 1]? = none ∧
      (∀ k q, k < j → ids[k]? = some q → s1.pages q = s.pages q) := by
    intro hor hgc
    refine ⟨s, ids, rfl, hc, hself, rfl, rfl, rfl, rfl, rfl, hc.kept_refl, fun _ hp => hp, ?_,
      hgc, fun _ _ _ _ => rfl⟩
    intro hlt
    rcases hor with hor | hor
    · exact hor
    · exact absurd hlt hor
  have hnone2 : ∀ m, m ≤ j + 1 + 1 → (ids.take m)[j + 1 + 1]? = none := by
    intro m hm
    rw [List.getElem?_take, if_neg (by omega)]
  have hnone : ∀ m, m ≤ j + 1 → (ids.take m)[j + 1]? = none := by
    intro m hm
    rw [List.getElem?_take, if_neg (by omega)]
  have htake : ∀ m, j < m → (ids.take m)[j]? = some self := by
    intro m hm
    rw [List.getElem?_take, if_pos hm]
    exact hself
  cases hch : ids[j + 1]? with
  | none =>
    simp only [hysteresis, hpg, a2, hch]
    refine hsame (Or.inl hch) ?_
    apply List.getElem?_eq_none_iff.2
    have := List.getElem?_eq_none_iff.1 hch
    omega
  | some ch =>
    by_cases hhalf : pg.lessThanHalfFull c = true
    · obtain ⟨s1, r1, r2, r3, r4, r5, r6, r7, r8, r9⟩ :=
        hc.kill_spec (Nat.lt_succ_self j) hch
      refine ⟨s1, ids.take (j + 1), ?_, r2, htake _ (by omega), r3, r4, r5, r6, r7, r8,
        fun p hp => List.mem_of_mem_take hp, fun _ => hnone _ (le_refl _),
        hnone2 _ (by omega), fun k q hk hq => r9 k q (by omega) hq⟩
      simp only [hysteresis, hpg, a2, hch, hhalf, if_true]
      exact r1
    · have hnlt : ¬ pg.next < c.pageEnd / 2 := fun hlt => hhalf (hhalf_iff.2 hlt)
      obtain ⟨cpg, hcpg, _, c2, _⟩ := hc.links (j + 1) ch hch
      cases hgch : ids[j + 1 + 1]? with
      | none =>
        simp only [hysteresis, hpg, a2, hch, hhalf, if_false, hcpg, c2, hgch]
        exact hsame (Or.inr hnlt) hgch
      | some gch =>
        obtain ⟨s1, r1, r2, r3, r4, r5, r6, r7, r8, r9⟩ :=
          hc.kill_spec (by omega : j < j + 1 + 1) hgch
        refine ⟨s1, ids.take (j + 1 + 1), ?_, r2, htake _ (by omega), r3, r4, r5, r6, r7, r8,
          fun p hp => List.mem_of_mem_take hp, ?_, hnone2 _ (le_refl _),
          fun k q hk hq => r9 k q (by omega) hq⟩
        · simp only [hysteresis, hpg, a2, hch, hhalf, if_false, hcpg, c2, hgch]
          exact r1
        · intro hlt
          exact absurd hlt hnlt

/-- The part of `pop` after the token is resolved, for a token at slot `i` of
page `ids[j]` with `hi` pending above it, in the configuration without
diagnostics. -/
theorem Chain.popAt_pos {c : Config} {s : State} {ids : List Nat} {h q j p i : Nat}
    {pg : AutoreleasePoolPage} {lo hi : List (SlotPtr × AutoreleasePoolEntry)}
    (hnd : c.nonDebug) (hcap : 1 ≤ c.pageEnd)
    (hc : Chain c s ids h) (htls : s.tls = Tls.page q) (hp : ids[j]? = some p)
    (hpg : s.pages p = some pg) (hjh : j ≤ h) (hi_lt : i < c.pageEnd)
    (hcells : cellsOf s ids = lo ++ hi) (hlo : lo.length = j * c.pageEnd + i)
    (hcheck : pg.slots i = boundary ∨ (i = 0 ∧ j = 0)) :
    ∃ s1 pg1, popAt c s p i = Except.ok s1 ∧ Inv c s1 lo ∧
      s1.released = s.released ++ releasesOf (hi.map Prod.snd) ∧
      s1.complained = s.complained ∧ s1.brk = s.brk ∧ s1.tls = Tls.page p ∧
      s1.pages p = some pg1 ∧ pg1.next = i ∧ pg1.parent = pg.parent ∧
      (hi ≠ [] → pg1.slots i = scribbled) ∧ (i < c.pageEnd / 2 → pg1.child = none) := by
  obtain ⟨hd1, hd2, hd3⟩ := hnd
  obtain ⟨pg0, hpg0, a1, _⟩ := hc.links j p hp
  rw [hpg] at hpg0
  cases hpg0
  obtain ⟨s1, me1, r1, r2, r3, r4, r5, r6, r7, r8, r9, r10, _⟩ :=
    hc.releaseUntil_spec hcap hp htls hjh (fun _ => hi_lt) hcells hlo
  obtain ⟨s2, ids1, k1, k2, k3, k4, k5, k6, k7, k8, k9, _, k11, _⟩ := r2.hysteresis_spec hp r4
  obtain ⟨kpg, kpg1, m1, m2, m3, m4, m5, _, _⟩ := k9 p (List.mem_iff_getElem?.2 ⟨j, k3⟩)
  rw [r4] at m1
  cases m1
  obtain ⟨pg1b, hpg1b, b1, _⟩ := r2.links j p hp
  rw [r4] at hpg1b
  cases hpg1b
  refine ⟨s2, kpg1, ?_, ⟨ids1, j, k2, by rw [k4, r6]⟩, k5.trans r7, k6.trans r8, k7.trans r9,
    k8.trans r3, m2, m3.trans r5, ?_, ?_, ?_⟩
  · have hcond : ¬ (idOfEntry (pg.slots i) ≠ POOL_BOUNDARY ∧ ¬ (i = 0 ∧ pg.parent = none)) := by
      rintro ⟨c1, c2⟩
      rcases hcheck with hb | ⟨hi0, hj0⟩
      · exact c1 ((idOfEntry_eq_zero _).2 hb)
      · apply c2
        refine ⟨hi0, ?_⟩
        rw [a1, if_pos hj0]
    have hle : ¬ c.pageEnd ≤ i := by omega
    simp only [popAt, hpg, hle, hcond, if_false, hd1, hd2, hd3, popPage, Bool.false_eq_true,
      false_and, and_false, or_self, r1, r4]
    exact k1
  · rw [m5, b1, a1]
  · intro hne
    rw [m4]
    exact r10 hne
  · intro hlt
    obtain ⟨pg2, hpg2, _, c2, _⟩ := k2.links j p k3
    rw [m2] at hpg2
    cases hpg2
    rw [c2]
    exact k11 (by rw [r5]; exact hlt)

theorem list_split_at {α : Type} (l : List α) (i : Nat) (x : α) (h : l[i]? = some x) :
    l = l.take i ++ x :: l.drop (i + 1) := by
  obtain ⟨h1, h2⟩ := List.getElem?_eq_some.1 h
  rw [← h2, ← List.drop_eq_getElem_cons h1, List.take_append_drop]

/-- Where a pending slot lies: its page is in the chain at or above the hot
page, and the slots before it are the full pages above and the slots below it
in its page. -/
theorem Chain.cell_position {c : Config} {s : State} {ids : List Nat} {h q p i : Nat}
    {e : AutoreleasePoolEntry} {lo hi : List (SlotPtr × AutoreleasePoolEntry)}
    (hc : Chain c s ids h) (htls : s.tls = Tls.page q)
    (hcells : cellsOf s ids = lo ++ (SlotPtr.slot p i, e) :: hi) :
    ∃ j pg, ids[j]? = some p ∧ j ≤ h ∧ s.pages p = some pg ∧ i < pg.next ∧ pg.slots i = e ∧
      lo.length = j * c.pageEnd + i := by
  have hph : s.tls ≠ Tls.EMPTY_POOL_PLACEHOLDER := by rw [htls]; simp
  have hmem : (SlotPtr.slot p i, e) ∈ cellsOf s ids := by
    rw [hcells]
    simp
  obtain ⟨pg, hpg, hi1, hi2⟩ := (hc.mem_cells hph p i e).1 hmem
  have hpin : p ∈ ids := (hc.live p).1 (by rw [hpg]; simp)
  obtain ⟨j, hj⟩ := List.mem_iff_getElem?.1 hpin
  obtain ⟨pg0, hpg0, _, _, _, _, _, a6⟩ := hc.links j p hj
  rw [hpg] at hpg0
  cases hpg0
  have hjh : j ≤ h := by
    by_contra hcon
    have := a6 (by omega)
    omega
  refine ⟨j, pg, hj, hjh, hpg, hi1, hi2, ?_⟩
  obtain ⟨pre, post, hdec, hlen, _, _, _, _⟩ := hc.split_at_idx hj
  have htake : ids.take j = pre := by
    rw [hdec, ← hlen, List.take_left]
  have hcell : (cellsOfPage p pg)[i]? = some (SlotPtr.slot p i, pg.slots i) := by
    simp [cellsOfPage, hi1]
  have hsplit := list_split_at _ i _ hcell
  have hcells2 : cellsOf s ids = (pre.flatMap (pageCells s) ++ (cellsOfPage p pg).take i) ++
      (SlotPtr.slot p i, pg.slots i) :: ((cellsOfPage p pg).drop (i + 1) ++
        post.flatMap (pageCells s)) := by
    rw [cellsOf_of_page htls]
    conv_lhs => rw [hdec]
    rw [List.flatMap_append, List.flatMap_cons, pageCells_of_live hpg]
    conv_lhs => rw [hsplit]
    simp only [List.append_assoc, List.cons_append]
  have hnd := hc.cells_nodup
  rw [hcells] at hnd
  rw [hcells] at hcells2
  obtain ⟨hlo, _, _⟩ := split_unique hnd hcells2
  rw [hlo, List.length_append, ← htake, hc.prefix_length hjh (le_of_lt (hc.idx_lt hj)),
    List.length_take, cellsOfPage_length, Nat.min_eq_left (le_of_lt hi1)]

/-- The parent walk of `coldPage()` ends at the first page of the chain. -/
theorem Chain.coldLoop_spec {c : Config} {s : State} {ids : List Nat} {h : Nat}
    (hc : Chain c s ids h) :
    ∀ (k q fuel : Nat), ids[k]? = some q → k < fuel →
      ∃ root, ids[0]? = some root ∧ coldLoop fuel s q = Except.ok root := by
  intro k
  induction k with
  | zero =>
    intro q fuel hq hfuel
    obtain ⟨f, rfl⟩ : ∃ f, fuel = f + 1 := ⟨fuel - 1, by omega⟩
    obtain ⟨pg, hpg, a1, _⟩ := hc.links 0 q hq
    rw [if_pos rfl] at a1
    exact ⟨q, hq, by simp only [coldLoop, hpg, a1]⟩
  | succ k ih =>
    intro q fuel hq hfuel
    obtain ⟨f, rfl⟩ : ∃ f, fuel = f + 1 := ⟨fuel - 1, by omega⟩
    obtain ⟨pg, hpg, a1, _⟩ := hc.links (k + 1) q hq
    have hlt := hc.idx_lt hq
    have hbound0 : k < ids.length := by omega
    have hparidx : ids[k]? = some ids[k] := List.getElem?_eq_getElem hbound0
    obtain ⟨par, hpar⟩ : ∃ par, ids[k]? = some par := ⟨_, hparidx⟩
    have hparent : pg.parent = some par := by
      rw [a1]
      simp only [Nat.add_one_ne_zero, if_false, Nat.add_sub_cancel]
      exact hpar
    obtain ⟨root, h1, h2⟩ := ih par f hpar (by omega)
    exact ⟨root, h1, by simp only [coldLoop, hpg, hparent]; exact h2⟩

theorem Chain.coldPage_spec {c : Config} {s : State} {ids : List Nat} {h q : Nat}
    (hc : Chain c s ids h) (htls : s.tls = Tls.page q) :
    ∃ root pg, ids[0]? = some root ∧ s.pages root = some pg ∧
      coldPage s = Except.ok (some root) ∧ hotPage s = Except.ok (some q) := by
  have hq := hc.hot_page htls
  obtain ⟨hpg, hhpg, _⟩ := hc.links h q hq
  have hhot : hotPage s = Except.ok (some q) := by simp only [hotPage, htls, hhpg]
  have hlt := hc.idx_lt hq
  have hbrk := hc.length_le_brk
  obtain ⟨root, h1, h2⟩ := hc.coldLoop_spec h q (s.brk + 1) hq (by omega)
  obtain ⟨pg, hpg, _⟩ := hc.links 0 root h1
  exact ⟨root, pg, h1, hpg, by simp only [coldPage, hhot, h2], hhot⟩

theorem releasesOf_boundary : releasesOf [boundary] = [] := by
  simp [releasesOf, releasesOfEntry, boundary, POOL_BOUNDARY]

/-- The call `pop(EMPTY_POOL_PLACEHOLDER)` on a well-formed thread releases
every pending slot. -/
theorem pop_placeholder_spec {c : Config} {s : State}
    {cells : List (SlotPtr × AutoreleasePoolEntry)} (hnd : c.nonDebug) (hcap : 1 ≤ c.pageEnd)
    (hinv : Inv c s cells) :
    ∃ s1, pop c s SlotPtr.EMPTY_POOL_PLACEHOLDER = Except.ok s1 ∧ Inv c s1 [] ∧
      s1.released = s.released ++ releasesOf (cells.map Prod.snd) ∧
      s1.complained = s.complained ∧ s1.brk = s.brk ∧
      (∀ q, s.tls = Tls.page q → ∃ root pg0 pg, s.pages root = some pg0 ∧ pg0.parent = none ∧
        s1.tls = Tls.page root ∧ s1.pages root = some pg ∧ pg.next = 0 ∧ pg.parent = none ∧
        (2 ≤ c.pageEnd → pg.child = none) ∧
        pop c s SlotPtr.EMPTY_POOL_PLACEHOLDER = pop c s (SlotPtr.slot root 0)) ∧
      (s.tls = Tls.EMPTY_POOL_PLACEHOLDER ∨ s.tls = Tls.nil → s1.tls = Tls.nil ∧ s1.pages = s.pages) := by
  obtain ⟨ids, h, hc, hcells⟩ := hinv
  subst hcells
  cases htls : s.tls with
  | nil =>
    have hids := hc.ids_nil (Or.inl htls)
    subst hids
    refine ⟨{ s with tls := Tls.nil }, ?_, ⟨[], 0, ?_, ?_⟩, ?_, rfl, rfl, ?_, fun _ => ⟨rfl, rfl⟩⟩
    · simp only [pop, hotPage, htls, setHotPage]
    · exact ⟨hc.nodup, hc.live, hc.below, fun j p hj => by simp at hj, Or.inl ⟨rfl, Or.inl rfl⟩⟩
    · simp [cellsOf]
    · simp [cellsOf, htls, releasesOf]
    · intro q hq
      cases hq
  | EMPTY_POOL_PLACEHOLDER =>
    have hids := hc.ids_nil (Or.inr htls)
    subst hids
    refine ⟨{ s with tls := Tls.nil }, ?_, ⟨[], 0, ?_, ?_⟩, ?_, rfl, rfl, ?_, fun _ => ⟨rfl, rfl⟩⟩
    · simp only [pop, hotPage, htls, setHotPage]
    · exact ⟨hc.nodup, hc.live, hc.below, fun j p hj => by simp at hj, Or.inl ⟨rfl, Or.inl rfl⟩⟩
    · simp [cellsOf]
    · simp [cellsOf, htls, releasesOf_boundary]
    · intro q hq
      cases hq
  | page q =>
    obtain ⟨root, pg, hroot, hpg, hcold, hhot⟩ := hc.coldPage_spec htls
    obtain ⟨pg0, hpg0, a1, _, _, a4, _⟩ := hc.links 0 root hroot
    rw [hpg] at hpg0
    cases hpg0
    rw [if_pos rfl] at a1
    obtain ⟨s1, pg1, r1, r2, r3, r4, r5, r6, r7, r8, r9, _, r11⟩ :=
      hc.popAt_pos hnd hcap htls hroot hpg (Nat.zero_le _)
        (by omega) (show cellsOf s ids = [] ++ cellsOf s ids from rfl) (by simp)
        (Or.inr ⟨rfl, rfl⟩)
    refine ⟨s1, ?_, r2, r3, r4, r5, ?_, ?_⟩
    · simp only [pop, hhot, hcold]
      exact r1
    · intro _ _
      exact ⟨root, pg, pg1, hpg, a1, r6, r7, r8, r9.trans a1,
        fun h2 => r11 (Nat.div_pos h2 (by decide)),
        by simp only [pop, hhot, hcold, pageForPointer, hpg]⟩
    · intro hcon
      rcases hcon with hcon | hcon <;> cases hcon

theorem Inv.cells_of_nil {c : Config} {s : State}
    {cells : List (SlotPtr × AutoreleasePoolEntry)} (hinv : Inv c s cells)
    (htls : s.tls = Tls.nil) : cells = [] := by
  obtain ⟨ids, h, hc, hcells⟩ := hinv
  have hids := hc.ids_nil (Or.inl htls)
  subst hids
  rw [hcells]
  simp [cellsOf, htls]

theorem Inv.cells_of_placeholder {c : Config} {s : State}
    {cells : List (SlotPtr × AutoreleasePoolEntry)} (hinv : Inv c s cells)
    (htls : s.tls = Tls.EMPTY_POOL_PLACEHOLDER) :
    cells = [(SlotPtr.EMPTY_POOL_PLACEHOLDER, boundary)] := by
  obtain ⟨ids, h, hc, hcells⟩ := hinv
  rw [hcells]
  simp [cellsOf, htls]

theorem Inv.addr_of_page {c : Config} {s : State}
    {cells : List (SlotPtr × AutoreleasePoolEntry)} (hinv : Inv c s cells) {q : Nat}
    (htls : s.tls = Tls.page q) {a : SlotPtr} {e : AutoreleasePoolEntry}
    (hmem : (a, e) ∈ cells) : ∃ p i, a = SlotPtr.slot p i := by
  obtain ⟨ids, h, hc, hcells⟩ := hinv
  rw [hcells, cellsOf_of_page htls, List.mem_flatMap] at hmem
  obtain ⟨p, _, hp⟩ := hmem
  obtain ⟨i, hi⟩ := fst_mem_pageCells (List.mem_map_of_mem Prod.fst hp)
  exact ⟨p, i, hi⟩

/-- The call `pop(token)` for the token of an open scope, in the configuration
without diagnostics: it returns, everything from the boundary of the scope up
is released, and what was pending below stays pending. -/
theorem pop_token_spec {c : Config} {s : State}
    {lo hi : List (SlotPtr × AutoreleasePoolEntry)} {a t : SlotPtr} {e : AutoreleasePoolEntry}
    (hnd : c.nonDebug) (hcap : 1 ≤ c.pageEnd) (hinv : Inv c s (lo ++ (a, e) :: hi))
    (hmatch : (t = a ∧ e = boundary) ∨ (t = SlotPtr.EMPTY_POOL_PLACEHOLDER ∧ lo = [])) :
    ∃ s1, pop c s t = Except.ok s1 ∧ Inv c s1 lo ∧
      s1.released = s.released ++ releasesOf (e :: hi.map Prod.snd) ∧
      s1.complained = s.complained ∧ s1.brk = s.brk ∧
      (∀ p i, t = SlotPtr.slot p i → ∃ pg pg1, s.pages p = some pg ∧ s1.tls = Tls.page p ∧
        s1.pages p = some pg1 ∧ pg1.next = i ∧ pg1.parent = pg.parent ∧
        pg1.slots i = scribbled ∧ i < c.pageEnd) := by
  have hplace : t = SlotPtr.EMPTY_POOL_PLACEHOLDER → lo = [] →
      ∃ s1, pop c s t = Except.ok s1 ∧ Inv c s1 lo ∧
      s1.released = s.released ++ releasesOf (e :: hi.map Prod.snd) ∧
      s1.complained = s.complained ∧ s1.brk = s.brk ∧
      (∀ p i, t = SlotPtr.slot p i → ∃ pg pg1, s.pages p = some pg ∧ s1.tls = Tls.page p ∧
        s1.pages p = some pg1 ∧ pg1.next = i ∧ pg1.parent = pg.parent ∧
        pg1.slots i = scribbled ∧ i < c.pageEnd) := by
    intro ht hlo
    subst ht
    subst hlo
    obtain ⟨s1, r1, r2, r3, r4, r5, _⟩ := pop_placeholder_spec hnd hcap hinv
    exact ⟨s1, r1, r2, r3, r4, r5, fun p i hp => by cases hp⟩
  rcases hmatch with ⟨hta, heb⟩ | ⟨ht, hlo⟩
  · subst hta
    subst heb
    cases htls : s.tls with
    | nil =>
      have := hinv.cells_of_nil htls
      simp at this
    | EMPTY_POOL_PLACEHOLDER =>
      have hcells := hinv.cells_of_placeholder htls
      have hlen := congrArg List.length hcells
      simp only [List.length_append, List.length_cons, List.length_nil] at hlen
      have hlo : lo = [] := List.eq_nil_of_length_eq_zero (by omega)
      subst hlo
      simp only [List.nil_append, List.cons.injEq, Prod.mk.injEq] at hcells
      exact hplace hcells.1.1 rfl
    | page q =>
      obtain ⟨p, i, hpi⟩ := hinv.addr_of_page htls (a := t) (e := boundary) (by simp)
      subst hpi
      obtain ⟨ids, h, hc, hcells⟩ := hinv
      obtain ⟨j, pg, hj, hjh, hpg, hi1, hi2, hlo⟩ := hc.cell_position htls hcells.symm
      obtain ⟨_, _, _, _, _, a4, _⟩ := hc.links j p hj
      obtain ⟨pg0, hpg0, _, _, _, b4, _⟩ := hc.links j p hj
      rw [hpg] at hpg0
      cases hpg0
      obtain ⟨s1, pg1, r1, r2, r3, r4, r5, r6, r7, r8, r9, r10, _⟩ :=
        hc.popAt_pos hnd hcap htls hj hpg hjh (by omega) hcells.symm hlo (Or.inl hi2)
      refine ⟨s1, ?_, r2, r3, r4, r5, ?_⟩
      · simp only [pop, pageForPointer, hpg]
        exact r1
      · intro p2 i2 heq
        cases heq
        exact ⟨pg, pg1, hpg, r6, r7, r8, r9, r10 (by simp), by omega⟩
  · exact hplace ht hlo

theorem isRef_lt {obj : Nat} (h : IsRef obj) : obj < 2 ^ 48 := h.2

/-- The public `push()` on a well-formed thread, when `HotOK` holds. -/
theorem push_spec {c : Config} {s : State}
    {cells : List (SlotPtr × AutoreleasePoolEntry)} (hnd : c.nonDebug) (hcap : 2 ≤ c.pageEnd)
    (hinv : Inv c s cells) (hok : HotOK c s POOL_BOUNDARY) :
    ∃ s1 t cells1, push c s = Except.ok (s1, t) ∧ Inv c s1 cells1 ∧
      AddRel c POOL_BOUNDARY t cells cells1 ∧ s1.released = s.released ∧
      s1.complained = s.complained ∧
      ((t = SlotPtr.EMPTY_POOL_PLACEHOLDER ∧ s.tls = Tls.nil) ∨
        ∃ p i pg, t = SlotPtr.slot p i ∧ s1.pages p = some pg ∧ pg.slots i = boundary ∧
          s1.tls = Tls.page p) := by
  obtain ⟨s1, t, cells1, r1, r2, r3, r4, r5, r6⟩ :=
    autoreleaseFast_spec hnd hcap hinv POOL_BOUNDARY (by decide) hok
  have hd1 := hnd.1
  rcases r6 with ⟨ht, _, htls⟩ | ⟨p, i, pg, ht, hpg, _, htls, hb⟩
  · subst ht
    refine ⟨s1, _, cells1, ?_, r2, r3, r4, r5, Or.inl ⟨rfl, htls⟩⟩
    simp only [push, hd1, Bool.false_eq_true, if_false, r1]
  · subst ht
    refine ⟨s1, _, cells1, ?_, r2, r3, r4, r5, Or.inr ⟨p, i, pg, rfl, hpg, hb rfl, htls⟩⟩
    have hid : idOfEntry (pg.slots i) = POOL_BOUNDARY := (idOfEntry_eq_zero _).2 (hb rfl)
    simp only [push, hd1, Bool.false_eq_true, if_false, r1, hpg, hid, if_true]

/-- The public `autorelease(obj)` of a reference on a well-formed thread, when
`HotOK` holds. -/
theorem autorelease_spec {c : Config} {s : State}
    {cells : List (SlotPtr × AutoreleasePoolEntry)} (hnd : c.nonDebug) (hcap : 2 ≤ c.pageEnd)
    (hinv : Inv c s cells) {obj : Nat} (hobj : IsRef obj) (hok : HotOK c s obj) :
    ∃ s1 t cells1, autorelease c s obj = Except.ok (s1, obj) ∧ Inv c s1 cells1 ∧
      AddRel c obj t cells cells1 ∧ s1.released = s.released ∧
      s1.complained = s.complained ∧ (∃ q, s1.tls = Tls.page q) := by
  obtain ⟨s1, t, cells1, r1, r2, r3, r4, r5, r6⟩ :=
    autoreleaseFast_spec hnd hcap hinv obj hobj.2 hok
  rcases r6 with ⟨_, h0, _⟩ | ⟨p, i, pg, ht, hpg, hptr, htls, _⟩
  · exact absurd h0 hobj.1
  · subst ht
    refine ⟨s1, _, cells1, ?_, r2, r3, r4, r5, ⟨p, htls⟩⟩
    simp only [autorelease, r1, hpg, hptr, if_true]

/-- A registration that reads a slot holding a count as an object does not
return. -/
theorem autoreleaseFast_fault {c : Config} {s : State} {obj : Nat} (hbad : ¬ HotOK c s obj) :
    autoreleaseFast c s obj = Except.error Fault.badAccess := by
  unfold HotOK at hbad
  push_neg at hbad
  obtain ⟨p, pg, htls, hpg, hroom, hco, hprev⟩ := hbad
  have hhot : hotPage s = Except.ok (some p) := by simp only [hotPage, htls, hpg]
  have hguard : pg.next ≠ 0 ∧ idOfEntry (pg.slots (pg.next - 1)) ≠ POOL_BOUNDARY ∧
      isObject (idOfEntry (pg.slots (pg.next - 1))) = false := by
    unfold PrevOK at hprev
    push_neg at hprev
    exact ⟨hprev.1, hprev.2.1, by simpa using hprev.2.2⟩
  simp only [autoreleaseFast, hhot, hpg, full_eq_false hroom, add, hco, if_pos hguard]
  simp

/-- The public `push()` when the boundary would be stored above a slot that
holds a count. -/
theorem push_fault {c : Config} {s : State} (hd : c.DebugPoolAllocation = false)
    (hbad : ¬ HotOK c s POOL_BOUNDARY) : push c s = Except.error Fault.badAccess := by
  simp only [push, hd, Bool.false_eq_true, if_false, autoreleaseFast_fault hbad]

/-- The public `autorelease(obj)` when `obj` would be stored above a slot that
holds a count. -/
theorem autorelease_fault {c : Config} {s : State} {obj : Nat} (hbad : ¬ HotOK c s obj) :
    autorelease c s obj = Except.error Fault.badAccess := by
  simp only [autorelease, autoreleaseFast_fault hbad]

theorem TokensIn.split {base : List (SlotPtr × AutoreleasePoolEntry)} :
    ∀ (inner : List SlotPtr) {t : SlotPtr} {outer : List SlotPtr}
      {cells : List (SlotPtr × AutoreleasePoolEntry)},
      TokensIn base (inner ++ t :: outer) cells →
      ∃ lo a hi, cells = lo ++ (a, boundary) :: hi ∧ TokensIn base outer lo ∧
        (t = a ∨ (t = SlotPtr.EMPTY_POOL_PLACEHOLDER ∧ lo = [])) := by
  intro inner
  induction inner with
  | nil =>
    intro t outer cells h
    cases h with
    | cons hi h1 h2 => exact ⟨_, _, hi, rfl, h1, h2⟩
  | cons x inner ih =>
    intro t outer cells h
    cases h with
    | @cons _ _ lo a hi h1 h2 =>
      obtain ⟨lo1, a1, hi1, e1, e2, e3⟩ := ih h1
      refine ⟨lo1, a1, hi1 ++ (a, boundary) :: hi, ?_, e2, e3⟩
      rw [e1]
      simp

/-- A registration leaves the open tokens where they are. -/
theorem TokensIn.add {c : Config} {obj : Nat} {t t0 : SlotPtr} {toks : List SlotPtr}
    {base cells cells1 : List (SlotPtr × AutoreleasePoolEntry)}
    (h : TokensIn base (t0 :: toks) cells) (hadd : AddRel c obj t cells cells1) :
    TokensIn base (t0 :: toks) cells1 := by
  cases h with
  | @cons _ _ lo a hi h1 h2 =>
    rcases hadd with (happ | ⟨A, addrs, e, R, g1, g2, g3, _, _, _, _, g8, _⟩) | ⟨a1, g1, g2⟩
    · rw [happ, List.append_assoc, List.cons_append]
      exact TokensIn.cons _ h1 h2
    · -- coalescing happens above the boundary
      obtain ⟨a0, rest, hz⟩ : ∃ a0 rest, addrs = a0 :: rest := by
        cases addrs with
        | nil => simp at g3
        | cons a0 rest => exact ⟨a0, rest, rfl⟩
      subst hz
      rw [List.append_eq_append_iff] at g1
      rcases g1 with ⟨A1, k1, k2⟩ | ⟨C1, k1, k2⟩
      · -- A = lo ++ A1, (a, boundary) :: hi = A1 ++ zip
        cases A1 with
        | nil =>
          exfalso
          simp only [List.nil_append, List.zip_cons_cons, List.cons.injEq, Prod.mk.injEq] at k2
          exact g8 e (List.mem_cons_self _ _) k2.1.2.symm
        | cons y A2 =>
          simp only [List.cons_append, List.cons.injEq] at k2
          rw [g2, k1, ← k2.1, List.append_assoc, List.cons_append]
          exact TokensIn.cons _ h1 h2
      · -- lo = A ++ C1, zip = C1 ++ (a, boundary) :: hi
        exfalso
        have hmem : (a, boundary) ∈ List.zip (a0 :: rest) (e :: R) := by
          rw [k2]
          simp
        exact g8 _ (List.of_mem_zip hmem).2 rfl
    · -- the placeholder becomes a page
      have hlen := congrArg List.length g1
      simp only [List.length_append, List.length_cons, List.length_nil] at hlen
      have hlo : lo = [] := List.eq_nil_of_length_eq_zero (by omega)
      subst hlo
      simp only [List.nil_append, List.cons.injEq, Prod.mk.injEq] at g1
      have ht0 : t0 = SlotPtr.EMPTY_POOL_PLACEHOLDER := by
        rcases h2 with h2 | h2
        · rw [h2, g1.1.1]
        · exact h2.1
      rw [g2]
      exact @TokensIn.cons base _ _ [] _ [(t, ⟨obj, 0⟩)] h1 (Or.inr ⟨ht0, rfl⟩)

/-- A `push()` opens a scope above the open ones. -/
theorem TokensIn.push {c : Config} {t : SlotPtr} {toks : List SlotPtr}
    {base cells cells1 : List (SlotPtr × AutoreleasePoolEntry)}
    (h : TokensIn base toks cells) (hadd : AddRel c POOL_BOUNDARY t cells cells1) :
    ∃ base1, TokensIn base1 (t :: toks) cells1 ∧ (base = [] → base1 = []) := by
  rcases hadd with hcore | ⟨a1, g1, g2⟩
  · have happ := hcore.of_boundary
    rw [happ]
    exact ⟨base, TokensIn.cons [] h (Or.inl rfl), fun hb => hb⟩
  · subst g2
    cases h with
    | nil =>
      refine ⟨[(a1, boundary)], ?_, fun hb => ?_⟩
      · exact @TokensIn.cons _ _ _ [(a1, boundary)] _ [] TokensIn.nil (Or.inl rfl)
      · rw [hb] at g1
        simp at g1
    | @cons t0 toks0 lo a hi h1 h2 =>
      have hlen := congrArg List.length g1
      simp only [List.length_append, List.length_cons, List.length_nil] at hlen
      have hlo : lo = [] := List.eq_nil_of_length_eq_zero (by omega)
      subst hlo
      have ht0 : t0 = SlotPtr.EMPTY_POOL_PLACEHOLDER := by
        simp only [List.nil_append, List.cons.injEq, Prod.mk.injEq] at g1
        rcases h2 with h2 | h2
        · rw [h2, g1.1.1]
        · exact h2.1
      refine ⟨base, ?_, fun hb => hb⟩
      have hmid : TokensIn base (t0 :: toks0) ([] ++ (a1, boundary) :: []) :=
        TokensIn.cons [] h1 (Or.inr ⟨ht0, rfl⟩)
      exact @TokensIn.cons base _ _ ([] ++ (a1, boundary) :: []) _ [] hmid (Or.inl rfl)

theorem map_snd_zip_eq {α β : Type} (l1 : List α) (l2 : List β) (h : l1.length = l2.length) :
    (List.zip l1 l2).map Prod.snd = l2 :=
  List.map_snd_zip l1 l2 (le_of_eq h.symm)

/-- A registration seen on the entries alone. -/
theorem AddRel.entries {c : Config} {obj : Nat} {t : SlotPtr}
    {cells cells1 : List (SlotPtr × AutoreleasePoolEntry)} (h : AddRel c obj t cells cells1) :
    AddEntries c obj (cells.map Prod.snd) (cells1.map Prod.snd) := by
  rcases h with (happ | ⟨A, addrs, e, R, g1, g2, g3, _, g5, g6, g7, g8, g9, g10⟩) | ⟨a1, g1, g2⟩
  · left
    rw [happ, List.map_append]
    rfl
  · right
    refine ⟨g5, A.map Prod.snd, e, R, ?_, ?_, g6, g7, g8, g9, g10⟩
    · rw [g1, List.map_append, map_snd_zip_eq _ _ (by simp [g3])]
    · rw [g2, List.map_append, map_snd_zip_eq _ _ (by simp [g3])]
  · left
    rw [g1, g2]
    rfl

/-- A registration above an open boundary leaves the boundary and what is
below it as they are. -/
theorem AddRel.above {c : Config} {obj : Nat} {t a : SlotPtr}
    {lo X cells1 : List (SlotPtr × AutoreleasePoolEntry)}
    (h : AddRel c obj t (lo ++ (a, boundary) :: X) cells1) :
    ∃ a1 X1, cells1 = lo ++ (a1, boundary) :: X1 ∧
      (a1 = a ∨ (a = SlotPtr.EMPTY_POOL_PLACEHOLDER ∧ lo = [])) ∧
      AddEntries c obj (X.map Prod.snd) (X1.map Prod.snd) := by
  rcases h with (happ | ⟨A, addrs, e, R, g1, g2, g3, _, g5, g6, g7, g8, g9, g10⟩) | ⟨a1, g1, g2⟩
  · refine ⟨a, X ++ [(t, ⟨obj, 0⟩)], ?_, Or.inl rfl, Or.inl ?_⟩
    · rw [happ, List.append_assoc, List.cons_append]
    · rw [List.map_append]
      rfl
  · obtain ⟨a0, rest, hz⟩ : ∃ a0 rest, addrs = a0 :: rest := by
      cases addrs with
      | nil => simp at g3
      | cons a0 rest => exact ⟨a0, rest, rfl⟩
    subst hz
    rw [List.append_eq_append_iff] at g1
    rcases g1 with ⟨A1, k1, k2⟩ | ⟨C1, k1, k2⟩
    · cases A1 with
      | nil =>
        exfalso
        simp only [List.nil_append, List.zip_cons_cons, List.cons.injEq, Prod.mk.injEq] at k2
        exact g8 e (List.mem_cons_self _ _) k2.1.2.symm
      | cons y A2 =>
        simp only [List.cons_append, List.cons.injEq] at k2
        refine ⟨a, A2 ++ List.zip (a0 :: rest) (R ++ [⟨obj, e.count + 1⟩]), ?_, Or.inl rfl,
          Or.inr ⟨g5, A2.map Prod.snd, e, R, ?_, ?_, g6, g7, g8, g9, g10⟩⟩
        · rw [g2, k1, ← k2.1, List.append_assoc, List.cons_append]
        · rw [k2.2, List.map_append, map_snd_zip_eq _ _ (by simpa using g3)]
        · rw [List.map_append, map_snd_zip_eq _ _ (by simpa using g3)]
    · exfalso
      have hmem : (a, boundary) ∈ List.zip (a0 :: rest) (e :: R) := by
        rw [k2]
        simp
      exact g8 _ (List.of_mem_zip hmem).2 rfl
  · have hlen := congrArg List.length g1
    simp only [List.length_append, List.length_cons, List.length_nil] at hlen
    have hlo : lo = [] := List.eq_nil_of_length_eq_zero (by omega)
    have hX : X = [] := List.eq_nil_of_length_eq_zero (by omega)
    subst hlo
    subst hX
    simp only [List.nil_append, List.cons.injEq, Prod.mk.injEq, and_true] at g1
    refine ⟨a1, [(t, ⟨obj, 0⟩)], ?_, Or.inr ⟨g1, rfl⟩, Or.inl rfl⟩
    rw [g2]
    rfl

theorem releasesOfEntry_ref {obj n : Nat} (h : obj ≠ POOL_BOUNDARY) :
    releasesOfEntry ⟨obj, n⟩ = List.replicate (n + 1) obj := by
  simp [releasesOfEntry, h]

theorem releasesOf_singleton (e : AutoreleasePoolEntry) :
    releasesOf [e] = releasesOfEntry e := by
  simp [releasesOf]

/-- A registration adds one release of `obj` to what a pop will release. -/
theorem AddEntries.perm_one {c : Config} {obj : Nat} {es es1 : List AutoreleasePoolEntry}
    (h : AddEntries c obj es es1) (hobj : obj ≠ POOL_BOUNDARY) :
    List.Perm (releasesOf es1) (obj :: releasesOf es) := by
  rcases h with happ | ⟨_, A, e, R, g1, g2, g6, _, _, _, _⟩
  · rw [happ, releasesOf_append, releasesOf_singleton, releasesOfEntry_ref hobj]
    exact List.Perm.refl _
  · rw [g1, g2, releasesOf_append, releasesOf_append, releasesOf_append, releasesOf_singleton,
      releasesOfEntry_ref hobj]
    have he : releasesOf (e :: R) = releasesOf R ++ List.replicate (e.count + 1) obj := by
      simp only [releasesOf]
      congr 1
      cases e with
      | mk p n =>
        simp only at g6
        subst g6
        exact releasesOfEntry_ref hobj
    rw [he, List.replicate_succ, List.cons_append, List.cons_append]
    apply List.Perm.cons
    rw [List.append_assoc, List.append_assoc]
    exact List.perm_append_comm_assoc _ _ _

/-- A boundary marker is appended and releases nothing. -/
theorem AddEntries.boundary_snoc {c : Config} {es es1 : List AutoreleasePoolEntry}
    (h : AddEntries c POOL_BOUNDARY es es1) : es1 = es ++ [boundary] := by
  rcases h with happ | ⟨h0, _⟩
  · exact happ
  · exact absurd rfl h0

/-- A reference that no pending entry above the boundary holds is appended. -/
theorem AddEntries.fresh {c : Config} {obj : Nat} {es es1 : List AutoreleasePoolEntry}
    (h : AddEntries c obj es es1) (hfresh : ∀ x ∈ es, x.ptr ≠ obj) : es1 = es ++ [⟨obj, 0⟩] := by
  rcases h with happ | ⟨_, A, e, R, g1, _, g6, _⟩
  · exact happ
  · exfalso
    exact hfresh e (by rw [g1]; simp) g6

theorem inv_init (c : Config) : Inv c State.init [] := by
  refine ⟨[], 0, ⟨List.nodup_nil, ?_, ?_, ?_, Or.inl ⟨rfl, Or.inl rfl⟩⟩, ?_⟩
  · intro p
    simp [State.init]
  · intro p hp
    cases hp
  · intro j p hj
    simp at hj
  · simp [cellsOf, State.init]

/-- Every reachable state is well formed and the tokens of its open scopes sit
on boundary markers of its pending slots. -/
theorem Reach.inv {c : Config} (hnd : c.nonDebug) (hcap : 2 ≤ c.pageEnd) {s : State}
    {toks : List SlotPtr} (hr : Reach c s toks) :
    ∃ cells base, Inv c s cells ∧ TokensIn base toks cells := by
  induction hr with
  | init => exact ⟨[], [], inv_init c, TokensIn.nil⟩
  | @push s toks s1 t _ hpush ih =>
    obtain ⟨cells, base, hinv, htok⟩ := ih
    have hok : HotOK c s POOL_BOUNDARY := by
      by_contra hbad
      rw [push_fault hnd.1 hbad] at hpush
      cases hpush
    obtain ⟨s2, t2, cells1, r1, r2, r3, _⟩ := push_spec hnd hcap hinv hok
    rw [hpush] at r1
    cases r1
    obtain ⟨base1, hb, _⟩ := htok.push r3
    exact ⟨cells1, base1, r2, hb⟩
  | @autorelease s toks obj s1 r _ hobj hauto ih =>
    obtain ⟨cells, base, hinv, htok⟩ := ih
    have hok : HotOK c s obj := by
      by_contra hbad
      rw [autorelease_fault hbad] at hauto
      cases hauto
    obtain ⟨s2, t2, cells1, r1, r2, r3, _⟩ := autorelease_spec hnd hcap hinv hobj hok
    rw [hauto] at r1
    cases r1
    cases toks with
    | nil => exact ⟨cells1, cells1, r2, TokensIn.nil⟩
    | cons t0 toks0 => exact ⟨cells1, base, r2, htok.add r3⟩
  | @pop s inner t outer s1 _ hpop ih =>
    obtain ⟨cells, base, hinv, htok⟩ := ih
    obtain ⟨lo, a, hi, e1, e2, e3⟩ := TokensIn.split inner htok
    subst e1
    have hmatch : (t = a ∧ boundary = boundary) ∨ (t = SlotPtr.EMPTY_POOL_PLACEHOLDER ∧ lo = []) := by
      rcases e3 with e3 | e3
      · exact Or.inl ⟨e3, rfl⟩
      · exact Or.inr e3
    obtain ⟨s2, r1, r2, _⟩ := pop_token_spec hnd (by omega) hinv hmatch
    rw [hpop] at r1
    cases r1
    exact ⟨lo, base, r2, e2⟩

theorem token_match_step {t a a1 : SlotPtr} {lo : List (SlotPtr × AutoreleasePoolEntry)}
    (h : t = a ∨ (t = SlotPtr.EMPTY_POOL_PLACEHOLDER ∧ lo = []))
    (h1 : a1 = a ∨ (a = SlotPtr.EMPTY_POOL_PLACEHOLDER ∧ lo = [])) :
    t = a1 ∨ (t = SlotPtr.EMPTY_POOL_PLACEHOLDER ∧ lo = []) := by
  rcases h1 with h1 | ⟨h1, h2⟩
  · rw [h1]; exact h
  · rcases h with h | h
    · exact Or.inr ⟨h.trans h1, h2⟩
    · exact Or.inr h

/-- Registrations and nested pushes after a `push()`: either a call reads a
slot that holds a count as an object and the run stops there, or every call
returns, nothing is released, and the boundary of the scope and what is below
it stay. -/
theorem run_opening {c : Config} (hnd : c.nonDebug) (hcap : 2 ≤ c.pageEnd) :
    ∀ (ops : List Op) (s2 : State) (toks2 : List SlotPtr)
      (lo : List (SlotPtr × AutoreleasePoolEntry)) (a : SlotPtr)
      (X : List (SlotPtr × AutoreleasePoolEntry)),
      Opening ops → Inv c s2 (lo ++ (a, boundary) :: X) →
      run c (s2, toks2) ops = Except.error Fault.badAccess ∨
      ∃ s3 toks3 a3 X3, run c (s2, toks2) ops = Except.ok (s3, toks3) ∧
        Inv c s3 (lo ++ (a3, boundary) :: X3) ∧
        (a3 = a ∨ (a = SlotPtr.EMPTY_POOL_PLACEHOLDER ∧ lo = [])) ∧
        s3.released = s2.released ∧ s3.complained = s2.complained ∧
        AddsRel c ops (X.map Prod.snd) (X3.map Prod.snd) := by
  intro ops
  induction ops with
  | nil =>
    intro s2 toks2 lo a X _ hinv
    exact Or.inr ⟨s2, toks2, a, X, rfl, hinv, Or.inl rfl, rfl, rfl, rfl⟩
  | cons op ops ih =>
    intro s2 toks2 lo a X hop hinv
    cases op with
    | push =>
      by_cases hok : HotOK c s2 POOL_BOUNDARY
      · obtain ⟨s1, t1, cells1, r1, r2, r3, r4, r5, _⟩ := push_spec hnd hcap hinv hok
        obtain ⟨a1, X1, e1, e2, e3⟩ := r3.above
        subst e1
        have e4 := e3.boundary_snoc
        rcases ih s1 (t1 :: toks2) lo a1 X1 hop r2 with herr |
          ⟨s3, toks3, a3, X3, k1, k2, k3, k4, k5, k6⟩
        · left
          simp only [run, step, r1]
          exact herr
        · refine Or.inr ⟨s3, toks3, a3, X3, ?_, k2, ?_, k4.trans r4, k5.trans r5, ?_⟩
          · simp only [run, step, r1]
            exact k1
          · rcases k3 with k3 | k3
            · rw [k3]; exact e2
            · rcases e2 with e2 | e2
              · rw [e2] at k3
                exact Or.inr k3
              · exact Or.inr e2
          · simp only [AddsRel]
            rw [← e4]
            exact k6
      · left
        simp only [run, step, push_fault hnd.1 hok]
    | autorelease obj =>
      obtain ⟨hobj, hop2⟩ := hop
      by_cases hok : HotOK c s2 obj
      · obtain ⟨s1, t1, cells1, r1, r2, r3, r4, r5, _⟩ :=
          autorelease_spec hnd hcap hinv hobj hok
        obtain ⟨a1, X1, e1, e2, e3⟩ := r3.above
        subst e1
        rcases ih s1 toks2 lo a1 X1 hop2 r2 with herr |
          ⟨s3, toks3, a3, X3, k1, k2, k3, k4, k5, k6⟩
        · left
          simp only [run, step, r1]
          exact herr
        · refine Or.inr ⟨s3, toks3, a3, X3, ?_, k2, ?_, k4.trans r4, k5.trans r5, ?_⟩
          · simp only [run, step, r1]
            exact k1
          · rcases k3 with k3 | k3
            · rw [k3]; exact e2
            · rcases e2 with e2 | e2
              · rw [e2] at k3
                exact Or.inr k3
              · exact Or.inr e2
          · simp only [AddsRel]
            exact ⟨_, e3, k6⟩
      · left
        simp only [run, step, autorelease_fault hok]
    | pop k => exact absurd hop (by simp [Opening])

theorem releasesOf_snoc_boundary (es : List AutoreleasePoolEntry) :
    releasesOf (es ++ [boundary]) = releasesOf es := by
  rw [releasesOf_append, releasesOf_boundary, List.nil_append]

theorem releasesOf_cons_boundary (es : List AutoreleasePoolEntry) :
    releasesOf (boundary :: es) = releasesOf es := by
  simp [releasesOf, releasesOfEntry, boundary, POOL_BOUNDARY]

/-- What a pop releases after registrations and nested pushes: what it would
have released before, and each registration once more. -/
theorem AddsRel.perm {c : Config} :
    ∀ (ops : List Op) (es es1 : List AutoreleasePoolEntry), Opening ops →
      AddsRel c ops es es1 →
      List.Perm (releasesOf es1) (registrations ops ++ releasesOf es) := by
  intro ops
  induction ops with
  | nil =>
    intro es es1 _ h
    simp only [AddsRel] at h
    rw [h]
    exact List.Perm.refl _
  | cons op ops ih =>
    intro es es1 hop h
    cases op with
    | push =>
      simp only [AddsRel] at h
      have := ih _ _ hop h
      rw [releasesOf_snoc_boundary] at this
      exact this
    | autorelease obj =>
      obtain ⟨hobj, hop2⟩ := hop
      simp only [AddsRel] at h
      obtain ⟨es0, h1, h2⟩ := h
      have p1 := ih _ _ hop2 h2
      have p2 := h1.perm_one hobj.1
      simp only [registrations]
      refine p1.trans ?_
      refine (List.Perm.append_left _ p2).trans ?_
      exact List.perm_middle
    | pop k => exact absurd hop (by simp [Opening])

/-- Registrations of pairwise distinct references, none of them pending above
the boundary, are appended in order. -/
theorem AddsRel.fresh_all {c : Config} :
    ∀ (rs : List Nat) (es es1 : List AutoreleasePoolEntry), rs.Nodup →
      (∀ r ∈ rs, ∀ x ∈ es, x.ptr ≠ r) → AddsRel c (rs.map Op.autorelease) es es1 →
      es1 = es ++ rs.map (fun r => (⟨r, 0⟩ : AutoreleasePoolEntry)) := by
  intro rs
  induction rs with
  | nil =>
    intro es es1 _ _ h
    simp only [List.map_nil, AddsRel] at h
    simp [h]
  | cons r rs ih =>
    intro es es1 hnd hfresh h
    simp only [List.map_cons, AddsRel] at h
    obtain ⟨es0, h1, h2⟩ := h
    rw [List.nodup_cons] at hnd
    have h3 := h1.fresh (hfresh r (List.mem_cons_self _ _))
    subst h3
    have := ih _ _ hnd.2 (by
      intro r2 hr2 x hx
      rw [List.mem_append] at hx
      rcases hx with hx | hx
      · exact hfresh r2 (List.mem_cons_of_mem _ hr2) x hx
      · rw [List.mem_singleton] at hx
        subst hx
        intro heq
        simp only at heq
        subst heq
        exact hnd.1 hr2) h2
    rw [this, List.map_cons, List.append_assoc]
    rfl

theorem releasesOf_refs (rs : List Nat) (h : ∀ r ∈ rs, IsRef r) :
    releasesOf (rs.map (fun r => (⟨r, 0⟩ : AutoreleasePoolEntry))) = rs.reverse := by
  induction rs with
  | nil => rfl
  | cons r rs ih =>
    simp only [List.map_cons, releasesOf, List.reverse_cons]
    rw [ih (fun x hx => h x (List.mem_cons_of_mem _ hx)),
      releasesOfEntry_ref (h r (List.mem_cons_self _ _)).1]
    rfl

theorem opening_autoreleases (rs : List Nat) (h : ∀ r ∈ rs, IsRef r) :
    Opening (rs.map Op.autorelease) := by
  induction rs with
  | nil => simp [Opening]
  | cons r rs ih =>
    simp only [List.map_cons, Opening]
    exact ⟨h r (List.mem_cons_self _ _), ih (fun x hx => h x (List.mem_cons_of_mem _ hx))⟩

theorem registrations_autoreleases (rs : List Nat) :
    registrations (rs.map Op.autorelease) = rs := by
  induction rs with
  | nil => rfl
  | cons r rs ih => simp [registrations, ih]

theorem run_append (c : Config) :
    ∀ (ops1 ops2 : List Op) (st st1 : State × List SlotPtr),
      run c st ops1 = Except.ok st1 → run c st (ops1 ++ ops2) = run c st1 ops2 := by
  intro ops1
  induction ops1 with
  | nil =>
    intro ops2 st st1 h
    simp only [run, Except.ok.injEq] at h
    subst h
    rfl
  | cons op ops ih =>
    intro ops2 st st1 h
    simp only [run, List.cons_append] at h ⊢
    cases hs : step c st op with
    | error e => simp [hs] at h
    | ok st2 =>
      simp only [hs] at h ⊢
      exact ih ops2 st2 st1 h

/-- A correctly nested sequence of calls on a well-formed thread: either a
call reads a slot that holds a count as an object and the run stops there, or
every call returns, no scope is left open, nothing is left pending, and the
releases made are the ones that were pending and the ones registered. -/
theorem run_nested {c : Config} (hnd : c.nonDebug) (hcap : 2 ≤ c.pageEnd) :
    ∀ (ops : List Op) (d : Nat) (s : State) (toks : List SlotPtr)
      (cells : List (SlotPtr × AutoreleasePoolEntry)),
      Nested d ops → toks.length = d → Inv c s cells → TokensIn [] toks cells →
      run c (s, toks) ops = Except.error Fault.badAccess ∨
      ∃ s1, run c (s, toks) ops = Except.ok (s1, []) ∧ Inv c s1 [] ∧
        List.Perm s1.released
          (s.released ++ releasesOf (cells.map Prod.snd) ++ registrations ops) := by
  intro ops
  induction ops with
  | nil =>
    intro d s toks cells hn hlen hinv htok
    simp only [Nested] at hn
    subst hn
    have htoks : toks = [] := List.eq_nil_of_length_eq_zero hlen
    subst htoks
    cases htok
    exact Or.inr ⟨s, rfl, hinv, by simp [releasesOf, registrations]⟩
  | cons op ops ih =>
    intro d s toks cells hn hlen hinv htok
    cases op with
    | push =>
      simp only [Nested] at hn
      by_cases hok : HotOK c s POOL_BOUNDARY
      · obtain ⟨s1, t1, cells1, r1, r2, r3, r4, _⟩ := push_spec hnd hcap hinv hok
        obtain ⟨base1, hb, hb0⟩ := htok.push r3
        rw [hb0 rfl] at hb
        have hent := r3.entries.boundary_snoc
        rcases ih (d + 1) s1 (t1 :: toks) cells1 hn (by simp [hlen]) r2 hb with herr |
          ⟨s2, k1, k2, k3⟩
        · left
          simp only [run, step, r1]
          exact herr
        · refine Or.inr ⟨s2, ?_, k2, ?_⟩
          · simp only [run, step, r1]
            exact k1
          · rw [hent, releasesOf_snoc_boundary, r4] at k3
            simpa [registrations] using k3
      · left
        simp only [run, step, push_fault hnd.1 hok]
    | autorelease obj =>
      simp only [Nested] at hn
      obtain ⟨hd, hobj, hn2⟩ := hn
      by_cases hok : HotOK c s obj
      · obtain ⟨s1, t1, cells1, r1, r2, r3, r4, _⟩ := autorelease_spec hnd hcap hinv hobj hok
        cases toks with
        | nil => simp at hlen; omega
        | cons t0 toks0 =>
          have hb := htok.add r3
          have hperm := r3.entries.perm_one hobj.1
          rcases ih d s1 (t0 :: toks0) cells1 hn2 hlen r2 hb with herr | ⟨s2, k1, k2, k3⟩
          · left
            simp only [run, step, r1]
            exact herr
          · refine Or.inr ⟨s2, ?_, k2, ?_⟩
            · simp only [run, step, r1]
              exact k1
            · rw [r4] at k3
              refine k3.trans ?_
              simp only [registrations, List.append_assoc]
              apply List.Perm.append_left
              refine (List.Perm.append_right _ hperm).trans ?_
              simp only [List.cons_append]
              exact List.perm_middle.symm
      · left
        simp only [run, step, autorelease_fault hok]
    | pop k =>
      simp only [Nested] at hn
      obtain ⟨hd, hk, hn2⟩ := hn
      subst hk
      cases toks with
      | nil => simp at hlen; omega
      | cons t0 toks0 =>
        cases htok with
        | @cons _ _ lo a hi h1 h2 =>
          have hmatch : (t0 = a ∧ boundary = boundary) ∨
              (t0 = SlotPtr.EMPTY_POOL_PLACEHOLDER ∧ lo = []) := by
            rcases h2 with h2 | h2
            · exact Or.inl ⟨h2, rfl⟩
            · exact Or.inr h2
          obtain ⟨s1, r1, r2, r3, _⟩ := pop_token_spec hnd (by omega) hinv hmatch
          rcases ih (d - 1) s1 toks0 lo hn2 (by simp at hlen; omega) r2 h1 with herr |
            ⟨s2, k1, k2, k3⟩
          · left
            simp only [run, step, List.drop_zero, r1]
            exact herr
          · refine Or.inr ⟨s2, ?_, k2, ?_⟩
            · simp only [run, step, List.drop_zero, r1]
              exact k1
            · rw [r3] at k3
              refine k3.trans (List.Perm.of_eq ?_)
              simp only [registrations, List.map_append, List.map_cons, releasesOf_append,
                List.append_assoc]

/-- Two well-formed states with the same pending slots agree on every
occupied slot and on the cursor of every page that is not empty. -/
theorem Inv.frame {c : Config} {s s3 : State}
    {cells : List (SlotPtr × AutoreleasePoolEntry)} (h1 : Inv c s cells) (h3 : Inv c s3 cells)
    (hph3 : s3.tls ≠ Tls.EMPTY_POOL_PLACEHOLDER) :
    ∀ q pg k, s.pages q = some pg → k < pg.next →
      ∃ pg3, s3.pages q = some pg3 ∧ pg3.next = pg.next ∧ pg3.slots k = pg.slots k := by
  obtain ⟨ids, h, hc, hcells⟩ := h1
  obtain ⟨ids3, h3i, hc3, hcells3⟩ := h3
  intro q pg k hpg hk
  have hph : s.tls ≠ Tls.EMPTY_POOL_PLACEHOLDER := by
    intro hcon
    have hids := hc.ids_nil (Or.inr hcon)
    subst hids
    have := (hc.live q).1 (by rw [hpg]; simp)
    cases this
  have hm : (SlotPtr.slot q k, pg.slots k) ∈ cells := by
    rw [hcells]
    exact (hc.mem_cells hph q k _).2 ⟨pg, hpg, hk, rfl⟩
  rw [hcells3] at hm
  obtain ⟨pg3, hpg3, hk3, hs3⟩ := (hc3.mem_cells hph3 q k _).1 hm
  refine ⟨pg3, hpg3, ?_, hs3⟩
  by_contra hne
  rcases Nat.lt_or_gt_of_ne hne with hlt | hgt
  · -- slot pg3.next is occupied in s but not in s3
    have hm2 : (SlotPtr.slot q pg3.next, pg.slots pg3.next) ∈ cells := by
      rw [hcells]
      exact (hc.mem_cells hph q _ _).2 ⟨pg, hpg, hlt, rfl⟩
    rw [hcells3] at hm2
    obtain ⟨pg4, hpg4, hk4, _⟩ := (hc3.mem_cells hph3 q _ _).1 hm2
    rw [hpg3] at hpg4
    cases hpg4
    omega
  · have hm2 : (SlotPtr.slot q pg.next, pg3.slots pg.next) ∈ cells := by
      rw [hcells3]
      exact (hc3.mem_cells hph3 q _ _).2 ⟨pg3, hpg3, hgt, rfl⟩
    rw [hcells] at hm2
    obtain ⟨pg4, hpg4, hk4, _⟩ := (hc.mem_cells hph q _ _).1 hm2
    rw [hpg] at hpg4
    cases hpg4
    omega

/-- A `pop` whose token holds no boundary marker and is not the first slot of
the cold page only sets the flag of `badPop`. -/
theorem pop_bad (c : Config) (s : State) (p i : Nat) (pg : AutoreleasePoolPage)
    (hlive : s.pages p = some pg) (hi : i < c.pageEnd)
    (hcontent : idOfEntry (pg.slots i) ≠ POOL_BOUNDARY)
    (hroot : ¬ (i = 0 ∧ pg.parent = none)) :
    pop c s (SlotPtr.slot p i) = Except.ok (badPop s) := by
  simp only [pop, pageForPointer, hlive, popAt]
  rw [if_neg (by omega), if_pos ⟨hcontent, hroot⟩]

/-- A run of registrations leaves the client's open tokens as they were. -/
theorem run_autoreleases_toks (c : Config) :
    ∀ (rs : List Nat) (st st1 : State × List SlotPtr),
      run c st (rs.map Op.autorelease) = Except.ok st1 → st1.2 = st.2 := by
  intro rs
  induction rs with
  | nil =>
    intro st st1 h
    simp only [List.map_nil, run, Except.ok.injEq] at h
    rw [h]
  | cons r rs ih =>
    intro st st1 h
    simp only [List.map_cons, run, step] at h
    cases har : autorelease c st.1 r with
    | error e =>
      rw [har] at h
      cases h
    | ok v =>
      obtain ⟨s0, x⟩ := v
      rw [har] at h
      exact ih (s0, st.2) st1 h

/-- A thread without a page has no live block. -/
theorem Inv.no_pages {c : Config} {s : State}
    {cells : List (SlotPtr × AutoreleasePoolEntry)} (hinv : Inv c s cells)
    (htls : s.tls = Tls.nil ∨ s.tls = Tls.EMPTY_POOL_PLACEHOLDER) (q : Nat) :
    s.pages q = none := by
  obtain ⟨ids, h, hc, _⟩ := hinv
  have hids := hc.ids_nil htls
  subst hids
  by_contra hq
  have := (hc.live q).1 hq
  cases this

/-- The hot page of a well-formed thread is live. -/
theorem Inv.hot_live {c : Config} {s : State}
    {cells : List (SlotPtr × AutoreleasePoolEntry)} (hinv : Inv c s cells) {q : Nat}
    (htls : s.tls = Tls.page q) : ∃ pg, s.pages q = some pg := by
  obtain ⟨ids, h, hc, _⟩ := hinv
  obtain ⟨pg, hpg, _⟩ := hc.links h q (hc.hot_page htls)
  exact ⟨pg, hpg⟩

/-- The state after a run of calls that register references only, made from a
reachable state, is reachable. -/
theorem reach_run {c : Config} :
    ∀ (ops : List Op) (s : State) (toks : List SlotPtr) (s1 : State) (toks1 : List SlotPtr),
      Reach c s toks → (∀ obj, Op.autorelease obj ∈ ops → IsRef obj) →
      run c (s, toks) ops = Except.ok (s1, toks1) → Reach c s1 toks1 := by
  intro ops
  induction ops with
  | nil =>
    intro s toks s1 toks1 hr _ h
    simp only [run, Except.ok.injEq, Prod.mk.injEq] at h
    obtain ⟨rfl, rfl⟩ := h
    exact hr
  | cons op ops ih =>
    intro s toks s1 toks1 hr href h
    have href1 : ∀ obj, Op.autorelease obj ∈ ops → IsRef obj :=
      fun obj hm => href obj (List.mem_cons_of_mem _ hm)
    simp only [run] at h
    cases op with
    | push =>
      simp only [step] at h
      cases hp : push c s with
      | error e =>
        rw [hp] at h
        cases h
      | ok v =>
        obtain ⟨s0, t⟩ := v
        rw [hp] at h
        exact ih s0 (t :: toks) s1 toks1 (Reach.push hr hp) href1 h
    | autorelease obj =>
      simp only [step] at h
      cases hp : autorelease c s obj with
      | error e =>
        rw [hp] at h
        cases h
      | ok v =>
        obtain ⟨s0, x⟩ := v
        rw [hp] at h
        exact ih s0 toks s1 toks1
          (Reach.autorelease hr (href obj (List.mem_cons_self _ _)) hp) href1 h
    | pop k =>
      simp only [step] at h
      cases hd : toks.drop k with
      | nil =>
        rw [hd] at h
        cases h
      | cons t outer =>
        rw [hd] at h
        dsimp only at h
        cases hp : pop c s t with
        | error e =>
          rw [hp] at h
          cases h
        | ok s0 =>
          rw [hp] at h
          have hr1 : Reach c s (toks.take k ++ t :: outer) := by
            rw [← hd, List.take_append_drop]
            exact hr
          exact ih s0 outer s1 toks1 (Reach.pop hr1 hp) href1 h

theorem plainEntry_boundary : PlainEntry boundary := ⟨rfl, by decide⟩

theorem plainEntry_ref {r : Nat} (h : IsRef r) : PlainEntry ⟨r, 0⟩ := ⟨rfl, h.2⟩

/-- The diagnostic of `add` can read a slot that holds no count. -/
theorem prevOK_of_plain {pg : AutoreleasePoolPage}
    (h : PlainEntry (pg.slots (pg.next - 1))) : PrevOK pg := by
  obtain ⟨h1, h2⟩ := h
  have hid : idOfEntry (pg.slots (pg.next - 1)) = (pg.slots (pg.next - 1)).ptr := by
    simp [idOfEntry, h1]
  by_cases h0 : (pg.slots (pg.next - 1)).ptr = 0
  · refine Or.inr (Or.inl ?_)
    rw [hid, h0]
    rfl
  · refine Or.inr (Or.inr ?_)
    rw [hid]
    simp only [isObject, decide_eq_true_eq]
    exact ⟨h0, h2⟩

/-- A registration returns when the newest pending slot holds no count. -/
theorem Inv.hotOK_of_top {c : Config} {s : State}
    {cells : List (SlotPtr × AutoreleasePoolEntry)} (hinv : Inv c s cells)
    (htop : ∀ init x, cells = init ++ [x] → PlainEntry x.2) (obj : Nat) : HotOK c s obj := by
  obtain ⟨ids, h, hc, hcells⟩ := hinv
  intro p pg htls hpg _ _
  by_cases h0 : pg.next = 0
  · exact Or.inl h0
  · obtain ⟨n, hn⟩ : ∃ n, pg.next = n + 1 := ⟨pg.next - 1, by omega⟩
    have hq := hc.hot_page htls
    have hsplit : cells = ((ids.take h).flatMap (pageCells s) ++
        (List.range n).map (fun k => (SlotPtr.slot p k, pg.slots k))) ++
        [(SlotPtr.slot p n, pg.slots n)] := by
      rw [hcells, hc.cells_hot hq htls, pageCells_of_live hpg, cellsOfPage, hn,
        List.range_succ, List.map_append, List.append_assoc]
      rfl
    have hplain := htop _ _ hsplit
    apply prevOK_of_plain
    rw [hn, Nat.add_sub_cancel]
    exact hplain

/-- The newest slot of a scope whose entries hold no count holds no count. -/
theorem last_plain {lo X init : List (SlotPtr × AutoreleasePoolEntry)} {a : SlotPtr}
    {x : SlotPtr × AutoreleasePoolEntry} (hX : ∀ e ∈ X.map Prod.snd, PlainEntry e)
    (h : lo ++ (a, boundary) :: X = init ++ [x]) : PlainEntry x.2 := by
  rcases List.eq_nil_or_concat X with rfl | ⟨X0, y, rfl⟩
  · have := List.append_inj_right' h rfl
    simp only [List.cons.injEq, and_true] at this
    rw [← this]
    exact plainEntry_boundary
  · have h1 : (lo ++ (a, boundary) :: X0) ++ [y] = init ++ [x] := by
      rw [← h]
      simp
    have := List.append_inj_right' h1 rfl
    simp only [List.cons.injEq, and_true] at this
    rw [← this]
    exact hX y.2 (List.mem_map_of_mem _ (by simp))

/-- Registrations that cannot coalesce, made above plain entries: every call
returns, nothing is released, and each registration gets a slot of its own. -/
theorem run_fresh {c : Config} (hnd : c.nonDebug) (hcap : 2 ≤ c.pageEnd) :
    ∀ (rs : List Nat) (s : State) (toks : List SlotPtr)
      (lo : List (SlotPtr × AutoreleasePoolEntry)) (a : SlotPtr)
      (X : List (SlotPtr × AutoreleasePoolEntry)),
      (∀ r ∈ rs, IsRef r) → Inv c s (lo ++ (a, boundary) :: X) →
      (∀ e ∈ X.map Prod.snd, PlainEntry e) →
      ((c.DisableAutoreleaseCoalescing = true ∧ c.DisableAutoreleaseCoalescingLRU = true) ∨
        (rs.Nodup ∧ ∀ r ∈ rs, ∀ e ∈ X.map Prod.snd, e.ptr ≠ r)) →
      ∃ s3 a3 X3, run c (s, toks) (rs.map Op.autorelease) = Except.ok (s3, toks) ∧
        Inv c s3 (lo ++ (a3, boundary) :: X3) ∧
        (a3 = a ∨ (a = SlotPtr.EMPTY_POOL_PLACEHOLDER ∧ lo = [])) ∧
        s3.released = s.released ∧
        X3.map Prod.snd = X.map Prod.snd ++ rs.map (fun r => (⟨r, 0⟩ : AutoreleasePoolEntry)) := by
  intro rs
  induction rs with
  | nil =>
    intro s toks lo a X _ hinv _ _
    exact ⟨s, a, X, rfl, hinv, Or.inl rfl, rfl, by simp⟩
  | cons r rs ih =>
    intro s toks lo a X href hinv hX hno
    have hr : IsRef r := href r (List.mem_cons_self _ _)
    have hok : HotOK c s r := hinv.hotOK_of_top (fun init x hx => last_plain hX hx) r
    obtain ⟨s1, t1, cells1, r1, r2, r3, r4, _⟩ := autorelease_spec hnd hcap hinv hr hok
    obtain ⟨a1, X1, e1, e2, e3⟩ := r3.above
    subst e1
    have hX1 : X1.map Prod.snd = X.map Prod.snd ++ [⟨r, 0⟩] := by
      rcases hno with ⟨h1, h2⟩ | ⟨_, hdis⟩
      · rcases e3 with e3 | ⟨_, A, e, R, _, _, _, _, _, _, hsw⟩
        · exact e3
        · have h3 := (hsw h2).2
          rw [h1] at h3
          cases h3
      · exact e3.fresh (fun x hx => hdis r (List.mem_cons_self _ _) x hx)
    have hplain1 : ∀ e ∈ X1.map Prod.snd, PlainEntry e := by
      intro e he
      rw [hX1, List.mem_append, List.mem_singleton] at he
      rcases he with he | he
      · exact hX e he
      · rw [he]
        exact plainEntry_ref hr
    have hno1 : (c.DisableAutoreleaseCoalescing = true ∧
        c.DisableAutoreleaseCoalescingLRU = true) ∨
        (rs.Nodup ∧ ∀ r0 ∈ rs, ∀ e ∈ X1.map Prod.snd, e.ptr ≠ r0) := by
      rcases hno with h | ⟨hnodup, hdis⟩
      · exact Or.inl h
      · refine Or.inr ⟨(List.nodup_cons.1 hnodup).2, ?_⟩
        intro r0 hr0 e he
        rw [hX1, List.mem_append, List.mem_singleton] at he
        rcases he with he | he
        · exact hdis r0 (List.mem_cons_of_mem _ hr0) e he
        · rw [he]
          intro heq
          have heq1 : r = r0 := heq
          rw [← heq1] at hr0
          exact (List.nodup_cons.1 hnodup).1 hr0
    obtain ⟨s3, a3, X3, k1, k2, k3, k4, k5⟩ :=
      ih s1 toks lo a1 X1 (fun r0 h0 => href r0 (List.mem_cons_of_mem _ h0)) r2 hplain1 hno1
    refine ⟨s3, a3, X3, ?_, k2, ?_, k4.trans r4, ?_⟩
    · simp only [List.map_cons, run, step, r1]
      exact k1
    · rcases k3 with k3 | k3
      · rw [k3]; exact e2
      · rcases e2 with e2 | e2
        · rw [e2] at k3
          exact Or.inr k3
        · exact Or.inr e2
    · rw [k5, hX1]
      simp

/-- What a `push()` that returns in a reachable state leaves: the boundary of
the new scope is the newest pending slot, and the slots below it are the ones
that were pending, or stand for the placeholder. -/
theorem push_scope {c : Config} (hnd : c.nonDebug) (hcap : 2 ≤ c.pageEnd) {s : State}
    {toks : List SlotPtr} (hr : Reach c s toks) {s1 : State} {t : SlotPtr}
    (hpush : push c s = Except.ok (s1, t)) :
    ∃ cells lo a, Inv c s cells ∧ Inv c s1 (lo ++ (a, boundary) :: []) ∧
      (t = a ∨ (t = SlotPtr.EMPTY_POOL_PLACEHOLDER ∧ lo = [])) ∧
      (lo = cells ∨ cells = [(SlotPtr.EMPTY_POOL_PLACEHOLDER, boundary)]) ∧
      s1.released = s.released := by
  obtain ⟨cells, base, hinv, _⟩ := hr.inv hnd hcap
  have hok : HotOK c s POOL_BOUNDARY := by
    by_contra hbad
    rw [push_fault hnd.1 hbad] at hpush
    cases hpush
  obtain ⟨s2, t2, cells1, r1, hinv1, hadd, hrel1, _, _⟩ := push_spec hnd hcap hinv hok
  rw [hpush] at r1
  simp only [Except.ok.injEq, Prod.mk.injEq] at r1
  obtain ⟨rfl, rfl⟩ := r1
  rcases hadd with hcore | ⟨a, hc, hc1⟩
  · have h1 := hcore.of_boundary
    rw [h1] at hinv1
    exact ⟨cells, cells, t, hinv, hinv1, Or.inl rfl, Or.inl rfl, hrel1⟩
  · rw [hc1] at hinv1
    exact ⟨cells, [(a, boundary)], t, hinv, hinv1, Or.inl rfl, Or.inr hc, hrel1⟩

/-- Closing a scope: `pop` of its token returns, releases the entries above
the boundary, newest first, leaves the cursor at the token, and leaves the
occupied slots of the state in which the scope was opened as they were. -/
theorem close_scope {c : Config} (hnd : c.nonDebug) (hcap : 2 ≤ c.pageEnd) {s s2 : State}
    {cells lo X3 : List (SlotPtr × AutoreleasePoolEntry)} {a3 t : SlotPtr}
    (hinv : Inv c s cells)
    (hlo : lo = cells ∨ cells = [(SlotPtr.EMPTY_POOL_PLACEHOLDER, boundary)])
    (hinv2 : Inv c s2 (lo ++ (a3, boundary) :: X3))
    (hm : t = a3 ∨ (t = SlotPtr.EMPTY_POOL_PLACEHOLDER ∧ lo = [])) :
    ∃ s3, pop c s2 t = Except.ok s3 ∧
      s3.released = s2.released ++ releasesOf (X3.map Prod.snd) ∧
      (∀ p i, t = SlotPtr.slot p i →
        (∃ pg3, s3.tls = Tls.page p ∧ s3.pages p = some pg3 ∧ pg3.next = i) ∧
        ∀ q pg k, s.pages q = some pg → k < pg.next →
          ∃ pg4, s3.pages q = some pg4 ∧ pg4.next = pg.next ∧ pg4.slots k = pg.slots k) := by
  have hm3 : (t = a3 ∧ boundary = boundary) ∨ (t = SlotPtr.EMPTY_POOL_PLACEHOLDER ∧ lo = []) := by
    rcases hm with h | h
    · exact Or.inl ⟨h, rfl⟩
    · exact Or.inr h
  obtain ⟨s3, hpop, hinv3, hrel3, _, _, hslot⟩ := pop_token_spec hnd (by omega) hinv2 hm3
  refine ⟨s3, hpop, ?_, ?_⟩
  · rw [hrel3, releasesOf_cons_boundary]
  · intro p i ht
    obtain ⟨pg, pg1, _, htls3, hpg1, hnext, _⟩ := hslot p i ht
    refine ⟨⟨pg1, htls3, hpg1, hnext⟩, ?_⟩
    intro q pg0 k hq hk
    have hph3 : s3.tls ≠ Tls.EMPTY_POOL_PLACEHOLDER := by
      rw [htls3]
      exact fun h => by cases h
    cases htls : s.tls with
    | nil =>
      rw [hinv.no_pages (Or.inl htls) q] at hq
      cases hq
    | EMPTY_POOL_PLACEHOLDER =>
      rw [hinv.no_pages (Or.inr htls) q] at hq
      cases hq
    | page q0 =>
      rcases hlo with hlo | hlo
      · rw [hlo] at hinv3
        exact Inv.frame hinv hinv3 hph3 q pg0 k hq hk
      · have hmem : (SlotPtr.EMPTY_POOL_PLACEHOLDER, boundary) ∈ cells := by
          rw [hlo]
          exact List.mem_singleton.2 rfl
        obtain ⟨p1, i1, h1⟩ := hinv.addr_of_page htls hmem
        cases h1

/-- A scope opened in a reachable state and filled by registrations and nested
pushes: either a registration reads a slot that holds a count as an object and
the run stops there, or every call returns and the scope can be closed: the
releases are made by the closing `pop` and are those of the entries the
registrations left above the boundary, the cursor is left at the token, and the
occupied slots of the state before the `push` are as they were. -/
theorem scope_spec {c : Config} (hnd : c.nonDebug) (hcap : 2 ≤ c.pageEnd) {s : State}
    {toks : List SlotPtr} (hr : Reach c s toks) {s1 : State} {t : SlotPtr}
    (hpush : push c s = Except.ok (s1, t)) (ops : List Op) (hops : Opening ops) :
    run c (s1, t :: toks) ops = Except.error Fault.badAccess ∨
    ∃ s2 toks2 s3 es, run c (s1, t :: toks) ops = Except.ok (s2, toks2) ∧
      pop c s2 t = Except.ok s3 ∧
      AddsRel c ops [] es ∧ s2.released = s.released ∧
      s3.released = s.released ++ releasesOf es ∧
      (∀ p i, t = SlotPtr.slot p i →
        (∃ pg3, s3.tls = Tls.page p ∧ s3.pages p = some pg3 ∧ pg3.next = i) ∧
        ∀ q pg k, s.pages q = some pg → k < pg.next →
          ∃ pg4, s3.pages q = some pg4 ∧ pg4.next = pg.next ∧ pg4.slots k = pg.slots k) := by
  obtain ⟨cells, lo, a, hinv, hinv1, hm, hlo, hrel1⟩ := push_scope hnd hcap hr hpush
  rcases run_opening hnd hcap ops s1 (t :: toks) lo a [] hops hinv1 with herr |
    ⟨s2, toks2, a3, X3, hrun, hinv2, ha3, hrel2, _, hadds⟩
  · exact Or.inl herr
  · simp only [List.map_nil] at hadds
    obtain ⟨s3, hpop, hrel3, hrest⟩ :=
      close_scope hnd hcap hinv hlo hinv2 (token_match_step hm ha3)
    refine Or.inr ⟨s2, toks2, s3, X3.map Prod.snd, hrun, hpop, hadds, hrel2.trans hrel1, ?_,
      hrest⟩
    rw [hrel3, hrel2, hrel1]

/-- A scope opened in a reachable state and filled by registrations that
cannot coalesce (they are pairwise distinct, or both coalescing switches are
set): every call returns, and the closing `pop` releases the registered
references in the reverse of the order of registration. -/
theorem scope_fresh {c : Config} (hnd : c.nonDebug) (hcap : 2 ≤ c.pageEnd) {s : State}
    {toks : List SlotPtr} (hr : Reach c s toks) {s1 : State} {t : SlotPtr}
    (hpush : push c s = Except.ok (s1, t)) (rs : List Nat) (href : ∀ r ∈ rs, IsRef r)
    (hno : (c.DisableAutoreleaseCoalescing = true ∧ c.DisableAutoreleaseCoalescingLRU = true) ∨
      rs.Nodup) :
    ∃ s2 s3, run c (s1, t :: toks) (rs.map Op.autorelease) = Except.ok (s2, t :: toks) ∧
      s2.released = s.released ∧ pop c s2 t = Except.ok s3 ∧
      s3.released = s.released ++ rs.reverse := by
  obtain ⟨cells, lo, a, hinv, hinv1, hm, hlo, hrel1⟩ := push_scope hnd hcap hr hpush
  have hno1 : (c.DisableAutoreleaseCoalescing = true ∧
      c.DisableAutoreleaseCoalescingLRU = true) ∨
      (rs.Nodup ∧ ∀ r ∈ rs, ∀ e ∈ ([] : List (SlotPtr × AutoreleasePoolEntry)).map Prod.snd,
        e.ptr ≠ r) := by
    rcases hno with h | h
    · exact Or.inl h
    · exact Or.inr ⟨h, fun _ _ _ he => by cases he⟩
  obtain ⟨s2, a3, X3, hrun, hinv2, ha3, hrel2, hX3⟩ :=
    run_fresh hnd hcap rs s1 (t :: toks) lo a [] href hinv1 (fun _ he => by cases he) hno1
  obtain ⟨s3, hpop, hrel3, _⟩ := close_scope hnd hcap hinv hlo hinv2 (token_match_step hm ha3)
  refine ⟨s2, s3, hrun, hrel2.trans hrel1, hpop, ?_⟩
  rw [hrel3, hrel2, hrel1, hX3, List.map_nil, List.nil_append, releasesOf_refs rs href]

/-- The first `push()` of a thread installs the placeholder. -/
theorem push_nil (c : Config) (s : State) (hnil : s.tls = Tls.nil)
    (hdbg : c.DebugPoolAllocation = false) :
    push c s = Except.ok
      ({ s with tls := Tls.EMPTY_POOL_PLACEHOLDER }, SlotPtr.EMPTY_POOL_PLACEHOLDER) := by
  simp [push, hdbg, autoreleaseFast, hotPage, hnil, autoreleaseNoPage, haveEmptyPoolPlaceholder,
    setEmptyPoolPlaceholder, POOL_BOUNDARY]

/-- The `pop` of the placeholder token on a thread that still holds the
placeholder clears it. -/
theorem pop_unused (c : Config) (s : State) (hph : s.tls = Tls.EMPTY_POOL_PLACEHOLDER) :
    pop c s SlotPtr.EMPTY_POOL_PLACEHOLDER = Except.ok { s with tls := Tls.nil } := by
  simp [pop, hotPage, hph, setHotPage]

/-- A registration on a thread that holds the placeholder. -/
theorem autoreleaseFast_placeholder (c : Config) (s : State) (x : Nat)
    (hph : s.tls = Tls.EMPTY_POOL_PLACEHOLDER) (hcap : 2 ≤ c.pageEnd) (hx : x < 2 ^ 48) :
    autoreleaseFast c s x = Except.ok (materialised c s x, SlotPtr.slot s.brk 1) := by
  let pg0 : AutoreleasePoolPage :=
    { next := 0, parent := none, child := none, depth := 0, hiwat := 0, slots := c.fresh s.brk }
  let s2 : State :=
    { s with pages := Function.update s.pages s.brk (some pg0), brk := s.brk + 1,
             tls := Tls.page s.brk }
  let pg1 : AutoreleasePoolPage :=
    { pg0 with slots := Function.update pg0.slots 0 ⟨POOL_BOUNDARY, 0⟩, next := 1 }
  let pg2 : AutoreleasePoolPage :=
    { pg1 with slots := Function.update pg1.slots 1 ⟨x, 0⟩, next := 2 }
  have hA1 : add c s2 s.brk POOL_BOUNDARY =
      Except.ok (setPage s2 s.brk pg1, SlotPtr.slot s.brk 0) :=
    add_append c s2 s.brk POOL_BOUNDARY pg0 (by simp [s2]) (by simp [pg0]; omega)
      (coalesce_nil _ _) (by decide) (Or.inl rfl)
  have hA2 : add c (setPage s2 s.brk pg1) s.brk x =
      Except.ok (setPage (setPage s2 s.brk pg1) s.brk pg2, SlotPtr.slot s.brk 1) :=
    add_append c _ s.brk x pg1 (setPage_pages_self _ _ _) (by simp [pg1]; omega)
      (coalesce_boundary_top _ _ _ (by simp [pg1, POOL_BOUNDARY, boundary])) hx
      (Or.inr (Or.inl (by simp [pg1, idOfEntry, POOL_BOUNDARY])))
  have hstate : setPage (setPage s2 s.brk pg1) s.brk pg2 = materialised c s x := by
    simp [setPage, s2, pg2, pg1, pg0, materialised]
  rw [← hstate]
  simp only [autoreleaseFast, hotPage, hph]
  simp only [autoreleaseNoPage, hotPage, hph, haveEmptyPoolPlaceholder, decide_True, if_true,
    newPage, setHotPage, Function.update_same]
  rw [hA1]
  simp only []
  rw [hA2]

/-- A registration that gets a slot of its own on the hot page. -/
theorem autorelease_hot_append {c : Config} {s : State} {p : Nat} {pg : AutoreleasePoolPage}
    {obj : Nat} (htls : s.tls = Tls.page p) (hpg : s.pages p = some pg)
    (hroom : pg.next < c.pageEnd) (hco : coalesce c pg obj = none) (hobj : IsRef obj)
    (hprev : PrevOK pg) :
    autorelease c s obj = Except.ok
      (setPage s p { pg with slots := Function.update pg.slots pg.next ⟨obj, 0⟩,
                             next := pg.next + 1 }, obj) := by
  have hhot : hotPage s = Except.ok (some p) := by simp only [hotPage, htls, hpg]
  have hfast : autoreleaseFast c s obj = Except.ok
      (setPage s p { pg with slots := Function.update pg.slots pg.next ⟨obj, 0⟩,
                             next := pg.next + 1 }, SlotPtr.slot p pg.next) := by
    simp only [autoreleaseFast, hhot, hpg, full_eq_false hroom]
    simpa using add_append c s p obj pg hpg hroom hco hobj.2 hprev
  simp only [autorelease, hfast, setPage_pages_self]
  simp

/-- A registration that is coalesced on the hot page. -/
theorem autorelease_hot_coalesce {c : Config} {s : State} {p : Nat}
    {pg pg1 : AutoreleasePoolPage} {obj : Nat} (htls : s.tls = Tls.page p)
    (hpg : s.pages p = some pg) (hroom : pg.next < c.pageEnd)
    (hco : coalesce c pg obj = some pg1) (hobj : IsRef obj) :
    autorelease c s obj = Except.ok (setPage s p pg1, obj) := by
  have hhot : hotPage s = Except.ok (some p) := by simp only [hotPage, htls, hpg]
  obtain ⟨m, _, _, _, _, _, _, _, _, _, _, _, _, hslots⟩ := coalesce_some c pg pg1 obj hco
  have hisobj : isObject obj = true := by
    simp only [isObject, decide_eq_true_eq]
    exact hobj
  have hfast : autoreleaseFast c s obj = Except.ok
      (setPage s p pg1, SlotPtr.slot p (pg.next - 1)) := by
    simp only [autoreleaseFast, hhot, hpg, full_eq_false hroom, add, hco, hisobj]
    simp
  have hptr : (pg1.slots (pg.next - 1)).ptr = obj := by
    rw [hslots, if_pos rfl]
  simp only [autorelease, hfast, setPage_pages_self, hptr, if_true]

/-- The LRU scan of a page with two slots finds nothing when the second slot
holds another reference: it stops at `begin()`. -/
theorem coalesce_lru_miss {c : Config} {pg : AutoreleasePoolPage} {obj : Nat}
    (hlru : c.DisableAutoreleaseCoalescingLRU = false) (hn : pg.next = 2)
    (hp : (pg.slots 1).ptr ≠ obj) : coalesce c pg obj = none := by
  unfold coalesce coalesceLRU
  simp [hlru, hn, lruScan, hp]

/-- The LRU scan meets the entry for `obj` in the top slot. -/
theorem coalesce_lru_top {c : Config} {pg : AutoreleasePoolPage} {obj : Nat}
    (hlru : c.DisableAutoreleaseCoalescingLRU = false) (hobj : obj ≠ POOL_BOUNDARY)
    (hn : 2 ≤ pg.next) (hptr : (pg.slots (pg.next - 1)).ptr = obj)
    (hcnt : (pg.slots (pg.next - 1)).count < maxCount) :
    coalesce c pg obj = some
      { pg with
          slots := Function.update pg.slots (pg.next - 1) (bumpCount (pg.slots (pg.next - 1))) } := by
  have hne : pg.next ≠ 0 := by omega
  have hnb : idOfEntry (pg.slots (pg.next - 1)) ≠ POOL_BOUNDARY := by
    intro h
    have := (idOfEntry_eq_zero _).1 h
    rw [this] at hptr
    exact hobj hptr.symm
  have htop : ¬ (pg.next - 1 ≤ 0) := by omega
  unfold coalesce coalesceLRU
  simp [hlru, AutoreleasePoolPage.empty, hne, hobj, lruScan, htop, hnb, hptr, hcnt]

/-- The LRU scan passes a top slot that holds another reference and meets the
entry for `obj` in the slot below it: the two entries change places. -/
theorem coalesce_lru_second {c : Config} {pg : AutoreleasePoolPage} {obj : Nat}
    (hlru : c.DisableAutoreleaseCoalescingLRU = false) (hobj : obj ≠ POOL_BOUNDARY)
    (hn : 3 ≤ pg.next) (hp1 : (pg.slots (pg.next - 1)).ptr ≠ obj)
    (hnb1 : idOfEntry (pg.slots (pg.next - 1)) ≠ POOL_BOUNDARY)
    (hptr : (pg.slots (pg.next - 2)).ptr = obj)
    (hcnt : (pg.slots (pg.next - 2)).count < maxCount) :
    coalesce c pg obj = some
      { pg with
          slots := Function.update
            (Function.update pg.slots (pg.next - 2) (pg.slots (pg.next - 1))) (pg.next - 1)
            (bumpCount (pg.slots (pg.next - 2))) } := by
  have hne : pg.next ≠ 0 := by omega
  have hnb : idOfEntry (pg.slots (pg.next - 2)) ≠ POOL_BOUNDARY := by
    intro h
    have := (idOfEntry_eq_zero _).1 h
    rw [this] at hptr
    exact hobj hptr.symm
  have htop : ¬ (pg.next - 1 ≤ 0) := by omega
  have htop1 : ¬ (pg.next - 1 ≤ 1) := by omega
  have h2 : pg.next - 1 - 1 = pg.next - 2 := by omega
  have hscan : lruScan pg obj (pg.next - 1) 4 0 = some 1 := by
    simp [lruScan, htop, htop1, hnb1, hp1, h2, hnb, hptr, hcnt]
  unfold coalesce coalesceLRU
  simp only [hlru, or_true, if_true, AutoreleasePoolPage.empty, beq_eq_false_iff_ne, ne_eq, hne,
    not_false_eq_true, hobj, and_self, hscan, Nat.lt_one_iff, zero_lt_one, h2,
    Function.update_same, Option.some.injEq]
  congr 1
  funext j
  simp only [Function.update_apply, memmoveDown]
  split_ifs <;> first | rfl | (exfalso; omega) | (congr 1; omega)

/-- The public `autorelease(x)` on a thread that holds the placeholder. -/
theorem autorelease_placeholder (c : Config) (s : State) (x : Nat)
    (hph : s.tls = Tls.EMPTY_POOL_PLACEHOLDER) (hcap : 2 ≤ c.pageEnd) (hx : x < 2 ^ 48) :
    autorelease c s x = Except.ok (materialised c s x, x) := by
  simp [autorelease, autoreleaseFast_placeholder c s x hph hcap hx, materialised]

/-- A registration that gets a slot of its own on the hot page, by what it
does to the page. -/
theorem step_append {c : Config} {s : State} {p : Nat} {pg : AutoreleasePoolPage}
    {obj : Nat} (htls : s.tls = Tls.page p) (hpg : s.pages p = some pg)
    (hroom : pg.next < c.pageEnd) (hco : coalesce c pg obj = none) (hobj : IsRef obj)
    (hprev : PrevOK pg) :
    ∃ s1 pg1, autorelease c s obj = Except.ok (s1, obj) ∧ s1.tls = Tls.page p ∧
      s1.released = s.released ∧ s1.pages p = some pg1 ∧ pg1.next = pg.next + 1 ∧
      pg1.slots pg.next = ⟨obj, 0⟩ ∧ (∀ j, j < pg.next → pg1.slots j = pg.slots j) ∧
      pg1.parent = pg.parent ∧ pg1.child = pg.child ∧ s1.brk = s.brk ∧
      ∀ q, q ≠ p → s1.pages q = s.pages q := by
  refine ⟨_, _, autorelease_hot_append htls hpg hroom hco hobj hprev, htls, rfl,
    setPage_pages_self _ _ _, rfl, ?_, ?_, rfl, rfl, rfl, ?_⟩
  · simp
  · intro j hj
    have : j ≠ pg.next := by omega
    simp [Function.update_apply, this]
  · intro q hq
    simp [hq]

/-- A registration coalesced with the top slot, by what it does to the page. -/
theorem step_top {c : Config} {s : State} {p : Nat} {pg : AutoreleasePoolPage}
    {obj : Nat} (htls : s.tls = Tls.page p) (hpg : s.pages p = some pg)
    (hroom : pg.next < c.pageEnd) (hlru : c.DisableAutoreleaseCoalescingLRU = false)
    (hobj : IsRef obj) (hn : 2 ≤ pg.next) (hptr : (pg.slots (pg.next - 1)).ptr = obj)
    (hcnt : (pg.slots (pg.next - 1)).count < maxCount) :
    ∃ s1 pg1, autorelease c s obj = Except.ok (s1, obj) ∧ s1.tls = Tls.page p ∧
      s1.released = s.released ∧ s1.pages p = some pg1 ∧ pg1.next = pg.next ∧
      pg1.slots (pg.next - 1) = bumpCount (pg.slots (pg.next - 1)) ∧
      (∀ j, j < pg.next - 1 → pg1.slots j = pg.slots j) ∧
      pg1.parent = pg.parent ∧ pg1.child = pg.child ∧ s1.brk = s.brk ∧
      ∀ q, q ≠ p → s1.pages q = s.pages q := by
  refine ⟨_, _, autorelease_hot_coalesce htls hpg hroom
    (coalesce_lru_top hlru hobj.1 hn hptr hcnt) hobj, htls, rfl, setPage_pages_self _ _ _,
    rfl, ?_, ?_, rfl, rfl, rfl, ?_⟩
  · simp
  · intro j hj
    have : j ≠ pg.next - 1 := by omega
    simp [Function.update_apply, this]
  · intro q hq
    simp [hq]

/-- A registration coalesced with the slot below the top slot, by what it
does to the page. -/
theorem step_second {c : Config} {s : State} {p : Nat} {pg : AutoreleasePoolPage}
    {obj : Nat} (htls : s.tls = Tls.page p) (hpg : s.pages p = some pg)
    (hroom : pg.next < c.pageEnd) (hlru : c.DisableAutoreleaseCoalescingLRU = false)
    (hobj : IsRef obj) (hn : 3 ≤ pg.next) (hp1 : (pg.slots (pg.next - 1)).ptr ≠ obj)
    (hnb1 : idOfEntry (pg.slots (pg.next - 1)) ≠ POOL_BOUNDARY)
    (hptr : (pg.slots (pg.next - 2)).ptr = obj)
    (hcnt : (pg.slots (pg.next - 2)).count < maxCount) :
    ∃ s1 pg1, autorelease c s obj = Except.ok (s1, obj) ∧ s1.tls = Tls.page p ∧
      s1.released = s.released ∧ s1.pages p = some pg1 ∧ pg1.next = pg.next ∧
      pg1.slots (pg.next - 1) = bumpCount (pg.slots (pg.next - 2)) ∧
      pg1.slots (pg.next - 2) = pg.slots (pg.next - 1) ∧
      (∀ j, j < pg.next - 2 → pg1.slots j = pg.slots j) ∧
      pg1.parent = pg.parent ∧ pg1.child = pg.child ∧ s1.brk = s.brk ∧
      ∀ q, q ≠ p → s1.pages q = s.pages q := by
  refine ⟨_, _, autorelease_hot_coalesce htls hpg hroom
    (coalesce_lru_second hlru hobj.1 hn hp1 hnb1 hptr hcnt) hobj, htls, rfl,
    setPage_pages_self _ _ _, rfl, ?_, ?_, ?_, rfl, rfl, rfl, ?_⟩
  · simp
  · have : pg.next - 2 ≠ pg.next - 1 := by omega
    simp [Function.update_apply, this]
  · intro j hj
    have h1 : j ≠ pg.next - 1 := by omega
    have h2 : j ≠ pg.next - 2 := by omega
    simp [Function.update_apply, h1, h2]
  · intro q hq
    simp [hq]

/-- The calls of `main` before the `pop`, with LRU coalescing and pages of at
least four slots: they return, release nothing, and leave one page that holds
a boundary marker, `obj1` with count 2 and `obj2` with count 1. -/
theorem main_registrations (c : Config) (hnd : c.nonDebug)
    (hlru : c.DisableAutoreleaseCoalescingLRU = false) (hcap : 4 ≤ c.pageEnd)
    (obj1 obj2 : Nat) (h1 : IsRef obj1) (h2 : IsRef obj2) (hne : obj1 ≠ obj2) :
    ∃ s pg, run c (State.init, [])
        [Op.push, Op.autorelease obj1, Op.autorelease obj2, Op.autorelease obj1,
          Op.autorelease obj1, Op.autorelease obj2] =
        Except.ok (s, [SlotPtr.EMPTY_POOL_PLACEHOLDER]) ∧
      s.tls = Tls.page 0 ∧ s.pages 0 = some pg ∧ s.released = [] ∧ pg.next = 3 ∧
      pg.slots 0 = boundary ∧ pg.slots 1 = ⟨obj1, 2⟩ ∧ pg.slots 2 = ⟨obj2, 1⟩ ∧
      pg.parent = none ∧ pg.child = none ∧ s.brk = 1 ∧ ∀ q, q ≠ 0 → s.pages q = none := by
  obtain ⟨S1, hpush, hph1, hbrk1, hrel1, hnone1⟩ : ∃ S1 : State,
      push c State.init = Except.ok (S1, SlotPtr.EMPTY_POOL_PLACEHOLDER) ∧
      S1.tls = Tls.EMPTY_POOL_PLACEHOLDER ∧ S1.brk = 0 ∧ S1.released = [] ∧
      ∀ q, S1.pages q = none :=
    ⟨_, push_nil c State.init rfl hnd.1, rfl, rfl, rfl, fun _ => rfl⟩
  have hoth1 : ∀ q, q ≠ 0 → (materialised c S1 obj1).pages q = none := by
    intro q hq
    simp [materialised, hbrk1, hq, hnone1]
  obtain ⟨S2, P2, har1, htls2, hrel2, hP2, hn2, hs20, hs21, hpar2, hch2, hbrk2, hoth2⟩ :
      ∃ (S2 : State)
      (P2 : AutoreleasePoolPage), autorelease c S1 obj1 = Except.ok (S2, obj1) ∧
      S2.tls = Tls.page 0 ∧ S2.released = [] ∧ S2.pages 0 = some P2 ∧ P2.next = 2 ∧
      P2.slots 0 = boundary ∧ P2.slots 1 = ⟨obj1, 0⟩ ∧ P2.parent = none ∧ P2.child = none ∧
      S2.brk = 1 ∧ ∀ q, q ≠ 0 → S2.pages q = none :=
    ⟨_, ⟨2, none, none, 0, 0,
        Function.update (Function.update (c.fresh S1.brk) 0 ⟨POOL_BOUNDARY, 0⟩) 1 ⟨obj1, 0⟩⟩,
      autorelease_placeholder c S1 obj1 hph1 (by omega) h1.2,
      by simp [materialised, hbrk1], hrel1, by simp [materialised, hbrk1], rfl,
      by simp [boundary, POOL_BOUNDARY], by simp, rfl, rfl, by simp [materialised, hbrk1],
      hoth1⟩
  -- obj2 gets a slot of its own
  obtain ⟨S3, P3, har2, htls3, hrel3, hP3, hn3, hs32, hs3, hpar3, hch3, hbrk3, hoth3⟩ :=
    @step_append c S2 0 P2 obj2 htls2 hP2
    (by omega) (coalesce_lru_miss hlru hn2 (by rw [hs21]; exact hne)) h2
    (prevOK_of_plain (by rw [hn2, hs21]; exact plainEntry_ref h1))
  rw [hn2] at hn3 hs32 hs3
  have hs30 : P3.slots 0 = boundary := (hs3 0 (by omega)).trans hs20
  have hs31 : P3.slots 1 = ⟨obj1, 0⟩ := (hs3 1 (by omega)).trans hs21
  -- obj1 is found below obj2 and moves to the top
  obtain ⟨S4, P4, har3, htls4, hrel4, hP4, hn4, hs42, hs41, hs4, hpar4, hch4, hbrk4, hoth4⟩ :=
    @step_second c S3 0 P3 obj1 htls3 hP3 (by omega) hlru h1 (by omega)
      (by rw [hn3, hs32]; exact fun h => hne h.symm)
      (by
        rw [hn3, hs32]
        intro h
        exact h2.1 (congrArg AutoreleasePoolEntry.ptr ((idOfEntry_eq_zero _).1 h)))
      (by rw [hn3, hs31]) (by rw [hn3, hs31]; show 0 < maxCount; unfold maxCount; omega)
  rw [hn3] at hn4 hs42 hs41 hs4
  simp only [Nat.add_one_sub_one, Nat.reduceSub, Nat.reduceAdd] at hs42 hs41 hs4
  rw [hs31] at hs42
  rw [hs32] at hs41
  have hs40 : P4.slots 0 = boundary := (hs4 0 (by omega)).trans hs30
  -- obj1 is coalesced with the top slot
  obtain ⟨S5, P5, har4, htls5, hrel5, hP5, hn5, hs52, hs5, hpar5, hch5, hbrk5, hoth5⟩ :=
    @step_top c S4 0 P4 obj1 htls4 hP4 (by omega) hlru h1 (by omega)
      (by rw [hn4, hs42]; rfl) (by rw [hn4, hs42]; show (0 + 1) % 2 ^ 16 < maxCount; unfold maxCount; omega)
  rw [hn4] at hn5 hs52 hs5
  simp only [Nat.add_one_sub_one, Nat.reduceSub, Nat.reduceAdd] at hs52 hs5
  rw [hs42] at hs52
  have hs50 : P5.slots 0 = boundary := (hs5 0 (by omega)).trans hs40
  have hs51 : P5.slots 1 = ⟨obj2, 0⟩ := (hs5 1 (by omega)).trans hs41
  -- obj2 is found below obj1 and moves to the top
  obtain ⟨S6, P6, har5, htls6, hrel6, hP6, hn6, hs62, hs61, hs6, hpar6, hch6, hbrk6, hoth6⟩ :=
    @step_second c S5 0 P5 obj2 htls5 hP5 (by omega) hlru h2 (by omega)
      (by rw [hn5, hs52]; exact hne)
      (by
        rw [hn5, hs52]
        intro h
        exact h1.1 (congrArg AutoreleasePoolEntry.ptr ((idOfEntry_eq_zero _).1 h)))
      (by rw [hn5, hs51]) (by rw [hn5, hs51]; show 0 < maxCount; unfold maxCount; omega)
  rw [hn5] at hn6 hs62 hs61 hs6
  simp only [Nat.add_one_sub_one, Nat.reduceSub, Nat.reduceAdd] at hs62 hs61 hs6
  rw [hs51] at hs62
  rw [hs52] at hs61
  have hs60 : P6.slots 0 = boundary := (hs6 0 (by omega)).trans hs50
  refine ⟨S6, P6, ?_, htls6, hP6, ?_, hn6, hs60, ?_, ?_, ?_, ?_, ?_, ?_⟩
  · simp only [run, step, hpush, har1, har2, har3, har4, har5]
  · rw [hrel6, hrel5, hrel4, hrel3, hrel2]
  · rw [hs61]
    simp [bumpCount]
  · rw [hs62]
    simp [bumpCount]
  · rw [hpar6, hpar5, hpar4, hpar3, hpar2]
  · rw [hch6, hch5, hch4, hch3, hch2]
  · rw [hbrk6, hbrk5, hbrk4, hbrk3, hbrk2]
  · intro q hq
    rw [hoth6 q hq, hoth5 q hq, hoth4 q hq, hoth3 q hq, hoth2 q hq]

/-- C1: on a new thread, in the default configuration (LRU coalescing on, none
of the three debugging switches set; pages of at least four slots), for distinct references
`obj1` and `obj2` the calls of `main`, that is push, autorelease of obj1,
obj2, obj1, obj1, obj2, and pop of the token, all return and make exactly
three `release` calls on obj1, two on obj2, and no other. -/
theorem main_scenario_counts (c : Config) (hnd : c.nonDebug)
    (hlru : c.DisableAutoreleaseCoalescingLRU = false) (hcap : 4 ≤ c.pageEnd)
    (obj1 obj2 : Nat) (h1 : IsRef obj1) (h2 : IsRef obj2) (hne : obj1 ≠ obj2) :
    ∃ s, run c (State.init, []) (main obj1 obj2) = Except.ok (s, []) ∧
      s.released.count obj1 = 3 ∧ s.released.count obj2 = 2 ∧ s.released.length = 5 := by
  have hcap2 : 2 ≤ c.pageEnd := by omega
  obtain ⟨s6, pg, hrun6, _⟩ := main_registrations c hnd hlru hcap obj1 obj2 h1 h2 hne
  have hreach : Reach c s6 [SlotPtr.EMPTY_POOL_PLACEHOLDER] := by
    refine reach_run _ State.init [] s6 _ Reach.init ?_ hrun6
    intro obj hm
    simp only [List.mem_cons, List.mem_singleton, Op.autorelease.injEq, List.mem_nil_iff,
      or_false, false_or, reduceCtorEq] at hm
    rcases hm with h | h | h | h | h <;> rw [h] <;> assumption
  obtain ⟨cells, base, hinv, htok⟩ := hreach.inv hnd hcap2
  obtain ⟨lo, a, hi, hcells, _, hm⟩ := TokensIn.split [] htok
  rw [hcells] at hinv
  obtain ⟨s7, hpop, _⟩ := pop_token_spec hnd (by omega) hinv (hm.imp (fun h => ⟨h, rfl⟩) id)
  have hrun : run c (State.init, []) (main obj1 obj2) = Except.ok (s7, []) := by
    have happ := run_append c _ [Op.pop 0] (State.init, []) _ hrun6
    have hmain : main obj1 obj2 =
        [Op.push, Op.autorelease obj1, Op.autorelease obj2, Op.autorelease obj1,
          Op.autorelease obj1, Op.autorelease obj2] ++ [Op.pop 0] := rfl
    rw [hmain, happ]
    simp only [run, step, List.drop_zero, hpop]
  have hn : Nested 0 (main obj1 obj2) := by
    simp [main, Nested, h1, h2]
  rcases run_nested hnd hcap2 (main obj1 obj2) 0 State.init [] [] hn rfl (inv_init c)
    TokensIn.nil with herr | ⟨s, k1, _, hperm⟩
  · rw [hrun] at herr
    cases herr
  · rw [hrun] at k1
    simp only [Except.ok.injEq, Prod.mk.injEq, and_true] at k1
    subst k1
    have hp : List.Perm s7.released [obj1, obj2, obj1, obj1, obj2] := by
      simpa [State.init, releasesOf, registrations, main] using hperm
    refine ⟨s7, hrun, ?_, ?_, ?_⟩
    · rw [hp.count_eq]
      simp [List.count_cons, hne, hne.symm]
    · rw [hp.count_eq]
      simp [List.count_cons, hne, hne.symm]
    · rw [hp.length_eq]
      rfl

/-- The scenario of `main` on the references 100 and 200 in the default
configuration. -/
theorem main_scenario_counts_witness :
    defaultConfig.nonDebug ∧ defaultConfig.DisableAutoreleaseCoalescingLRU = false ∧
    IsRef 100 ∧ IsRef 200 ∧
    ∃ s, run defaultConfig (State.init, []) (main 100 200) = Except.ok (s, []) ∧
      s.released.count 100 = 3 ∧ s.released.count 200 = 2 ∧ s.released.length = 5 :=
  ⟨⟨rfl, rfl, rfl⟩, rfl, ⟨by decide, by decide⟩, ⟨by decide, by decide⟩,
    main_scenario_counts defaultConfig ⟨rfl, rfl, rfl⟩ rfl (by decide) 100 200
      ⟨by decide, by decide⟩ ⟨by decide, by decide⟩ (by decide)⟩

/-- C2, LIFO balance, fails in the code: in the default configuration the
correctly nested calls push, autorelease 100, autorelease 100, autorelease 200,
pop do not all return.  The first three leave the entry for 100 with count 1
in slot 1 of page 0; the registration of 200 finds nothing to coalesce with,
and on the way to a new slot `add` reads the whole word of slot 1, count
included, as an `Object *`, which is not the address of an object. -/
theorem lifo_balance_fails :
    Nested 0 [Op.push, Op.autorelease 100, Op.autorelease 100, Op.autorelease 200, Op.pop 0] ∧
    run defaultConfig (State.init, [])
      [Op.push, Op.autorelease 100, Op.autorelease 100, Op.autorelease 200, Op.pop 0] =
      Except.error Fault.badAccess ∧
    run defaultConfig (State.init, []) [Op.push, Op.autorelease 100, Op.autorelease 100] =
      Except.ok (reached defaultConfig [Op.push, Op.autorelease 100, Op.autorelease 100]) ∧
    ((reached defaultConfig [Op.push, Op.autorelease 100, Op.autorelease 100]).1.pages 0).map
      (fun pg => (pg.next, pg.slots 1, isObject (idOfEntry (pg.slots 1)))) =
      some (2, ⟨100, 1⟩, false) ∧
    autorelease defaultConfig
      (reached defaultConfig [Op.push, Op.autorelease 100, Op.autorelease 100]).1 200 =
      Except.error Fault.badAccess :=
  ⟨by simp [Nested, IsRef], rfl, rfl, by decide, rfl⟩

/-- C3, scope exactness, fails in the code: in the default configuration, in
the state reached by push and autorelease 100, `push` returns the real slot 2
of page 0, and the registrations 200, 200, 300 that follow do not all return:
the registration of 300 makes `add` read slot 3, which holds 200 with count 1,
as an `Object *`. -/
theorem scope_exactness_fails :
    Reach defaultConfig (reached defaultConfig [Op.push, Op.autorelease 100]).1
      [SlotPtr.EMPTY_POOL_PLACEHOLDER] ∧
    push defaultConfig (reached defaultConfig [Op.push, Op.autorelease 100]).1 =
      Except.ok ((reached defaultConfig [Op.push, Op.autorelease 100, Op.push]).1,
        SlotPtr.slot 0 2) ∧
    Opening [Op.autorelease 200, Op.autorelease 200, Op.autorelease 300] ∧
    run defaultConfig ((reached defaultConfig [Op.push, Op.autorelease 100, Op.push]).1,
        [SlotPtr.slot 0 2, SlotPtr.EMPTY_POOL_PLACEHOLDER])
      [Op.autorelease 200, Op.autorelease 200, Op.autorelease 300] =
      Except.error Fault.badAccess :=
  ⟨reach_run [Op.push, Op.autorelease 100] State.init [] _ _ Reach.init (by simp [IsRef]) rfl,
    rfl, by simp [Opening, IsRef], rfl⟩

/-- C4: order.  In every reachable state of a non-debug configuration (any
coalescing switches, pages of at least two slots, so also when the scope spans
several pages), for a scope opened by a `push()` that returned, whose
registrations are pairwise distinct references `r1, ..., rn`: the
registrations return and release nothing, and `pop` of the scope's token
returns and makes exactly the `release` calls `rn, ..., r1`, in this order. -/
theorem release_order_reverse (c : Config) (hnd : c.nonDebug) (hcap : 2 ≤ c.pageEnd)
    (s : State) (toks : List SlotPtr) (hr : Reach c s toks) (s1 : State) (t : SlotPtr)
    (hpush : push c s = Except.ok (s1, t))
    (rs : List Nat) (hnodup : rs.Nodup) (href : ∀ r ∈ rs, IsRef r) :
    ∃ s2 s3, run c (s1, t :: toks) (rs.map Op.autorelease) = Except.ok (s2, t :: toks) ∧
      s2.released = s.released ∧
      pop c s2 t = Except.ok s3 ∧ s3.released = s.released ++ rs.reverse := by
  obtain ⟨cells, lo, a, hinv, hinv1, hm, hlo, hrel1⟩ := push_scope hnd hcap hr hpush
  obtain ⟨s2, a3, X3, hrun, hinv2, ha3, hrel2, hX3⟩ :=
    run_fresh hnd hcap rs s1 (t :: toks) lo a [] href hinv1 (fun _ he => by cases he)
      (Or.inr ⟨hnodup, fun _ _ _ he => by cases he⟩)
  obtain ⟨s3, hpop, hrel3, _⟩ := close_scope hnd hcap hinv hlo hinv2 (token_match_step hm ha3)
  refine ⟨s2, s3, hrun, hrel2.trans hrel1, hpop, ?_⟩
  rw [hrel3, hrel2, hrel1, hX3, List.map_nil, List.nil_append, releasesOf_refs rs href]

/-- Three distinct references in a scope opened above a full page, on a thread
whose pages have two slots: the scope spans two further pages. -/
theorem release_order_reverse_witness :
    Reach smallConfig (reached smallConfig [Op.push, Op.autorelease 7]).1
      [SlotPtr.EMPTY_POOL_PLACEHOLDER] ∧
    push smallConfig (reached smallConfig [Op.push, Op.autorelease 7]).1 =
      Except.ok ((reached smallConfig [Op.push, Op.autorelease 7, Op.push]).1,
        SlotPtr.slot 1 0) ∧
    [1, 2, 3].Nodup ∧ (∀ r ∈ [1, 2, 3], IsRef r) ∧
    ∃ s2 s3,
      run smallConfig ((reached smallConfig [Op.push, Op.autorelease 7, Op.push]).1,
          SlotPtr.slot 1 0 :: [SlotPtr.EMPTY_POOL_PLACEHOLDER])
        ([1, 2, 3].map Op.autorelease) =
        Except.ok (s2, SlotPtr.slot 1 0 :: [SlotPtr.EMPTY_POOL_PLACEHOLDER]) ∧
      s2.released = (reached smallConfig [Op.push, Op.autorelease 7]).1.released ∧
      pop smallConfig s2 (SlotPtr.slot 1 0) = Except.ok s3 ∧
      s3.released =
        (reached smallConfig [Op.push, Op.autorelease 7]).1.released ++ [1, 2, 3].reverse :=
  have hr : Reach smallConfig (reached smallConfig [Op.push, Op.autorelease 7]).1
      [SlotPtr.EMPTY_POOL_PLACEHOLDER] :=
    reach_run [Op.push, Op.autorelease 7] State.init [] _ _ Reach.init (by simp [IsRef]) rfl
  ⟨hr, rfl, by decide, by simp [IsRef],
    release_order_reverse smallConfig ⟨rfl, rfl, rfl⟩ (by decide) _ _ hr _ _ rfl
      [1, 2, 3] (by decide) (by simp [IsRef])⟩

/-- C5: a mismatched pop is atomic.  In every state and every configuration,
for a token that is slot `i` of a live page `p` whose content is not a
boundary marker, and that is not the first slot of a parentless page,
`pop(token)` returns, makes no `release` call and leaves the pages (contents,
cursors and links), the thread-local cache and the allocator as they were; its
only effect is the warn-once flag of `badPop`. -/
theorem pop_mismatched_is_atomic (c : Config) (s : State) (p i : Nat) (pg : AutoreleasePoolPage)
    (hlive : s.pages p = some pg) (hi : i < c.pageEnd)
    (hcontent : idOfEntry (pg.slots i) ≠ POOL_BOUNDARY)
    (hroot : ¬ (i = 0 ∧ pg.parent = none)) :
    ∃ s1, pop c s (SlotPtr.slot p i) = Except.ok s1 ∧ s1.released = s.released ∧
      s1.pages = s.pages ∧ s1.tls = s.tls ∧ s1.brk = s.brk ∧ s1.complained = true :=
  ⟨badPop s, pop_bad c s p i pg hlive hi hcontent hroot, rfl, rfl, rfl, rfl, rfl⟩

/-- A pop of the slot that holds the reference 100, after a push and a
registration of 100 in the default configuration. -/
theorem pop_mismatched_is_atomic_witness :
    ((reached defaultConfig [Op.push, Op.autorelease 100]).1.pages 0).isSome = true ∧
    ∃ s1, pop defaultConfig (reached defaultConfig [Op.push, Op.autorelease 100]).1
        (SlotPtr.slot 0 1) = Except.ok s1 ∧
      s1.released = (reached defaultConfig [Op.push, Op.autorelease 100]).1.released ∧
      s1.pages = (reached defaultConfig [Op.push, Op.autorelease 100]).1.pages ∧
      s1.tls = (reached defaultConfig [Op.push, Op.autorelease 100]).1.tls ∧
      s1.brk = (reached defaultConfig [Op.push, Op.autorelease 100]).1.brk ∧
      s1.complained = true :=
  ⟨rfl,
    pop_mismatched_is_atomic defaultConfig (reached defaultConfig [Op.push, Op.autorelease 100]).1
      0 1 (Option.get ((reached defaultConfig [Op.push, Op.autorelease 100]).1.pages 0) rfl)
      (Option.some_get _).symm (by decide) (by decide) (by decide)⟩

/-- C7: placeholder laziness.  On a thread whose cache is `nil`, with
`DebugPoolAllocation` off, `push` returns `EMPTY_POOL_PLACEHOLDER`, allocates
no page, stores the placeholder in the cache and releases nothing; the `pop`
of that token right after it returns, allocates no page, releases nothing and
sets the cache back to `nil`. -/
theorem push_pop_placeholder (c : Config) (s : State) (hnil : s.tls = Tls.nil)
    (hdbg : c.DebugPoolAllocation = false) :
    ∃ s1 s2, push c s = Except.ok (s1, SlotPtr.EMPTY_POOL_PLACEHOLDER) ∧
      s1.pages = s.pages ∧ s1.brk = s.brk ∧ s1.tls = Tls.EMPTY_POOL_PLACEHOLDER ∧
      s1.released = s.released ∧
      pop c s1 SlotPtr.EMPTY_POOL_PLACEHOLDER = Except.ok s2 ∧
      s2.pages = s.pages ∧ s2.brk = s.brk ∧ s2.tls = Tls.nil ∧ s2.released = s.released := by
  refine ⟨{ s with tls := Tls.EMPTY_POOL_PLACEHOLDER }, { s with tls := Tls.nil }, ?_,
    rfl, rfl, rfl, rfl, ?_, rfl, rfl, rfl, rfl⟩
  · simp [push, hdbg, autoreleaseFast, hotPage, hnil, autoreleaseNoPage, haveEmptyPoolPlaceholder,
      setEmptyPoolPlaceholder, POOL_BOUNDARY]
  · simp [pop, hotPage, setHotPage]

/-- A new thread in the default configuration. -/
theorem push_pop_placeholder_witness :
    State.init.tls = Tls.nil ∧ defaultConfig.DebugPoolAllocation = false ∧
    ∃ s1 s2, push defaultConfig State.init = Except.ok (s1, SlotPtr.EMPTY_POOL_PLACEHOLDER) ∧
      s1.pages = State.init.pages ∧ s1.brk = State.init.brk ∧
      s1.tls = Tls.EMPTY_POOL_PLACEHOLDER ∧ s1.released = State.init.released ∧
      pop defaultConfig s1 SlotPtr.EMPTY_POOL_PLACEHOLDER = Except.ok s2 ∧
      s2.pages = State.init.pages ∧ s2.brk = State.init.brk ∧ s2.tls = Tls.nil ∧
      s2.released = State.init.released :=
  ⟨rfl, rfl, push_pop_placeholder defaultConfig State.init rfl rfl⟩

/-- C8: placeholder materialisation.  When the cache holds the placeholder and
the page has room for two slots, `autoreleaseFast(x)` for any 48-bit `x` (a
reference, or `POOL_BOUNDARY` for a second push) allocates exactly one block,
a page with no parent and no child at depth 0, whose first slot is a boundary
marker and whose second slot holds `x` with count 0, makes it the hot page,
releases nothing and returns the address of the second slot; `autorelease(x)`
and, for `x = POOL_BOUNDARY`, `push()` return with that state. -/
theorem placeholder_materialises (c : Config) (s : State) (x : Nat)
    (hph : s.tls = Tls.EMPTY_POOL_PLACEHOLDER) (hcap : 2 ≤ c.pageEnd) (hx : x < 2 ^ 48) :
    ∃ s1 pg, autoreleaseFast c s x = Except.ok (s1, SlotPtr.slot s.brk 1) ∧
      s1.pages = Function.update s.pages s.brk (some pg) ∧ s1.brk = s.brk + 1 ∧
      s1.tls = Tls.page s.brk ∧ s1.released = s.released ∧
      pg.parent = none ∧ pg.child = none ∧ pg.depth = 0 ∧ pg.next = 2 ∧
      pg.slots 0 = boundary ∧ pg.slots 1 = ⟨x, 0⟩ ∧
      autorelease c s x = Except.ok (s1, x) ∧
      (x = POOL_BOUNDARY → push c s = Except.ok (s1, SlotPtr.slot s.brk 1)) := by
  have hfast := autoreleaseFast_placeholder c s x hph hcap hx
  refine ⟨materialised c s x,
    ⟨2, none, none, 0, 0,
      Function.update (Function.update (c.fresh s.brk) 0 ⟨POOL_BOUNDARY, 0⟩) 1 ⟨x, 0⟩⟩,
    hfast, rfl, rfl, rfl, rfl, rfl, rfl, rfl, rfl, by simp [boundary, POOL_BOUNDARY], by simp,
    autorelease_placeholder c s x hph hcap hx, ?_⟩
  intro h0
  have hnew : autoreleaseNewPage c s x = autoreleaseFast c s x := by
    simp [autoreleaseNewPage, autoreleaseFast, hotPage, hph]
  have hlive : (materialised c s x).pages s.brk = some
      ⟨2, none, none, 0, 0,
        Function.update (Function.update (c.fresh s.brk) 0 ⟨POOL_BOUNDARY, 0⟩) 1 ⟨x, 0⟩⟩ := by
    simp [materialised]
  subst h0
  unfold push
  simp only [hnew, ite_self, hfast, hlive]
  simp [idOfEntry, POOL_BOUNDARY]

/-- The first registration, of the reference 100, after the first push of a
thread in the default configuration. -/
theorem placeholder_materialises_witness :
    (reached defaultConfig [Op.push]).1.tls = Tls.EMPTY_POOL_PLACEHOLDER ∧
    ∃ s1 pg, autoreleaseFast defaultConfig (reached defaultConfig [Op.push]).1 100 =
        Except.ok (s1, SlotPtr.slot (reached defaultConfig [Op.push]).1.brk 1) ∧
      s1.pages = Function.update (reached defaultConfig [Op.push]).1.pages
        (reached defaultConfig [Op.push]).1.brk (some pg) ∧
      s1.brk = (reached defaultConfig [Op.push]).1.brk + 1 ∧
      s1.tls = Tls.page (reached defaultConfig [Op.push]).1.brk ∧
      s1.released = (reached defaultConfig [Op.push]).1.released ∧
      pg.parent = none ∧ pg.child = none ∧ pg.depth = 0 ∧ pg.next = 2 ∧
      pg.slots 0 = boundary ∧ pg.slots 1 = ⟨100, 0⟩ ∧
      autorelease defaultConfig (reached defaultConfig [Op.push]).1 100 = Except.ok (s1, 100) ∧
      (100 = POOL_BOUNDARY → push defaultConfig (reached defaultConfig [Op.push]).1 =
        Except.ok (s1, SlotPtr.slot (reached defaultConfig [Op.push]).1.brk 1)) :=
  ⟨rfl, placeholder_materialises defaultConfig (reached defaultConfig [Op.push]).1 100 rfl
    (by decide) (by decide)⟩

/-- C10, as stated, fails: for the registrations of `main` on the references
100 and 200 the default (LRU) configuration releases 200, 200, 100, 100, 100,
while the non-coalesced encoding, the same calls with both coalescing switches
set, releases 200, 100, 100, 200, 100: the counts agree, the order does not. -/
theorem coalescing_order_differs :
    ∃ s s0, run defaultConfig (State.init, []) (main 100 200) = Except.ok (s, []) ∧
      run plainConfig (State.init, []) (main 100 200) = Except.ok (s0, []) ∧
      s.released = [200, 200, 100, 100, 100] ∧ s0.released = [200, 100, 100, 200, 100] ∧
      s.released ≠ s0.released :=
  ⟨(reached defaultConfig (main 100 200)).1, (reached plainConfig (main 100 200)).1,
    rfl, rfl, rfl, rfl, by decide⟩

/-- C10, amended to counts: for every sequence `rs` of registrations of
references made inside one scope, opened by a `push()` that returned in a
reachable state: in the non-coalesced encoding (`c0`, both coalescing switches
set) every call returns and the closing `pop` releases the exact reverse of
`rs`; with coalescing enabled (any non-debug configuration `c`, so also the
default LRU variant) the registrations either stop at the read of a slot that
holds a count, or return, and then the closing `pop` returns and releases a
permutation of the reverse of `rs`: the same number of `release` calls on
each reference, in an order that can differ. -/
theorem coalescing_same_counts (c c0 : Config) (hnd : c.nonDebug) (hcap : 2 ≤ c.pageEnd)
    (hnd0 : c0.nonDebug) (hcap0 : 2 ≤ c0.pageEnd)
    (hplain : c0.DisableAutoreleaseCoalescing = true ∧ c0.DisableAutoreleaseCoalescingLRU = true)
    (s : State) (toks : List SlotPtr) (hr : Reach c s toks) (s1 : State) (t : SlotPtr)
    (hpush : push c s = Except.ok (s1, t))
    (s0 : State) (toks0 : List SlotPtr) (hr0 : Reach c0 s0 toks0) (z1 : State) (u : SlotPtr)
    (hpush0 : push c0 s0 = Except.ok (z1, u))
    (rs : List Nat) (href : ∀ r ∈ rs, IsRef r) :
    (∃ z2 z3, run c0 (z1, u :: toks0) (rs.map Op.autorelease) = Except.ok (z2, u :: toks0) ∧
      pop c0 z2 u = Except.ok z3 ∧ z3.released = s0.released ++ rs.reverse) ∧
    (run c (s1, t :: toks) (rs.map Op.autorelease) = Except.error Fault.badAccess ∨
      ∃ s2 s3 L, run c (s1, t :: toks) (rs.map Op.autorelease) = Except.ok (s2, t :: toks) ∧
        pop c s2 t = Except.ok s3 ∧ s3.released = s.released ++ L ∧
        List.Perm L rs.reverse ∧ ∀ r, L.count r = rs.reverse.count r) := by
  have hops := opening_autoreleases rs href
  constructor
  · obtain ⟨z2, z3, k1, _, k3, k4⟩ := scope_fresh hnd0 hcap0 hr0 hpush0 rs href (Or.inl hplain)
    exact ⟨z2, z3, k1, k3, k4⟩
  · rcases scope_spec hnd hcap hr hpush _ hops with herr |
      ⟨s2, toks2, s3, es, h2, h3, h4, _, h6, _⟩
    · exact Or.inl herr
    · have ht : toks2 = t :: toks := run_autoreleases_toks c rs _ _ h2
      subst ht
      have hp : List.Perm (releasesOf es) rs.reverse := by
        have hp1 := AddsRel.perm _ [] es hops h4
        rw [registrations_autoreleases] at hp1
        have hp2 : List.Perm (releasesOf es) rs := by simpa [releasesOf] using hp1
        exact hp2.trans (List.reverse_perm rs).symm
      exact Or.inr ⟨s2, s3, releasesOf es, h2, h3, h6, hp, fun r => hp.count_eq r⟩

/-- The registrations of `main` on the references 100 and 200, in the default
configuration and in the one with both coalescing switches set. -/
theorem coalescing_same_counts_witness :
    plainConfig.DisableAutoreleaseCoalescing = true ∧
    plainConfig.DisableAutoreleaseCoalescingLRU = true ∧
    (∀ r ∈ [100, 200, 100, 100, 200], IsRef r) ∧
    (∃ z2 z3,
      run plainConfig ((reached plainConfig [Op.push]).1, SlotPtr.EMPTY_POOL_PLACEHOLDER :: [])
        ([100, 200, 100, 100, 200].map Op.autorelease) =
        Except.ok (z2, SlotPtr.EMPTY_POOL_PLACEHOLDER :: []) ∧
      pop plainConfig z2 SlotPtr.EMPTY_POOL_PLACEHOLDER = Except.ok z3 ∧
      z3.released = State.init.released ++ [100, 200, 100, 100, 200].reverse) ∧
    (run defaultConfig ((reached defaultConfig [Op.push]).1,
        SlotPtr.EMPTY_POOL_PLACEHOLDER :: [])
      ([100, 200, 100, 100, 200].map Op.autorelease) = Except.error Fault.badAccess ∨
      ∃ s2 s3 L,
        run defaultConfig ((reached defaultConfig [Op.push]).1,
            SlotPtr.EMPTY_POOL_PLACEHOLDER :: [])
          ([100, 200, 100, 100, 200].map Op.autorelease) =
          Except.ok (s2, SlotPtr.EMPTY_POOL_PLACEHOLDER :: []) ∧
        pop defaultConfig s2 SlotPtr.EMPTY_POOL_PLACEHOLDER = Except.ok s3 ∧
        s3.released = State.init.released ++ L ∧
        List.Perm L [100, 200, 100, 100, 200].reverse ∧
        ∀ r, L.count r = [100, 200, 100, 100, 200].reverse.count r) :=
  ⟨rfl, rfl, by simp [IsRef],
    coalescing_same_counts defaultConfig plainConfig ⟨rfl, rfl, rfl⟩ (by decide)
      ⟨rfl, rfl, rfl⟩ (by decide) ⟨rfl, rfl⟩ State.init [] Reach.init _ _ rfl
      State.init [] Reach.init _ _ rfl [100, 200, 100, 100, 200] (by simp [IsRef])⟩

/-- A chain whose only live block is `p` is the list `[p]`. -/
theorem Chain.ids_single {c : Config} {s : State} {ids : List Nat} {h p : Nat}
    {pg : AutoreleasePoolPage} (hc : Chain c s ids h) (hpg : s.pages p = some pg)
    (hoth : ∀ q, q ≠ p → s.pages q = none) : ids = [p] := by
  have hmem : ∀ x, x ∈ ids ↔ x ∈ [p] := by
    intro x
    rw [List.mem_singleton, ← hc.live x]
    constructor
    · intro hx
      by_contra hne
      exact hx (hoth x hne)
    · intro hx
      rw [hx, hpg]
      simp
  have hperm : List.Perm ids [p] :=
    (List.perm_ext_iff_of_nodup hc.nodup (List.nodup_singleton p)).2 hmem
  exact List.perm_singleton.1 hperm

/-- Every reachable state is well formed, with pending entries that satisfy
any property that boundary markers have and registrations keep. -/
theorem Reach.all_entries {c : Config} (hnd : c.nonDebug) (hcap : 2 ≤ c.pageEnd)
    {P : AutoreleasePoolEntry → Prop}
    (hadd : ∀ obj es es1, AddEntries c obj es es1 → (obj = POOL_BOUNDARY ∨ IsRef obj) →
      (∀ e ∈ es, P e) → ∀ e ∈ es1, P e)
    {s : State} {toks : List SlotPtr} (hr : Reach c s toks) :
    ∃ cells base, Inv c s cells ∧ TokensIn base toks cells ∧ ∀ e ∈ cells.map Prod.snd, P e := by
  induction hr with
  | init => exact ⟨[], [], inv_init c, TokensIn.nil, fun e he => by cases he⟩
  | @push s toks s1 t _ hpush ih =>
    obtain ⟨cells, base, hinv, htok, hP⟩ := ih
    have hok : HotOK c s POOL_BOUNDARY := by
      by_contra hbad
      rw [push_fault hnd.1 hbad] at hpush
      cases hpush
    obtain ⟨s2, t2, cells1, r1, r2, r3, _⟩ := push_spec hnd hcap hinv hok
    rw [hpush] at r1
    cases r1
    obtain ⟨base1, hb1, _⟩ := htok.push r3
    exact ⟨cells1, base1, r2, hb1, hadd _ _ _ r3.entries (Or.inl rfl) hP⟩
  | @autorelease s toks obj s1 r _ hobj hauto ih =>
    obtain ⟨cells, base, hinv, htok, hP⟩ := ih
    have hok : HotOK c s obj := by
      by_contra hbad
      rw [autorelease_fault hbad] at hauto
      cases hauto
    obtain ⟨s2, t2, cells1, r1, r2, r3, _⟩ := autorelease_spec hnd hcap hinv hobj hok
    rw [hauto] at r1
    cases r1
    have hP1 := hadd _ _ _ r3.entries (Or.inr hobj) hP
    cases toks with
    | nil => exact ⟨cells1, cells1, r2, TokensIn.nil, hP1⟩
    | cons t0 toks0 => exact ⟨cells1, base, r2, htok.add r3, hP1⟩
  | @pop s inner t outer s1 _ hpop ih =>
    obtain ⟨cells, base, hinv, htok, hP⟩ := ih
    obtain ⟨lo, a, hi, e1, e2, e3⟩ := TokensIn.split inner htok
    subst e1
    have hmatch : (t = a ∧ boundary = boundary) ∨
        (t = SlotPtr.EMPTY_POOL_PLACEHOLDER ∧ lo = []) := by
      rcases e3 with e3 | e3
      · exact Or.inl ⟨e3, rfl⟩
      · exact Or.inr e3
    obtain ⟨s2, r1, r2, _⟩ := pop_token_spec hnd (by omega) hinv hmatch
    rw [hpop] at r1
    cases r1
    refine ⟨lo, base, r2, e2, ?_⟩
    intro e he
    apply hP e
    rw [List.map_append]
    exact List.mem_append_left _ he

/-- In a configuration with both coalescing switches set, a registration
appends: no entry is ever given a count. -/
theorem AddEntries.plain {c : Config} (ha : c.DisableAutoreleaseCoalescing = true)
    (hb : c.DisableAutoreleaseCoalescingLRU = true) {obj : Nat}
    {es es1 : List AutoreleasePoolEntry} (h : AddEntries c obj es es1) :
    es1 = es ++ [⟨obj, 0⟩] := by
  rcases h with happ | ⟨_, A, e, R, _, _, _, _, _, _, hsw⟩
  · exact happ
  · have := (hsw hb).2
    rw [ha] at this
    cases this

/-- In a configuration with both coalescing switches set every pending entry
of a reachable state is a boundary marker or one registration of a reference. -/
theorem Reach.plain_cells {c : Config} (hnd : c.nonDebug) (hcap : 2 ≤ c.pageEnd)
    (ha : c.DisableAutoreleaseCoalescing = true)
    (hb : c.DisableAutoreleaseCoalescingLRU = true) {s : State} {toks : List SlotPtr}
    (hr : Reach c s toks) :
    ∃ cells, Inv c s cells ∧ ∀ e ∈ cells.map Prod.snd, PlainEntry e := by
  obtain ⟨cells, _, hinv, _, hP⟩ := Reach.all_entries hnd hcap (P := PlainEntry)
    (fun obj es es1 hadd hobj hP e he => by
      rw [hadd.plain ha hb, List.mem_append, List.mem_singleton] at he
      rcases he with he | he
      · exact hP e he
      · rw [he]
        rcases hobj with h0 | h0
        · rw [h0]
          exact plainEntry_boundary
        · exact plainEntry_ref h0) hr
  exact ⟨cells, hinv, hP⟩

/-- C16: no-pool autorelease.  On a thread whose thread-local value is absent
(no page, no placeholder), for a reference `x`: when `DebugMissingPools` is set,
`autoreleaseFast(x)` returns `nil` and the state after the call is the state
before it, so no page is allocated, the thread-local value stays absent and `x`
is in no slot that a later `pop` could release; otherwise (pages of at least one
slot) it allocates block `brk` as a page without parent, stores `x` with count 0
in its first slot, with no boundary marker before it, makes it the hot page and
touches no other block. -/
theorem autorelease_no_pool (c : Config) (s : State) (x : Nat) (htls : s.tls = Tls.nil)
    (hx : IsRef x) :
    (c.DebugMissingPools = true →
      autoreleaseFast c s x = Except.ok (s, SlotPtr.nil) ∧
      autorelease c s x = Except.ok (s, x)) ∧
    (c.DebugMissingPools = false → 1 ≤ c.pageEnd →
      ∃ s1 pg, autoreleaseFast c s x = Except.ok (s1, SlotPtr.slot s.brk 0) ∧
        autorelease c s x = Except.ok (s1, x) ∧
        s1.tls = Tls.page s.brk ∧ s1.brk = s.brk + 1 ∧ s1.pages s.brk = some pg ∧
        pg.next = 1 ∧ pg.slots 0 = ⟨x, 0⟩ ∧ pg.parent = none ∧ pg.child = none ∧
        pg.depth = 0 ∧ (∀ q, q ≠ s.brk → s1.pages q = s.pages q) ∧
        s1.released = s.released) := by
  have hhot : hotPage s = Except.ok none := by simp only [hotPage, htls]
  have hph : haveEmptyPoolPlaceholder s = false := by
    simp [haveEmptyPoolPlaceholder, htls]
  have hx0 : x ≠ POOL_BOUNDARY := hx.1
  constructor
  · intro hd
    have hfast : autoreleaseFast c s x = Except.ok (s, SlotPtr.nil) := by
      simp [autoreleaseFast, hhot, autoreleaseNoPage, hph, hx0, hd]
    exact ⟨hfast, by simp [autorelease, hfast]⟩
  · intro hd hcap
    let pg0 : AutoreleasePoolPage :=
      { next := 0, parent := none, child := none, depth := 0, hiwat := 0, slots := c.fresh s.brk }
    let s2 : State :=
      { s with pages := Function.update s.pages s.brk (some pg0), brk := s.brk + 1,
               tls := Tls.page s.brk }
    have hA : add c s2 s.brk x =
        Except.ok (setPage s2 s.brk
          { pg0 with slots := Function.update pg0.slots pg0.next ⟨x, 0⟩, next := pg0.next + 1 },
          SlotPtr.slot s.brk pg0.next) :=
      add_append c s2 s.brk x pg0 (by simp [s2]) (by simp [pg0]; omega)
        (coalesce_empty _ _ _ rfl) hx.2 (Or.inl rfl)
    have hfast : autoreleaseFast c s x =
        Except.ok (setPage s2 s.brk
          { pg0 with slots := Function.update pg0.slots pg0.next ⟨x, 0⟩, next := pg0.next + 1 },
          SlotPtr.slot s.brk 0) := by
      simp only [autoreleaseFast, hhot, autoreleaseNoPage, hph, hx0, hd, newPage, setHotPage,
        Function.update_same]
      simpa using hA
    refine ⟨_, _, hfast, ?_, rfl, rfl, setPage_pages_self _ _ _, rfl, ?_, rfl, rfl, rfl, ?_, rfl⟩
    · simp [autorelease, hfast, pg0]
    · simp [pg0]
    · intro q hq
      simp [s2, hq]

/-- The call with no-pool reporting on a new thread, and the call in the
default configuration on a new thread. -/
theorem autorelease_no_pool_witness :
    (autoreleaseFast missingPoolsConfig State.init 100 = Except.ok (State.init, SlotPtr.nil) ∧
      autorelease missingPoolsConfig State.init 100 = Except.ok (State.init, 100)) ∧
    ∃ s1 pg, autoreleaseFast defaultConfig State.init 100 =
        Except.ok (s1, SlotPtr.slot State.init.brk 0) ∧
      autorelease defaultConfig State.init 100 = Except.ok (s1, 100) ∧
      s1.tls = Tls.page State.init.brk ∧ s1.brk = State.init.brk + 1 ∧
      s1.pages State.init.brk = some pg ∧
      pg.next = 1 ∧ pg.slots 0 = ⟨100, 0⟩ ∧ pg.parent = none ∧ pg.child = none ∧
      pg.depth = 0 ∧ (∀ q, q ≠ State.init.brk → s1.pages q = State.init.pages q) ∧
      s1.released = State.init.released :=
  ⟨(autorelease_no_pool missingPoolsConfig State.init 100 rfl ⟨by decide, by decide⟩).1 rfl,
    (autorelease_no_pool defaultConfig State.init 100 rfl ⟨by decide, by decide⟩).2 rfl
      (by decide)⟩

/-- C18 as stated fails: with `DisableAutoreleaseCoalescing` set and the LRU
switch left unset, `add` still takes the LRU branch.  After push and
autorelease 100 the hot page 0 has its cursor at slot 2 and holds 100 with
count 0 in slot 1; `add(100)` returns the address of slot 1, not of slot 2,
leaves the cursor at slot 2 and raises the count of the entry in slot 1. -/
theorem coalescing_switch_alone :
    coalescingOffConfig.DisableAutoreleaseCoalescing = true ∧
    ((reached coalescingOffConfig [Op.push, Op.autorelease 100]).1.pages 0).map
      (fun pg => (pg.next, pg.slots 1)) = some (2, ⟨100, 0⟩) ∧
    ∃ s1, add coalescingOffConfig (reached coalescingOffConfig [Op.push, Op.autorelease 100]).1
        0 100 = Except.ok (s1, SlotPtr.slot 0 1) ∧
      (s1.pages 0).map (fun pg => (pg.next, pg.slots 1)) = some (2, ⟨100, 1⟩) :=
  ⟨rfl, by decide, _, rfl, by decide⟩

/-- C18, amended: with both `DisableAutoreleaseCoalescing` and
`DisableAutoreleaseCoalescingLRU` set, `add` on a page with room never changes
an occupied slot.  For `obj` a boundary marker or a reference: when the slot
below `next` holds no count (`PrevOK`), `add` returns the address of the slot at
`next`, having written `obj` with count 0 there and advanced `next` by one, all
other slots as they were; a call of `add` that returns has done exactly this;
and in every reachable state of such a configuration with no debugging switch
set the hot page is `PrevOK`, so there every `add` on a hot page with room
returns. -/
theorem add_appends_when_disabled (c : Config) (ha : c.DisableAutoreleaseCoalescing = true)
    (hb : c.DisableAutoreleaseCoalescingLRU = true) (s : State) (self : Nat)
    (pg : AutoreleasePoolPage) (hpg : s.pages self = some pg) (hroom : pg.next < c.pageEnd)
    (obj : Nat) (hobj : obj = POOL_BOUNDARY ∨ IsRef obj) :
    (PrevOK pg →
      add c s self obj = Except.ok
        (setPage s self { pg with slots := Function.update pg.slots pg.next ⟨obj, 0⟩,
                                  next := pg.next + 1 },
         SlotPtr.slot self pg.next)) ∧
    (∀ s1 t, add c s self obj = Except.ok (s1, t) →
      t = SlotPtr.slot self pg.next ∧
      s1 = setPage s self { pg with slots := Function.update pg.slots pg.next ⟨obj, 0⟩,
                                    next := pg.next + 1 }) ∧
    (∀ toks, c.nonDebug → 2 ≤ c.pageEnd → Reach c s toks → s.tls = Tls.page self →
      PrevOK pg) := by
  have hlt : obj < 2 ^ 48 := by
    rcases hobj with h | h
    · rw [h]
      decide
    · exact h.2
  have hco : coalesce c pg obj = none := by
    simp [coalesce, ha, hb]
  have happ := add_append c s self obj pg hpg hroom hco hlt
  refine ⟨happ, ?_, ?_⟩
  · intro s1 t hadd
    by_cases hprev : PrevOK pg
    · rw [happ hprev] at hadd
      simp only [Except.ok.injEq, Prod.mk.injEq] at hadd
      exact ⟨hadd.2.symm, hadd.1.symm⟩
    · exfalso
      have hbad : pg.next ≠ 0 ∧ idOfEntry (pg.slots (pg.next - 1)) ≠ POOL_BOUNDARY ∧
          isObject (idOfEntry (pg.slots (pg.next - 1))) = false := by
        unfold PrevOK at hprev
        push_neg at hprev
        refine ⟨hprev.1, hprev.2.1, ?_⟩
        cases hio : isObject (idOfEntry (pg.slots (pg.next - 1))) with
        | false => rfl
        | true => exact absurd hio hprev.2.2
      simp only [add, hpg, full_eq_false hroom, hco] at hadd
      rw [if_neg (by simp), if_pos hbad] at hadd
      cases hadd
  · intro toks hnd hcap hr htls
    obtain ⟨cells, hinv, hP⟩ := Reach.plain_cells hnd hcap ha hb hr
    have hok : HotOK c s obj := hinv.hotOK_of_top (fun init x hx => by
      apply hP
      rw [hx]
      simp) obj
    exact hok self pg htls hpg hroom hco

/-- The registration of 200 above a boundary marker and 100, in the
configuration with both switches set. -/
theorem add_appends_when_disabled_witness :
    (reached plainConfig [Op.push, Op.autorelease 100]).1.pages 0 =
      some (Option.get ((reached plainConfig [Op.push, Op.autorelease 100]).1.pages 0) rfl) ∧
    (Option.get ((reached plainConfig [Op.push, Op.autorelease 100]).1.pages 0) rfl).next = 2 ∧
    PrevOK (Option.get ((reached plainConfig [Op.push, Op.autorelease 100]).1.pages 0) rfl) ∧
    add plainConfig (reached plainConfig [Op.push, Op.autorelease 100]).1 0 200 = Except.ok
      (setPage (reached plainConfig [Op.push, Op.autorelease 100]).1 0
        { Option.get ((reached plainConfig [Op.push, Op.autorelease 100]).1.pages 0) rfl with
          slots := Function.update
            (Option.get ((reached plainConfig [Op.push, Op.autorelease 100]).1.pages 0) rfl).slots
            (Option.get ((reached plainConfig [Op.push, Op.autorelease 100]).1.pages 0) rfl).next
            ⟨200, 0⟩,
          next :=
            (Option.get ((reached plainConfig [Op.push, Op.autorelease 100]).1.pages 0) rfl).next
              + 1 },
       SlotPtr.slot 0
        (Option.get ((reached plainConfig [Op.push, Op.autorelease 100]).1.pages 0) rfl).next) :=
  ⟨(Option.some_get _).symm, rfl, Or.inr (Or.inr (by decide)),
    (add_appends_when_disabled plainConfig rfl rfl
      (reached plainConfig [Op.push, Op.autorelease 100]).1 0
      (Option.get ((reached plainConfig [Op.push, Op.autorelease 100]).1.pages 0) rfl)
      (Option.some_get _).symm (by decide) 200 (Or.inr ⟨by decide, by decide⟩)).1
      (Or.inr (Or.inr (by decide)))⟩

/-- C19: the pinned order of the scenario.  On a new thread, with LRU
coalescing (the LRU switch unset, as in the default configuration), none of the
three debugging switches set and pages of at least four slots, for distinct
references `obj1` and `obj2`: the calls push, autorelease of obj1, obj2, obj1,
obj1, obj2 return and leave one page, the root page 0, hot, holding exactly a
boundary marker, obj1 with count 2 and obj2 with count 1, in this order, and
nothing released; `pop` of the token then returns having made the `release`
calls obj2, obj2, obj1, obj1, obj1, in this order; this is the run of `main`. -/
theorem main_scenario_order (c : Config) (hnd : c.nonDebug)
    (hlru : c.DisableAutoreleaseCoalescingLRU = false) (hcap : 4 ≤ c.pageEnd)
    (obj1 obj2 : Nat) (h1 : IsRef obj1) (h2 : IsRef obj2) (hne : obj1 ≠ obj2) :
    ∃ s pg s1, run c (State.init, [])
        [Op.push, Op.autorelease obj1, Op.autorelease obj2, Op.autorelease obj1,
          Op.autorelease obj1, Op.autorelease obj2] =
        Except.ok (s, [SlotPtr.EMPTY_POOL_PLACEHOLDER]) ∧
      s.tls = Tls.page 0 ∧ s.pages 0 = some pg ∧ (∀ q, q ≠ 0 → s.pages q = none) ∧
      pg.parent = none ∧ pg.next = 3 ∧ pg.slots 0 = boundary ∧ pg.slots 1 = ⟨obj1, 2⟩ ∧
      pg.slots 2 = ⟨obj2, 1⟩ ∧ s.released = [] ∧
      pop c s SlotPtr.EMPTY_POOL_PLACEHOLDER = Except.ok s1 ∧
      s1.released = [obj2, obj2, obj1, obj1, obj1] ∧
      run c (State.init, []) (main obj1 obj2) = Except.ok (s1, []) := by
  have hcap2 : 2 ≤ c.pageEnd := by omega
  obtain ⟨s, pg, hrun, htls, hpg, hrel, hn, hs0, hs1, hs2, hpar, _, _, hoth⟩ :=
    main_registrations c hnd hlru hcap obj1 obj2 h1 h2 hne
  have hreach : Reach c s [SlotPtr.EMPTY_POOL_PLACEHOLDER] := by
    refine reach_run _ State.init [] s _ Reach.init ?_ hrun
    intro obj hm
    simp only [List.mem_cons, List.mem_singleton, Op.autorelease.injEq, List.mem_nil_iff,
      or_false, false_or, reduceCtorEq] at hm
    rcases hm with h | h | h | h | h <;> rw [h] <;> assumption
  obtain ⟨cells, base, hinv, _⟩ := hreach.inv hnd hcap2
  obtain ⟨s1, hpop, _, hrel1, _⟩ := pop_placeholder_spec hnd (by omega) hinv
  obtain ⟨ids, h, hc, hcells⟩ := hinv
  have hids : ids = [0] := hc.ids_single hpg hoth
  have hcells1 : cells = [(SlotPtr.slot 0 0, boundary), (SlotPtr.slot 0 1, ⟨obj1, 2⟩),
      (SlotPtr.slot 0 2, ⟨obj2, 1⟩)] := by
    rw [hcells, hids, cellsOf_of_page htls, List.flatMap_singleton, pageCells_of_live hpg,
      cellsOfPage, hn]
    simp [List.range_succ, hs0, hs1, hs2]
  have hreleased : s1.released = [obj2, obj2, obj1, obj1, obj1] := by
    rw [hrel1, hrel, hcells1]
    simp [releasesOf, releasesOfEntry, boundary, POOL_BOUNDARY, h1.1, h2.1, List.replicate]
  refine ⟨s, pg, s1, hrun, htls, hpg, hoth, hpar, hn, hs0, hs1, hs2, hrel, hpop, hreleased, ?_⟩
  have happ := run_append c _ [Op.pop 0] (State.init, []) _ hrun
  have hmain : main obj1 obj2 =
      [Op.push, Op.autorelease obj1, Op.autorelease obj2, Op.autorelease obj1,
        Op.autorelease obj1, Op.autorelease obj2] ++ [Op.pop 0] := rfl
  rw [hmain, happ]
  simp only [run, step, List.drop_zero, hpop]

/-- The scenario on the references 100 and 200 in the default configuration. -/
theorem main_scenario_order_witness :
    defaultConfig.nonDebug ∧ defaultConfig.DisableAutoreleaseCoalescingLRU = false ∧
    IsRef 100 ∧ IsRef 200 ∧
    ∃ s pg s1, run defaultConfig (State.init, [])
        [Op.push, Op.autorelease 100, Op.autorelease 200, Op.autorelease 100,
          Op.autorelease 100, Op.autorelease 200] =
        Except.ok (s, [SlotPtr.EMPTY_POOL_PLACEHOLDER]) ∧
      s.tls = Tls.page 0 ∧ s.pages 0 = some pg ∧ (∀ q, q ≠ 0 → s.pages q = none) ∧
      pg.parent = none ∧ pg.next = 3 ∧ pg.slots 0 = boundary ∧ pg.slots 1 = ⟨100, 2⟩ ∧
      pg.slots 2 = ⟨200, 1⟩ ∧ s.released = [] ∧
      pop defaultConfig s SlotPtr.EMPTY_POOL_PLACEHOLDER = Except.ok s1 ∧
      s1.released = [200, 200, 100, 100, 100] ∧
      run defaultConfig (State.init, []) (main 100 200) = Except.ok (s1, []) :=
  ⟨⟨rfl, rfl, rfl⟩, rfl, ⟨by decide, by decide⟩, ⟨by decide, by decide⟩,
    main_scenario_order defaultConfig ⟨rfl, rfl, rfl⟩ rfl (by decide) 100 200
      ⟨by decide, by decide⟩ ⟨by decide, by decide⟩ (by decide)⟩

/-- With the LRU switch set, one registration puts one `release` call in front
of what a pop will make: the entry is appended or the count of the top entry
is raised. -/
theorem AddEntries.top_releases {c : Config} (hb : c.DisableAutoreleaseCoalescingLRU = true)
    {obj : Nat} {es es1 : List AutoreleasePoolEntry} (h : AddEntries c obj es es1)
    (hobj : obj ≠ POOL_BOUNDARY) : releasesOf es1 = obj :: releasesOf es := by
  rcases h with happ | ⟨_, A, e, R, g1, g2, g6, _, _, _, hsw⟩
  · rw [happ, releasesOf_append, releasesOf_singleton, releasesOfEntry_ref hobj]
    rfl
  · obtain ⟨hR, _⟩ := hsw hb
    subst hR
    rw [g1, g2, List.nil_append, releasesOf_append, releasesOf_append, releasesOf_singleton,
      releasesOf_singleton, releasesOfEntry_ref hobj]
    cases e with
    | mk p n =>
      simp only at g6
      subst g6
      rw [releasesOfEntry_ref hobj]
      simp only [List.replicate_succ, List.cons_append]

/-- With the LRU switch set, registrations put their `release` calls, last
registration first, in front of what a pop will make. -/
theorem AddsRel.top_reverse {c : Config} (hb : c.DisableAutoreleaseCoalescingLRU = true) :
    ∀ (rs : List Nat) (es es1 : List AutoreleasePoolEntry), (∀ r ∈ rs, IsRef r) →
      AddsRel c (rs.map Op.autorelease) es es1 →
      releasesOf es1 = rs.reverse ++ releasesOf es := by
  intro rs
  induction rs with
  | nil =>
    intro es es1 _ h
    simp only [List.map_nil, AddsRel] at h
    rw [h]
    rfl
  | cons r rs ih =>
    intro es es1 href h
    simp only [List.map_cons, AddsRel] at h
    obtain ⟨es0, h1, h2⟩ := h
    rw [ih es0 es1 (fun x hx => href x (List.mem_cons_of_mem _ hx)) h2,
      h1.top_releases hb (href r (List.mem_cons_self _ _)).1, List.reverse_cons,
      List.append_assoc]
    rfl

/-- A scope filled under strict top-of-stack coalescing (or none): either a
registration stops at the read of a slot that holds a count, or every call
returns and `pop` releases the exact reverse of the registrations. -/
theorem top_coalescing_reverse {c : Config} (hnd : c.nonDebug) (hcap : 2 ≤ c.pageEnd)
    (hb : c.DisableAutoreleaseCoalescingLRU = true) {s : State} {toks : List SlotPtr}
    (hr : Reach c s toks) {s1 : State} {t : SlotPtr} (hpush : push c s = Except.ok (s1, t))
    (rs : List Nat) (href : ∀ r ∈ rs, IsRef r) :
    run c (s1, t :: toks) (rs.map Op.autorelease) = Except.error Fault.badAccess ∨
    ∃ s2 s3, run c (s1, t :: toks) (rs.map Op.autorelease) = Except.ok (s2, t :: toks) ∧
      s2.released = s.released ∧ pop c s2 t = Except.ok s3 ∧
      s3.released = s.released ++ rs.reverse := by
  rcases scope_spec hnd hcap hr hpush _ (opening_autoreleases rs href) with herr |
    ⟨s2, toks2, s3, es, h1, h2, h3, h4, h5, _⟩
  · exact Or.inl herr
  · have htoks : toks2 = t :: toks := run_autoreleases_toks c rs _ _ h1
    subst htoks
    refine Or.inr ⟨s2, s3, h1, h4, h2, ?_⟩
    rw [h5, AddsRel.top_reverse hb rs [] es href h3]
    simp [releasesOf]

/-- C11 fails in the code: with coalescing enabled and the LRU variant
disabled, the registrations 100, 100, 200 in a scope on a new thread do not all
return, so no `pop` releases them.  The second registration of 100 raises the
count of the entry in slot 1 of page 0; the registration of 200 is not coalesced
and `add`, on the way to a new slot, reads the whole word of slot 1, count
included, as an `Object *`.  With coalescing fully disabled the same calls
return and `pop` releases 200, 100, 100.  The registrations of `main` itself do
not all return either when the LRU variant is disabled. -/
theorem top_coalescing_fails :
    topConfig.DisableAutoreleaseCoalescing = false ∧
    topConfig.DisableAutoreleaseCoalescingLRU = true ∧
    run topConfig (State.init, [])
      [Op.push, Op.autorelease 100, Op.autorelease 100, Op.autorelease 200, Op.pop 0] =
      Except.error Fault.badAccess ∧
    ((reached topConfig [Op.push, Op.autorelease 100, Op.autorelease 100]).1.pages 0).map
      (fun pg => (pg.next, pg.slots 1, isObject (idOfEntry (pg.slots 1)))) =
      some (2, ⟨100, 1⟩, false) ∧
    autorelease topConfig
      (reached topConfig [Op.push, Op.autorelease 100, Op.autorelease 100]).1 200 =
      Except.error Fault.badAccess ∧
    (reached plainConfig
      [Op.push, Op.autorelease 100, Op.autorelease 100, Op.autorelease 200, Op.pop 0]).1.released =
      [200, 100, 100] ∧
    run topConfig (State.init, []) (main 100 200) = Except.error Fault.badAccess :=
  ⟨rfl, rfl, rfl, by decide, rfl, by decide, rfl⟩

/-- The LRU scan returns the first offset inside its window whose entry
matches. -/
theorem lruScan_hit (pg : AutoreleasePoolPage) (obj top : Nat) :
    ∀ n off m, off ≤ m → m < off + n →
      (∀ j, off ≤ j → j ≤ m → j < top ∧ pg.slots (top - j) ≠ boundary) →
      (∀ j, off ≤ j → j < m →
        ¬ ((pg.slots (top - j)).ptr = obj ∧ (pg.slots (top - j)).count < maxCount)) →
      (pg.slots (top - m)).ptr = obj → (pg.slots (top - m)).count < maxCount →
      lruScan pg obj top n off = some m := by
  intro n
  induction n with
  | zero =>
    intro off m h1 h2
    omega
  | succ n ih =>
    intro off m h1 h2 hwin hfirst hptr hcnt
    obtain ⟨w1, w2⟩ := hwin off (le_refl _) h1
    have hstop : ¬ (top ≤ off ∨ idOfEntry (pg.slots (top - off)) = POOL_BOUNDARY) := by
      rintro (h | h)
      · omega
      · exact w2 ((idOfEntry_eq_zero _).1 h)
    unfold lruScan
    rw [if_neg hstop]
    by_cases hm : m = off
    · subst hm
      rw [if_pos ⟨hptr, hcnt⟩]
    · rw [if_neg (hfirst off (le_refl _) (by omega))]
      exact ih (off + 1) m (by omega) (by omega) (fun j hj1 hj2 => hwin j (by omega) hj2)
        (fun j hj1 hj2 => hfirst j (by omega) hj2) hptr hcnt

/-- The LRU scan finds nothing when no entry inside its window matches. -/
theorem lruScan_miss (pg : AutoreleasePoolPage) (obj top : Nat) :
    ∀ n off,
      (∀ m, off ≤ m → m < off + n →
        (∀ j, off ≤ j → j ≤ m → j < top ∧ pg.slots (top - j) ≠ boundary) →
        ¬ ((pg.slots (top - m)).ptr = obj ∧ (pg.slots (top - m)).count < maxCount)) →
      lruScan pg obj top n off = none := by
  intro n
  induction n with
  | zero =>
    intro off _
    rfl
  | succ n ih =>
    intro off hno
    unfold lruScan
    by_cases hstop : top ≤ off ∨ idOfEntry (pg.slots (top - off)) = POOL_BOUNDARY
    · rw [if_pos hstop]
    · rw [if_neg hstop]
      have hwin0 : off < top ∧ pg.slots (top - off) ≠ boundary := by
        constructor
        · by_contra h
          exact hstop (Or.inl (by omega))
        · intro h
          exact hstop (Or.inr ((idOfEntry_eq_zero _).2 h))
      have hnm := hno off (le_refl _) (by omega) (fun j hj1 hj2 => by
        have : j = off := by omega
        subst this
        exact hwin0)
      rw [if_neg hnm]
      apply ih
      intro m hm1 hm2 hwin
      apply hno m (by omega) (by omega)
      intro j hj1 hj2
      by_cases hj : j = off
      · subst hj
        exact hwin0
      · exact hwin j (by omega) hj2

/-- The page that the LRU branch leaves when its scan stops at offset `m`. -/
theorem coalesce_lru_found {c : Config} {pg : AutoreleasePoolPage} {obj m : Nat}
    (hlru : c.DisableAutoreleaseCoalescingLRU = false) (hne : pg.next ≠ 0)
    (hobj : obj ≠ POOL_BOUNDARY) (hs : lruScan pg obj (pg.next - 1) 4 0 = some m) :
    ∃ pg1, coalesce c pg obj = some pg1 ∧ pg1.next = pg.next ∧ pg1.parent = pg.parent ∧
      pg1.child = pg.child ∧ pg1.depth = pg.depth ∧ pg1.hiwat = pg.hiwat ∧
      ∀ k, pg1.slots k =
        if k = pg.next - 1 then ⟨obj, (pg.slots (pg.next - 1 - m)).count + 1⟩
        else if pg.next - 1 - m ≤ k ∧ k < pg.next - 1 then pg.slots (k + 1) else pg.slots k := by
  obtain ⟨a1, a2, a3, a4, a5, a6⟩ := lruScan_some pg obj _ 4 0 m hs
  have hempty : pg.empty = false := by
    simp [AutoreleasePoolPage.empty, hne]
  have hco : coalesce c pg obj = some
      { pg with
        slots := Function.update
          (if 0 < m then
            Function.update (memmoveDown pg.slots (pg.next - 1 - m) m) (pg.next - 1)
              (pg.slots (pg.next - 1 - m))
          else pg.slots)
          (pg.next - 1)
          (bumpCount
            ((if 0 < m then
                Function.update (memmoveDown pg.slots (pg.next - 1 - m) m) (pg.next - 1)
                  (pg.slots (pg.next - 1 - m))
              else pg.slots)
              (pg.next - 1))) } := by
    unfold coalesce coalesceLRU
    simp only [hlru, or_true, if_true, hempty, ne_eq, hobj, not_false_eq_true, and_self, hs]
  refine ⟨_, hco, rfl, rfl, rfl, rfl, rfl, ?_⟩
  · intro k
    have hmod : ((pg.slots (pg.next - 1 - m)).count + 1) % 2 ^ 16
        = (pg.slots (pg.next - 1 - m)).count + 1 := by
      apply Nat.mod_eq_of_lt
      have := a6
      simp only [maxCount] at this
      omega
    by_cases hk : k = pg.next - 1
    · subst hk
      simp only [if_true, Function.update_same, bumpCount]
      by_cases hm0 : 0 < m
      · simp only [hm0, if_true, Function.update_same, hmod, a5]
      · have : m = 0 := by omega
        subst this
        simp only [Nat.sub_zero] at hmod a5
        simp only [lt_irrefl, if_false, Nat.sub_zero, hmod, a5]
    · simp only [hk, if_false]
      rw [Function.update_noteq hk]
      by_cases hm0 : 0 < m
      · simp only [hm0, if_true]
        rw [Function.update_noteq hk]
        simp only [memmoveDown]
        have : pg.next - 1 - m + m = pg.next - 1 := by omega
        rw [this]
      · have : m = 0 := by omega
        subst this
        simp only [lt_irrefl, if_false, Nat.sub_zero]
        rw [if_neg (by omega)]

/-- A call of `add` that stores a new slot does not return when the slot below
`next` holds a count. -/
theorem add_fault (c : Config) (s : State) (self obj : Nat) (pg : AutoreleasePoolPage)
    (hlive : s.pages self = some pg) (hroom : pg.next < c.pageEnd)
    (hco : coalesce c pg obj = none) (hprev : ¬ PrevOK pg) :
    add c s self obj = Except.error Fault.badAccess := by
  have hbad : pg.next ≠ 0 ∧ idOfEntry (pg.slots (pg.next - 1)) ≠ POOL_BOUNDARY ∧
      isObject (idOfEntry (pg.slots (pg.next - 1))) = false := by
    unfold PrevOK at hprev
    push_neg at hprev
    refine ⟨hprev.1, hprev.2.1, ?_⟩
    cases hio : isObject (idOfEntry (pg.slots (pg.next - 1))) with
    | false => rfl
    | true => exact absurd hio hprev.2.2
  simp only [add, hlive, full_eq_false hroom, hco]
  rw [if_neg (by simp), if_pos hbad]

/-- What `add(x)` does with the LRU variant on a page that is neither empty nor
full, for a reference `x`.  When an entry inside the window of the scan matches,
the one nearest the top moves to the top slot with its count raised by one, the
entries that were above it move down one slot, `next` and the rest of the page
stay, and the address of the top slot is returned.  When none matches, `x` is
written with count 0 at `next` provided the slot below `next` holds no count
(`PrevOK`); if it holds one, `add` does not return. -/
theorem add_lru_spec (c : Config) (hlru : c.DisableAutoreleaseCoalescingLRU = false)
    (s : State) (self : Nat) (pg : AutoreleasePoolPage) (hpg : s.pages self = some pg)
    (hne : pg.next ≠ 0) (hroom : pg.next < c.pageEnd) (x : Nat) (hx : IsRef x) :
    (∀ m, InWindow pg m → Matches pg x m → (∀ j, j < m → ¬ Matches pg x j) →
      ∃ pg1, add c s self x = Except.ok (setPage s self pg1, SlotPtr.slot self (pg.next - 1)) ∧
        pg1.next = pg.next ∧ pg1.parent = pg.parent ∧ pg1.child = pg.child ∧
        pg1.depth = pg.depth ∧ pg1.hiwat = pg.hiwat ∧
        pg1.slots (pg.next - 1) = ⟨x, (pg.slots (pg.next - 1 - m)).count + 1⟩ ∧
        (∀ k, pg.next - 1 - m ≤ k → k < pg.next - 1 → pg1.slots k = pg.slots (k + 1)) ∧
        (∀ k, k < pg.next - 1 - m ∨ pg.next ≤ k → pg1.slots k = pg.slots k)) ∧
    ((∀ m, InWindow pg m → ¬ Matches pg x m) →
      (PrevOK pg → add c s self x = Except.ok
        (setPage s self { pg with slots := Function.update pg.slots pg.next ⟨x, 0⟩,
                                  next := pg.next + 1 },
         SlotPtr.slot self pg.next)) ∧
      (¬ PrevOK pg → add c s self x = Except.error Fault.badAccess)) := by
  constructor
  · intro m hwin hmatch hfirst
    obtain ⟨w1, w2, w3⟩ := hwin
    have hs : lruScan pg x (pg.next - 1) 4 0 = some m :=
      lruScan_hit pg x (pg.next - 1) 4 0 m (Nat.zero_le _) (by omega)
        (fun j _ hj => ⟨by omega, w3 j hj⟩) (fun j _ hj => hfirst j hj) hmatch.1 hmatch.2
    obtain ⟨pg1, hco, b1, b2, b3, b4, b5, hslots⟩ := coalesce_lru_found hlru hne hx.1 hs
    have hisobj : isObject x = true := by
      simp only [isObject, decide_eq_true_eq]
      exact hx
    refine ⟨pg1, ?_, b1, b2, b3, b4, b5, ?_, ?_, ?_⟩
    · simp only [add, hpg, full_eq_false hroom, hco, hisobj]
      simp
    · rw [hslots, if_pos rfl]
    · intro k hk1 hk2
      rw [hslots, if_neg (by omega), if_pos ⟨hk1, hk2⟩]
    · intro k hk
      rw [hslots, if_neg (by omega), if_neg (by omega)]
  · intro hno
    have hs : lruScan pg x (pg.next - 1) 4 0 = none := by
      apply lruScan_miss
      intro m _ hm hwin
      exact hno m ⟨by omega, (hwin m (Nat.zero_le _) (le_refl _)).1,
        fun j hj => (hwin j (Nat.zero_le _) hj).2⟩
    have hco : coalesce c pg x = none := by
      unfold coalesce coalesceLRU
      simp [hlru, hs]
    exact ⟨add_append c s self x pg hpg hroom hco hx.2,
      add_fault c s self x pg hpg hroom hco⟩

/-- C20 fails in the code, in its last clause.  In the default configuration,
after push and two registrations of 100, page 0 is neither empty nor full and
holds a boundary marker in slot 0 and 100 with count 1 in slot 1.  `add(200)`
meets no entry for 200: the scan looks at slot 1 and stops at slot 0.  It does
not write 200 at `next`: it does not return, because on the way to the new slot
it reads the whole word of slot 1, count included, as an `Object *`.  On the
same page `add(100)` does what the claim says: it returns slot 1 with the count
raised to 2 and `next` unchanged. -/
theorem lru_add_fails :
    defaultConfig.DisableAutoreleaseCoalescingLRU = false ∧ defaultConfig.pageEnd = 505 ∧
    ((reached defaultConfig [Op.push, Op.autorelease 100, Op.autorelease 100]).1.pages 0).map
      (fun pg => (pg.next, pg.slots 0, pg.slots 1)) = some (2, boundary, ⟨100, 1⟩) ∧
    add defaultConfig
      (reached defaultConfig [Op.push, Op.autorelease 100, Op.autorelease 100]).1 0 200 =
      Except.error Fault.badAccess ∧
    ∃ s1, add defaultConfig
        (reached defaultConfig [Op.push, Op.autorelease 100, Op.autorelease 100]).1 0 100 =
        Except.ok (s1, SlotPtr.slot 0 1) ∧
      (s1.pages 0).map (fun pg => (pg.next, pg.slots 1)) = some (2, ⟨100, 2⟩) :=
  ⟨rfl, by decide, by decide, rfl, _, rfl, by decide⟩

/-- A registration that is not coalesced does not return when the top slot of
the hot page holds a count. -/
theorem autorelease_hot_fault {c : Config} {s : State} {p : Nat} {pg : AutoreleasePoolPage}
    {obj : Nat} (htls : s.tls = Tls.page p) (hpg : s.pages p = some pg)
    (hroom : pg.next < c.pageEnd) (hco : coalesce c pg obj = none) (hprev : ¬ PrevOK pg) :
    autorelease c s obj = Except.error Fault.badAccess := by
  have hhot : hotPage s = Except.ok (some p) := by simp only [hotPage, htls, hpg]
  have hfast : autoreleaseFast c s obj = Except.error Fault.badAccess := by
    simp only [autoreleaseFast, hhot, hpg, full_eq_false hroom]
    simpa using add_fault c s p obj pg hpg hroom hco hprev
  simp only [autorelease, hfast]

/-- In every reachable state every occupied slot holds a count of at most
`maxCount`, that is 65535. -/
theorem Reach.count_le {c : Config} (hnd : c.nonDebug) (hcap : 2 ≤ c.pageEnd) {s : State}
    {toks : List SlotPtr} (hr : Reach c s toks) :
    ∀ p pg k, s.pages p = some pg → k < pg.next → (pg.slots k).count ≤ maxCount := by
  obtain ⟨cells, _, hinv, _, hP⟩ := Reach.all_entries hnd hcap
    (P := fun e => e.count ≤ maxCount)
    (fun obj es es1 hadd _ hP e he => by
      rcases hadd with happ | ⟨_, A, e0, R, g1, g2, _, g4, _⟩
      · rw [happ, List.mem_append, List.mem_singleton] at he
        rcases he with he | he
        · exact hP e he
        · rw [he]
          exact Nat.zero_le _
      · rw [g2, List.mem_append, List.mem_append, List.mem_singleton] at he
        rcases he with he | he | he
        · exact hP e (by rw [g1]; exact List.mem_append_left _ he)
        · exact hP e (by rw [g1]; exact List.mem_append_right _ (List.mem_cons_of_mem _ he))
        · rw [he]
          show e0.count + 1 ≤ maxCount
          omega) hr
  intro p pg k hpg hk
  cases htls : s.tls with
  | nil =>
    have := hinv.no_pages (Or.inl htls) p
    rw [hpg] at this
    cases this
  | EMPTY_POOL_PLACEHOLDER =>
    have := hinv.no_pages (Or.inr htls) p
    rw [hpg] at this
    cases this
  | page q =>
    obtain ⟨ids, h, hc, hcells⟩ := hinv
    have hmem : (SlotPtr.slot p k, pg.slots k) ∈ cellsOf s ids :=
      (hc.mem_cells (by rw [htls]; simp) p k (pg.slots k)).2 ⟨pg, hpg, hk, rfl⟩
    apply hP
    rw [hcells]
    exact List.mem_map_of_mem _ hmem

/-- With LRU coalescing, `n + 1` consecutive registrations of one reference in
a scope on a new thread, for `n` up to `maxCount`: they return and leave one
page that holds a boundary marker and the reference with count `n`. -/
theorem repeated_registrations (c : Config) (hnd : c.nonDebug)
    (hlru : c.DisableAutoreleaseCoalescingLRU = false) (hcap : 3 ≤ c.pageEnd)
    (A : Nat) (hA : IsRef A) :
    ∀ n, n ≤ maxCount →
      ∃ s pg, run c (State.init, []) (Op.push :: List.replicate (n + 1) (Op.autorelease A)) =
          Except.ok (s, [SlotPtr.EMPTY_POOL_PLACEHOLDER]) ∧
        s.tls = Tls.page 0 ∧ s.pages 0 = some pg ∧ pg.next = 2 ∧ pg.slots 0 = boundary ∧
        pg.slots 1 = ⟨A, n⟩ ∧ s.released = [] ∧ pg.parent = none ∧
        ∀ q, q ≠ 0 → s.pages q = none := by
  intro n
  induction n with
  | zero =>
    intro _
    obtain ⟨S1, hpush, hph1, hbrk1, hrel1, hnone1⟩ : ∃ S1 : State,
        push c State.init = Except.ok (S1, SlotPtr.EMPTY_POOL_PLACEHOLDER) ∧
        S1.tls = Tls.EMPTY_POOL_PLACEHOLDER ∧ S1.brk = 0 ∧ S1.released = [] ∧
        ∀ q, S1.pages q = none :=
      ⟨_, push_nil c State.init rfl hnd.1, rfl, rfl, rfl, fun _ => rfl⟩
    have har := autorelease_placeholder c S1 A hph1 (by omega) hA.2
    refine ⟨materialised c S1 A, ⟨2, none, none, 0, 0,
        Function.update (Function.update (c.fresh S1.brk) 0 ⟨POOL_BOUNDARY, 0⟩) 1 ⟨A, 0⟩⟩, ?_,
      ?_, ?_, rfl, ?_, ?_, hrel1, rfl, ?_⟩
    · simp only [List.replicate, run, step, hpush, har]
    · simp [materialised, hbrk1]
    · simp [materialised, hbrk1]
    · simp [boundary, POOL_BOUNDARY]
    · simp
    · intro q hq
      simp [materialised, hbrk1, hq, hnone1]
  | succ n ih =>
    intro hn
    obtain ⟨s, pg, hrun, htls, hpg, hnext, hs0, hs1, hrel, hpar, hoth⟩ := ih (by omega)
    obtain ⟨s1, pg1, har, htls1, hrel1, hpg1, hn1, hs11, hsl, hpar1, _, _, hoth1⟩ :=
      @step_top c s 0 pg A htls hpg (by omega) hlru hA (by omega) (by rw [hnext, hs1])
        (by rw [hnext, hs1]; show n < maxCount; omega)
    refine ⟨s1, pg1, ?_, htls1, hpg1, hn1.trans hnext, ?_, ?_, hrel1.trans hrel,
      hpar1.trans hpar, ?_⟩
    · rw [List.replicate_succ', ← List.cons_append,
        run_append c _ [Op.autorelease A] (State.init, []) _ hrun]
      simp only [run, step, har]
    · exact (hsl 0 (by omega)).trans hs0
    · rw [hnext] at hs11
      rw [hs11, hs1]
      simp only [bumpCount, AutoreleasePoolEntry.mk.injEq, true_and]
      apply Nat.mod_eq_of_lt
      simp only [maxCount] at hn
      omega
    · intro q hq
      rw [hoth1 q hq, hoth q hq]

/-- With LRU coalescing, up to 65536 consecutive registrations of one reference
in a scope on a new thread are released at `pop` exactly as often as they were
registered. -/
theorem repeated_released (c : Config) (hnd : c.nonDebug)
    (hlru : c.DisableAutoreleaseCoalescingLRU = false) (hcap : 3 ≤ c.pageEnd)
    (A : Nat) (hA : IsRef A) (n : Nat) (hn : n ≤ maxCount) :
    ∃ s1, run c (State.init, [])
        (Op.push :: List.replicate (n + 1) (Op.autorelease A) ++ [Op.pop 0]) =
        Except.ok (s1, []) ∧
      s1.released = List.replicate (n + 1) A := by
  obtain ⟨s, pg, hrun, htls, hpg, hnext, hs0, hs1, hrel, _, hoth⟩ :=
    repeated_registrations c hnd hlru hcap A hA n hn
  have hreach : Reach c s [SlotPtr.EMPTY_POOL_PLACEHOLDER] := by
    refine reach_run _ State.init [] s _ Reach.init ?_ hrun
    intro obj hm
    simp only [List.mem_cons, reduceCtorEq, false_or] at hm
    have := List.eq_of_mem_replicate hm
    simp only [Op.autorelease.injEq] at this
    rw [this]
    exact hA
  obtain ⟨cells, base, hinv, _⟩ := hreach.inv hnd (by omega)
  obtain ⟨s1, hpop, _, hrel1, _⟩ := pop_placeholder_spec hnd (by omega) hinv
  obtain ⟨ids, h, hc, hcells⟩ := hinv
  have hids : ids = [0] := hc.ids_single hpg hoth
  have hcells1 : cells = [(SlotPtr.slot 0 0, boundary), (SlotPtr.slot 0 1, ⟨A, n⟩)] := by
    rw [hcells, hids, cellsOf_of_page htls, List.flatMap_singleton, pageCells_of_live hpg,
      cellsOfPage, hnext]
    simp [List.range_succ, hs0, hs1]
  refine ⟨s1, ?_, ?_⟩
  · rw [run_append c _ [Op.pop 0] (State.init, []) _ hrun]
    simp only [run, step, List.drop_zero, hpop]
  · rw [hrel1, hrel, hcells1]
    simp [releasesOf, releasesOfEntry, boundary, POOL_BOUNDARY, hA.1]

/-- A word with a count in its top bits is not the address of an object. -/
theorem isObject_count {e : AutoreleasePoolEntry} (h : 0 < e.count) :
    isObject (idOfEntry e) = false := by
  simp only [isObject, idOfEntry, decide_eq_false_iff_not, not_and, not_lt]
  intro _
  have : 2 ^ 48 * 1 ≤ 2 ^ 48 * e.count := Nat.mul_le_mul_left _ h
  omega

/-- C13 fails in the code, in its last two clauses.  In the default
configuration, push and 65536 registrations of the reference 100 on a new thread
return and leave the entry for 100 with count 65535 in slot 1 of page 0.  One
more registration of 100 finds no entry it may coalesce with and does not
append a new entry: it does not return, because on the way to the new slot
`add` reads the whole word of slot 1, count included, as an `Object *`.  So
65537 consecutive registrations are never released. -/
theorem count_cap_fails :
    (∃ s pg, run defaultConfig (State.init, [])
        (Op.push :: List.replicate 65536 (Op.autorelease 100)) =
        Except.ok (s, [SlotPtr.EMPTY_POOL_PLACEHOLDER]) ∧
      s.tls = Tls.page 0 ∧ s.pages 0 = some pg ∧ pg.next = 2 ∧ pg.slots 0 = boundary ∧
      pg.slots 1 = ⟨100, 65535⟩ ∧
      autorelease defaultConfig s 100 = Except.error Fault.badAccess) ∧
    run defaultConfig (State.init, [])
      (Op.push :: List.replicate 65537 (Op.autorelease 100)) = Except.error Fault.badAccess := by
  have hA : IsRef 100 := ⟨by decide, by decide⟩
  obtain ⟨s, pg, hrun, htls, hpg, hnext, hs0, hs1, _⟩ :=
    repeated_registrations defaultConfig ⟨rfl, rfl, rfl⟩ rfl (by decide) 100 hA 65535
      (le_refl _)
  have hco : coalesce defaultConfig pg 100 = none := by
    have hscan : lruScan pg 100 (pg.next - 1) 4 0 = none := by
      apply lruScan_miss
      intro m _ _ hwin
      have hm := (hwin m (Nat.zero_le _) (le_refl _)).1
      have hm0 : m = 0 := by omega
      subst hm0
      rw [hnext, hs1]
      intro h
      exact absurd h.2 (lt_irrefl _)
    unfold coalesce coalesceLRU
    simp [defaultConfig, hscan]
  have hprev : ¬ PrevOK pg := by
    unfold PrevOK
    rw [hnext, hs1]
    push_neg
    refine ⟨by omega, ?_, ?_⟩
    · intro h
      have := (idOfEntry_eq_zero _).1 h
      simp [boundary] at this
    · rw [isObject_count (by show 0 < 65535; omega)]
      simp
  have hfault : autorelease defaultConfig s 100 = Except.error Fault.badAccess :=
    autorelease_hot_fault htls hpg (by rw [hnext]; decide) hco hprev
  refine ⟨⟨s, pg, hrun, htls, hpg, hnext, hs0, hs1, hfault⟩, ?_⟩
  have h1 : Op.push :: List.replicate 65537 (Op.autorelease 100) =
      (Op.push :: List.replicate (65535 + 1) (Op.autorelease 100)) ++ [Op.autorelease 100] := by
    rw [List.cons_append, ← List.replicate_succ']
  rw [h1, run_append defaultConfig _ [Op.autorelease 100] (State.init, []) _ hrun]
  simp only [run, step, hfault]

/-- Registration when the hot page of a well-formed thread is full: the page
below it, its child if it has one and else a new block, gets the entry in its
first slot and becomes the hot page. -/
theorem Chain.autorelease_full {c : Config} {s : State} {ids : List Nat} {h p : Nat}
    {pg : AutoreleasePoolPage} (hcap : 1 ≤ c.pageEnd) (hc : Chain c s ids h)
    (htls : s.tls = Tls.page p) (hpg : s.pages p = some pg) (hfull : pg.next = c.pageEnd)
    (x : Nat) (hx : x < 2 ^ 48) :
    ∃ s1 q qg pg1, autoreleaseFast c s x = Except.ok (s1, SlotPtr.slot q 0) ∧
      s1.tls = Tls.page q ∧ s1.pages q = some qg ∧ qg.next = 1 ∧ qg.slots 0 = ⟨x, 0⟩ ∧
      qg.parent = some p ∧ q ≠ p ∧
      ((pg.child = some q ∧ s1.brk = s.brk) ∨
        (pg.child = none ∧ q = s.brk ∧ s1.brk = s.brk + 1)) ∧
      s1.pages p = some pg1 ∧ pg1.next = pg.next ∧ pg1.slots = pg.slots ∧
      pg1.parent = pg.parent ∧ pg1.child = some q ∧ pg1.depth = pg.depth ∧
      pg1.hiwat = pg.hiwat ∧
      (∀ r, r ≠ p → r ≠ q → s1.pages r = s.pages r) ∧ s1.released = s.released ∧
      s1.complained = s.complained ∧
      (∀ cp, s.pages q = some cp → qg.hiwat = cp.hiwat ∧ qg.depth = cp.depth) ∧
      (s.pages q = none → qg.hiwat = pg.hiwat ∧ qg.depth = (1 + pg.depth) % 2 ^ 32) := by
  have hq := hc.hot_page htls
  obtain ⟨pg0, hpg0, a1, a2, a3, a4, a5, a6⟩ := hc.links h p hq
  rw [hpg] at hpg0
  cases hpg0
  have hhot : hotPage s = Except.ok (some p) := by
    simp only [hotPage, htls, hpg]
  have hpre : autoreleaseFast c s x = autoreleaseFullPage c s x p := by
    simp only [autoreleaseFast, hhot, hpg, full_eq_true hfull]
    simp
  cases hch : ids[h + 1]? with
  | some ch =>
    obtain ⟨cpg, hcpg, c1, c2, c3, c4, c5, c6⟩ := hc.links (h + 1) ch hch
    have hc0 : cpg.next = 0 := c6 (by omega)
    have hchild : pg.child = some ch := by rw [a2, hch]
    have hne : ch ≠ p := by
      intro e
      rw [e] at hch
      have := nodup_idx_unique hc.nodup hch hq
      omega
    have hcpar : cpg.parent = some p := by
      rw [c1]
      simp only [Nat.add_one_ne_zero, if_false, Nat.add_sub_cancel]
      exact hq
    have hloop : fullPageLoop c (s.brk + 1) s p = Except.ok (s, ch) := by
      simp only [fullPageLoop, hpg, hchild, hcpg,
        full_eq_false (by rw [hc0]; omega : cpg.next < c.pageEnd)]
      simp
    have hadd := add_append c { s with tls := Tls.page ch } ch x cpg hcpg
      (by rw [hc0]; omega) (coalesce_empty _ _ _ hc0) hx (Or.inl hc0)
    rw [hc0] at hadd
    have hfast : autoreleaseFast c s x = Except.ok
        (setPage { s with tls := Tls.page ch } ch
          { cpg with slots := Function.update cpg.slots 0 ⟨x, 0⟩, next := 0 + 1 },
         SlotPtr.slot ch 0) := by
      rw [hpre]
      simp only [autoreleaseFullPage, hhot, hpg, full_eq_true hfull, hloop, setHotPage, hcpg]
      simpa using hadd
    refine ⟨_, ch, _, pg, hfast, rfl, setPage_pages_self _ _ _, rfl, ?_, hcpar, hne,
      Or.inl ⟨hchild, rfl⟩, ?_, rfl, rfl, rfl, hchild, rfl, rfl, ?_, rfl, rfl, ?_, ?_⟩
    · simp
    · rw [setPage_pages, if_neg (fun e => hne e.symm)]
      exact hpg
    · intro r _ hr2
      rw [setPage_pages, if_neg hr2]
    · intro cp hcp
      rw [hcpg] at hcp
      cases hcp
      exact ⟨rfl, rfl⟩
    · intro hn
      rw [hcpg] at hn
      cases hn
  | none =>
    have hchild : pg.child = none := by rw [a2, hch]
    have hbq : p ≠ s.brk := by
      have := hc.below p (hc.mem_of_idx hq)
      omega
    have hnew : newPage c s (some p) = Except.ok
        ({ s with
            pages := Function.update
              (Function.update s.pages p (some { pg with child := some s.brk })) s.brk
              (some { next := 0, parent := some p, child := none,
                      depth := (1 + pg.depth) % 2 ^ 32, hiwat := pg.hiwat,
                      slots := c.fresh s.brk }),
            brk := s.brk + 1 }, s.brk) := by
      simp only [newPage, hpg, hchild, ne_eq, not_true_eq_false, if_false]
    have hloop : fullPageLoop c (s.brk + 1) s p = Except.ok
        ({ s with
            pages := Function.update
              (Function.update s.pages p (some { pg with child := some s.brk })) s.brk
              (some { next := 0, parent := some p, child := none,
                      depth := (1 + pg.depth) % 2 ^ 32, hiwat := pg.hiwat,
                      slots := c.fresh s.brk }),
            brk := s.brk + 1 }, s.brk) := by
      have hnf : AutoreleasePoolPage.full c
          { next := 0, parent := some p, child := none,
            depth := (1 + pg.depth) % 2 ^ 32, hiwat := pg.hiwat,
            slots := c.fresh s.brk } = false :=
        full_eq_false (by show 0 < c.pageEnd; omega)
      simp only [fullPageLoop, hpg, hchild, hnew, Function.update_same, hnf]
      simp
    have hadd := add_append c
      { s with
          pages := Function.update
            (Function.update s.pages p (some { pg with child := some s.brk })) s.brk
            (some { next := 0, parent := some p, child := none,
                    depth := (1 + pg.depth) % 2 ^ 32, hiwat := pg.hiwat,
                    slots := c.fresh s.brk }),
          brk := s.brk + 1, tls := Tls.page s.brk } s.brk x
      { next := 0, parent := some p, child := none,
        depth := (1 + pg.depth) % 2 ^ 32, hiwat := pg.hiwat, slots := c.fresh s.brk }
      (by simp) (by show 0 < c.pageEnd; omega) (coalesce_empty _ _ _ rfl) hx (Or.inl rfl)
    have hfast : autoreleaseFast c s x = Except.ok
        (setPage
          { s with
            pages := Function.update
              (Function.update s.pages p (some { pg with child := some s.brk })) s.brk
              (some { next := 0, parent := some p, child := none,
                      depth := (1 + pg.depth) % 2 ^ 32, hiwat := pg.hiwat,
                      slots := c.fresh s.brk }),
            brk := s.brk + 1, tls := Tls.page s.brk } s.brk
          { next := 0 + 1, parent := some p, child := none,
            depth := (1 + pg.depth) % 2 ^ 32, hiwat := pg.hiwat,
            slots := Function.update (c.fresh s.brk) 0 ⟨x, 0⟩ },
         SlotPtr.slot s.brk 0) := by
      rw [hpre]
      simp only [autoreleaseFullPage, hhot, hpg, full_eq_true hfull, hloop, setHotPage,
        Function.update_same]
      simpa using hadd
    refine ⟨_, s.brk, _, { pg with child := some s.brk }, hfast, rfl, setPage_pages_self _ _ _,
      rfl, ?_, rfl, fun e => hbq e.symm, Or.inr ⟨hchild, rfl, rfl⟩, ?_, rfl, rfl, rfl, rfl,
      rfl, rfl, ?_, rfl, rfl, ?_, ?_⟩
    · simp
    · rw [setPage_pages, if_neg hbq]
      simp [Function.update_apply, hbq]
    · intro r hr1 hr2
      rw [setPage_pages, if_neg hr2]
      simp [Function.update_apply, hr1, hr2]
    · intro cp hcp
      exfalso
      have hlive : s.brk ∈ ids := (hc.live s.brk).1 (by rw [hcp]; simp)
      have := hc.below s.brk hlive
      omega
    · intro _
      exact ⟨rfl, rfl⟩

/-- C15: capacity exhaustion is transparent.  In every reachable state of a
configuration with no debugging switch set (pages of at least two slots) whose
hot page `p` is full, `autorelease(x)` of a reference returns; it allocates no
block when `p` has a child and exactly one block, the next one, when it has
none; the entry for `x`, with count 0, is written into the first slot of that
page `q` directly below `p`, which had no occupied slot and now has one; `q` is
the hot page; page `p` keeps its cursor, its slots, its parent, depth and mark
and has `q` as its child; no other block changes and nothing is released. -/
theorem full_page_autorelease (c : Config) (hnd : c.nonDebug) (hcap : 2 ≤ c.pageEnd)
    (s : State) (toks : List SlotPtr) (hr : Reach c s toks) (p : Nat)
    (pg : AutoreleasePoolPage) (htls : s.tls = Tls.page p) (hpg : s.pages p = some pg)
    (hfull : pg.full c = true) (x : Nat) (hx : IsRef x) :
    ∃ s1 q qg pg1, autorelease c s x = Except.ok (s1, x) ∧
      autoreleaseFast c s x = Except.ok (s1, SlotPtr.slot q 0) ∧
      s1.tls = Tls.page q ∧ s1.pages q = some qg ∧ qg.next = 1 ∧ qg.slots 0 = ⟨x, 0⟩ ∧
      qg.parent = some p ∧ q ≠ p ∧
      ((pg.child = some q ∧ s1.brk = s.brk) ∨
        (pg.child = none ∧ q = s.brk ∧ s1.brk = s.brk + 1)) ∧
      s1.pages p = some pg1 ∧ pg1.next = pg.next ∧ pg1.slots = pg.slots ∧
      pg1.parent = pg.parent ∧ pg1.child = some q ∧ pg1.depth = pg.depth ∧
      pg1.hiwat = pg.hiwat ∧
      (∀ r, r ≠ p → r ≠ q → s1.pages r = s.pages r) ∧ s1.released = s.released := by
  obtain ⟨cells, base, hinv, _⟩ := hr.inv hnd hcap
  obtain ⟨ids, h, hc, _⟩ := hinv
  have hfull1 : pg.next = c.pageEnd := by
    simpa [AutoreleasePoolPage.full] using hfull
  obtain ⟨s1, q, qg, pg1, hfast, b1, b2, b3, b4, b5, b6, b7, b8, b9, b10, b11, b12, b13, b14,
    b15, b16, _⟩ := hc.autorelease_full (by omega) htls hpg hfull1 x hx.2
  refine ⟨s1, q, qg, pg1, ?_, hfast, b1, b2, b3, b4, b5, b6, b7, b8, b9, b10, b11, b12, b13,
    b14, b15, b16⟩
  simp only [autorelease, hfast, b2, b4]
  simp

/-- A registration on a thread whose only page, of two slots, is full: a
second block is allocated. -/
theorem full_page_autorelease_witness :
    smallConfig.nonDebug ∧ 2 ≤ smallConfig.pageEnd ∧
    Reach smallConfig (reached smallConfig [Op.push, Op.autorelease 7]).1
      [SlotPtr.EMPTY_POOL_PLACEHOLDER] ∧
    (reached smallConfig [Op.push, Op.autorelease 7]).1.tls = Tls.page 0 ∧
    (Option.get ((reached smallConfig [Op.push, Op.autorelease 7]).1.pages 0) rfl).full
      smallConfig = true ∧
    IsRef 1 ∧
    ∃ s1 q qg pg1, autorelease smallConfig (reached smallConfig [Op.push, Op.autorelease 7]).1 1 =
        Except.ok (s1, 1) ∧
      autoreleaseFast smallConfig (reached smallConfig [Op.push, Op.autorelease 7]).1 1 =
        Except.ok (s1, SlotPtr.slot q 0) ∧
      s1.tls = Tls.page q ∧ s1.pages q = some qg ∧ qg.next = 1 ∧ qg.slots 0 = ⟨1, 0⟩ ∧
      qg.parent = some 0 ∧ q ≠ 0 ∧
      (((Option.get ((reached smallConfig [Op.push, Op.autorelease 7]).1.pages 0) rfl).child =
            some q ∧
          s1.brk = (reached smallConfig [Op.push, Op.autorelease 7]).1.brk) ∨
        ((Option.get ((reached smallConfig [Op.push, Op.autorelease 7]).1.pages 0) rfl).child =
            none ∧
          q = (reached smallConfig [Op.push, Op.autorelease 7]).1.brk ∧
          s1.brk = (reached smallConfig [Op.push, Op.autorelease 7]).1.brk + 1)) ∧
      s1.pages 0 = some pg1 ∧
      pg1.next =
        (Option.get ((reached smallConfig [Op.push, Op.autorelease 7]).1.pages 0) rfl).next ∧
      pg1.slots =
        (Option.get ((reached smallConfig [Op.push, Op.autorelease 7]).1.pages 0) rfl).slots ∧
      pg1.parent =
        (Option.get ((reached smallConfig [Op.push, Op.autorelease 7]).1.pages 0) rfl).parent ∧
      pg1.child = some q ∧
      pg1.depth =
        (Option.get ((reached smallConfig [Op.push, Op.autorelease 7]).1.pages 0) rfl).depth ∧
      pg1.hiwat =
        (Option.get ((reached smallConfig [Op.push, Op.autorelease 7]).1.pages 0) rfl).hiwat ∧
      (∀ r, r ≠ 0 → r ≠ q →
        s1.pages r = (reached smallConfig [Op.push, Op.autorelease 7]).1.pages r) ∧
      s1.released = (reached smallConfig [Op.push, Op.autorelease 7]).1.released :=
  have hr : Reach smallConfig (reached smallConfig [Op.push, Op.autorelease 7]).1
      [SlotPtr.EMPTY_POOL_PLACEHOLDER] :=
    reach_run [Op.push, Op.autorelease 7] State.init [] _ _ Reach.init (by simp [IsRef]) rfl
  ⟨⟨rfl, rfl, rfl⟩, by decide, hr, rfl, rfl, ⟨by decide, by decide⟩,
    full_page_autorelease smallConfig ⟨rfl, rfl, rfl⟩ (by decide)
      (reached smallConfig [Op.push, Op.autorelease 7]).1 [SlotPtr.EMPTY_POOL_PLACEHOLDER] hr 0
      (Option.get ((reached smallConfig [Op.push, Op.autorelease 7]).1.pages 0) rfl) rfl
      (Option.some_get _).symm rfl 1 ⟨by decide, by decide⟩⟩

/-- A page above `ids[j]` is an earlier page of the chain. -/
theorem Chain.above_idx {c : Config} {s : State} {ids : List Nat} {h : Nat}
    (hc : Chain c s ids h) {p q : Nat} (hab : Above s q p) :
    ∀ j : Nat, ids[j]? = some p → ∃ k : Nat, k < j ∧ ids[k]? = some q := by
  induction hab with
  | @parent p q pg hpg hpar =>
    intro j hj
    obtain ⟨pg0, hpg0, a1, _⟩ := hc.links j p hj
    rw [hpg] at hpg0
    cases hpg0
    rw [hpar] at a1
    by_cases hj0 : j = 0
    · rw [if_pos hj0] at a1
      cases a1
    · rw [if_neg hj0] at a1
      exact ⟨j - 1, by omega, a1.symm⟩
  | @up p q r pg hpg hpar _ ih =>
    intro j hj
    obtain ⟨pg0, hpg0, a1, _⟩ := hc.links j p hj
    rw [hpg] at hpg0
    cases hpg0
    rw [hpar] at a1
    by_cases hj0 : j = 0
    · rw [if_pos hj0] at a1
      cases a1
    · rw [if_neg hj0] at a1
      obtain ⟨k, hk, hq⟩ := ih (j - 1) a1.symm
      exact ⟨k, by omega, hq⟩

/-- A run on a new thread that returns ends in the state `reached`. -/
theorem run_reached (c : Config) (ops : List Op)
    (h : (run c (State.init, []) ops).isOk = true) :
    run c (State.init, []) ops = Except.ok (reached c ops) := by
  unfold reached
  cases hrun : run c (State.init, []) ops with
  | ok st => rfl
  | error e =>
    rw [hrun] at h
    cases h

/-- The state that a run of registrations and pushes on a new thread ends in
is reachable. -/
theorem reach_reached (c : Config) (ops : List Op)
    (h : (run c (State.init, []) ops).isOk = true)
    (href : ∀ obj, Op.autorelease obj ∈ ops → IsRef obj) :
    Reach c (reached c ops).1 (reached c ops).2 :=
  reach_run ops State.init [] _ _ Reach.init href (run_reached c ops h)

/-- The LRU branch coalesces only on a page with at least two occupied slots:
its scan never looks at the page's first slot. -/
theorem coalesce_lru_next {c : Config} {pg pg1 : AutoreleasePoolPage} {obj : Nat}
    (hlru : c.DisableAutoreleaseCoalescingLRU = false) (h : coalesce c pg obj = some pg1) :
    2 ≤ pg.next := by
  unfold coalesce coalesceLRU at h
  simp only [hlru, or_true, if_true] at h
  split_ifs at h with h3
  cases hs : lruScan pg obj (pg.next - 1) 4 0 with
  | none => simp [hs] at h
  | some m =>
    obtain ⟨_, _, a3, _⟩ := lruScan_some pg obj _ 4 0 m hs
    omega

/-- With coalescing of either variant, a registration of the reference in the
top slot raises the count of the top slot; the LRU variant needs the top slot
not to be the page's first slot. -/
theorem coalesce_top_entry {c : Config} {pg : AutoreleasePoolPage} {obj : Nat}
    (hon : c.DisableAutoreleaseCoalescing = false ∨ c.DisableAutoreleaseCoalescingLRU = false)
    (hobj : obj ≠ POOL_BOUNDARY) (hne : pg.next ≠ 0)
    (hn : c.DisableAutoreleaseCoalescingLRU = false → 2 ≤ pg.next)
    (hptr : (pg.slots (pg.next - 1)).ptr = obj)
    (hcnt : (pg.slots (pg.next - 1)).count < maxCount) :
    coalesce c pg obj = some
      { pg with
          slots := Function.update pg.slots (pg.next - 1) (bumpCount (pg.slots (pg.next - 1))) } := by
  cases hlru : c.DisableAutoreleaseCoalescingLRU with
  | false => exact coalesce_lru_top hlru hobj (hn hlru) hptr hcnt
  | true =>
    have hdac : c.DisableAutoreleaseCoalescing = false := by
      rcases hon with h | h
      · exact h
      · rw [hlru] at h
        cases h
    unfold coalesce coalesceTop
    simp [hlru, hdac, AutoreleasePoolPage.empty, hne, hobj, hptr, hcnt]

/-- A registration coalesced with the top slot, under either variant, by what
it does to the page. -/
theorem step_bump {c : Config} {s : State} {p : Nat} {pg : AutoreleasePoolPage}
    {obj : Nat} (htls : s.tls = Tls.page p) (hpg : s.pages p = some pg)
    (hroom : pg.next < c.pageEnd)
    (hon : c.DisableAutoreleaseCoalescing = false ∨ c.DisableAutoreleaseCoalescingLRU = false)
    (hobj : IsRef obj) (hn : 2 ≤ pg.next) (hptr : (pg.slots (pg.next - 1)).ptr = obj)
    (hcnt : (pg.slots (pg.next - 1)).count < maxCount) :
    ∃ s1 pg1, autorelease c s obj = Except.ok (s1, obj) ∧ s1.tls = Tls.page p ∧
      s1.released = s.released ∧ s1.pages p = some pg1 ∧ pg1.next = pg.next ∧
      pg1.slots (pg.next - 1) = bumpCount (pg.slots (pg.next - 1)) ∧
      (∀ j, j < pg.next - 1 → pg1.slots j = pg.slots j) := by
  refine ⟨_, _, autorelease_hot_coalesce htls hpg hroom
    (coalesce_top_entry hon hobj.1 (by omega) (fun _ => hn) hptr hcnt) hobj, htls, rfl,
    setPage_pages_self _ _ _, rfl, ?_, ?_⟩
  · simp
  · intro j hj
    have : j ≠ pg.next - 1 := by omega
    simp [Function.update_apply, this]

/-- The top slots of the hot page are the newest pending slots. -/
theorem Inv.top_two {c : Config} {s : State} {lo : List (SlotPtr × AutoreleasePoolEntry)}
    {x1 x2 : SlotPtr × AutoreleasePoolEntry} (hinv : Inv c s (lo ++ [x1, x2])) {p : Nat}
    {pg : AutoreleasePoolPage} (htls : s.tls = Tls.page p) (hpg : s.pages p = some pg) :
    (0 < pg.next → (SlotPtr.slot p (pg.next - 1), pg.slots (pg.next - 1)) = x2) ∧
    (2 ≤ pg.next → (SlotPtr.slot p (pg.next - 2), pg.slots (pg.next - 2)) = x1) := by
  obtain ⟨ids, h, hc, hcells⟩ := hinv
  have hq := hc.hot_page htls
  rw [hc.cells_hot hq htls, pageCells_of_live hpg, cellsOfPage] at hcells
  constructor
  · intro hpos
    obtain ⟨n, hn⟩ : ∃ n, pg.next = n + 1 := ⟨pg.next - 1, by omega⟩
    have e1 : lo ++ [x1, x2] = (lo ++ [x1]) ++ [x2] := by simp
    rw [hn, List.range_succ, List.map_append, ← List.append_assoc, e1] at hcells
    have := List.append_inj_right' hcells rfl
    simp only [List.map_cons, List.map_nil, List.cons.injEq, and_true] at this
    rw [hn, Nat.add_sub_cancel]
    exact this.symm
  · intro h2
    obtain ⟨n, hn⟩ : ∃ n, pg.next = n + 2 := ⟨pg.next - 2, by omega⟩
    rw [hn, List.range_succ, List.range_succ, List.map_append, List.map_append,
      List.append_assoc, ← List.append_assoc] at hcells
    have := List.append_inj_right' hcells (by simp)
    simp only [List.map_cons, List.map_nil, List.singleton_append, List.cons.injEq,
      and_true] at this
    rw [hn, Nat.add_sub_cancel]
    exact this.1.symm

/-- After a registration of `A` above a boundary marker and one entry for `A`
without count, the next registration of `A` reads no slot that holds a count as
an object: the entry was coalesced into a slot that takes another one, or it
got a slot of its own. -/
theorem hotOK_after {c : Config} (hcap : 1 ≤ c.pageEnd) {s : State}
    {lo : List (SlotPtr × AutoreleasePoolEntry)} {a t : SlotPtr} {A : Nat}
    (hinv : Inv c s (lo ++ [(a, boundary), (t, ⟨A, 0⟩)])) (hA : IsRef A) {p : Nat}
    (htls : s.tls = Tls.page p) {s1 : State} {r : Nat}
    (har : autorelease c s A = Except.ok (s1, r)) : HotOK c s1 A := by
  have hinv0 := hinv
  obtain ⟨ids, h, hc, hcells⟩ := hinv
  have hq := hc.hot_page htls
  obtain ⟨pg, hpg, _, _, _, a4, _⟩ := hc.links h p hq
  obtain ⟨htop1, htop2⟩ := hinv0.top_two htls hpg
  by_cases hfull : pg.next = c.pageEnd
  · -- the entry goes to the first slot of the next page
    obtain ⟨s2, q, qg, pg1, hfast, b1, b2, b3, b4, _⟩ :=
      hc.autorelease_full hcap htls hpg hfull A hA.2
    have har2 : autorelease c s A = Except.ok (s2, A) := by
      simp only [autorelease, hfast, b2, b4]
      simp
    rw [har2] at har
    simp only [Except.ok.injEq, Prod.mk.injEq] at har
    obtain ⟨rfl, _⟩ := har
    intro p1 pg1 h1 h2 _ _
    rw [b1] at h1
    cases h1
    rw [b2] at h2
    cases h2
    apply prevOK_of_plain
    rw [b3, Nat.sub_self, b4]
    exact plainEntry_ref hA
  · have hroom : pg.next < c.pageEnd := by omega
    cases hco : coalesce c pg A with
    | none =>
      have htopPlain : ∀ init x, lo ++ [(a, boundary), (t, ⟨A, 0⟩)] = init ++ [x] →
          PlainEntry x.2 := by
        intro init x hx
        have hx1 : (lo ++ [(a, boundary)]) ++ [(t, (⟨A, 0⟩ : AutoreleasePoolEntry))] =
            init ++ [x] := by
          rw [List.append_assoc]
          exact hx
        have := List.append_inj_right' hx1 rfl
        simp only [List.cons.injEq, and_true] at this
        rw [← this]
        exact plainEntry_ref hA
      have hprev : PrevOK pg := (hinv0.hotOK_of_top htopPlain A) p pg htls hpg hroom hco
      have har2 := autorelease_hot_append htls hpg hroom hco hA hprev
      rw [har2] at har
      simp only [Except.ok.injEq, Prod.mk.injEq] at har
      obtain ⟨rfl, _⟩ := har
      intro p1 pg1 h1 h2 _ _
      rw [setPage_tls, htls] at h1
      cases h1
      rw [setPage_pages_self] at h2
      cases h2
      apply prevOK_of_plain
      have e : (Function.update pg.slots pg.next (⟨A, 0⟩ : AutoreleasePoolEntry))
          (pg.next + 1 - 1) = ⟨A, 0⟩ := by
        rw [Nat.add_sub_cancel, Function.update_same]
      show PlainEntry ((Function.update pg.slots pg.next (⟨A, 0⟩ : AutoreleasePoolEntry))
          (pg.next + 1 - 1))
      rw [e]
      exact plainEntry_ref hA
    | some pg1 =>
      have har2 := autorelease_hot_coalesce htls hpg hroom hco hA
      rw [har2] at har
      simp only [Except.ok.injEq, Prod.mk.injEq] at har
      obtain ⟨rfl, _⟩ := har
      obtain ⟨m, hm, _, hne, hnb, hptr, hcnt, hsw, hnext, _, _, _, _, hslots⟩ :=
        coalesce_some c pg pg1 A hco
      have hm0 : m = 0 := by
        by_contra hmne
        have h2 : 2 ≤ pg.next := by omega
        have hb := htop2 h2
        simp only [Prod.mk.injEq] at hb
        have := hnb 1 (by omega)
        apply this
        rw [← hb.2]
        congr 1
      subst hm0
      have htopE := htop1 (by omega)
      simp only [Prod.mk.injEq] at htopE
      have hcount : (pg.slots (pg.next - 1 - 0)).count = 0 := by
        rw [Nat.sub_zero, htopE.2]
      have hon : c.DisableAutoreleaseCoalescing = false ∨
          c.DisableAutoreleaseCoalescingLRU = false := by
        cases hlru : c.DisableAutoreleaseCoalescingLRU with
        | false => exact Or.inr rfl
        | true => exact Or.inl (hsw hlru).2
      have hagain := @coalesce_top_entry c pg1 A hon hne (by omega)
        (fun hlru => by rw [hnext]; exact coalesce_lru_next hlru hco)
        (by rw [hnext, hslots, if_pos rfl])
        (by
          rw [hnext, hslots, if_pos rfl, hcount]
          show 0 + 1 < maxCount
          unfold maxCount
          omega)
      intro p1 pg2 h1 h2 _ hnone
      rw [setPage_tls, htls] at h1
      cases h1
      rw [setPage_pages_self] at h2
      cases h2
      rw [hagain] at hnone
      cases hnone

/-- The cursor of the hot page is one above the newest pending slot when that
slot lies in the hot page. -/
theorem Inv.top_cursor {c : Config} {s : State} {lo : List (SlotPtr × AutoreleasePoolEntry)}
    {p i : Nat} {e : AutoreleasePoolEntry} (hinv : Inv c s (lo ++ [(SlotPtr.slot p i, e)]))
    (htls : s.tls = Tls.page p) :
    ∃ pg, s.pages p = some pg ∧ pg.next = i + 1 ∧ pg.slots i = e := by
  obtain ⟨ids, h, hc, hcells⟩ := hinv
  obtain ⟨j, pg, hj, _, hpg, _, he, hlen⟩ := hc.cell_position htls hcells.symm
  have hq := hc.hot_page htls
  have hjh : j = h := nodup_idx_unique hc.nodup hj hq
  have hl := hc.cells_length htls hpg
  rw [← hcells, List.length_append, List.length_singleton, hlen, hjh] at hl
  exact ⟨pg, hpg, by omega, he⟩

/-- Two registrations of the reference whose entry without count is the top
slot of the hot page, with room in the page: both are coalesced into that
slot. -/
theorem double_bump {c : Config}
    (hon : c.DisableAutoreleaseCoalescing = false ∨ c.DisableAutoreleaseCoalescingLRU = false)
    {s : State} {p i : Nat} {pg : AutoreleasePoolPage} (htls : s.tls = Tls.page p)
    (hpg : s.pages p = some pg) (hnext : pg.next = i + 2) (hroom : i + 2 < c.pageEnd)
    {A : Nat} (hA : IsRef A) (htop : pg.slots (i + 1) = ⟨A, 0⟩) (toks : List SlotPtr) :
    ∃ s2 pg2, run c (s, toks) [Op.autorelease A, Op.autorelease A] = Except.ok (s2, toks) ∧
      s2.tls = Tls.page p ∧ s2.pages p = some pg2 ∧ pg2.next = i + 2 ∧
      pg2.slots (i + 1) = ⟨A, 2⟩ ∧ ∀ j, j ≤ i → pg2.slots j = pg.slots j := by
  have e1 : pg.next - 1 = i + 1 := by omega
  obtain ⟨s1, pg1, r1, htls1, _, hpg1, hnext1, htop1, hlow1⟩ :=
    step_bump htls hpg (by omega) hon hA (by omega)
      (by rw [e1, htop]) (by rw [e1, htop]; show 0 < maxCount; decide)
  rw [e1, htop] at htop1
  rw [e1] at hlow1
  have e2 : pg1.next - 1 = i + 1 := by omega
  have hb1 : bumpCount (⟨A, 0⟩ : AutoreleasePoolEntry) = ⟨A, 1⟩ := rfl
  rw [hb1] at htop1
  obtain ⟨s2, pg2, r2, htls2, _, hpg2, hnext2, htop2, hlow2⟩ :=
    step_bump htls1 hpg1 (by omega) hon hA (by omega)
      (by rw [e2, htop1]) (by rw [e2, htop1]; show 1 < maxCount; decide)
  rw [e2, htop1] at htop2
  rw [e2] at hlow2
  have hb2 : bumpCount (⟨A, 1⟩ : AutoreleasePoolEntry) = ⟨A, 2⟩ := rfl
  rw [hb2] at htop2
  refine ⟨s2, pg2, ?_, htls2, hpg2, by omega, htop2, ?_⟩
  · simp only [run, step, r1, r2]
  · intro j hj
    rw [hlow2 j (by omega), hlow1 j (by omega)]

/-- Three registrations of one reference above a boundary marker that has two
more slots after it in its page: one slot is taken. -/
theorem triple_slots {c : Config}
    (hon : c.DisableAutoreleaseCoalescing = false ∨ c.DisableAutoreleaseCoalescingLRU = false)
    {s : State} {p i : Nat} {pg : AutoreleasePoolPage} (htls : s.tls = Tls.page p)
    (hpg : s.pages p = some pg) (hnext : pg.next = i + 1) (hb : pg.slots i = boundary)
    (hroom : i + 2 < c.pageEnd) {A : Nat} (hA : IsRef A) (toks : List SlotPtr) :
    ∃ s2 pg2, run c (s, toks) [Op.autorelease A, Op.autorelease A, Op.autorelease A] =
        Except.ok (s2, toks) ∧
      s2.tls = Tls.page p ∧ s2.pages p = some pg2 ∧ pg2.next = i + 2 ∧
      pg2.slots i = boundary ∧ pg2.slots (i + 1) = ⟨A, 2⟩ := by
  have e1 : pg.next - 1 = i := by omega
  have hprev : PrevOK pg := by
    apply prevOK_of_plain
    rw [e1, hb]
    exact plainEntry_boundary
  obtain ⟨s1, pg1, r1, htls1, _, hpg1, hnext1, htop1, hlow1, _⟩ :=
    step_append htls hpg (by omega) (coalesce_boundary_top c pg A (by rw [e1, hb])) hA hprev
  rw [hnext] at htop1 hlow1
  obtain ⟨s2, pg2, r2, htls2, hpg2, hnext2, htop2, hlow2⟩ :=
    double_bump hon htls1 hpg1 (by omega) hroom hA htop1 toks
  refine ⟨s2, pg2, ?_, htls2, hpg2, hnext2, ?_, htop2⟩
  · have hrun : run c (s, toks) (Op.autorelease A :: [Op.autorelease A, Op.autorelease A]) =
        run c (s1, toks) [Op.autorelease A, Op.autorelease A] := by
      simp only [run, step, r1]
    rw [hrun, r2]
  · rw [hlow2 i (le_refl _), hlow1 i (by omega), hb]

/-- One registration as the whole of what is pending above a boundary. -/
theorem AddEntries.first {c : Config} {obj : Nat} {X1 : List (SlotPtr × AutoreleasePoolEntry)}
    (h : AddEntries c obj [] (X1.map Prod.snd)) : ∃ t1, X1 = [(t1, ⟨obj, 0⟩)] := by
  rcases h with h | ⟨_, A0, e, R, h1, _⟩
  · rw [List.nil_append] at h
    cases X1 with
    | nil => simp at h
    | cons x xs =>
      simp only [List.map_cons, List.cons.injEq, List.map_eq_nil_iff] at h
      obtain ⟨hx, rfl⟩ := h
      exact ⟨x.1, by rw [← hx]⟩
  · exact absurd h1 (by simp)

/-- The `push` that continues a run. -/
theorem push_of_run {c : Config} {s s1 : State} {toks toks1 : List SlotPtr}
    (h : run c (s, toks) [Op.push] = Except.ok (s1, toks1)) :
    ∃ t, push c s = Except.ok (s1, t) ∧ toks1 = t :: toks := by
  simp only [run, step] at h
  cases hp : push c s with
  | error e =>
    rw [hp] at h
    cases h
  | ok r =>
    obtain ⟨s2, t⟩ := r
    rw [hp] at h
    simp only [Except.ok.injEq, Prod.mk.injEq] at h
    exact ⟨t, by rw [h.1], h.2.symm⟩

/-- A run on a new thread continued by further calls. -/
theorem run_from_reached (c : Config) (ops ops2 : List Op)
    (h1 : (run c (State.init, []) ops).isOk = true)
    (h2 : (run c (State.init, []) (ops ++ ops2)).isOk = true) :
    run c (reached c ops) ops2 = Except.ok (reached c (ops ++ ops2)) := by
  have hr1 := run_reached c ops h1
  have hr2 := run_reached c (ops ++ ops2) h2
  rw [run_append c ops ops2 (State.init, []) _ hr1] at hr2
  exact hr2

/-- C12 (the claim as stated fails): with the default configuration, whose
pages have 505 slots, a scope is opened when the cursor of the first page is
at slot 503, in a reachable state.  The `push` returns slot 503; the three
registrations of the reference 7000 that follow return and take three slots,
each without count: the last slot of the first page and the first two slots of
a second page. -/
theorem triple_across_pages :
    defaultConfig.DisableAutoreleaseCoalescing = false ∧
    defaultConfig.DisableAutoreleaseCoalescingLRU = false ∧
    defaultConfig.pageEnd = 505 ∧
    Reach defaultConfig (reached defaultConfig fillOps).1 [SlotPtr.EMPTY_POOL_PLACEHOLDER] ∧
    push defaultConfig (reached defaultConfig fillOps).1 =
      Except.ok ((reached defaultConfig edgeOps).1, SlotPtr.slot 0 503) ∧
    run defaultConfig
        ((reached defaultConfig edgeOps).1, [SlotPtr.slot 0 503, SlotPtr.EMPTY_POOL_PLACEHOLDER])
        [Op.autorelease 7000, Op.autorelease 7000, Op.autorelease 7000] =
      Except.ok ((reached defaultConfig tripleOps).1,
        [SlotPtr.slot 0 503, SlotPtr.EMPTY_POOL_PLACEHOLDER]) ∧
    (reached defaultConfig tripleOps).1.tls = Tls.page 1 ∧
    ((reached defaultConfig tripleOps).1.pages 0).map
        (fun pg => (pg.next, pg.slots 503, pg.slots 504)) =
      some (505, boundary, ⟨7000, 0⟩) ∧
    ((reached defaultConfig tripleOps).1.pages 1).map
        (fun pg => (pg.next, pg.slots 0, pg.slots 1)) =
      some (2, ⟨7000, 0⟩, ⟨7000, 0⟩) := by
  have h1 : (run defaultConfig (State.init, []) fillOps).isOk = true := by decide!
  have h2 : (run defaultConfig (State.init, []) edgeOps).isOk = true := by decide!
  have h3 : (run defaultConfig (State.init, []) tripleOps).isOk = true := by decide!
  have ht1 : (reached defaultConfig fillOps).2 = [SlotPtr.EMPTY_POOL_PLACEHOLDER] := by
    decide!
  have ht2 : (reached defaultConfig edgeOps).2 =
      [SlotPtr.slot 0 503, SlotPtr.EMPTY_POOL_PLACEHOLDER] := by decide!
  have ht3 : (reached defaultConfig tripleOps).2 =
      [SlotPtr.slot 0 503, SlotPtr.EMPTY_POOL_PLACEHOLDER] := by decide!
  have hreach := reach_reached defaultConfig fillOps h1 (by
    intro obj hm
    simp only [fillOps, registerRange, List.mem_cons, List.mem_map,
      List.mem_range, Op.autorelease.injEq, reduceCtorEq, false_or] at hm
    obtain ⟨k, hk, rfl⟩ := hm
    exact ⟨by omega, by omega⟩)
  rw [ht1] at hreach
  have hpush : push defaultConfig (reached defaultConfig fillOps).1 =
      Except.ok ((reached defaultConfig edgeOps).1, SlotPtr.slot 0 503) := by
    have hrun := run_from_reached defaultConfig fillOps [Op.push] h1 h2
    have hst : reached defaultConfig fillOps =
        ((reached defaultConfig fillOps).1, [SlotPtr.EMPTY_POOL_PLACEHOLDER]) := by
      rw [← ht1]
    have hst2 : reached defaultConfig (fillOps ++ [Op.push]) =
        ((reached defaultConfig edgeOps).1,
          [SlotPtr.slot 0 503, SlotPtr.EMPTY_POOL_PLACEHOLDER]) := by
      show reached defaultConfig edgeOps = _
      rw [← ht2]
    rw [hst, hst2] at hrun
    obtain ⟨t, hp, ht⟩ := push_of_run hrun
    simp only [List.cons.injEq, and_true] at ht
    rw [← ht] at hp
    exact hp
  have hrun3 := run_from_reached defaultConfig edgeOps
    [Op.autorelease 7000, Op.autorelease 7000, Op.autorelease 7000] h2 h3
  have hst3 : reached defaultConfig edgeOps =
      ((reached defaultConfig edgeOps).1,
        [SlotPtr.slot 0 503, SlotPtr.EMPTY_POOL_PLACEHOLDER]) := by
    rw [← ht2]
  have hst4 : reached defaultConfig
      (edgeOps ++ [Op.autorelease 7000, Op.autorelease 7000, Op.autorelease 7000]) =
      ((reached defaultConfig tripleOps).1,
        [SlotPtr.slot 0 503, SlotPtr.EMPTY_POOL_PLACEHOLDER]) := by
    show reached defaultConfig tripleOps = _
    rw [← ht3]
  rw [hst3, hst4] at hrun3
  refine ⟨rfl, rfl, by decide, hreach, hpush, hrun3, ?_, ?_, ?_⟩
  · decide!
  · decide!
  · decide!

/-- C12 (amended): in every reachable state of a thread in which `push`
returns, with coalescing enabled in either variant, three consecutive
registrations of one reference `A` return without releasing anything, and the
`pop` of the scope returns and releases `A` exactly 3 times and nothing else.
If the boundary of the scope has at least two more slots after it in its page
(for a placeholder token: the page has at least three slots), the three
registrations occupy exactly one slot, the slot after the boundary, which holds
`A` with count 2. -/
theorem coalescing_triple {c : Config} (hnd : c.nonDebug) (hcap : 2 ≤ c.pageEnd)
    (hon : c.DisableAutoreleaseCoalescing = false ∨ c.DisableAutoreleaseCoalescingLRU = false)
    {s : State} {toks : List SlotPtr} (hr : Reach c s toks) {s1 : State} {t : SlotPtr}
    (hpush : push c s = Except.ok (s1, t)) (A : Nat) (hA : IsRef A) :
    ∃ s2 s3,
      run c (s1, t :: toks) [Op.autorelease A, Op.autorelease A, Op.autorelease A] =
        Except.ok (s2, t :: toks) ∧
      s2.released = s.released ∧ pop c s2 t = Except.ok s3 ∧
      s3.released = s.released ++ [A, A, A] ∧
      (∀ p i, t = SlotPtr.slot p i → i + 2 < c.pageEnd →
        ∃ pg, s2.tls = Tls.page p ∧ s2.pages p = some pg ∧ pg.next = i + 2 ∧
          pg.slots i = boundary ∧ pg.slots (i + 1) = ⟨A, 2⟩) ∧
      (t = SlotPtr.EMPTY_POOL_PLACEHOLDER → 3 ≤ c.pageEnd →
        ∃ pg, s2.tls = Tls.page s.brk ∧ s2.pages s.brk = some pg ∧ pg.next = 2 ∧
          pg.slots 0 = boundary ∧ pg.slots 1 = ⟨A, 2⟩) := by
  obtain ⟨cells, lo, a, hinv, hinv1, hm, hlo, hrel1⟩ := push_scope hnd hcap hr hpush
  have hok1 : HotOK c s1 A :=
    hinv1.hotOK_of_top (fun init x hx => last_plain (X := []) (by simp) hx) A
  obtain ⟨s2, t2, cells2, r1, hinv2, hadd2, hrel2, _, ⟨q2, htls2⟩⟩ :=
    autorelease_spec hnd hcap hinv1 hA hok1
  obtain ⟨a1, X1, e1, _, e3⟩ := hadd2.above
  obtain ⟨t1, rfl⟩ := AddEntries.first e3
  subst e1
  have hok2 : HotOK c s2 A :=
    hinv2.hotOK_of_top (fun init x hx => last_plain (X := [(t1, ⟨A, 0⟩)]) (by
      intro e he
      simp only [List.map_cons, List.map_nil, List.mem_singleton] at he
      rw [he]
      exact plainEntry_ref hA) hx) A
  obtain ⟨s3, t3, cells3, r2, hinv3, _, hrel3, _, _⟩ :=
    autorelease_spec hnd hcap hinv2 hA hok2
  have hok3 : HotOK c s3 A := hotOK_after (by omega) hinv2 hA htls2 r2
  obtain ⟨s4, t4, cells4, r3, hinv4, _, hrel4, _, _⟩ :=
    autorelease_spec hnd hcap hinv3 hA hok3
  have hrun : run c (s1, t :: toks)
      [Op.autorelease A, Op.autorelease A, Op.autorelease A] = Except.ok (s4, t :: toks) := by
    simp only [run, step, r1, r2, r3]
  have hopen : Opening [Op.autorelease A, Op.autorelease A, Op.autorelease A] :=
    ⟨hA, hA, hA, trivial⟩
  rcases scope_spec hnd hcap hr hpush _ hopen with herr | ⟨s5, toks5, s6, es, k1, k2, k3, k4, k5, _⟩
  · rw [hrun] at herr
    cases herr
  rw [hrun] at k1
  simp only [Except.ok.injEq, Prod.mk.injEq] at k1
  obtain ⟨rfl, _⟩ := k1
  have hperm := AddsRel.perm _ _ _ hopen k3
  have hrels : releasesOf es = [A, A, A] := by
    have h3 : registrations [Op.autorelease A, Op.autorelease A, Op.autorelease A] ++
        releasesOf [] = List.replicate 3 A := rfl
    rw [h3] at hperm
    exact List.eq_replicate_of_mem (fun b hb => List.eq_of_mem_replicate (hperm.subset hb))
      |>.trans (by rw [hperm.length_eq]; rfl)
  refine ⟨s4, s6, hrun, k4, k2, by rw [k5, hrels], ?_, ?_⟩
  · intro p i ht hroom
    subst ht
    have hok : HotOK c s POOL_BOUNDARY := by
      by_contra hbad
      rw [push_fault hnd.1 hbad] at hpush
      cases hpush
    obtain ⟨s1b, tb, cellsb, b1, _, _, _, _, b6⟩ := push_spec hnd hcap hinv hok
    rw [hpush] at b1
    simp only [Except.ok.injEq, Prod.mk.injEq] at b1
    obtain ⟨rfl, rfl⟩ := b1
    have htls1 : s1.tls = Tls.page p := by
      rcases b6 with ⟨hb, _⟩ | ⟨p0, i0, pg0, hb, _, _, htls0⟩
      · cases hb
      · cases hb
        exact htls0
    have ha : a = SlotPtr.slot p i := by
      rcases hm with h | ⟨h, _⟩
      · exact h.symm
      · cases h
    subst ha
    obtain ⟨pg1, hpg1, hnext1, hb1⟩ := hinv1.top_cursor htls1
    obtain ⟨s2b, pg2, hrunb, htlsb, hpgb, hnextb, hbb, htopb⟩ :=
      triple_slots hon htls1 hpg1 hnext1 hb1 hroom hA (SlotPtr.slot p i :: toks)
    rw [hrun] at hrunb
    simp only [Except.ok.injEq, Prod.mk.injEq, and_true] at hrunb
    subst hrunb
    exact ⟨pg2, htlsb, hpgb, hnextb, hbb, htopb⟩
  · intro ht hroom
    subst ht
    have hok : HotOK c s POOL_BOUNDARY := by
      by_contra hbad
      rw [push_fault hnd.1 hbad] at hpush
      cases hpush
    obtain ⟨s1b, tb, cellsb, b1, _, _, _, _, b6⟩ := push_spec hnd hcap hinv hok
    rw [hpush] at b1
    simp only [Except.ok.injEq, Prod.mk.injEq] at b1
    obtain ⟨rfl, rfl⟩ := b1
    have hnil : s.tls = Tls.nil := by
      rcases b6 with ⟨_, h⟩ | ⟨p0, i0, pg0, hb, _⟩
      · exact h
      · cases hb
    rw [push_nil c s hnil hnd.1] at hpush
    simp only [Except.ok.injEq, Prod.mk.injEq, and_true] at hpush
    subst hpush
    have hmat := autorelease_placeholder c { s with tls := Tls.EMPTY_POOL_PLACEHOLDER } A rfl
      hcap hA.2
    obtain ⟨s2b, pg2, hrunb, htlsb, hpgb, hnextb, htopb, hlowb⟩ :=
      @double_bump c hon (materialised c { s with tls := Tls.EMPTY_POOL_PLACEHOLDER } A)
        s.brk 0 _ rfl (Function.update_same _ _ _) rfl (by omega) A hA
        (by simp [Function.update_same]) (SlotPtr.EMPTY_POOL_PLACEHOLDER :: toks)
    have hrun2 : run c ({ s with tls := Tls.EMPTY_POOL_PLACEHOLDER },
        SlotPtr.EMPTY_POOL_PLACEHOLDER :: toks)
        (Op.autorelease A :: [Op.autorelease A, Op.autorelease A]) =
        run c (materialised c { s with tls := Tls.EMPTY_POOL_PLACEHOLDER } A,
          SlotPtr.EMPTY_POOL_PLACEHOLDER :: toks) [Op.autorelease A, Op.autorelease A] := by
      simp only [run, step, hmat]
    rw [hrun2, hrunb] at hrun
    simp only [Except.ok.injEq, Prod.mk.injEq, and_true] at hrun
    subst hrun
    refine ⟨pg2, htlsb, hpgb, hnextb, ?_, htopb⟩
    rw [hlowb 0 (le_refl _)]
    simp [Function.update_apply, boundary, POOL_BOUNDARY]

/-- C12, an instance: the default configuration, the state after `push` and
one registration of the reference 100, in which `push` returns slot 2 of the
first page, and three registrations of the reference 200. -/
theorem coalescing_triple_witness :
    defaultConfig.nonDebug ∧ 2 ≤ defaultConfig.pageEnd ∧
    (defaultConfig.DisableAutoreleaseCoalescing = false ∨
      defaultConfig.DisableAutoreleaseCoalescingLRU = false) ∧
    Reach defaultConfig (reached defaultConfig [Op.push, Op.autorelease 100]).1
      [SlotPtr.EMPTY_POOL_PLACEHOLDER] ∧
    push defaultConfig (reached defaultConfig [Op.push, Op.autorelease 100]).1 =
      Except.ok ((reached defaultConfig [Op.push, Op.autorelease 100, Op.push]).1,
        SlotPtr.slot 0 2) ∧
    IsRef 200 ∧
    ∃ s2 s3,
      run defaultConfig ((reached defaultConfig [Op.push, Op.autorelease 100, Op.push]).1,
          [SlotPtr.slot 0 2, SlotPtr.EMPTY_POOL_PLACEHOLDER])
        [Op.autorelease 200, Op.autorelease 200, Op.autorelease 200] =
        Except.ok (s2, [SlotPtr.slot 0 2, SlotPtr.EMPTY_POOL_PLACEHOLDER]) ∧
      s2.released = (reached defaultConfig [Op.push, Op.autorelease 100]).1.released ∧
      pop defaultConfig s2 (SlotPtr.slot 0 2) = Except.ok s3 ∧
      s3.released = (reached defaultConfig [Op.push, Op.autorelease 100]).1.released ++
        [200, 200, 200] ∧
      (∀ p i, SlotPtr.slot 0 2 = SlotPtr.slot p i → i + 2 < defaultConfig.pageEnd →
        ∃ pg, s2.tls = Tls.page p ∧ s2.pages p = some pg ∧ pg.next = i + 2 ∧
          pg.slots i = boundary ∧ pg.slots (i + 1) = ⟨200, 2⟩) ∧
      (SlotPtr.slot 0 2 = SlotPtr.EMPTY_POOL_PLACEHOLDER → 3 ≤ defaultConfig.pageEnd →
        ∃ pg, s2.tls = Tls.page (reached defaultConfig [Op.push, Op.autorelease 100]).1.brk ∧
          s2.pages (reached defaultConfig [Op.push, Op.autorelease 100]).1.brk = some pg ∧
          pg.next = 2 ∧ pg.slots 0 = boundary ∧ pg.slots 1 = ⟨200, 2⟩) :=
  have hr : Reach defaultConfig (reached defaultConfig [Op.push, Op.autorelease 100]).1
      [SlotPtr.EMPTY_POOL_PLACEHOLDER] :=
    reach_run [Op.push, Op.autorelease 100] State.init [] _ _ Reach.init (by simp [IsRef]) rfl
  ⟨⟨rfl, rfl, rfl⟩, by decide, Or.inl rfl, hr, rfl, ⟨by decide, by decide⟩,
    coalescing_triple ⟨rfl, rfl, rfl⟩ (by decide) (Or.inl rfl) hr rfl 200
      ⟨by decide, by decide⟩⟩

/-- C25 as stated fails for an odd capacity.  In the default configuration a
page has 505 slots; after push and 251 registrations the first page has 252
occupied slots, and twice 252 is strictly less than 505, but
`lessThanHalfFull()` is false: it compares 252 with 505 / 2, which is 252. -/
theorem half_test_odd_capacity :
    defaultConfig.pageEnd = 505 ∧
    ((reached defaultConfig underHalfOps).1.pages 0).map
      (fun pg => (pg.next, pg.lessThanHalfFull defaultConfig)) = some (252, false) ∧
    2 * 252 < defaultConfig.pageEnd := by
  refine ⟨by decide, ?_, by decide⟩
  decide!

/-- C25, amended: `lessThanHalfFull()` is true exactly when the number of
occupied slots is strictly less than half the capacity rounded down, that is
when twice the number of occupied slots plus one is strictly less than the
capacity.  For an even capacity this is the same as twice the occupied slots
being strictly less than the capacity; for an odd capacity it is twice the
occupied slots being strictly less than the capacity minus one. -/
theorem lessThanHalfFull_iff (c : Config) (pg : AutoreleasePoolPage) :
    (pg.lessThanHalfFull c = true ↔ pg.next < c.pageEnd / 2) ∧
    (pg.lessThanHalfFull c = true ↔ 2 * pg.next + 1 < c.pageEnd) ∧
    (c.pageEnd % 2 = 0 → (pg.lessThanHalfFull c = true ↔ 2 * pg.next < c.pageEnd)) ∧
    (c.pageEnd % 2 = 1 → (pg.lessThanHalfFull c = true ↔ 2 * pg.next < c.pageEnd - 1)) := by
  have h0 : pg.lessThanHalfFull c = true ↔ pg.next < c.pageEnd / 2 := by
    simp [AutoreleasePoolPage.lessThanHalfFull]
  refine ⟨h0, ?_, ?_, ?_⟩
  · rw [h0]
    omega
  · intro h
    rw [h0]
    omega
  · intro h
    rw [h0]
    omega

/-- C25, an instance: pages of the default configuration, with 505 slots, and a
page with 251 occupied slots, for which the test holds, since twice 251 is less
than 504. -/
theorem lessThanHalfFull_iff_witness :
    defaultConfig.pageEnd % 2 = 1 ∧
    (AutoreleasePoolPage.lessThanHalfFull defaultConfig
        { next := 251, parent := none, child := none, depth := 0, hiwat := 0,
          slots := fun _ => scribbled } = true ↔
      2 * 251 < defaultConfig.pageEnd - 1) :=
  ⟨by decide,
    (lessThanHalfFull_iff defaultConfig
      { next := 251, parent := none, child := none, depth := 0, hiwat := 0,
        slots := fun _ => scribbled }).2.2.2 (by decide)⟩

/-- Whenever `add(obj)` returns, the slot it returns decodes to `obj`. -/
theorem add_landed {c : Config} {s s1 : State} {self obj : Nat} {dest : SlotPtr}
    (h : add c s self obj = Except.ok (s1, dest)) : Landed s1 obj dest := by
  unfold add at h
  cases hpg : s.pages self with
  | none =>
    rw [hpg] at h
    cases h
  | some pg =>
    rw [hpg] at h
    simp only at h
    cases hco : coalesce c pg obj with
    | some pg1 =>
      rw [hco] at h
      simp only at h
      split_ifs at h with hfull hobj
      simp only [Except.ok.injEq, Prod.mk.injEq] at h
      obtain ⟨rfl, rfl⟩ := h
      obtain ⟨m, _, _, hne, _, _, _, _, _, _, _, _, _, hslots⟩ := coalesce_some c pg pg1 obj hco
      refine Or.inr (Or.inr ⟨self, pg.next - 1, pg1, rfl, setPage_pages_self _ _ _, ?_, ?_⟩)
      · rw [hslots, if_pos rfl]
      · intro h0
        exact absurd h0 hne
    | none =>
      rw [hco] at h
      simp only at h
      split_ifs at h with hfull h1 h2 h3
      simp only [Except.ok.injEq, Prod.mk.injEq] at h
      obtain ⟨rfl, rfl⟩ := h
      refine Or.inr (Or.inr ⟨self, pg.next, _, rfl, setPage_pages_self _ _ _, ?_, ?_⟩)
      · simp only [Function.update_same]
        exact h3
      · intro h0
        subst h0
        simp only [Function.update_same]
        exact entryOfId_boundary

/-- Whenever `autoreleaseFullPage(obj, page)` returns, the slot it returns
decodes to `obj`. -/
theorem autoreleaseFullPage_landed {c : Config} {s s1 : State} {obj page : Nat}
    {dest : SlotPtr} (h : autoreleaseFullPage c s obj page = Except.ok (s1, dest)) :
    Landed s1 obj dest := by
  unfold autoreleaseFullPage at h
  cases hh : hotPage s with
  | error e =>
    rw [hh] at h
    cases h
  | ok hp =>
    rw [hh] at h
    simp only at h
    split_ifs at h with h1
    cases hpg : s.pages page with
    | none =>
      rw [hpg] at h
      cases h
    | some pg =>
      rw [hpg] at h
      simp only at h
      split_ifs at h with h2
      cases hl : fullPageLoop c (s.brk + 1) s page with
      | error e =>
        rw [hl] at h
        cases h
      | ok r =>
        obtain ⟨s2, page1⟩ := r
        rw [hl] at h
        simp only at h
        cases hs : setHotPage s2 (some page1) with
        | error e =>
          rw [hs] at h
          cases h
        | ok s3 =>
          rw [hs] at h
          exact add_landed h

/-- Whenever `autoreleaseNoPage(obj)` returns, the pointer it returns is `nil`
for an object, the placeholder for a boundary marker, or a slot that decodes
to `obj`. -/
theorem autoreleaseNoPage_landed {c : Config} {s s1 : State} {obj : Nat} {dest : SlotPtr}
    (h : autoreleaseNoPage c s obj = Except.ok (s1, dest)) : Landed s1 obj dest := by
  unfold autoreleaseNoPage at h
  cases hh : hotPage s with
  | error e =>
    rw [hh] at h
    cases h
  | ok hp =>
    rw [hh] at h
    cases hp with
    | some q => cases h
    | none =>
      simp only at h
      split_ifs at h with h1 h2 h3
      · cases hn : newPage c s none with
        | error e =>
          rw [hn] at h
          cases h
        | ok r =>
          obtain ⟨s2, page⟩ := r
          rw [hn] at h
          simp only at h
          cases hs : setHotPage s2 (some page) with
          | error e =>
            rw [hs] at h
            cases h
          | ok s3 =>
            rw [hs] at h
            simp only at h
            cases ha : add c s3 page POOL_BOUNDARY with
            | error e =>
              rw [ha] at h
              cases h
            | ok r2 =>
              obtain ⟨s4, t⟩ := r2
              rw [ha] at h
              exact add_landed h
      · simp only [Except.ok.injEq, Prod.mk.injEq] at h
        obtain ⟨rfl, rfl⟩ := h
        exact Or.inl ⟨rfl, h2.1⟩
      · unfold setEmptyPoolPlaceholder at h
        split_ifs at h with h4
        simp only [Except.ok.injEq, Prod.mk.injEq] at h
        obtain ⟨rfl, rfl⟩ := h
        exact Or.inr (Or.inl ⟨rfl, h3.1⟩)
      · cases hn : newPage c s none with
        | error e =>
          rw [hn] at h
          cases h
        | ok r =>
          obtain ⟨s2, page⟩ := r
          rw [hn] at h
          simp only at h
          cases hs : setHotPage s2 (some page) with
          | error e =>
            rw [hs] at h
            cases h
          | ok s3 =>
            rw [hs] at h
            exact add_landed h

/-- Whenever `autoreleaseFast(obj)` returns, the pointer it returns is `nil`
for an object, the placeholder for a boundary marker, or a slot that decodes
to `obj`. -/
theorem autoreleaseFast_landed {c : Config} {s s1 : State} {obj : Nat} {dest : SlotPtr}
    (h : autoreleaseFast c s obj = Except.ok (s1, dest)) : Landed s1 obj dest := by
  unfold autoreleaseFast at h
  cases hh : hotPage s with
  | error e =>
    rw [hh] at h
    cases h
  | ok hp =>
    rw [hh] at h
    cases hp with
    | none => exact autoreleaseNoPage_landed h
    | some page =>
      simp only at h
      cases hpg : s.pages page with
      | none =>
        rw [hpg] at h
        cases h
      | some pg =>
        rw [hpg] at h
        simp only at h
        split_ifs at h with h1
        · exact add_landed h
        · exact autoreleaseFullPage_landed h

/-- Whenever `autoreleaseNewPage(obj)` returns, the pointer it returns is
`nil` for an object, the placeholder for a boundary marker, or a slot that
decodes to `obj`. -/
theorem autoreleaseNewPage_landed {c : Config} {s s1 : State} {obj : Nat} {dest : SlotPtr}
    (h : autoreleaseNewPage c s obj = Except.ok (s1, dest)) : Landed s1 obj dest := by
  unfold autoreleaseNewPage at h
  cases hh : hotPage s with
  | error e =>
    rw [hh] at h
    cases h
  | ok hp =>
    rw [hh] at h
    cases hp with
    | none => exact autoreleaseNoPage_landed h
    | some page => exact autoreleaseFullPage_landed h

/-- The `ASSERT` of `push()` holds of a landed pointer: `push` returns it. -/
theorem push_of_landed {c : Config} {s s1 : State} {dest : SlotPtr}
    (h : (if c.DebugPoolAllocation then autoreleaseNewPage c s POOL_BOUNDARY
      else autoreleaseFast c s POOL_BOUNDARY) = Except.ok (s1, dest))
    (hl : Landed s1 POOL_BOUNDARY dest) : push c s = Except.ok (s1, dest) := by
  unfold push
  rw [h]
  rcases hl with ⟨_, h0⟩ | ⟨rfl, _⟩ | ⟨p, i, pg, rfl, hpg, _, hb⟩
  · exact absurd rfl h0
  · rfl
  · simp only [hpg, (idOfEntry_eq_zero _).2 (hb rfl), if_true]

/-- The `ASSERT` of `autorelease(obj)` holds of a landed pointer: `autorelease`
returns. -/
theorem autorelease_of_landed {c : Config} {s s1 : State} {obj : Nat} {dest : SlotPtr}
    (h : autoreleaseFast c s obj = Except.ok (s1, dest)) (hl : Landed s1 obj dest) :
    autorelease c s obj = Except.ok (s1, obj) := by
  unfold autorelease
  rw [h]
  rcases hl with ⟨rfl, _⟩ | ⟨rfl, _⟩ | ⟨p, i, pg, rfl, hpg, hptr, _⟩
  · rfl
  · rfl
  · simp only [hpg, hptr, if_true]

/-- C24: the landed-slot assertions hold.  In every state of a thread,
reachable or not, and in every configuration: a boundary marker is never
coalesced; whenever the registration of the boundary that `push` makes returns,
the pointer is the placeholder or the address of a slot that holds a boundary
marker, so the `ASSERT` of `push` holds and `push` returns that pointer as its
token; whenever `autoreleaseFast(x)` returns for `x` that is not the boundary
marker, the pointer is `nil` or the address of a slot whose `ptr` field is `x`,
also when an LRU reordering moved the entry, so the `ASSERT` of `autorelease`
holds and `autorelease` returns.  In the reachable states of a configuration
with no debugging switch set, `push` and `autorelease` of a reference fail no
assertion at all. -/
theorem landed_slot_assertions (c : Config) (s : State) :
    (∀ pg, coalesce c pg POOL_BOUNDARY = none) ∧
    (∀ s1 dest,
      (if c.DebugPoolAllocation then autoreleaseNewPage c s POOL_BOUNDARY
        else autoreleaseFast c s POOL_BOUNDARY) = Except.ok (s1, dest) →
      (dest = SlotPtr.EMPTY_POOL_PLACEHOLDER ∨
        ∃ p i pg, dest = SlotPtr.slot p i ∧ s1.pages p = some pg ∧ pg.slots i = boundary) ∧
      push c s = Except.ok (s1, dest)) ∧
    (∀ s1 t, push c s = Except.ok (s1, t) →
      t = SlotPtr.EMPTY_POOL_PLACEHOLDER ∨
        ∃ p i pg, t = SlotPtr.slot p i ∧ s1.pages p = some pg ∧ pg.slots i = boundary) ∧
    (∀ x s1 dest, x ≠ POOL_BOUNDARY → autoreleaseFast c s x = Except.ok (s1, dest) →
      (dest = SlotPtr.nil ∨
        ∃ p i pg, dest = SlotPtr.slot p i ∧ s1.pages p = some pg ∧ (pg.slots i).ptr = x) ∧
      autorelease c s x = Except.ok (s1, x)) ∧
    (∀ toks, c.nonDebug → 2 ≤ c.pageEnd → Reach c s toks →
      push c s ≠ Except.error Fault.assertion ∧
      ∀ x, IsRef x → autorelease c s x ≠ Except.error Fault.assertion) := by
  have hland : ∀ s1 dest,
      (if c.DebugPoolAllocation then autoreleaseNewPage c s POOL_BOUNDARY
        else autoreleaseFast c s POOL_BOUNDARY) = Except.ok (s1, dest) →
      Landed s1 POOL_BOUNDARY dest := by
    intro s1 dest h
    by_cases hd : c.DebugPoolAllocation = true
    · rw [if_pos hd] at h
      exact autoreleaseNewPage_landed h
    · rw [if_neg hd] at h
      exact autoreleaseFast_landed h
  have hshape : ∀ s1 dest, Landed s1 POOL_BOUNDARY dest →
      dest = SlotPtr.EMPTY_POOL_PLACEHOLDER ∨
        ∃ p i pg, dest = SlotPtr.slot p i ∧ s1.pages p = some pg ∧ pg.slots i = boundary := by
    intro s1 dest hl
    rcases hl with ⟨_, h0⟩ | ⟨h1, _⟩ | ⟨p, i, pg, h1, hpg, _, hb⟩
    · exact absurd rfl h0
    · exact Or.inl h1
    · exact Or.inr ⟨p, i, pg, h1, hpg, hb rfl⟩
  refine ⟨coalesce_nil c, ?_, ?_, ?_, ?_⟩
  · intro s1 dest h
    exact ⟨hshape s1 dest (hland s1 dest h), push_of_landed h (hland s1 dest h)⟩
  · intro s1 t h
    cases hin : (if c.DebugPoolAllocation then autoreleaseNewPage c s POOL_BOUNDARY
        else autoreleaseFast c s POOL_BOUNDARY) with
    | error e =>
      unfold push at h
      rw [hin] at h
      cases h
    | ok r =>
      obtain ⟨s2, dest⟩ := r
      have hp := push_of_landed hin (hland s2 dest hin)
      rw [hp] at h
      simp only [Except.ok.injEq, Prod.mk.injEq] at h
      obtain ⟨rfl, rfl⟩ := h
      exact hshape _ _ (hland _ _ hin)
  · intro x s1 dest hx h
    have hl := autoreleaseFast_landed h
    refine ⟨?_, autorelease_of_landed h hl⟩
    rcases hl with ⟨h1, _⟩ | ⟨_, h0⟩ | ⟨p, i, pg, h1, hpg, hptr, _⟩
    · exact Or.inl h1
    · exact absurd h0 hx
    · exact Or.inr ⟨p, i, pg, h1, hpg, hptr⟩
  · intro toks hnd hcap hr
    obtain ⟨cells, base, hinv, _⟩ := hr.inv hnd hcap
    constructor
    · by_cases hok : HotOK c s POOL_BOUNDARY
      · obtain ⟨s1, t, _, r1, _⟩ := push_spec hnd hcap hinv hok
        rw [r1]
        exact fun h => by cases h
      · rw [push_fault hnd.1 hok]
        exact fun h => by cases h
    · intro x hx
      by_cases hok : HotOK c s x
      · obtain ⟨s1, t, _, r1, _⟩ := autorelease_spec hnd hcap hinv hx hok
        rw [r1]
        exact fun h => by cases h
      · rw [autorelease_fault hok]
        exact fun h => by cases h

/-- C24, an instance: in the default configuration, in the state after push
and one registration of the reference 100, the registration of the boundary
that `push` makes returns slot 2 of page 0, which then holds a boundary marker,
and `push` returns it; a second registration of 100 is coalesced and returns
slot 1, whose `ptr` field is 100, and `autorelease` returns. -/
theorem landed_slot_assertions_witness :
    ((∃ p i pg, SlotPtr.slot 0 2 = SlotPtr.slot p i ∧
        (reached defaultConfig [Op.push, Op.autorelease 100, Op.push]).1.pages p = some pg ∧
        pg.slots i = boundary) ∧
      push defaultConfig (reached defaultConfig [Op.push, Op.autorelease 100]).1 =
        Except.ok ((reached defaultConfig [Op.push, Op.autorelease 100, Op.push]).1,
          SlotPtr.slot 0 2)) ∧
    ((∃ p i pg, SlotPtr.slot 0 1 = SlotPtr.slot p i ∧
        (reached defaultConfig [Op.push, Op.autorelease 100, Op.autorelease 100]).1.pages p =
          some pg ∧ (pg.slots i).ptr = 100) ∧
      autorelease defaultConfig (reached defaultConfig [Op.push, Op.autorelease 100]).1 100 =
        Except.ok ((reached defaultConfig
          [Op.push, Op.autorelease 100, Op.autorelease 100]).1, 100)) :=
  ⟨⟨((landed_slot_assertions defaultConfig
        (reached defaultConfig [Op.push, Op.autorelease 100]).1).2.1
        (reached defaultConfig [Op.push, Op.autorelease 100, Op.push]).1
        (SlotPtr.slot 0 2) rfl).1.resolve_left (fun h => by cases h),
      ((landed_slot_assertions defaultConfig
        (reached defaultConfig [Op.push, Op.autorelease 100]).1).2.1
        (reached defaultConfig [Op.push, Op.autorelease 100, Op.push]).1
        (SlotPtr.slot 0 2) rfl).2⟩,
    ⟨((landed_slot_assertions defaultConfig
        (reached defaultConfig [Op.push, Op.autorelease 100]).1).2.2.2.1 100
        (reached defaultConfig [Op.push, Op.autorelease 100, Op.autorelease 100]).1
        (SlotPtr.slot 0 1) (by decide) rfl).1.resolve_left (fun h => by cases h),
      ((landed_slot_assertions defaultConfig
        (reached defaultConfig [Op.push, Op.autorelease 100]).1).2.2.2.1 100
        (reached defaultConfig [Op.push, Op.autorelease 100, Op.autorelease 100]).1
        (SlotPtr.slot 0 1) (by decide) rfl).2⟩⟩

theorem Bounded.set {c : Config} {s : State} {p : Nat} {pg : AutoreleasePoolPage}
    (hb : Bounded c s) (h : pg.next ≤ c.pageEnd) : Bounded c (setPage s p pg) := by
  intro q qg hq
  rw [setPage_pages] at hq
  split_ifs at hq with hqp
  · cases hq
    exact h
  · exact hb q qg hq

theorem Bounded.free {c : Config} {s : State} {p : Nat} (hb : Bounded c s) :
    Bounded c (freePage s p) := by
  intro q qg hq
  rw [freePage_pages] at hq
  split_ifs at hq with hqp
  exact hb q qg hq

theorem Bounded.of_pages {c : Config} {s s1 : State} (hb : Bounded c s)
    (h : s1.pages = s.pages) : Bounded c s1 := by
  intro q qg hq
  rw [h] at hq
  exact hb q qg hq

theorem setHotPage_pages {s s1 : State} {p : Option Nat} (h : setHotPage s p = Except.ok s1) :
    s1.pages = s.pages ∧ s1.brk = s.brk ∧ s1.released = s.released ∧
      s1.complained = s.complained := by
  unfold setHotPage at h
  cases p with
  | none =>
    simp only [Except.ok.injEq] at h
    subst h
    exact ⟨rfl, rfl, rfl, rfl⟩
  | some q =>
    simp only at h
    cases hq : s.pages q with
    | none =>
      rw [hq] at h
      cases h
    | some pg =>
      rw [hq] at h
      simp only [Except.ok.injEq] at h
      subst h
      exact ⟨rfl, rfl, rfl, rfl⟩

/-- The method `add` returns only from a page that is not full, and leaves the
cursor where it was or one slot further. -/
theorem add_cursor {c : Config} {s s1 : State} {self obj : Nat} {dest : SlotPtr}
    (h : add c s self obj = Except.ok (s1, dest)) :
    ∃ pg pg1, s.pages self = some pg ∧ pg.full c = false ∧ pg.next ≠ c.pageEnd ∧
      s1 = setPage s self pg1 ∧ (pg1.next = pg.next ∨ pg1.next = pg.next + 1) ∧
      pg1.parent = pg.parent ∧ pg1.child = pg.child ∧ pg1.depth = pg.depth ∧
      pg1.hiwat = pg.hiwat := by
  unfold add at h
  cases hpg : s.pages self with
  | none =>
    rw [hpg] at h
    cases h
  | some pg =>
    rw [hpg] at h
    simp only at h
    have hne : pg.full c = false → pg.next ≠ c.pageEnd := by
      intro hf
      simpa [AutoreleasePoolPage.full] using hf
    cases hco : coalesce c pg obj with
    | some pg1 =>
      rw [hco] at h
      simp only at h
      split_ifs at h with hfull hobj
      simp only [Except.ok.injEq, Prod.mk.injEq] at h
      obtain ⟨rfl, _⟩ := h
      obtain ⟨m, _, _, _, _, _, _, _, hnext, k1, k2, k3, k4, _⟩ :=
        coalesce_some c pg pg1 obj hco
      have hf : pg.full c = false := by simpa using hfull
      exact ⟨pg, pg1, rfl, hf, hne hf, rfl, Or.inl hnext, k1, k2, k3, k4⟩
    | none =>
      rw [hco] at h
      simp only at h
      split_ifs at h with hfull h1 h2 h3
      simp only [Except.ok.injEq, Prod.mk.injEq] at h
      obtain ⟨rfl, _⟩ := h
      have hf : pg.full c = false := by simpa using hfull
      exact ⟨pg, _, rfl, hf, hne hf, rfl, Or.inr rfl, rfl, rfl, rfl, rfl⟩

theorem add_bounded {c : Config} {s s1 : State} {self obj : Nat} {dest : SlotPtr}
    (h : add c s self obj = Except.ok (s1, dest)) (hb : Bounded c s) : Bounded c s1 := by
  obtain ⟨pg, pg1, hpg, _, hne, rfl, hnext, _⟩ := add_cursor h
  have := hb self pg hpg
  exact hb.set (by omega)

theorem newPage_bounded {c : Config} {s s1 : State} {par : Option Nat} {p : Nat}
    (h : newPage c s par = Except.ok (s1, p)) (hb : Bounded c s) :
    Bounded c s1 ∧ ∃ pg, s1.pages p = some pg ∧ pg.next = 0 := by
  unfold newPage at h
  cases par with
  | none =>
    simp only [Except.ok.injEq, Prod.mk.injEq] at h
    obtain ⟨rfl, rfl⟩ := h
    refine ⟨?_, _, Function.update_same _ _ _, rfl⟩
    intro q qg hq
    simp only [Function.update_apply] at hq
    split_ifs at hq with h1
    · cases hq
      exact Nat.zero_le _
    · exact hb q qg hq
  | some q0 =>
    simp only at h
    cases hq0 : s.pages q0 with
    | none =>
      rw [hq0] at h
      cases h
    | some ppg =>
      rw [hq0] at h
      simp only at h
      split_ifs at h with h1
      simp only [Except.ok.injEq, Prod.mk.injEq] at h
      obtain ⟨rfl, rfl⟩ := h
      refine ⟨?_, _, Function.update_same _ _ _, rfl⟩
      intro q qg hq
      simp only [Function.update_apply] at hq
      split_ifs at hq with h2 h3
      · cases hq
        exact Nat.zero_le _
      · cases hq
        exact hb q0 ppg hq0
      · exact hb q qg hq

/-- The loop of `autoreleaseFullPage` ends at a page that is not full. -/
theorem fullPageLoop_bounded {c : Config} :
    ∀ (fuel : Nat) (s : State) (page : Nat) (s1 : State) (page1 : Nat),
      fullPageLoop c fuel s page = Except.ok (s1, page1) → Bounded c s →
      Bounded c s1 ∧ ∃ pg1, s1.pages page1 = some pg1 ∧ pg1.full c = false := by
  intro fuel
  induction fuel with
  | zero =>
    intro s page s1 page1 h
    cases h
  | succ fuel ih =>
    intro s page s1 page1 h hb
    unfold fullPageLoop at h
    cases hpg : s.pages page with
    | none =>
      rw [hpg] at h
      cases h
    | some pg =>
      rw [hpg] at h
      simp only at h
      have key : ∀ (s2 : State) (page2 : Nat), Bounded c s2 →
          (match s2.pages page2 with
            | none => Except.error Fault.badAccess
            | some pg1 =>
              if pg1.full c then fullPageLoop c fuel s2 page2 else Except.ok (s2, page2)) =
            Except.ok (s1, page1) →
          Bounded c s1 ∧ ∃ pg1, s1.pages page1 = some pg1 ∧ pg1.full c = false := by
        intro s2 page2 hb2 h2
        cases hp2 : s2.pages page2 with
        | none =>
          rw [hp2] at h2
          cases h2
        | some pg2 =>
          rw [hp2] at h2
          simp only at h2
          split_ifs at h2 with hfull
          · exact ih s2 page2 s1 page1 h2 hb2
          · simp only [Except.ok.injEq, Prod.mk.injEq] at h2
            obtain ⟨rfl, rfl⟩ := h2
            exact ⟨hb2, pg2, hp2, by simpa using hfull⟩
      cases hch : pg.child with
      | some ch =>
        rw [hch] at h
        exact key s ch hb h
      | none =>
        rw [hch] at h
        simp only at h
        cases hn : newPage c s (some page) with
        | error e =>
          rw [hn] at h
          cases h
        | ok r =>
          obtain ⟨s2, page2⟩ := r
          rw [hn] at h
          exact key s2 page2 (newPage_bounded hn hb).1 h

theorem autoreleaseFullPage_bounded {c : Config} {s s1 : State} {obj page : Nat}
    {dest : SlotPtr} (h : autoreleaseFullPage c s obj page = Except.ok (s1, dest))
    (hb : Bounded c s) : Bounded c s1 := by
  unfold autoreleaseFullPage at h
  cases hh : hotPage s with
  | error e =>
    rw [hh] at h
    cases h
  | ok hp =>
    rw [hh] at h
    simp only at h
    split_ifs at h with h1
    cases hpg : s.pages page with
    | none =>
      rw [hpg] at h
      cases h
    | some pg =>
      rw [hpg] at h
      simp only at h
      split_ifs at h with h2
      cases hl : fullPageLoop c (s.brk + 1) s page with
      | error e =>
        rw [hl] at h
        cases h
      | ok r =>
        obtain ⟨s2, page1⟩ := r
        rw [hl] at h
        simp only at h
        cases hs : setHotPage s2 (some page1) with
        | error e =>
          rw [hs] at h
          cases h
        | ok s3 =>
          rw [hs] at h
          exact add_bounded h
            ((fullPageLoop_bounded _ _ _ _ _ hl hb).1.of_pages (setHotPage_pages hs).1)

theorem autoreleaseNoPage_bounded {c : Config} {s s1 : State} {obj : Nat} {dest : SlotPtr}
    (h : autoreleaseNoPage c s obj = Except.ok (s1, dest)) (hb : Bounded c s) :
    Bounded c s1 := by
  unfold autoreleaseNoPage at h
  cases hh : hotPage s with
  | error e =>
    rw [hh] at h
    cases h
  | ok hp =>
    rw [hh] at h
    cases hp with
    | some q => cases h
    | none =>
      simp only at h
      split_ifs at h with h1 h2 h3
      · cases hn : newPage c s none with
        | error e =>
          rw [hn] at h
          cases h
        | ok r =>
          obtain ⟨s2, page⟩ := r
          rw [hn] at h
          simp only at h
          cases hs : setHotPage s2 (some page) with
          | error e =>
            rw [hs] at h
            cases h
          | ok s3 =>
            rw [hs] at h
            simp only at h
            cases ha : add c s3 page POOL_BOUNDARY with
            | error e =>
              rw [ha] at h
              cases h
            | ok r2 =>
              obtain ⟨s4, t⟩ := r2
              rw [ha] at h
              exact add_bounded h (add_bounded ha
                ((newPage_bounded hn hb).1.of_pages (setHotPage_pages hs).1))
      · simp only [Except.ok.injEq, Prod.mk.injEq] at h
        obtain ⟨rfl, _⟩ := h
        exact hb
      · unfold setEmptyPoolPlaceholder at h
        split_ifs at h with h4
        simp only [Except.ok.injEq, Prod.mk.injEq] at h
        obtain ⟨rfl, _⟩ := h
        exact hb.of_pages rfl
      · cases hn : newPage c s none with
        | error e =>
          rw [hn] at h
          cases h
        | ok r =>
          obtain ⟨s2, page⟩ := r
          rw [hn] at h
          simp only at h
          cases hs : setHotPage s2 (some page) with
          | error e =>
            rw [hs] at h
            cases h
          | ok s3 =>
            rw [hs] at h
            exact add_bounded h ((newPage_bounded hn hb).1.of_pages (setHotPage_pages hs).1)

theorem autoreleaseFast_bounded {c : Config} {s s1 : State} {obj : Nat} {dest : SlotPtr}
    (h : autoreleaseFast c s obj = Except.ok (s1, dest)) (hb : Bounded c s) :
    Bounded c s1 := by
  unfold autoreleaseFast at h
  cases hh : hotPage s with
  | error e =>
    rw [hh] at h
    cases h
  | ok hp =>
    rw [hh] at h
    cases hp with
    | none => exact autoreleaseNoPage_bounded h hb
    | some page =>
      simp only at h
      cases hpg : s.pages page with
      | none =>
        rw [hpg] at h
        cases h
      | some pg =>
        rw [hpg] at h
        simp only at h
        split_ifs at h with h1
        · exact add_bounded h hb
        · exact autoreleaseFullPage_bounded h hb

theorem autoreleaseNewPage_bounded {c : Config} {s s1 : State} {obj : Nat} {dest : SlotPtr}
    (h : autoreleaseNewPage c s obj = Except.ok (s1, dest)) (hb : Bounded c s) :
    Bounded c s1 := by
  unfold autoreleaseNewPage at h
  cases hh : hotPage s with
  | error e =>
    rw [hh] at h
    cases h
  | ok hp =>
    rw [hh] at h
    cases hp with
    | none => exact autoreleaseNoPage_bounded h hb
    | some page => exact autoreleaseFullPage_bounded h hb

/-- The public `autorelease` keeps every cursor in range. -/
theorem autorelease_bounded {c : Config} {s s1 : State} {obj r : Nat}
    (h : autorelease c s obj = Except.ok (s1, r)) (hb : Bounded c s) : Bounded c s1 := by
  unfold autorelease at h
  cases hf : autoreleaseFast c s obj with
  | error e =>
    rw [hf] at h
    cases h
  | ok res =>
    obtain ⟨s2, dest⟩ := res
    have hb2 := autoreleaseFast_bounded hf hb
    rw [hf] at h
    cases dest with
    | nil =>
      simp only [Except.ok.injEq, Prod.mk.injEq] at h
      rw [← h.1]
      exact hb2
    | EMPTY_POOL_PLACEHOLDER =>
      simp only [Except.ok.injEq, Prod.mk.injEq] at h
      rw [← h.1]
      exact hb2
    | slot p i =>
      simp only at h
      cases hp : s2.pages p with
      | none =>
        rw [hp] at h
        cases h
      | some pg =>
        rw [hp] at h
        simp only at h
        split_ifs at h with h1
        simp only [Except.ok.injEq, Prod.mk.injEq] at h
        rw [← h.1]
        exact hb2

/-- The public `push` keeps every cursor in range. -/
theorem push_bounded {c : Config} {s s1 : State} {t : SlotPtr}
    (h : push c s = Except.ok (s1, t)) (hb : Bounded c s) : Bounded c s1 := by
  unfold push at h
  cases hf : (if c.DebugPoolAllocation then autoreleaseNewPage c s POOL_BOUNDARY
      else autoreleaseFast c s POOL_BOUNDARY) with
  | error e =>
    rw [hf] at h
    cases h
  | ok res =>
    obtain ⟨s2, dest⟩ := res
    have hb2 : Bounded c s2 := by
      split_ifs at hf with hd
      · exact autoreleaseNewPage_bounded hf hb
      · exact autoreleaseFast_bounded hf hb
    rw [hf] at h
    cases dest with
    | nil => cases h
    | EMPTY_POOL_PLACEHOLDER =>
      simp only [Except.ok.injEq, Prod.mk.injEq] at h
      rw [← h.1]
      exact hb2
    | slot p i =>
      simp only at h
      cases hp : s2.pages p with
      | none =>
        rw [hp] at h
        cases h
      | some pg =>
        rw [hp] at h
        simp only at h
        split_ifs at h with h1
        simp only [Except.ok.injEq, Prod.mk.injEq] at h
        rw [← h.1]
        exact hb2

/-- The inner loop of `releaseUntil` changes no page and ends at a page that is
not empty: the cursor that the outer loop then decrements is above `begin()`. -/
theorem skipEmpty_nonempty :
    ∀ (fuel : Nat) (s : State) (page : Nat) (s1 : State) (page1 : Nat),
      skipEmpty fuel s page = Except.ok (s1, page1) →
      s1.pages = s.pages ∧ ∃ pg, s1.pages page1 = some pg ∧ pg.next ≠ 0 := by
  intro fuel
  induction fuel with
  | zero =>
    intro s page s1 page1 h
    cases h
  | succ fuel ih =>
    intro s page s1 page1 h
    unfold skipEmpty at h
    cases hpg : s.pages page with
    | none =>
      rw [hpg] at h
      cases h
    | some pg =>
      rw [hpg] at h
      simp only at h
      split_ifs at h with hempty
      · cases hpar : pg.parent with
        | none =>
          rw [hpar] at h
          cases h
        | some par =>
          rw [hpar] at h
          simp only at h
          cases hs : setHotPage s (some par) with
          | error e =>
            rw [hs] at h
            cases h
          | ok s2 =>
            rw [hs] at h
            obtain ⟨r1, r2⟩ := ih s2 par s1 page1 h
            exact ⟨r1.trans (setHotPage_pages hs).1, r2⟩
      · simp only [Except.ok.injEq, Prod.mk.injEq] at h
        obtain ⟨rfl, rfl⟩ := h
        refine ⟨rfl, pg, hpg, ?_⟩
        simpa [AutoreleasePoolPage.empty] using hempty

theorem releaseLoop_bounded {c : Config} (self : Nat) (stop : SlotPtr) :
    ∀ (fuel : Nat) (s s1 : State), releaseLoop self stop fuel s = Except.ok s1 →
      Bounded c s → Bounded c s1 := by
  intro fuel
  induction fuel with
  | zero =>
    intro s s1 h
    cases h
  | succ fuel ih =>
    intro s s1 h hb
    unfold releaseLoop at h
    cases hme : s.pages self with
    | none =>
      rw [hme] at h
      cases h
    | some me =>
      rw [hme] at h
      simp only at h
      split_ifs at h with hstop
      · simp only [Except.ok.injEq] at h
        rw [← h]
        exact hb
      · cases hh : hotPage s with
        | error e =>
          rw [hh] at h
          cases h
        | ok hp =>
          rw [hh] at h
          cases hp with
          | none => cases h
          | some hp =>
            simp only at h
            cases hsk : skipEmpty (s.brk + 1) s hp with
            | error e =>
              rw [hsk] at h
              cases h
            | ok r =>
              obtain ⟨s2, page⟩ := r
              rw [hsk] at h
              simp only at h
              obtain ⟨hpages, pg, hpg, hne⟩ := skipEmpty_nonempty _ _ _ _ _ hsk
              rw [hpg] at h
              simp only at h
              have hb2 : Bounded c s2 := hb.of_pages hpages
              have hle := hb2 page pg hpg
              apply ih _ _ h
              apply Bounded.of_pages _ (releaseEntry_pages _ _)
              exact hb2.set (by
                show pg.next - 1 ≤ c.pageEnd
                omega)

theorem releaseUntil_bounded {c : Config} {s s1 : State} {self : Nat} {stop : SlotPtr}
    (h : releaseUntil s self stop = Except.ok s1) (hb : Bounded c s) : Bounded c s1 := by
  unfold releaseUntil at h
  cases hl : releaseLoop self stop (occupied s + 1) s with
  | error e =>
    rw [hl] at h
    cases h
  | ok s2 =>
    rw [hl] at h
    exact (releaseLoop_bounded self stop _ _ _ hl hb).of_pages (setHotPage_pages h).1

theorem killAscend_bounded {c : Config} (self : Nat) :
    ∀ (fuel : Nat) (s : State) (page : Nat) (s1 : State),
      killAscend self fuel s page = Except.ok s1 → Bounded c s → Bounded c s1 := by
  intro fuel
  induction fuel with
  | zero =>
    intro s page s1 h
    cases h
  | succ fuel ih =>
    intro s page s1 h hb
    unfold killAscend at h
    cases hpg : s.pages page with
    | none =>
      rw [hpg] at h
      cases h
    | some pg =>
      rw [hpg] at h
      simp only at h
      cases hu : unlinkFromParent s pg.parent with
      | error e =>
        rw [hu] at h
        cases h
      | ok s2 =>
        rw [hu] at h
        simp only at h
        have hb2 : Bounded c s2 := by
          unfold unlinkFromParent at hu
          cases hpar : pg.parent with
          | none =>
            rw [hpar] at hu
            simp only [Except.ok.injEq] at hu
            rw [← hu]
            exact hb
          | some par =>
            rw [hpar] at hu
            simp only at hu
            cases hpp : s.pages par with
            | none =>
              rw [hpp] at hu
              cases hu
            | some ppg =>
              rw [hpp] at hu
              simp only [Except.ok.injEq] at hu
              rw [← hu]
              exact hb.set (hb par ppg hpp)
        cases hd : deletePage s2 page with
        | error e =>
          rw [hd] at h
          cases h
        | ok s3 =>
          rw [hd] at h
          simp only at h
          have hb3 : Bounded c s3 := by
            unfold deletePage at hd
            cases hdp : s2.pages page with
            | none =>
              rw [hdp] at hd
              cases hd
            | some dp =>
              rw [hdp] at hd
              simp only at hd
              split_ifs at hd with h1 h2
              simp only [Except.ok.injEq] at hd
              rw [← hd]
              exact hb2.free
          split_ifs at h with hself
          · simp only [Except.ok.injEq] at h
            rw [← h]
            exact hb3
          · cases hpar : pg.parent with
            | none =>
              rw [hpar] at h
              cases h
            | some par =>
              rw [hpar] at h
              exact ih _ _ _ h hb3

theorem kill_bounded {c : Config} {s s1 : State} {self : Nat}
    (h : kill s self = Except.ok s1) (hb : Bounded c s) : Bounded c s1 := by
  unfold kill at h
  cases hd : killDescend (s.brk + 1) s self with
  | error e =>
    rw [hd] at h
    cases h
  | ok leaf =>
    rw [hd] at h
    exact killAscend_bounded self _ _ _ _ h hb

theorem hiwatLoop_bounded {c : Config} (mark : Nat) :
    ∀ (fuel : Nat) (s : State) (p : Option Nat) (s1 : State),
      hiwatLoop mark fuel s p = Except.ok s1 → Bounded c s → Bounded c s1 := by
  intro fuel
  induction fuel with
  | zero =>
    intro s p s1 h
    cases h
  | succ fuel ih =>
    intro s p s1 h hb
    cases p with
    | none =>
      unfold hiwatLoop at h
      simp only [Except.ok.injEq] at h
      rw [← h]
      exact hb
    | some q =>
      unfold hiwatLoop at h
      cases hq : s.pages q with
      | none =>
        rw [hq] at h
        cases h
      | some pg =>
        rw [hq] at h
        exact ih _ _ _ h (hb.set (hb q pg hq))

theorem printHiwat_bounded {c : Config} {s s1 : State}
    (h : printHiwat c s = Except.ok s1) (hb : Bounded c s) : Bounded c s1 := by
  unfold printHiwat at h
  cases hh : hotPage s with
  | error e =>
    rw [hh] at h
    cases h
  | ok hp =>
    rw [hh] at h
    cases hp with
    | none => cases h
    | some p =>
      simp only at h
      cases hpg : s.pages p with
      | none =>
        rw [hpg] at h
        cases h
      | some pg =>
        rw [hpg] at h
        simp only at h
        split_ifs at h with h1
        · exact hiwatLoop_bounded _ _ _ _ _ h hb
        · simp only [Except.ok.injEq] at h
          rw [← h]
          exact hb

theorem hysteresis_bounded {c : Config} {s s1 : State} {page : Nat}
    (h : hysteresis c s page = Except.ok s1) (hb : Bounded c s) : Bounded c s1 := by
  unfold hysteresis at h
  cases hpg : s.pages page with
  | none =>
    rw [hpg] at h
    cases h
  | some pg =>
    rw [hpg] at h
    simp only at h
    cases hch : pg.child with
    | none =>
      rw [hch] at h
      simp only [Except.ok.injEq] at h
      rw [← h]
      exact hb
    | some ch =>
      rw [hch] at h
      simp only at h
      split_ifs at h with hhalf
      · exact kill_bounded h hb
      · cases hcp : s.pages ch with
        | none =>
          rw [hcp] at h
          cases h
        | some cpg =>
          rw [hcp] at h
          simp only at h
          cases hg : cpg.child with
          | none =>
            rw [hg] at h
            simp only [Except.ok.injEq] at h
            rw [← h]
            exact hb
          | some gch =>
            rw [hg] at h
            exact kill_bounded h hb

theorem popPage_bounded {c : Config} {allowDebug : Bool} {s s1 : State} {page : Nat}
    {stop : SlotPtr} (h : popPage c allowDebug s page stop = Except.ok s1)
    (hb : Bounded c s) : Bounded c s1 := by
  unfold popPage at h
  cases hp : (if allowDebug = true ∧ c.PrintPoolHiwat = true then printHiwat c s
      else Except.ok s) with
  | error e =>
    rw [hp] at h
    cases h
  | ok s0 =>
    rw [hp] at h
    simp only at h
    have hb0 : Bounded c s0 := by
      split_ifs at hp with h1
      · exact printHiwat_bounded hp hb
      · simp only [Except.ok.injEq] at hp
        rw [← hp]
        exact hb
    cases hr : releaseUntil s0 page stop with
    | error e =>
      rw [hr] at h
      cases h
    | ok s2 =>
      rw [hr] at h
      simp only at h
      have hb2 := releaseUntil_bounded hr hb0
      cases hpg : s2.pages page with
      | none =>
        rw [hpg] at h
        cases h
      | some pg =>
        rw [hpg] at h
        simp only at h
        split_ifs at h with h1 h2
        · cases hk : kill s2 page with
          | error e =>
            rw [hk] at h
            cases h
          | ok s3 =>
            rw [hk] at h
            exact (kill_bounded hk hb2).of_pages (setHotPage_pages h).1
        · cases hk : kill s2 page with
          | error e =>
            rw [hk] at h
            cases h
          | ok s3 =>
            rw [hk] at h
            exact (kill_bounded hk hb2).of_pages (setHotPage_pages h).1
        · exact hysteresis_bounded h hb2

theorem popAt_bounded {c : Config} {s s1 : State} {page i : Nat}
    (h : popAt c s page i = Except.ok s1) (hb : Bounded c s) : Bounded c s1 := by
  unfold popAt at h
  cases hpg : s.pages page with
  | none =>
    rw [hpg] at h
    cases h
  | some pg =>
    rw [hpg] at h
    simp only at h
    split_ifs at h with h1 h2 h3
    · simp only [Except.ok.injEq] at h
      rw [← h]
      exact hb.of_pages rfl
    · exact popPage_bounded h hb
    · exact popPage_bounded h hb

/-- The public `pop` keeps every cursor in range. -/
theorem pop_bounded {c : Config} {s s1 : State} {t : SlotPtr}
    (h : pop c s t = Except.ok s1) (hb : Bounded c s) : Bounded c s1 := by
  unfold pop at h
  cases t with
  | nil => cases h
  | EMPTY_POOL_PLACEHOLDER =>
    simp only at h
    cases hh : hotPage s with
    | error e =>
      rw [hh] at h
      cases h
    | ok hp =>
      rw [hh] at h
      cases hp with
      | none => exact hb.of_pages (setHotPage_pages h).1
      | some q =>
        simp only at h
        cases hc : coldPage s with
        | error e =>
          rw [hc] at h
          cases h
        | ok r =>
          rw [hc] at h
          cases r with
          | none => cases h
          | some page => exact popAt_bounded h hb
  | slot p i =>
    simp only at h
    cases hf : pageForPointer s (SlotPtr.slot p i) with
    | error e =>
      rw [hf] at h
      cases h
    | ok page =>
      rw [hf] at h
      exact popAt_bounded h hb

/-- In every reachable state of every configuration every cursor is in
range. -/
theorem Reach.bounded {c : Config} {s : State} {toks : List SlotPtr} (hr : Reach c s toks) :
    Bounded c s := by
  induction hr with
  | init =>
    intro p pg h
    cases h
  | push _ hpush ih => exact push_bounded hpush ih
  | autorelease _ _ hauto ih => exact autorelease_bounded hauto ih
  | pop _ hpop ih => exact pop_bounded hpop ih

/-- C21: the cursor invariant.  In every configuration: in every reachable
state every live page has its cursor between `begin()` (slot index 0) and
`end()` (slot index `pageEnd`), `empty()` holds exactly when the cursor is at
`begin()` and `full()` exactly when it is at `end()`; `push`, `autorelease` and
`pop` keep every cursor in range, from any state in which the cursors are in
range.  The reasons: `add` returns only from a page that is not full, and its
callers call it on such a page (the loop of `autoreleaseFullPage` ends at a
page that is not full); the page whose cursor `releaseUntil` lowers is the one
at which its inner loop stops, and that page is not empty.  In the reachable
states of a configuration with no debugging switch set, `push` and
`autorelease` of a reference fail no assertion, so not the `ASSERT(!full())` of
`add` either. -/
theorem cursor_invariant (c : Config) :
    (∀ s toks, Reach c s toks → ∀ p pg, s.pages p = some pg →
      0 ≤ pg.next ∧ pg.next ≤ c.pageEnd ∧ (pg.empty = true ↔ pg.next = 0) ∧
        (pg.full c = true ↔ pg.next = c.pageEnd)) ∧
    (∀ s s1 t, Bounded c s → push c s = Except.ok (s1, t) → Bounded c s1) ∧
    (∀ s s1 x r, Bounded c s → autorelease c s x = Except.ok (s1, r) → Bounded c s1) ∧
    (∀ s s1 t, Bounded c s → pop c s t = Except.ok s1 → Bounded c s1) ∧
    (∀ s s1 self obj dest, add c s self obj = Except.ok (s1, dest) →
      ∃ pg, s.pages self = some pg ∧ pg.full c = false) ∧
    (∀ fuel s page s1 page1, Bounded c s →
      fullPageLoop c fuel s page = Except.ok (s1, page1) →
      ∃ pg1, s1.pages page1 = some pg1 ∧ pg1.full c = false) ∧
    (∀ fuel s hp s1 page, skipEmpty fuel s hp = Except.ok (s1, page) →
      ∃ pg, s1.pages page = some pg ∧ pg.empty = false) ∧
    (∀ s toks, c.nonDebug → 2 ≤ c.pageEnd → Reach c s toks →
      push c s ≠ Except.error Fault.assertion ∧
      ∀ x, IsRef x → autorelease c s x ≠ Except.error Fault.assertion) := by
  refine ⟨?_, fun s s1 t hb h => push_bounded h hb, fun s s1 x r hb h => autorelease_bounded h hb,
    fun s s1 t hb h => pop_bounded h hb, ?_, ?_, ?_, ?_⟩
  · intro s toks hr p pg hpg
    refine ⟨Nat.zero_le _, hr.bounded p pg hpg, ?_, ?_⟩
    · simp [AutoreleasePoolPage.empty]
    · simp [AutoreleasePoolPage.full]
  · intro s s1 self obj dest h
    obtain ⟨pg, _, hpg, hf, _⟩ := add_cursor h
    exact ⟨pg, hpg, hf⟩
  · intro fuel s page s1 page1 hb h
    exact (fullPageLoop_bounded fuel s page s1 page1 h hb).2
  · intro fuel s hp s1 page h
    obtain ⟨_, pg, hpg, hne⟩ := skipEmpty_nonempty fuel s hp s1 page h
    exact ⟨pg, hpg, by simpa [AutoreleasePoolPage.empty] using hne⟩
  · intro s toks hnd hcap hr
    obtain ⟨cells, base, hinv, _⟩ := hr.inv hnd hcap
    constructor
    · by_cases hok : HotOK c s POOL_BOUNDARY
      · obtain ⟨s1, t, _, r1, _⟩ := push_spec hnd hcap hinv hok
        rw [r1]
        exact fun h => by cases h
      · rw [push_fault hnd.1 hok]
        exact fun h => by cases h
    · intro x hx
      by_cases hok : HotOK c s x
      · obtain ⟨s1, t, _, r1, _⟩ := autorelease_spec hnd hcap hinv hx hok
        rw [r1]
        exact fun h => by cases h
      · rw [autorelease_fault hok]
        exact fun h => by cases h

/-- C21, an instance: the state after push and one registration of the
reference 100 in the default configuration, and its page 0. -/
theorem cursor_invariant_witness :
    Reach defaultConfig (reached defaultConfig [Op.push, Op.autorelease 100]).1
      [SlotPtr.EMPTY_POOL_PLACEHOLDER] ∧
    (reached defaultConfig [Op.push, Op.autorelease 100]).1.pages 0 =
      some (Option.get ((reached defaultConfig [Op.push, Op.autorelease 100]).1.pages 0) rfl) ∧
    (0 ≤ (Option.get ((reached defaultConfig [Op.push, Op.autorelease 100]).1.pages 0) rfl).next ∧
      (Option.get ((reached defaultConfig [Op.push, Op.autorelease 100]).1.pages 0) rfl).next ≤
        defaultConfig.pageEnd ∧
      ((Option.get ((reached defaultConfig [Op.push, Op.autorelease 100]).1.pages 0) rfl).empty =
          true ↔
        (Option.get ((reached defaultConfig [Op.push, Op.autorelease 100]).1.pages 0) rfl).next =
          0) ∧
      ((Option.get ((reached defaultConfig [Op.push, Op.autorelease 100]).1.pages 0) rfl).full
          defaultConfig = true ↔
        (Option.get ((reached defaultConfig [Op.push, Op.autorelease 100]).1.pages 0) rfl).next =
          defaultConfig.pageEnd)) :=
  have hr : Reach defaultConfig (reached defaultConfig [Op.push, Op.autorelease 100]).1
      [SlotPtr.EMPTY_POOL_PLACEHOLDER] :=
    reach_run [Op.push, Op.autorelease 100] State.init [] _ _ Reach.init (by simp [IsRef]) rfl
  ⟨hr, (Option.some_get _).symm,
    (cursor_invariant defaultConfig).1 _ _ hr 0 _ (Option.some_get _).symm⟩

/-- A page earlier in the chain is above a later one. -/
theorem Chain.above_of_idx {c : Config} {s : State} {ids : List Nat} {h : Nat}
    (hc : Chain c s ids h) {j q : Nat} (hq : ids[j]? = some q) :
    ∀ (k p : Nat), j < k → ids[k]? = some p → Above s q p := by
  intro k
  induction k with
  | zero =>
    intro p hjk
    omega
  | succ k ih =>
    intro p hjk hp
    obtain ⟨pg, hpg, hpar, _⟩ := hc.links (k + 1) p hp
    rw [if_neg (by omega), Nat.add_sub_cancel] at hpar
    by_cases hjk2 : j = k
    · subst hjk2
      rw [hq] at hpar
      exact Above.parent hpg hpar
    · have hk : k < ids.length := by
        have := hc.idx_lt hp
        omega
      have hr : ids[k]? = some ids[k] := List.getElem?_eq_getElem hk
      rw [hr] at hpar
      exact Above.up hpg hpar (ih _ (by omega) hr)

/-- The pointers of a well-formed thread, page by page: child and parent
links are inverse to each other, depths count from the root, in the 32 bits of
the field, there is one root, every live page is the hot page, above it or
below it, the pages above the hot page are full and the pages below it are
empty. -/
theorem Chain.shape {c : Config} {s : State} {ids : List Nat} {h : Nat}
    (hc : Chain c s ids h) :
    (∀ p pg ch, s.pages p = some pg → pg.child = some ch →
      ∃ cpg, s.pages ch = some cpg ∧ cpg.parent = some p ∧
        cpg.depth = (pg.depth + 1) % 2 ^ 32 ∧ (s.brk ≤ 2 ^ 32 → cpg.depth = pg.depth + 1)) ∧
    (∀ p pg par, s.pages p = some pg → pg.parent = some par →
      ∃ ppg, s.pages par = some ppg ∧ ppg.child = some p) ∧
    (∀ p pg, s.pages p = some pg → pg.parent = none → pg.depth = 0) ∧
    (∀ p q pg qg, s.pages p = some pg → s.pages q = some qg → pg.parent = none →
      qg.parent = none → p = q) ∧
    (∀ p, s.pages p ≠ none →
      ∃ hot, s.tls = Tls.page hot ∧ (p = hot ∨ Above s p hot ∨ Above s hot p)) ∧
    (∀ hot q, s.tls = Tls.page hot → Above s q hot →
      ∃ qg, s.pages q = some qg ∧ qg.full c = true) ∧
    (∀ hot q, s.tls = Tls.page hot → Above s hot q →
      ∃ qg, s.pages q = some qg ∧ qg.empty = true) := by
  have hidx : ∀ (p : Nat) (pg : AutoreleasePoolPage), s.pages p = some pg →
      ∃ j : Nat, ids[j]? = some p := by
    intro p pg hpg
    exact List.mem_iff_getElem?.1 ((hc.live p).1 (by rw [hpg]; simp))
  have hlen := hc.length_le_brk
  refine ⟨?_, ?_, ?_, ?_, ?_, ?_, ?_⟩
  · intro p pg ch hpg hch
    obtain ⟨j, hj⟩ := hidx p pg hpg
    obtain ⟨pg0, hpg0, _, a2, a3, _⟩ := hc.links j p hj
    rw [hpg] at hpg0
    cases hpg0
    rw [hch] at a2
    obtain ⟨cpg, hcpg, b1, _, b3, _⟩ := hc.links (j + 1) ch a2.symm
    rw [if_neg (by omega), Nat.add_sub_cancel, hj] at b1
    refine ⟨cpg, hcpg, b1, ?_, ?_⟩
    · rw [b3, a3]
      omega
    · intro hbrk
      have := hc.idx_lt a2.symm
      rw [b3, a3, Nat.mod_eq_of_lt (by omega), Nat.mod_eq_of_lt (by omega)]
  · intro p pg par hpg hpar
    obtain ⟨j, hj⟩ := hidx p pg hpg
    obtain ⟨pg0, hpg0, a1, _⟩ := hc.links j p hj
    rw [hpg] at hpg0
    cases hpg0
    rw [hpar] at a1
    by_cases hj0 : j = 0
    · rw [if_pos hj0] at a1
      cases a1
    · rw [if_neg hj0] at a1
      obtain ⟨ppg, hppg, _, b2, _⟩ := hc.links (j - 1) par a1.symm
      rw [show j - 1 + 1 = j by omega, hj] at b2
      exact ⟨ppg, hppg, b2⟩
  · intro p pg hpg hpar
    obtain ⟨j, hj⟩ := hidx p pg hpg
    obtain ⟨pg0, hpg0, a1, _, a3, _⟩ := hc.links j p hj
    rw [hpg] at hpg0
    cases hpg0
    by_cases hj0 : j = 0
    · rw [a3, hj0]
      rfl
    · rw [if_neg hj0, hpar] at a1
      have := hc.idx_lt hj
      rw [List.getElem?_eq_getElem (by omega)] at a1
      cases a1
  · intro p q pg qg hpg hqg hp0 hq0
    have root : ∀ (r : Nat) (rg : AutoreleasePoolPage), s.pages r = some rg →
        rg.parent = none → ids[0]? = some r := by
      intro r rg hrg hr0
      obtain ⟨j, hj⟩ := hidx r rg hrg
      obtain ⟨pg0, hpg0, a1, _⟩ := hc.links j r hj
      rw [hrg] at hpg0
      cases hpg0
      by_cases hj0 : j = 0
      · rw [← hj0]
        exact hj
      · rw [if_neg hj0, hr0] at a1
        have := hc.idx_lt hj
        rw [List.getElem?_eq_getElem (by omega)] at a1
        cases a1
    have e1 := root p pg hpg hp0
    have e2 := root q qg hqg hq0
    rw [e1] at e2
    cases e2
    rfl
  · intro p hp
    have hmem := (hc.live p).1 hp
    obtain ⟨j, hj⟩ := List.mem_iff_getElem?.1 hmem
    rcases hc.hot with ⟨hnil, _⟩ | ⟨hot, hhot, htls⟩
    · rw [hnil] at hmem
      cases hmem
    · refine ⟨hot, htls, ?_⟩
      rcases Nat.lt_trichotomy j h with hlt | heq | hgt
      · exact Or.inr (Or.inl (hc.above_of_idx hj h hot hlt hhot))
      · left
        rw [heq, hhot] at hj
        cases hj
        rfl
      · exact Or.inr (Or.inr (hc.above_of_idx hhot j p hgt hj))
  · intro hot q htls hab
    have hhot := hc.hot_page htls
    obtain ⟨k, hk, hq⟩ := hc.above_idx hab h hhot
    obtain ⟨qg, hqg, _, _, _, _, b5, _⟩ := hc.links k q hq
    exact ⟨qg, hqg, full_eq_true (b5 hk)⟩
  · intro hot q htls hab
    have hhot := hc.hot_page htls
    have hq : ∃ j : Nat, ids[j]? = some q := by
      cases hab with
      | parent hpg _ => exact hidx q _ hpg
      | up hpg _ _ => exact hidx q _ hpg
    obtain ⟨j, hj⟩ := hq
    obtain ⟨k, hk, hq2⟩ := hc.above_idx hab j hj
    have hkh : k = h := nodup_idx_unique hc.nodup hq2 hhot
    obtain ⟨qg, hqg, _, _, _, _, _, b6⟩ := hc.links j q hj
    refine ⟨qg, hqg, ?_⟩
    simp only [AutoreleasePoolPage.empty, beq_iff_eq]
    exact b6 (by omega)

/-- C22: the chain-shape invariant.  In a configuration with no debugging
switch set (pages of at least two slots), in every state reachable from a new
thread by `push`, `autorelease` of references and `pop` of tokens of open
scopes, the live pages form one linear chain: the child of a page has that page
as its parent and the parent of a page has that page as its child; the depth of
a child is the depth of its parent plus one, in the 32 bits of the field, and
exactly so while fewer than 2^32 pages have been allocated; a page without
parent has depth 0 and there is at most one; every live page is the hot page,
above it or below it (so with no hot page there is no page); every page above
the hot page is full and every page below it is empty. -/
theorem chain_shape (c : Config) (hnd : c.nonDebug) (hcap : 2 ≤ c.pageEnd) (s : State)
    (toks : List SlotPtr) (hr : Reach c s toks) :
    (∀ p pg ch, s.pages p = some pg → pg.child = some ch →
      ∃ cpg, s.pages ch = some cpg ∧ cpg.parent = some p ∧
        cpg.depth = (pg.depth + 1) % 2 ^ 32 ∧ (s.brk ≤ 2 ^ 32 → cpg.depth = pg.depth + 1)) ∧
    (∀ p pg par, s.pages p = some pg → pg.parent = some par →
      ∃ ppg, s.pages par = some ppg ∧ ppg.child = some p) ∧
    (∀ p pg, s.pages p = some pg → pg.parent = none → pg.depth = 0) ∧
    (∀ p q pg qg, s.pages p = some pg → s.pages q = some qg → pg.parent = none →
      qg.parent = none → p = q) ∧
    (∀ p, s.pages p ≠ none →
      ∃ hot, s.tls = Tls.page hot ∧ (p = hot ∨ Above s p hot ∨ Above s hot p)) ∧
    (∀ hot q, s.tls = Tls.page hot → Above s q hot →
      ∃ qg, s.pages q = some qg ∧ qg.full c = true) ∧
    (∀ hot q, s.tls = Tls.page hot → Above s hot q →
      ∃ qg, s.pages q = some qg ∧ qg.empty = true) := by
  obtain ⟨cells, base, ⟨ids, h, hc, _⟩, _⟩ := hr.inv hnd hcap
  exact hc.shape

/-- C22, an instance: the state that the calls `tripleOps` reach in the
default configuration, with a full page 0 above the hot page 1. -/
theorem chain_shape_witness :
    defaultConfig.nonDebug ∧ 2 ≤ defaultConfig.pageEnd ∧
    Reach defaultConfig (reached defaultConfig tripleOps).1 (reached defaultConfig tripleOps).2 ∧
    (∀ p pg ch, (reached defaultConfig tripleOps).1.pages p = some pg → pg.child = some ch →
      ∃ cpg, (reached defaultConfig tripleOps).1.pages ch = some cpg ∧ cpg.parent = some p ∧
        cpg.depth = (pg.depth + 1) % 2 ^ 32 ∧
        ((reached defaultConfig tripleOps).1.brk ≤ 2 ^ 32 → cpg.depth = pg.depth + 1)) ∧
    (∀ hot q, (reached defaultConfig tripleOps).1.tls = Tls.page hot →
      Above (reached defaultConfig tripleOps).1 q hot →
      ∃ qg, (reached defaultConfig tripleOps).1.pages q = some qg ∧
        qg.full defaultConfig = true) :=
  have hr : Reach defaultConfig (reached defaultConfig tripleOps).1
      (reached defaultConfig tripleOps).2 :=
    reach_reached defaultConfig tripleOps (by decide!) (by
      intro obj hm
      simp only [tripleOps, edgeOps, fillOps, registerRange, List.mem_cons, List.mem_append,
        List.mem_map, List.mem_range, Op.autorelease.injEq, reduceCtorEq, false_or, or_false,
        List.mem_singleton, List.not_mem_nil] at hm
      rcases hm with ⟨k, hk, rfl⟩ | rfl | rfl | rfl
      · exact ⟨by omega, by omega⟩
      · exact ⟨by decide, by decide⟩
      · exact ⟨by decide, by decide⟩
      · exact ⟨by decide, by decide⟩)
  ⟨⟨rfl, rfl, rfl⟩, by decide, hr,
    (chain_shape defaultConfig ⟨rfl, rfl, rfl⟩ (by decide) _ _ hr).1,
    (chain_shape defaultConfig ⟨rfl, rfl, rfl⟩ (by decide) _ _ hr).2.2.2.2.2.1⟩

theorem add_quiet (c : Config) : add c.quiet = add c := by
  funext s self obj
  cases c
  rfl

theorem newPage_quiet (c : Config) : newPage c.quiet = newPage c := by
  funext s par
  cases c
  rfl

theorem fullPageLoop_quiet (c : Config) : fullPageLoop c.quiet = fullPageLoop c := by
  funext fuel
  induction fuel with
  | zero => rfl
  | succ fuel ih =>
    funext s page
    simp only [fullPageLoop, ih, newPage_quiet]
    rfl

theorem autoreleaseFullPage_quiet (c : Config) :
    autoreleaseFullPage c.quiet = autoreleaseFullPage c := by
  funext s obj page
  simp only [autoreleaseFullPage, fullPageLoop_quiet, add_quiet]
  rfl

theorem autoreleaseNoPage_quiet (c : Config) :
    autoreleaseNoPage c.quiet = autoreleaseNoPage c := by
  funext s obj
  simp only [autoreleaseNoPage, newPage_quiet, add_quiet]
  rfl

theorem autoreleaseFast_quiet (c : Config) : autoreleaseFast c.quiet = autoreleaseFast c := by
  funext s obj
  simp only [autoreleaseFast, autoreleaseFullPage_quiet, autoreleaseNoPage_quiet, add_quiet]
  rfl

theorem autoreleaseNewPage_quiet (c : Config) :
    autoreleaseNewPage c.quiet = autoreleaseNewPage c := by
  funext s obj
  simp only [autoreleaseNewPage, autoreleaseFullPage_quiet, autoreleaseNoPage_quiet]

/-- The public `autorelease` does not depend on the reporting switch. -/
theorem autorelease_quiet (c : Config) : autorelease c.quiet = autorelease c := by
  funext s obj
  simp only [autorelease, autoreleaseFast_quiet]

/-- The public `push` does not depend on the reporting switch. -/
theorem push_quiet (c : Config) : push c.quiet = push c := by
  funext s
  simp only [push, autoreleaseFast_quiet, autoreleaseNewPage_quiet]
  rfl

theorem hysteresis_quiet (c : Config) : hysteresis c.quiet = hysteresis c := by
  funext s page
  cases c
  rfl

theorem chain_quiet {c : Config} {s : State} {ids : List Nat} {h : Nat} :
    Chain c.quiet s ids h ↔ Chain c s ids h := by
  constructor
  · intro hc
    exact ⟨hc.nodup, hc.live, hc.below, hc.links, hc.hot⟩
  · intro hc
    exact ⟨hc.nodup, hc.live, hc.below, hc.links, hc.hot⟩

theorem inv_quiet {c : Config} {s : State} {cells : List (SlotPtr × AutoreleasePoolEntry)} :
    Inv c.quiet s cells ↔ Inv c s cells := by
  constructor
  · rintro ⟨ids, h, hc, hcells⟩
    exact ⟨ids, h, chain_quiet.1 hc, hcells⟩
  · rintro ⟨ids, h, hc, hcells⟩
    exact ⟨ids, h, chain_quiet.2 hc, hcells⟩

theorem hotOK_quiet {c : Config} {s : State} {obj : Nat} :
    HotOK c.quiet s obj ↔ HotOK c s obj := by
  cases c
  exact Iff.rfl

theorem quiet_nonDebug {c : Config} (hd1 : c.DebugPoolAllocation = false)
    (hd2 : c.DebugMissingPools = false) : c.quiet.nonDebug := ⟨hd1, hd2, rfl⟩

theorem quiet_of_off {c : Config} (hp : c.PrintPoolHiwat = false) : c.quiet = c := by
  cases c
  simp only [Config.quiet] at *
  rw [hp]

theorem SameButHiwat.same_refl (s : State) : SameButHiwat s s :=
  ⟨rfl, rfl, rfl, rfl, fun _ => rfl⟩

theorem SameButHiwat.same_trans {s s0 s1 : State} (h1 : SameButHiwat s s0)
    (h2 : SameButHiwat s0 s1) : SameButHiwat s s1 :=
  ⟨h2.1.trans h1.1, h2.2.1.trans h1.2.1, h2.2.2.1.trans h1.2.2.1,
    h2.2.2.2.1.trans h1.2.2.2.1, fun p => (h2.2.2.2.2 p).trans (h1.2.2.2.2 p)⟩

theorem SameButHiwat.same_symm {s s0 : State} (h : SameButHiwat s s0) : SameButHiwat s0 s :=
  ⟨h.1.symm, h.2.1.symm, h.2.2.1.symm, h.2.2.2.1.symm, fun p => (h.2.2.2.2 p).symm⟩

/-- A page of one of two states that differ in marks only is a page of the
other, with the same cursor, links, depth and slots. -/
theorem SameButHiwat.same_page {s s0 : State} (h : SameButHiwat s s0) {p : Nat}
    {pg : AutoreleasePoolPage} (hpg : s.pages p = some pg) :
    ∃ pg0, s0.pages p = some pg0 ∧ pg0.next = pg.next ∧ pg0.parent = pg.parent ∧
      pg0.child = pg.child ∧ pg0.depth = pg.depth ∧ pg0.slots = pg.slots := by
  have := h.2.2.2.2 p
  rw [hpg] at this
  cases hp0 : s0.pages p with
  | none =>
    rw [hp0] at this
    cases this
  | some pg0 =>
    rw [hp0] at this
    simp only [Option.map_some', Option.some.injEq, AutoreleasePoolPage.unmarked,
      AutoreleasePoolPage.mk.injEq] at this
    exact ⟨pg0, rfl, this.1, this.2.1, this.2.2.1, this.2.2.2.1, this.2.2.2.2.2⟩

theorem SameButHiwat.same_none {s s0 : State} (h : SameButHiwat s s0) {p : Nat}
    (hpg : s.pages p = none) : s0.pages p = none := by
  have := h.2.2.2.2 p
  rw [hpg] at this
  cases hp0 : s0.pages p with
  | none => rfl
  | some pg0 =>
    rw [hp0] at this
    cases this

theorem SameButHiwat.same_chain {c : Config} {s s0 : State} {ids : List Nat} {h : Nat}
    (hs : SameButHiwat s s0) (hc : Chain c s ids h) : Chain c s0 ids h := by
  refine ⟨hc.nodup, ?_, ?_, ?_, ?_⟩
  · intro p
    rw [← hc.live p]
    constructor
    · intro h0 h1
      exact h0 (hs.same_none h1)
    · intro h0 h1
      exact h0 (hs.same_symm.same_none h1)
  · intro p hp
    rw [hs.1]
    exact hc.below p hp
  · intro j p hj
    obtain ⟨pg, hpg, a1, a2, a3, a4, a5, a6⟩ := hc.links j p hj
    obtain ⟨pg0, hpg0, b1, b2, b3, b4, _⟩ := hs.same_page hpg
    exact ⟨pg0, hpg0, by rw [b2, a1], by rw [b3, a2], by rw [b4, a3], by rw [b1]; exact a4,
      fun hh => by rw [b1]; exact a5 hh, fun hh => by rw [b1]; exact a6 hh⟩
  · rw [hs.2.1]
    exact hc.hot

theorem SameButHiwat.same_pageCells {s s0 : State} (hs : SameButHiwat s s0) (q : Nat) :
    pageCells s0 q = pageCells s q := by
  unfold pageCells
  cases hq : s.pages q with
  | none => rw [hs.same_none hq]
  | some pg =>
    obtain ⟨pg0, hpg0, b1, _, _, _, b5⟩ := hs.same_page hq
    rw [hpg0]
    simp only [cellsOfPage, b1, b5]

theorem SameButHiwat.same_cells {s s0 : State} (hs : SameButHiwat s s0) (ids : List Nat) :
    cellsOf s0 ids = cellsOf s ids := by
  unfold cellsOf
  rw [hs.2.1]
  congr 1
  exact List.flatMap_congr (fun q _ => hs.same_pageCells q)

theorem SameButHiwat.same_inv {c : Config} {s s0 : State}
    {cells : List (SlotPtr × AutoreleasePoolEntry)} (hs : SameButHiwat s s0)
    (hinv : Inv c s cells) : Inv c s0 cells := by
  obtain ⟨ids, h, hc, hcells⟩ := hinv
  exact ⟨ids, h, hs.same_chain hc, by rw [hs.same_cells, hcells]⟩

theorem markPages_same (s : State) (qs : List Nat) (mark : Nat) :
    SameButHiwat s (markPages s qs mark) := by
  refine ⟨rfl, rfl, rfl, rfl, ?_⟩
  intro p
  simp only [markPages]
  split_ifs with h
  · cases s.pages p with
    | none => rfl
    | some pg => rfl
  · rfl

/-- The parent walk of `printHiwat` from the page at index `k` of the chain
records the mark at that page and at every page above it. -/
theorem Chain.hiwatLoop_spec {c : Config} {ids : List Nat} {h : Nat} (mark : Nat) :
    ∀ (k : Nat) (s : State) (p : Nat) (fuel : Nat), Chain c s ids h → ids[k]? = some p →
      k + 1 < fuel →
      hiwatLoop mark fuel s (some p) = Except.ok (markPages s (ids.take (k + 1)) mark) := by
  intro k
  induction k with
  | zero =>
    intro s p fuel hc hp hfuel
    obtain ⟨pg, hpg, a1, _⟩ := hc.links 0 p hp
    rw [if_pos rfl] at a1
    obtain ⟨f1, rfl⟩ : ∃ f1, fuel = f1 + 1 + 1 := ⟨fuel - 2, by omega⟩
    have e : ∀ par, pg.parent = par → hiwatLoop mark (f1 + 1 + 1) s (some p) =
        hiwatLoop mark (f1 + 1) (setPage s p { pg with hiwat := mark }) par := by
      intro par hpar
      subst hpar
      simp only [hiwatLoop, hpg]
    rw [e none a1]
    simp only [hiwatLoop]
    congr 1
    simp only [setPage, markPages]
    congr 1
    funext q
    have hmem : q ∈ List.take (0 + 1) ids ↔ q = p := by
      cases ids with
      | nil => simp at hp
      | cons x xs =>
        simp only [List.getElem?_cons_zero, Option.some.injEq] at hp
        subst hp
        simp
    by_cases hq : q = p
    · subst hq
      rw [if_pos (hmem.2 rfl), hpg]
      simp
    · rw [if_neg (fun hh => hq (hmem.1 hh))]
      simp [Function.update_apply, hq]
  | succ k ih =>
    intro s p fuel hc hp hfuel
    obtain ⟨pg, hpg, a1, a2, a3, a4, a5, a6⟩ := hc.links (k + 1) p hp
    rw [if_neg (by omega), Nat.add_sub_cancel] at a1
    have hk : k < ids.length := by
      have := hc.idx_lt hp
      omega
    have hr : ids[k]? = some ids[k] := List.getElem?_eq_getElem hk
    rw [hr] at a1
    obtain ⟨f1, rfl⟩ : ∃ f1, fuel = f1 + 1 := ⟨fuel - 1, by omega⟩
    have hc1 : Chain c (setPage s p { pg with hiwat := mark }) ids h :=
      hc.update hp hpg rfl rfl rfl a4 a5 a6
    have e : ∀ par, pg.parent = par → hiwatLoop mark (f1 + 1) s (some p) =
        hiwatLoop mark f1 (setPage s p { pg with hiwat := mark }) par := by
      intro par hpar
      subst hpar
      simp only [hiwatLoop, hpg]
    rw [e _ a1, ih _ _ f1 hc1 hr (by omega)]
    congr 1
    simp only [setPage, markPages]
    congr 1
    funext q
    have hnot : p ∉ List.take (k + 1) ids := by
      intro hmem
      obtain ⟨i, hi⟩ := List.mem_iff_getElem?.1 hmem
      have hi1 : i < k + 1 := by
        have := (List.getElem?_eq_some.1 hi).1
        rw [List.length_take] at this
        omega
      rw [List.getElem?_take_of_lt hi1] at hi
      have := nodup_idx_unique hc.nodup hi hp
      omega
    have hsplit : List.take (k + 1 + 1) ids = List.take (k + 1) ids ++ [p] := by
      rw [List.take_succ, hp]
      rfl
    by_cases hq : q = p
    · subst hq
      rw [if_neg hnot, hsplit, if_pos (by simp), hpg]
      simp
    · by_cases hmem : q ∈ List.take (k + 1) ids
      · rw [if_pos hmem, hsplit, if_pos (by simp [hmem])]
        simp [Function.update_apply, hq]
      · rw [if_neg hmem, hsplit, if_neg (by simp [hmem, hq])]
        simp [Function.update_apply, hq]

/-- The function `printHiwat()` on a well-formed thread with a hot page: the
mark is computed from the depth and the cursor of the hot page, and if it
exceeds the mark of the hot page by more than 256 it is recorded at the hot
page and at every page above it. -/
theorem Chain.printHiwat_spec {c : Config} {s : State} {ids : List Nat} {h q : Nat}
    {pg : AutoreleasePoolPage} (hc : Chain c s ids h) (htls : s.tls = Tls.page q)
    (hpg : s.pages q = some pg) :
    printHiwat c s = Except.ok
      (if (pg.depth * c.COUNT + pg.next) % 2 ^ 32 > (pg.hiwat + 256) % 2 ^ 32 then
        markPages s (ids.take (h + 1)) ((pg.depth * c.COUNT + pg.next) % 2 ^ 32)
       else s) := by
  have hq := hc.hot_page htls
  have hhot : hotPage s = Except.ok (some q) := by simp only [hotPage, htls, hpg]
  have hlen := hc.length_le_brk
  have hh := hc.idx_lt hq
  simp only [printHiwat, hhot, hpg, Nat.sub_zero]
  split_ifs with h1
  · exact hc.hiwatLoop_spec _ h s q _ hq (by omega)
  · rfl

/-- With high-water reporting as the only diagnostic, `popPageDebug` is
`printHiwat()` followed by what `popPage<false>` does. -/
theorem popPage_marked {c : Config} (hd1 : c.DebugPoolAllocation = false)
    (hd2 : c.DebugMissingPools = false) (hp : c.PrintPoolHiwat = true) {s s0 : State}
    (page : Nat) (stop : SlotPtr) (hprint : printHiwat c s = Except.ok s0) :
    popPage c true s page stop = popPage c.quiet false s0 page stop := by
  simp only [popPage, hp, hd1, hd2, hprint, hysteresis_quiet, and_self, if_true,
    Bool.false_eq_true, false_and, and_false, if_false]

theorem popAt_marked {c : Config} (hd1 : c.DebugPoolAllocation = false)
    (hd2 : c.DebugMissingPools = false) (hp : c.PrintPoolHiwat = true) {s s0 : State}
    {page i : Nat} {pg : AutoreleasePoolPage} (hpg : s.pages page = some pg)
    (hi : i < c.pageEnd) (hcheck : pg.slots i = boundary ∨ (i = 0 ∧ pg.parent = none))
    (hprint : printHiwat c s = Except.ok s0) (hsame : SameButHiwat s s0) :
    popAt c s page i = popAt c.quiet s0 page i := by
  obtain ⟨pg0, hpg0, b1, b2, b3, b4, b5⟩ := hsame.same_page hpg
  have hle : ¬ c.pageEnd ≤ i := by omega
  have hle0 : ¬ c.quiet.pageEnd ≤ i := hle
  have hcond : ¬ (idOfEntry (pg.slots i) ≠ POOL_BOUNDARY ∧ ¬ (i = 0 ∧ pg.parent = none)) := by
    rintro ⟨c1, c2⟩
    rcases hcheck with hb | hb
    · exact c1 ((idOfEntry_eq_zero _).2 hb)
    · exact c2 hb
  have hcond0 : ¬ (idOfEntry (pg0.slots i) ≠ POOL_BOUNDARY ∧ ¬ (i = 0 ∧ pg0.parent = none)) := by
    rw [b5, b2]
    exact hcond
  have hq : (c.quiet.PrintPoolHiwat = true ∨ c.quiet.DebugPoolAllocation = true ∨
      c.quiet.DebugMissingPools = true) = False := by
    have e1 : c.quiet.DebugPoolAllocation = false := hd1
    have e2 : c.quiet.DebugMissingPools = false := hd2
    have e3 : c.quiet.PrintPoolHiwat = false := rfl
    simp [e1, e2, e3]
  unfold popAt
  simp only [hpg, hpg0, if_neg hle, if_neg hle0, if_neg hcond, if_neg hcond0, hp, true_or,
    if_true, hq, if_false]
  exact popPage_marked hd1 hd2 hp _ _ hprint

/-- The call `pop(token)` for the token of an open scope when neither
pool-debugging switch is set: `pop` is `printHiwat()`, if reporting is on and
there is a hot page, followed by the `pop` of the configuration without
reporting; the thread stays well formed. -/
theorem pop_scope_general {c : Config} {s : State}
    {lo hi : List (SlotPtr × AutoreleasePoolEntry)} {a t : SlotPtr}
    (hd1 : c.DebugPoolAllocation = false) (hd2 : c.DebugMissingPools = false)
    (hcap : 1 ≤ c.pageEnd) (hinv : Inv c s (lo ++ (a, boundary) :: hi))
    (hm : t = a ∨ (t = SlotPtr.EMPTY_POOL_PLACEHOLDER ∧ lo = [])) :
    ∃ s0 s1, pop c s t = Except.ok s1 ∧ SameButHiwat s s0 ∧
      pop c.quiet s0 t = Except.ok s1 ∧ Inv c s1 lo ∧
      s1.released = s.released ++ releasesOf (hi.map Prod.snd) ∧ s1.brk = s.brk ∧
      (c.PrintPoolHiwat = false → s0 = s) ∧
      ((∀ q, s.tls ≠ Tls.page q) → s0 = s) ∧
      (c.PrintPoolHiwat = true → ∀ q, s.tls = Tls.page q → printHiwat c s = Except.ok s0) := by
  have hnd0 : c.quiet.nonDebug := quiet_nonDebug hd1 hd2
  have hm3 : (t = a ∧ boundary = boundary) ∨ (t = SlotPtr.EMPTY_POOL_PLACEHOLDER ∧ lo = []) := by
    rcases hm with h | h
    · exact Or.inl ⟨h, rfl⟩
    · exact Or.inr h
  have hrel : ∀ s0 s1 : State, s0.released = s.released →
      s1.released = s0.released ++ releasesOf (boundary :: hi.map Prod.snd) →
      s1.released = s.released ++ releasesOf (hi.map Prod.snd) := by
    intro s0 s1 h0 h1
    rw [h1, h0, releasesOf_cons_boundary]
  -- the case with nothing to record
  have hplain : pop c s t = pop c.quiet s t →
      ((∀ q, s.tls ≠ Tls.page q) ∨ c.PrintPoolHiwat = false) →
      ∃ s0 s1, pop c s t = Except.ok s1 ∧ SameButHiwat s s0 ∧
      pop c.quiet s0 t = Except.ok s1 ∧ Inv c s1 lo ∧
      s1.released = s.released ++ releasesOf (hi.map Prod.snd) ∧ s1.brk = s.brk ∧
      (c.PrintPoolHiwat = false → s0 = s) ∧
      ((∀ q, s.tls ≠ Tls.page q) → s0 = s) ∧
      (c.PrintPoolHiwat = true → ∀ q, s.tls = Tls.page q →
        printHiwat c s = Except.ok s0) := by
    intro heq hcase
    obtain ⟨s1, r1, r2, r3, _, r5, _⟩ := pop_token_spec hnd0 hcap (inv_quiet.2 hinv) hm3
    refine ⟨s, s1, heq.trans r1, SameButHiwat.same_refl s, r1, inv_quiet.1 r2,
      hrel s s1 rfl r3, r5, fun _ => rfl, fun _ => rfl, ?_⟩
    intro hp q htls
    rcases hcase with h | h
    · exact absurd htls (h q)
    · rw [hp] at h
      cases h
  by_cases hp0 : c.PrintPoolHiwat = false
  · apply hplain _ (Or.inr hp0)
    rw [quiet_of_off hp0]
  · have hp : c.PrintPoolHiwat = true := by simpa using hp0
    cases htls : s.tls with
    | nil =>
      have := hinv.cells_of_nil htls
      simp at this
    | EMPTY_POOL_PLACEHOLDER =>
      have hcells := hinv.cells_of_placeholder htls
      have hlen := congrArg List.length hcells
      simp only [List.length_append, List.length_cons, List.length_nil] at hlen
      have hlo : lo = [] := List.eq_nil_of_length_eq_zero (by omega)
      subst hlo
      simp only [List.nil_append, List.cons.injEq, Prod.mk.injEq] at hcells
      have ht : t = SlotPtr.EMPTY_POOL_PLACEHOLDER := by
        rcases hm with h | h
        · rw [h, hcells.1.1]
        · exact h.1
      subst ht
      have h := hplain (by simp only [pop, hotPage, htls]) (Or.inl (fun q hq => by
        rw [htls] at hq
        cases hq))
      rw [htls] at h
      exact h
    | page q =>
      obtain ⟨ids, h, hc, hcells⟩ := hinv
      have hq := hc.hot_page htls
      obtain ⟨pg, hpg, _⟩ := hc.links h q hq
      have hprint := hc.printHiwat_spec htls hpg
      generalize hs0 : (if (pg.depth * c.COUNT + pg.next) % 2 ^ 32 > (pg.hiwat + 256) % 2 ^ 32
        then markPages s (ids.take (h + 1)) ((pg.depth * c.COUNT + pg.next) % 2 ^ 32)
        else s) = s0 at hprint
      have hsame : SameButHiwat s s0 := by
        rw [← hs0]
        split_ifs
        · exact markPages_same _ _ _
        · exact SameButHiwat.same_refl s
      have hc0 := hsame.same_chain hc
      have hinv0 : Inv c.quiet s0 (lo ++ (a, boundary) :: hi) :=
        inv_quiet.2 ⟨ids, h, hc0, by rw [hsame.same_cells, ← hcells]⟩
      obtain ⟨s1, r1, r2, r3, _, r5, _⟩ := pop_token_spec hnd0 hcap hinv0 hm3
      have heq : pop c s t = pop c.quiet s0 t := by
        have hph : s.tls ≠ Tls.EMPTY_POOL_PLACEHOLDER := by
          rw [htls]
          exact fun hh => by cases hh
        have hslot : ∀ p i, t = SlotPtr.slot p i → a = SlotPtr.slot p i →
            pop c s t = pop c.quiet s0 t := by
          intro p i ht ha
          subst ht
          have hmem : (SlotPtr.slot p i, boundary) ∈ cellsOf s ids := by
            rw [← hcells, ← ha]
            simp
          obtain ⟨pgp, hpgp, hi1, hi2⟩ := (hc.mem_cells hph p i boundary).1 hmem
          obtain ⟨j, hj⟩ := List.mem_iff_getElem?.1 ((hc.live p).1 (by rw [hpgp]; simp))
          obtain ⟨pgp1, hpgp1, _, _, _, a4, _⟩ := hc.links j p hj
          rw [hpgp] at hpgp1
          cases hpgp1
          obtain ⟨pg0, hpg0, _⟩ := hsame.same_page hpgp
          have e1 : pop c s (SlotPtr.slot p i) = popAt c s p i := by
            simp only [pop, pageForPointer, hpgp]
          have e2 : pop c.quiet s0 (SlotPtr.slot p i) = popAt c.quiet s0 p i := by
            simp only [pop, pageForPointer, hpg0]
          rw [e1, e2]
          exact popAt_marked hd1 hd2 hp hpgp (by omega) (Or.inl hi2) hprint hsame
        obtain ⟨p, i, ha⟩ := Inv.addr_of_page (c := c) ⟨ids, h, hc, hcells⟩ htls
          (a := a) (e := boundary) (by simp)
        rcases hm with ht | ⟨ht, hlo⟩
        · exact hslot p i (ht.trans ha) ha
        · subst ht
          obtain ⟨root, rpg, hroot, hrpg, hcold, hhot⟩ := hc.coldPage_spec htls
          obtain ⟨root0, rpg0, hroot0, hrpg0, hcold0, hhot0⟩ :=
            hc0.coldPage_spec (hsame.2.1.trans htls)
          rw [hroot] at hroot0
          cases hroot0
          obtain ⟨rpg1, hrpg1, b1, _⟩ := hc.links 0 root hroot
          rw [hrpg] at hrpg1
          cases hrpg1
          rw [if_pos rfl] at b1
          have e1 : pop c s SlotPtr.EMPTY_POOL_PLACEHOLDER = popAt c s root 0 := by
            simp only [pop, hhot, hcold]
          have e2 : pop c.quiet s0 SlotPtr.EMPTY_POOL_PLACEHOLDER = popAt c.quiet s0 root 0 := by
            simp only [pop, hhot0, hcold0]
          rw [e1, e2]
          exact popAt_marked hd1 hd2 hp hrpg (by omega) (Or.inr ⟨rfl, b1⟩) hprint hsame
      refine ⟨s0, s1, heq.trans r1, hsame, r1, inv_quiet.1 r2, hrel s0 s1 hsame.2.2.1 r3,
        r5.trans hsame.1, fun hh => absurd hh hp0, fun hh => absurd rfl (hh q), ?_⟩
      intro _ q2 hq2
      exact hprint

/-- Every state reachable when neither pool-debugging switch is set, with
high-water reporting on or off, is well formed, and the tokens of its open
scopes sit on boundary markers of its pending slots. -/
theorem Reach.inv_general {c : Config} (hd1 : c.DebugPoolAllocation = false)
    (hd2 : c.DebugMissingPools = false) (hcap : 2 ≤ c.pageEnd) {s : State}
    {toks : List SlotPtr} (hr : Reach c s toks) :
    ∃ cells base, Inv c s cells ∧ TokensIn base toks cells := by
  have hnd0 : c.quiet.nonDebug := quiet_nonDebug hd1 hd2
  induction hr with
  | init => exact ⟨[], [], inv_init c, TokensIn.nil⟩
  | @push s toks s1 t _ hpush ih =>
    obtain ⟨cells, base, hinv, htok⟩ := ih
    rw [← push_quiet] at hpush
    have hok : HotOK c.quiet s POOL_BOUNDARY := by
      by_contra hbad
      rw [push_fault hnd0.1 hbad] at hpush
      cases hpush
    obtain ⟨s2, t2, cells1, r1, r2, r3, _⟩ := push_spec hnd0 hcap (inv_quiet.2 hinv) hok
    rw [hpush] at r1
    cases r1
    obtain ⟨base1, hb, _⟩ := htok.push r3
    exact ⟨cells1, base1, inv_quiet.1 r2, hb⟩
  | @autorelease s toks obj s1 r _ hobj hauto ih =>
    obtain ⟨cells, base, hinv, htok⟩ := ih
    rw [← autorelease_quiet] at hauto
    have hok : HotOK c.quiet s obj := by
      by_contra hbad
      rw [autorelease_fault hbad] at hauto
      cases hauto
    obtain ⟨s2, t2, cells1, r1, r2, r3, _⟩ :=
      autorelease_spec hnd0 hcap (inv_quiet.2 hinv) hobj hok
    rw [hauto] at r1
    cases r1
    cases toks with
    | nil => exact ⟨cells1, cells1, inv_quiet.1 r2, TokensIn.nil⟩
    | cons t0 toks0 => exact ⟨cells1, base, inv_quiet.1 r2, htok.add r3⟩
  | @pop s inner t outer s1 _ hpop ih =>
    obtain ⟨cells, base, hinv, htok⟩ := ih
    obtain ⟨lo, a, hi, e1, e2, e3⟩ := TokensIn.split inner htok
    subst e1
    obtain ⟨s0, s2, r1, _, _, r4, _⟩ := pop_scope_general hd1 hd2 (by omega) hinv e3
    rw [hpop] at r1
    cases r1
    exact ⟨lo, base, r4, e2⟩

theorem Shrink.shrink_refl (s : State) : Shrink s s :=
  ⟨rfl, fun _ pg1 h => ⟨pg1, h, rfl, rfl, rfl⟩⟩

theorem Shrink.shrink_trans {s s1 s2 : State} (h1 : Shrink s s1) (h2 : Shrink s1 s2) :
    Shrink s s2 := by
  refine ⟨h2.1.trans h1.1, ?_⟩
  intro p pg2 hp
  obtain ⟨pg1, hp1, a1, a2, a3⟩ := h2.2 p pg2 hp
  obtain ⟨pg, hp0, b1, b2, b3⟩ := h1.2 p pg1 hp1
  exact ⟨pg, hp0, a1.trans b1, a2.trans b2, a3.trans b3⟩

theorem Shrink.of_same_pages {s s1 : State} (hp : s1.pages = s.pages) (hb : s1.brk = s.brk) :
    Shrink s s1 := by
  refine ⟨hb, ?_⟩
  intro p pg1 h
  rw [hp] at h
  exact ⟨pg1, h, rfl, rfl, rfl⟩

theorem Shrink.shrink_set {s : State} {p : Nat} {pg pg1 : AutoreleasePoolPage}
    (hpg : s.pages p = some pg) (h1 : pg1.parent = pg.parent) (h2 : pg1.depth = pg.depth)
    (h3 : pg1.hiwat = pg.hiwat) : Shrink s (setPage s p pg1) := by
  refine ⟨rfl, ?_⟩
  intro q qg hq
  rw [setPage_pages] at hq
  split_ifs at hq with hqp
  · cases hq
    subst hqp
    exact ⟨pg, hpg, h1, h2, h3⟩
  · exact ⟨qg, hq, rfl, rfl, rfl⟩

theorem Shrink.shrink_free (s : State) (p : Nat) : Shrink s (freePage s p) := by
  refine ⟨rfl, ?_⟩
  intro q qg hq
  rw [freePage_pages] at hq
  split_ifs at hq with hqp
  exact ⟨qg, hq, rfl, rfl, rfl⟩

theorem skipEmpty_brk :
    ∀ (fuel : Nat) (s : State) (page : Nat) (s1 : State) (page1 : Nat),
      skipEmpty fuel s page = Except.ok (s1, page1) → s1.brk = s.brk := by
  intro fuel
  induction fuel with
  | zero =>
    intro s page s1 page1 h
    cases h
  | succ fuel ih =>
    intro s page s1 page1 h
    unfold skipEmpty at h
    cases hpg : s.pages page with
    | none =>
      rw [hpg] at h
      cases h
    | some pg =>
      rw [hpg] at h
      simp only at h
      split_ifs at h with hempty
      · cases hpar : pg.parent with
        | none =>
          rw [hpar] at h
          cases h
        | some par =>
          rw [hpar] at h
          simp only at h
          cases hs : setHotPage s (some par) with
          | error e =>
            rw [hs] at h
            cases h
          | ok s2 =>
            rw [hs] at h
            exact (ih s2 par s1 page1 h).trans (setHotPage_pages hs).2.1
      · simp only [Except.ok.injEq, Prod.mk.injEq] at h
        rw [← h.1]

theorem releaseLoop_shrink (self : Nat) (stop : SlotPtr) :
    ∀ (fuel : Nat) (s s1 : State), releaseLoop self stop fuel s = Except.ok s1 →
      Shrink s s1 := by
  intro fuel
  induction fuel with
  | zero =>
    intro s s1 h
    cases h
  | succ fuel ih =>
    intro s s1 h
    unfold releaseLoop at h
    cases hme : s.pages self with
    | none =>
      rw [hme] at h
      cases h
    | some me =>
      rw [hme] at h
      simp only at h
      split_ifs at h with hstop
      · simp only [Except.ok.injEq] at h
        rw [← h]
        exact Shrink.shrink_refl s
      · cases hh : hotPage s with
        | error e =>
          rw [hh] at h
          cases h
        | ok hp =>
          rw [hh] at h
          cases hp with
          | none => cases h
          | some hp =>
            simp only at h
            cases hsk : skipEmpty (s.brk + 1) s hp with
            | error e =>
              rw [hsk] at h
              cases h
            | ok r =>
              obtain ⟨s2, page⟩ := r
              rw [hsk] at h
              simp only at h
              obtain ⟨hpages, pg, hpg, hne⟩ := skipEmpty_nonempty _ _ _ _ _ hsk
              rw [hpg] at h
              simp only at h
              have hbrk : s2.brk = s.brk := skipEmpty_brk _ _ _ _ _ hsk
              have h12 : Shrink s s2 := Shrink.of_same_pages hpages hbrk
              have h23 : Shrink s2 (releaseEntry (setPage s2 page
                  { pg with next := pg.next - 1,
                            slots := Function.update pg.slots (pg.next - 1) scribbled })
                  (pg.slots (pg.next - 1))) := by
                have hset : Shrink s2 (setPage s2 page
                    { pg with next := pg.next - 1,
                              slots := Function.update pg.slots (pg.next - 1) scribbled }) :=
                  Shrink.shrink_set hpg rfl rfl rfl
                exact Shrink.shrink_trans hset
                  (Shrink.of_same_pages (releaseEntry_pages _ _) (releaseEntry_brk _ _))
              exact Shrink.shrink_trans h12 (Shrink.shrink_trans h23 (ih _ _ h))

theorem releaseUntil_shrink {s s1 : State} {self : Nat} {stop : SlotPtr}
    (h : releaseUntil s self stop = Except.ok s1) : Shrink s s1 := by
  unfold releaseUntil at h
  cases hl : releaseLoop self stop (occupied s + 1) s with
  | error e =>
    rw [hl] at h
    cases h
  | ok s2 =>
    rw [hl] at h
    exact Shrink.shrink_trans (releaseLoop_shrink self stop _ _ _ hl)
      (Shrink.of_same_pages (setHotPage_pages h).1 (setHotPage_pages h).2.1)

theorem killAscend_shrink (self : Nat) :
    ∀ (fuel : Nat) (s : State) (page : Nat) (s1 : State),
      killAscend self fuel s page = Except.ok s1 → Shrink s s1 := by
  intro fuel
  induction fuel with
  | zero =>
    intro s page s1 h
    cases h
  | succ fuel ih =>
    intro s page s1 h
    unfold killAscend at h
    cases hpg : s.pages page with
    | none =>
      rw [hpg] at h
      cases h
    | some pg =>
      rw [hpg] at h
      simp only at h
      cases hu : unlinkFromParent s pg.parent with
      | error e =>
        rw [hu] at h
        cases h
      | ok s2 =>
        rw [hu] at h
        simp only at h
        have h12 : Shrink s s2 := by
          unfold unlinkFromParent at hu
          cases hpar : pg.parent with
          | none =>
            rw [hpar] at hu
            simp only [Except.ok.injEq] at hu
            rw [← hu]
            exact Shrink.shrink_refl s
          | some par =>
            rw [hpar] at hu
            simp only at hu
            cases hpp : s.pages par with
            | none =>
              rw [hpp] at hu
              cases hu
            | some ppg =>
              rw [hpp] at hu
              simp only [Except.ok.injEq] at hu
              rw [← hu]
              exact Shrink.shrink_set hpp rfl rfl rfl
        cases hd : deletePage s2 page with
        | error e =>
          rw [hd] at h
          cases h
        | ok s3 =>
          rw [hd] at h
          simp only at h
          have h23 : Shrink s2 s3 := by
            unfold deletePage at hd
            cases hdp : s2.pages page with
            | none =>
              rw [hdp] at hd
              cases hd
            | some dp =>
              rw [hdp] at hd
              simp only at hd
              split_ifs at hd with h1 h2
              simp only [Except.ok.injEq] at hd
              rw [← hd]
              exact Shrink.shrink_free s2 page
          split_ifs at h with hself
          · simp only [Except.ok.injEq] at h
            rw [← h]
            exact Shrink.shrink_trans h12 h23
          · cases hpar : pg.parent with
            | none =>
              rw [hpar] at h
              cases h
            | some par =>
              rw [hpar] at h
              exact Shrink.shrink_trans h12 (Shrink.shrink_trans h23 (ih _ _ _ h))

theorem kill_shrink {s s1 : State} {self : Nat} (h : kill s self = Except.ok s1) :
    Shrink s s1 := by
  unfold kill at h
  cases hd : killDescend (s.brk + 1) s self with
  | error e =>
    rw [hd] at h
    cases h
  | ok leaf =>
    rw [hd] at h
    exact killAscend_shrink self _ _ _ _ h

theorem hysteresis_shrink {c : Config} {s s1 : State} {page : Nat}
    (h : hysteresis c s page = Except.ok s1) : Shrink s s1 := by
  unfold hysteresis at h
  cases hpg : s.pages page with
  | none =>
    rw [hpg] at h
    cases h
  | some pg =>
    rw [hpg] at h
    simp only at h
    cases hch : pg.child with
    | none =>
      rw [hch] at h
      simp only [Except.ok.injEq] at h
      rw [← h]
      exact Shrink.shrink_refl s
    | some ch =>
      rw [hch] at h
      simp only at h
      split_ifs at h with hhalf
      · exact kill_shrink h
      · cases hcp : s.pages ch with
        | none =>
          rw [hcp] at h
          cases h
        | some cpg =>
          rw [hcp] at h
          simp only at h
          cases hg : cpg.child with
          | none =>
            rw [hg] at h
            simp only [Except.ok.injEq] at h
            rw [← h]
            exact Shrink.shrink_refl s
          | some gch =>
            rw [hg] at h
            exact kill_shrink h

/-- A `pop` in a configuration with no debugging switch set allocates no
block and leaves the parent, depth and mark of every page it keeps. -/
theorem pop_shrink {c : Config} (hnd : c.nonDebug) {s s1 : State} {t : SlotPtr}
    (h : pop c s t = Except.ok s1) : Shrink s s1 := by
  obtain ⟨hd1, hd2, hd3⟩ := hnd
  have hpage : ∀ page stop, popPage c false s page stop = Except.ok s1 → Shrink s s1 := by
    intro page stop hpp
    simp only [popPage, Bool.false_eq_true, false_and, if_false] at hpp
    cases hr : releaseUntil s page stop with
    | error e =>
      rw [hr] at hpp
      cases hpp
    | ok s2 =>
      rw [hr] at hpp
      simp only at hpp
      cases hpg : s2.pages page with
      | none =>
        rw [hpg] at hpp
        cases hpp
      | some pg =>
        rw [hpg] at hpp
        exact Shrink.shrink_trans (releaseUntil_shrink hr) (hysteresis_shrink hpp)
  have hat : ∀ page i, popAt c s page i = Except.ok s1 → Shrink s s1 := by
    intro page i hpa
    unfold popAt at hpa
    cases hpg : s.pages page with
    | none =>
      rw [hpg] at hpa
      cases hpa
    | some pg =>
      rw [hpg] at hpa
      simp only [hd1, hd2, hd3, Bool.false_eq_true, or_self, if_false] at hpa
      split_ifs at hpa with h1 h2
      · simp only [Except.ok.injEq] at hpa
        rw [← hpa]
        exact Shrink.of_same_pages rfl rfl
      · exact hpage _ _ hpa
  unfold pop at h
  cases t with
  | nil => cases h
  | EMPTY_POOL_PLACEHOLDER =>
    simp only at h
    cases hh : hotPage s with
    | error e =>
      rw [hh] at h
      cases h
    | ok hp =>
      rw [hh] at h
      cases hp with
      | none => exact Shrink.of_same_pages (setHotPage_pages h).1 (setHotPage_pages h).2.1
      | some q =>
        simp only at h
        cases hc : coldPage s with
        | error e =>
          rw [hc] at h
          cases h
        | ok r =>
          rw [hc] at h
          cases r with
          | none => cases h
          | some page => exact hat _ _ h
  | slot p i =>
    simp only at h
    cases hf : pageForPointer s (SlotPtr.slot p i) with
    | error e =>
      rw [hf] at h
      cases h
    | ok page =>
      rw [hf] at h
      exact hat _ _ h

/-- The registration that `push` makes, when `DebugPoolAllocation` is off. -/
theorem push_fast {c : Config} (hd1 : c.DebugPoolAllocation = false) {s s1 : State}
    {t : SlotPtr} (h : push c s = Except.ok (s1, t)) :
    autoreleaseFast c s POOL_BOUNDARY = Except.ok (s1, t) := by
  unfold push at h
  simp only [hd1, Bool.false_eq_true, if_false] at h
  cases hf : autoreleaseFast c s POOL_BOUNDARY with
  | error e =>
    rw [hf] at h
    cases h
  | ok res =>
    obtain ⟨s2, dest⟩ := res
    rw [hf] at h
    cases dest with
    | nil => cases h
    | EMPTY_POOL_PLACEHOLDER => exact h
    | slot p i =>
      simp only at h
      cases hp : s2.pages p with
      | none =>
        rw [hp] at h
        cases h
      | some pg =>
        rw [hp] at h
        simp only at h
        split_ifs at h with h1
        exact h

/-- The registration that `autorelease` makes. -/
theorem autorelease_fast {c : Config} {s s1 : State} {obj r : Nat}
    (h : autorelease c s obj = Except.ok (s1, r)) :
    ∃ t, autoreleaseFast c s obj = Except.ok (s1, t) := by
  unfold autorelease at h
  cases hf : autoreleaseFast c s obj with
  | error e =>
    rw [hf] at h
    cases h
  | ok res =>
    obtain ⟨s2, dest⟩ := res
    rw [hf] at h
    cases dest with
    | nil =>
      simp only [Except.ok.injEq, Prod.mk.injEq] at h
      rw [h.1]
      exact ⟨_, rfl⟩
    | EMPTY_POOL_PLACEHOLDER =>
      simp only [Except.ok.injEq, Prod.mk.injEq] at h
      rw [h.1]
      exact ⟨_, rfl⟩
    | slot p i =>
      simp only at h
      cases hp : s2.pages p with
      | none =>
        rw [hp] at h
        cases h
      | some pg =>
        rw [hp] at h
        simp only at h
        split_ifs at h with h1
        simp only [Except.ok.injEq, Prod.mk.injEq] at h
        rw [h.1]
        exact ⟨_, rfl⟩

/-- What `autoreleaseNoPage` does to the blocks: nothing, or block `brk`
becomes a page without parent, with mark 0, that is the hot page. -/
theorem autoreleaseNoPage_frame {c : Config} {s s1 : State} {obj : Nat} {dest : SlotPtr}
    (h : autoreleaseNoPage c s obj = Except.ok (s1, dest)) :
    (s1.pages = s.pages ∧ s1.brk = s.brk) ∨
    (∃ pg1, s1.pages = Function.update s.pages s.brk (some pg1) ∧ pg1.parent = none ∧
      pg1.hiwat = 0 ∧ pg1.depth = 0 ∧ s1.brk = s.brk + 1 ∧ s1.tls = Tls.page s.brk) := by
  have hnew : ∀ s2 page, newPage c s none = Except.ok (s2, page) →
      page = s.brk ∧ s2 = { s with
        pages := Function.update s.pages s.brk
          (some { next := 0, parent := none, child := none, depth := 0, hiwat := 0,
                  slots := c.fresh s.brk }),
        brk := s.brk + 1 } := by
    intro s2 page hn
    simp only [newPage, Except.ok.injEq, Prod.mk.injEq] at hn
    exact ⟨hn.2.symm, hn.1.symm⟩
  have hhot : ∀ s2 s3 : State, ∀ page, setHotPage s2 (some page) = Except.ok s3 →
      s3 = { s2 with tls := Tls.page page } := by
    intro s2 s3 page hs
    unfold setHotPage at hs
    simp only at hs
    cases hq : s2.pages page with
    | none =>
      rw [hq] at hs
      cases hs
    | some pg =>
      rw [hq] at hs
      simp only [Except.ok.injEq] at hs
      exact hs.symm
  have hadd : ∀ (s3 s4 : State) (x : Nat) (t : SlotPtr) (pg : AutoreleasePoolPage),
      s3.pages = Function.update s.pages s.brk (some pg) → pg.parent = none → pg.hiwat = 0 →
      pg.depth = 0 → add c s3 s.brk x = Except.ok (s4, t) →
      ∃ pg4, s4.pages = Function.update s.pages s.brk (some pg4) ∧ pg4.parent = none ∧
        pg4.hiwat = 0 ∧ pg4.depth = 0 ∧ s4.brk = s3.brk ∧ s4.tls = s3.tls := by
    intro s3 s4 x t pg hp3 k1 k2 k3 ha
    obtain ⟨pg0, pg4, hpg0, _, _, rfl, _, b1, _, b3, b4⟩ := add_cursor ha
    rw [hp3, Function.update_same] at hpg0
    cases hpg0
    refine ⟨pg4, ?_, b1.trans k1, b4.trans k2, b3.trans k3, rfl, rfl⟩
    simp only [setPage, hp3, Function.update_idem]
  unfold autoreleaseNoPage at h
  cases hh : hotPage s with
  | error e =>
    rw [hh] at h
    cases h
  | ok hp =>
    rw [hh] at h
    cases hp with
    | some q => cases h
    | none =>
      simp only at h
      split_ifs at h with h1 h2 h3
      · cases hn : newPage c s none with
        | error e =>
          rw [hn] at h
          cases h
        | ok r =>
          obtain ⟨s2, page⟩ := r
          rw [hn] at h
          simp only at h
          obtain ⟨rfl, rfl⟩ := hnew _ _ hn
          cases hs : setHotPage _ (some s.brk) with
          | error e =>
            rw [hs] at h
            cases h
          | ok s3 =>
            rw [hs] at h
            simp only at h
            have e3 := hhot _ _ _ hs
            subst e3
            cases ha : add c _ s.brk POOL_BOUNDARY with
            | error e =>
              rw [ha] at h
              cases h
            | ok r2 =>
              obtain ⟨s4, t⟩ := r2
              rw [ha] at h
              simp only at h
              obtain ⟨pg4, c1, c2, c3, c4, c5, c6⟩ := hadd _ _ _ _ _ rfl rfl rfl rfl ha
              obtain ⟨pg5, d1, d2, d3, d4, d5, d6⟩ := hadd _ _ _ _ _ c1 c2 c3 c4 h
              exact Or.inr ⟨pg5, d1, d2, d3, d4, d5.trans c5, d6.trans c6⟩
      · simp only [Except.ok.injEq, Prod.mk.injEq] at h
        rw [← h.1]
        exact Or.inl ⟨rfl, rfl⟩
      · unfold setEmptyPoolPlaceholder at h
        split_ifs at h with h4
        simp only [Except.ok.injEq, Prod.mk.injEq] at h
        rw [← h.1]
        exact Or.inl ⟨rfl, rfl⟩
      · cases hn : newPage c s none with
        | error e =>
          rw [hn] at h
          cases h
        | ok r =>
          obtain ⟨s2, page⟩ := r
          rw [hn] at h
          simp only at h
          obtain ⟨rfl, rfl⟩ := hnew _ _ hn
          cases hs : setHotPage _ (some s.brk) with
          | error e =>
            rw [hs] at h
            cases h
          | ok s3 =>
            rw [hs] at h
            have e3 := hhot _ _ _ hs
            subst e3
            obtain ⟨pg4, c1, c2, c3, c4, c5, c6⟩ := hadd _ _ _ _ _ rfl rfl rfl rfl h
            exact Or.inr ⟨pg4, c1, c2, c3, c4, c5, c6⟩

/-- What a registration does to the pages of a well-formed thread: every page
stays, with its parent, depth and mark; a page that is new is a block that was
not allocated before and is the hot page afterwards, and it has no parent and
mark 0, or its parent is the page that was hot and it has the mark of that
page; the hot page stays or the new hot page is a child of the old one. -/
theorem Chain.register_frame {c : Config} {s s1 : State} {ids : List Nat} {h obj : Nat}
    {t : SlotPtr} (hcap : 1 ≤ c.pageEnd) (hc : Chain c s ids h) (hobj : obj < 2 ^ 48)
    (hfast : autoreleaseFast c s obj = Except.ok (s1, t)) :
    Survive s s1 ∧ s.brk ≤ s1.brk ∧
    (∀ p pg1, s1.pages p = some pg1 → s.pages p = none →
      s1.tls = Tls.page p ∧ s.brk ≤ p ∧
      ((pg1.parent = none ∧ pg1.hiwat = 0) ∨
        ∃ hot hg, s.tls = Tls.page hot ∧ s.pages hot = some hg ∧ pg1.parent = some hot ∧
          pg1.hiwat = hg.hiwat)) ∧
    (∀ hot, s.tls = Tls.page hot →
      s1.tls = Tls.page hot ∨
        ∃ hot1 hg1, s1.tls = Tls.page hot1 ∧ s1.pages hot1 = some hg1 ∧
          hg1.parent = some hot) := by
  have hnopage : (∀ q, s.tls ≠ Tls.page q) →
      Survive s s1 ∧ s.brk ≤ s1.brk ∧
      (∀ p pg1, s1.pages p = some pg1 → s.pages p = none →
        s1.tls = Tls.page p ∧ s.brk ≤ p ∧
        ((pg1.parent = none ∧ pg1.hiwat = 0) ∨
          ∃ hot hg, s.tls = Tls.page hot ∧ s.pages hot = some hg ∧ pg1.parent = some hot ∧
            pg1.hiwat = hg.hiwat)) ∧
      (∀ hot, s.tls = Tls.page hot →
        s1.tls = Tls.page hot ∨
          ∃ hot1 hg1, s1.tls = Tls.page hot1 ∧ s1.pages hot1 = some hg1 ∧
            hg1.parent = some hot) := by
    intro hno
    have hids : ids = [] := by
      rcases hc.hot with ⟨h1, _⟩ | ⟨p, _, h2⟩
      · exact h1
      · exact absurd h2 (hno p)
    have hnone : ∀ p, s.pages p = none := by
      intro p
      by_contra hp
      have := (hc.live p).1 hp
      rw [hids] at this
      cases this
    have hhot : hotPage s = Except.ok none := by
      unfold hotPage
      cases htls : s.tls with
      | nil => rfl
      | EMPTY_POOL_PLACEHOLDER => rfl
      | page q => exact absurd htls (hno q)
    have hpre : autoreleaseFast c s obj = autoreleaseNoPage c s obj := by
      simp only [autoreleaseFast, hhot]
    rw [hpre] at hfast
    refine ⟨?_, ?_, ?_, fun hot hh => absurd hh (hno hot)⟩
    · intro p pg hp
      rw [hnone p] at hp
      cases hp
    · rcases autoreleaseNoPage_frame hfast with ⟨_, h2⟩ | ⟨pg1, _, _, _, _, h2, _⟩
      · omega
      · omega
    · intro p pg1 hp1 _
      rcases autoreleaseNoPage_frame hfast with ⟨h1, _⟩ | ⟨pg2, k1, k2, k3, _, _, k6⟩
      · rw [h1, hnone p] at hp1
        cases hp1
      · rw [k1] at hp1
        simp only [Function.update_apply] at hp1
        split_ifs at hp1 with hpb
        · cases hp1
          subst hpb
          exact ⟨k6, le_refl _, Or.inl ⟨k2, k3⟩⟩
        · rw [hnone p] at hp1
          cases hp1
  by_cases hex : ∃ q, s.tls = Tls.page q
  swap
  · exact hnopage (fun q hq => hex ⟨q, hq⟩)
  · obtain ⟨hot, htls⟩ := hex
    have hq := hc.hot_page htls
    obtain ⟨pg, hpg, a1, a2, a3, a4, a5, a6⟩ := hc.links h hot hq
    have hhot : hotPage s = Except.ok (some hot) := by simp only [hotPage, htls, hpg]
    by_cases hfull : pg.next = c.pageEnd
    · obtain ⟨s2, q, qg, pg1, b1, b2, b3, _, _, b6, b7, b8, b9, _, _, b12, _, b14, b15, b16,
        _, _, b19, b20⟩ := hc.autorelease_full hcap htls hpg hfull obj hobj
      rw [hfast] at b1
      simp only [Except.ok.injEq, Prod.mk.injEq] at b1
      obtain ⟨rfl, _⟩ := b1
      refine ⟨?_, ?_, ?_, ?_⟩
      · intro p pgp hp
        by_cases hp1 : p = hot
        · subst hp1
          rw [hpg] at hp
          cases hp
          exact ⟨pg1, b9, b12, b14, b15⟩
        · by_cases hp2 : p = q
          · subst hp2
            obtain ⟨k1, k2⟩ := b19 pgp hp
            refine ⟨qg, b3, ?_, k2, k1⟩
            rw [b6]
            rcases b8 with ⟨hch, _⟩ | ⟨_, hqb, _⟩
            · obtain ⟨cpg, hcpg, hcpar, _⟩ := hc.shape.1 hot pg p hpg hch
              rw [hp] at hcpg
              cases hcpg
              exact hcpar.symm
            · exfalso
              have hlive : p ∈ ids := (hc.live p).1 (by rw [hp]; simp)
              have := hc.below p hlive
              omega
          · exact ⟨pgp, by rw [b16 p hp1 hp2]; exact hp, rfl, rfl, rfl⟩
      · rcases b8 with ⟨_, hb⟩ | ⟨_, _, hb⟩
        · omega
        · omega
      · intro p pg2 hp2 hpn
        have hp1 : p ≠ hot := by
          intro e
          rw [e, hpg] at hpn
          cases hpn
        have hpq : p = q := by
          by_contra hne
          rw [b16 p hp1 hne, hpn] at hp2
          cases hp2
        have hge : s.brk ≤ p := by
          rcases b8 with ⟨hch, _⟩ | ⟨_, hqb, _⟩
          · exfalso
            obtain ⟨cpg, hcpg, _⟩ := hc.shape.1 hot pg q hpg hch
            rw [← hpq, hpn] at hcpg
            cases hcpg
          · omega
        subst hpq
        rw [b3] at hp2
        cases hp2
        exact ⟨b2, hge, Or.inr ⟨hot, pg, htls, hpg, b6, (b20 hpn).1⟩⟩
      · intro hot2 hh
        rw [htls] at hh
        cases hh
        exact Or.inr ⟨q, qg, b2, b3, b6⟩
    · have hnf : pg.full c = false := full_eq_false (by omega)
      have hpre : autoreleaseFast c s obj = add c s hot obj := by
        simp only [autoreleaseFast, hhot, hpg, hnf]
        simp
      rw [hpre] at hfast
      obtain ⟨pg0, pg1, hpg0, _, _, rfl, _, k1, _, k3, k4⟩ := add_cursor hfast
      rw [hpg] at hpg0
      cases hpg0
      refine ⟨?_, le_refl _, ?_, ?_⟩
      · intro p pgp hp
        rw [setPage_pages]
        split_ifs with he
        · subst he
          rw [hpg] at hp
          cases hp
          exact ⟨pg1, rfl, k1, k3, k4⟩
        · exact ⟨pgp, hp, rfl, rfl, rfl⟩
      · intro p pg2 hp2 hpn
        rw [setPage_pages] at hp2
        split_ifs at hp2 with he
        · rw [he, hpg] at hpn
          cases hpn
        · rw [hpn] at hp2
          cases hp2
      · intro hot2 hh
        left
        rw [setPage_tls, hh]

theorem count_eq {c : Config} (hcap : 2 ≤ c.pageEnd) : c.COUNT = c.pageEnd + 7 := by
  unfold Config.COUNT Config.pageEnd sizeofId sizeofPage at *
  omega

theorem NoWrap.brk_le {c : Config} {s : State} (hcap : 2 ≤ c.pageEnd) (hw : NoWrap c s) :
    s.brk ≤ 2 ^ 32 := by
  unfold NoWrap at hw
  have hc := count_eq hcap
  have : s.brk * 1 ≤ s.brk * c.COUNT := Nat.mul_le_mul_left _ (by omega)
  omega

theorem NoWrap.mono {c : Config} {s s1 : State} (hw : NoWrap c s1) (hb : s.brk ≤ s1.brk) :
    NoWrap c s := by
  unfold NoWrap at *
  have : s.brk * c.COUNT ≤ s1.brk * c.COUNT := Nat.mul_le_mul_right _ hb
  omega

/-- While fewer than 2^32 blocks have been allocated the depth of a page is
its index in the chain. -/
theorem Chain.depth_idx {c : Config} {s : State} {ids : List Nat} {h k p : Nat}
    {pg : AutoreleasePoolPage} (hc : Chain c s ids h) (hb : s.brk ≤ 2 ^ 32)
    (hk : ids[k]? = some p) (hpg : s.pages p = some pg) : pg.depth = k := by
  obtain ⟨pg0, hpg0, _, _, a3, _⟩ := hc.links k p hk
  rw [hpg] at hpg0
  cases hpg0
  have h1 := hc.idx_lt hk
  have h2 := hc.length_le_brk
  rw [a3]
  exact Nat.mod_eq_of_lt (by omega)

theorem Chain.idx_of_live {c : Config} {s : State} {ids : List Nat} {h p : Nat}
    {pg : AutoreleasePoolPage} (hc : Chain c s ids h) (hpg : s.pages p = some pg) :
    ∃ k : Nat, ids[k]? = some p :=
  List.mem_iff_getElem?.1 ((hc.live p).1 (by rw [hpg]; simp))

/-- Marks do not grow down the chain. -/
theorem HiwatInv.antitone {c : Config} {s : State} {ids : List Nat} {h : Nat}
    (hinv : HiwatInv c s) (hc : Chain c s ids h) :
    ∀ (d k p q : Nat) (pg qg : AutoreleasePoolPage), ids[k]? = some p →
      ids[k + d]? = some q → s.pages p = some pg → s.pages q = some qg →
      qg.hiwat ≤ pg.hiwat := by
  intro d
  induction d with
  | zero =>
    intro k p q pg qg hk hq hpg hqg
    rw [Nat.add_zero, hk] at hq
    cases hq
    rw [hpg] at hqg
    cases hqg
    exact le_refl _
  | succ d ih =>
    intro k p q pg qg hk hq hpg hqg
    have hlt := hc.idx_lt hq
    have hm : ids[k + d]? = some ids[k + d] := List.getElem?_eq_getElem (by omega)
    obtain ⟨mg, hmg, _⟩ := hc.links (k + d) _ hm
    obtain ⟨qg0, hqg0, b1, _⟩ := hc.links (k + (d + 1)) q hq
    rw [hqg] at hqg0
    cases hqg0
    rw [if_neg (by omega), show k + (d + 1) - 1 = k + d by omega, hm] at b1
    have h1 := (hinv.2.1 _ mg q qg hmg hqg b1).1
    have h2 := ih k p _ pg mg hk hm hpg hmg
    omega

/-- The mark of a page at or above the hot page is the mark of the hot page
or one computed above the hot page. -/
theorem HiwatInv.above_bound {c : Config} {s : State} {ids : List Nat} {h hot : Nat}
    {hg : AutoreleasePoolPage} (hcap : 2 ≤ c.pageEnd) (hinv : HiwatInv c s)
    (hc : Chain c s ids h) (hb : s.brk ≤ 2 ^ 32) (hhot : ids[h]? = some hot)
    (hhg : s.pages hot = some hg) :
    ∀ (d k p : Nat) (pg : AutoreleasePoolPage), k + d = h → ids[k]? = some p →
      s.pages p = some pg → pg.hiwat = hg.hiwat ∨ pg.hiwat ≤ h * c.COUNT := by
  intro d
  induction d with
  | zero =>
    intro k p pg hkd hk hpg
    rw [Nat.add_zero] at hkd
    subst hkd
    rw [hhot] at hk
    cases hk
    rw [hhg] at hpg
    cases hpg
    exact Or.inl rfl
  | succ d ih =>
    intro k p pg hkd hk hpg
    have hlt := hc.idx_lt hhot
    have hm : ids[k + 1]? = some ids[k + 1] := List.getElem?_eq_getElem (by omega)
    obtain ⟨mg, hmg, b1, _⟩ := hc.links (k + 1) _ hm
    rw [if_neg (by omega), Nat.add_sub_cancel, hk] at b1
    have hdep := hc.depth_idx hb hk hpg
    rcases (hinv.2.1 p pg _ mg hpg hmg b1).2 with h1 | h1
    · rcases ih (k + 1) _ mg (by omega) hm hmg with h2 | h2
      · exact Or.inl (h1.trans h2)
      · exact Or.inr (by omega)
    · right
      rw [hdep] at h1
      have hcnt := count_eq hcap
      have : (k + 1) * c.COUNT ≤ h * c.COUNT := Nat.mul_le_mul_right _ (by omega)
      rw [Nat.add_mul, Nat.one_mul] at this
      omega

/-- A registration keeps what holds of the recorded marks. -/
theorem HiwatInv.register {c : Config} (hcap : 2 ≤ c.pageEnd) {s s1 : State}
    {ids ids1 : List Nat} {h h1 obj : Nat} {t : SlotPtr} (hc : Chain c s ids h)
    (hc1 : Chain c s1 ids1 h1) (hobj : obj < 2 ^ 48)
    (hfast : autoreleaseFast c s obj = Except.ok (s1, t)) (hw : NoWrap c s1)
    (hinv : HiwatInv c s) : HiwatInv c s1 := by
  obtain ⟨f1, f2, f3, f4⟩ := hc.register_frame (by omega) hobj hfast
  have hcnt := count_eq hcap
  have hmul : s.brk * c.COUNT ≤ s1.brk * c.COUNT := Nat.mul_le_mul_right _ f2
  -- a page of `s1` that was a page of `s`
  have hold : ∀ p pg1, s1.pages p = some pg1 → ∀ pg, s.pages p = some pg →
      pg1.parent = pg.parent ∧ pg1.depth = pg.depth ∧ pg1.hiwat = pg.hiwat := by
    intro p pg1 hp1 pg hp
    obtain ⟨pg2, hp2, k1, k2, k3⟩ := f1 p pg hp
    rw [hp1] at hp2
    cases hp2
    exact ⟨k1, k2, k3⟩
  refine ⟨?_, ?_, ?_⟩
  · intro p pg1 hp1
    cases hp : s.pages p with
    | some pg =>
      have := hinv.1 p pg hp
      rw [(hold p pg1 hp1 pg hp).2.2]
      omega
    | none =>
      obtain ⟨_, _, hcase⟩ := f3 p pg1 hp1 hp
      rcases hcase with ⟨_, h0⟩ | ⟨hot, hg, _, hhg, _, hh⟩
      · rw [h0]
        have hlt := hc1.below p ((hc1.live p).1 (by rw [hp1]; simp))
        exact Nat.mul_pos (by omega) (by omega)
      · have := hinv.1 hot hg hhg
        rw [hh]
        omega
  · intro p pg1 q qg1 hp1 hq1 hpar
    cases hq : s.pages q with
    | some qg =>
      obtain ⟨k1, _, k3⟩ := hold q qg1 hq1 qg hq
      rw [k1] at hpar
      obtain ⟨ppg, hppg, _⟩ := hc.shape.2.1 q qg p hq hpar
      obtain ⟨_, m2, m3⟩ := hold p pg1 hp1 ppg hppg
      rw [k3, m2, m3]
      exact hinv.2.1 p ppg q qg hppg hq hpar
    | none =>
      obtain ⟨_, _, hcase⟩ := f3 q qg1 hq1 hq
      rcases hcase with ⟨h0, _⟩ | ⟨hot, hg, _, hhg, hqpar, hh⟩
      · rw [h0] at hpar
        cases hpar
      · rw [hqpar] at hpar
        cases hpar
        obtain ⟨_, _, m3⟩ := hold p pg1 hp1 hg hhg
        rw [hh, m3]
        exact ⟨le_refl _, Or.inl rfl⟩
  · intro hot1 hg1 q qg1 htls1 hhg1 hq1 hlt
    cases hq : s.pages q with
    | none =>
      obtain ⟨hqhot, _⟩ := f3 q qg1 hq1 hq
      rw [htls1] at hqhot
      cases hqhot
      rw [hhg1] at hq1
      cases hq1
      omega
    | some qg =>
      obtain ⟨_, k2, k3⟩ := hold q qg1 hq1 qg hq
      obtain ⟨hot, htls, _⟩ := hc.shape.2.2.2.2.1 q (by rw [hq]; simp)
      have hhotidx := hc.hot_page htls
      obtain ⟨hg, hhg, _⟩ := hc.links h hot hhotidx
      rw [k2, k3]
      apply hinv.2.2 hot hg q qg htls hhg hq
      rcases f4 hot htls with hsame | ⟨hot2, hg2, htls2, hhg2, hpar2⟩
      · rw [htls1] at hsame
        cases hsame
        obtain ⟨_, m2, _⟩ := hold hot1 hg1 hhg1 hg hhg
        omega
      · rw [htls1] at htls2
        cases htls2
        rw [hhg1] at hhg2
        cases hhg2
        obtain ⟨ppg, hppg, hch⟩ := hc1.shape.2.1 hot1 hg1 hot hhg1 hpar2
        obtain ⟨cpg, hcpg, _, _, hdep⟩ := hc1.shape.1 hot ppg hot1 hppg hch
        rw [hhg1] at hcpg
        cases hcpg
        have := hdep (hw.brk_le hcap)
        obtain ⟨_, m2, _⟩ := hold hot ppg hppg hg hhg
        omega

/-- The reporting step of a `pop`: with marks that fit their 32 bits the mark
is `depth * COUNT + next` of the hot page; when it exceeds the recorded mark of
the hot page by more than 256 it is recorded at every page of the thread, and
no recorded mark goes down; otherwise nothing changes. -/
theorem HiwatInv.print {c : Config} (hcap : 2 ≤ c.pageEnd) {s : State} {ids : List Nat}
    {h hot : Nat} {hg : AutoreleasePoolPage} (hc : Chain c s ids h) (hbd : hg.next ≤ c.pageEnd)
    (htls : s.tls = Tls.page hot) (hhg : s.pages hot = some hg) (hw : NoWrap c s)
    (hinv : HiwatInv c s) :
    ∃ s0, printHiwat c s = Except.ok s0 ∧ SameButHiwat s s0 ∧ HiwatInv c s0 ∧
      (hg.hiwat + 256 < hg.depth * c.COUNT + hg.next →
        ∀ p pg, s.pages p = some pg → pg.hiwat ≤ hg.depth * c.COUNT + hg.next ∧
          s0.pages p = some { pg with hiwat := hg.depth * c.COUNT + hg.next }) ∧
      (hg.depth * c.COUNT + hg.next ≤ hg.hiwat + 256 → s0 = s) ∧
      (∀ hg0, s0.pages hot = some hg0 →
        hg0.depth * c.COUNT + hg0.next ≤ hg0.hiwat + 256) := by
  have hq := hc.hot_page htls
  have hb := hw.brk_le hcap
  have hdep : hg.depth = h := hc.depth_idx hb hq hhg
  have hlt := hc.idx_lt hq
  have hlen := hc.length_le_brk
  have hcnt := count_eq hcap
  have e1 : (h + 1) * c.COUNT ≤ s.brk * c.COUNT := Nat.mul_le_mul_right _ (by omega)
  rw [Nat.add_mul, Nat.one_mul] at e1
  have hK := hinv.1 hot hg hhg
  have hw0 : s.brk * c.COUNT + 256 < 2 ^ 32 := hw
  have hspec := hc.printHiwat_spec htls hhg
  have m1 : (hg.depth * c.COUNT + hg.next) % 2 ^ 32 = hg.depth * c.COUNT + hg.next :=
    Nat.mod_eq_of_lt (by rw [hdep]; omega)
  have m2 : (hg.hiwat + 256) % 2 ^ 32 = hg.hiwat + 256 := Nat.mod_eq_of_lt (by omega)
  rw [m1, m2] at hspec
  by_cases hex : hg.hiwat + 256 < hg.depth * c.COUNT + hg.next
  · rw [if_pos hex] at hspec
    have hlast : ids.length = h + 1 := by
      by_contra hne
      have hm : ids[h + 1]? = some ids[h + 1] := List.getElem?_eq_getElem (by omega)
      obtain ⟨qg, hqg, b1, _⟩ := hc.links (h + 1) _ hm
      rw [if_neg (by omega), Nat.add_sub_cancel, hq] at b1
      have hqd : qg.depth = h + 1 := hc.depth_idx hb hm hqg
      have w3 := hinv.2.2 hot hg _ qg htls hhg hqg (by omega)
      have w1 := (hinv.2.1 hot hg _ qg hhg hqg b1).1
      rw [hqd, Nat.add_mul, Nat.one_mul] at w3
      rw [hdep] at hex
      omega
    have htake : ids.take (h + 1) = ids := List.take_of_length_le (by omega)
    rw [htake] at hspec
    have hpages : ∀ p pg, s.pages p = some pg →
        (markPages s ids (hg.depth * c.COUNT + hg.next)).pages p =
          some { pg with hiwat := hg.depth * c.COUNT + hg.next } := by
      intro p pg hpg
      have hmem : p ∈ ids := (hc.live p).1 (by rw [hpg]; simp)
      simp only [markPages, if_pos hmem, hpg, Option.map_some']
    have hback : ∀ p pg0, (markPages s ids (hg.depth * c.COUNT + hg.next)).pages p = some pg0 →
        ∃ pg, s.pages p = some pg ∧ pg0 = { pg with hiwat := hg.depth * c.COUNT + hg.next } := by
      intro p pg0 hp0
      cases hp : s.pages p with
      | none =>
        have := (markPages_same s ids (hg.depth * c.COUNT + hg.next)).same_none hp
        rw [this] at hp0
        cases hp0
      | some pg =>
        rw [hpages p pg hp] at hp0
        cases hp0
        exact ⟨pg, rfl, rfl⟩
    refine ⟨_, hspec, markPages_same _ _ _, ⟨?_, ?_, ?_⟩, ?_, ?_, ?_⟩
    · intro p pg0 hp0
      obtain ⟨pg, _, rfl⟩ := hback p pg0 hp0
      show hg.depth * c.COUNT + hg.next < s.brk * c.COUNT
      rw [hdep]
      omega
    · intro p pg0 q qg0 hp0 hq0 _
      obtain ⟨pg, _, rfl⟩ := hback p pg0 hp0
      obtain ⟨qg, _, rfl⟩ := hback q qg0 hq0
      exact ⟨le_refl _, Or.inl rfl⟩
    · intro hot1 hg1 q qg0 htls1 hhg1 hq0 hlt1
      obtain ⟨qg, hqg, rfl⟩ := hback q qg0 hq0
      have htls0 : s.tls = Tls.page hot1 := htls1
      rw [htls] at htls0
      cases htls0
      obtain ⟨hg2, hhg2, rfl⟩ := hback hot hg1 hhg1
      rw [hhg] at hhg2
      cases hhg2
      obtain ⟨j, hj⟩ := hc.idx_of_live hqg
      have hjd : qg.depth = j := hc.depth_idx hb hj hqg
      have := hc.idx_lt hj
      have hlt2 : hg.depth < qg.depth := hlt1
      omega
    · intro _ p pg hpg
      refine ⟨?_, hpages p pg hpg⟩
      obtain ⟨k, hk⟩ := hc.idx_of_live hpg
      have := hc.idx_lt hk
      rcases hinv.above_bound hcap hc hb hq hhg (h - k) k p pg (by omega) hk hpg with h1 | h1
      · omega
      · rw [hdep]
        omega
    · intro hle
      omega
    · intro hg0 hhg0
      obtain ⟨hg2, hhg2, rfl⟩ := hback hot hg0 hhg0
      rw [hhg] at hhg2
      cases hhg2
      show hg.depth * c.COUNT + hg.next ≤ hg.depth * c.COUNT + hg.next + 256
      omega
  · rw [if_neg hex] at hspec
    refine ⟨s, hspec, SameButHiwat.same_refl s, hinv, ?_, fun _ => rfl, ?_⟩
    · intro hlt1
      exact absurd hlt1 hex
    · intro hg0 hhg0
      rw [hhg] at hhg0
      cases hhg0
      omega

/-- A `pop` that records nothing keeps what holds of the recorded marks,
provided the hot page before it has a mark within 256 of its fill. -/
theorem HiwatInv.shrink {c : Config} (hcap : 2 ≤ c.pageEnd) {s0 s1 : State} {ids : List Nat}
    {h : Nat} (hc : Chain c s0 ids h) (hsh : Shrink s0 s1) (hw : NoWrap c s0)
    (hinv : HiwatInv c s0)
    (hdag : ∀ hot hg0, s0.tls = Tls.page hot → s0.pages hot = some hg0 →
      hg0.depth * c.COUNT + hg0.next ≤ hg0.hiwat + 256) : HiwatInv c s1 := by
  obtain ⟨hbrk, hpages⟩ := hsh
  have hb := hw.brk_le hcap
  refine ⟨?_, ?_, ?_⟩
  · intro p pg1 hp1
    obtain ⟨pg, hpg, _, _, k3⟩ := hpages p pg1 hp1
    rw [hbrk, k3]
    exact hinv.1 p pg hpg
  · intro p pg1 q qg1 hp1 hq1 hpar
    obtain ⟨pg, hpg, _, k2, k3⟩ := hpages p pg1 hp1
    obtain ⟨qg, hqg, m1, _, m3⟩ := hpages q qg1 hq1
    rw [k2, k3, m3]
    exact hinv.2.1 p pg q qg hpg hqg (by rw [← m1]; exact hpar)
  · intro hot1 hg1 q qg1 _ _ hq1 _
    obtain ⟨qg, hqg, _, m2, m3⟩ := hpages q qg1 hq1
    rw [m2, m3]
    obtain ⟨hot, htls, _⟩ := hc.shape.2.2.2.2.1 q (by rw [hqg]; simp)
    have hhot := hc.hot_page htls
    obtain ⟨hg, hhg, _⟩ := hc.links h hot hhot
    by_cases hlt : hg.depth < qg.depth
    · exact hinv.2.2 hot hg q qg htls hhg hqg hlt
    · obtain ⟨j, hj⟩ := hc.idx_of_live hqg
      have hjd : qg.depth = j := hc.depth_idx hb hj hqg
      have hhd : hg.depth = h := hc.depth_idx hb hhot hhg
      have hjh : j ≤ h := by omega
      have hhot2 : ids[j + (h - j)]? = some hot := by
        rw [show j + (h - j) = h by omega]
        exact hhot
      have hanti := hinv.antitone hc (h - j) j q hot qg hg hj hhot2 hqg hhg
      have hd := hdag hot hg htls hhg
      have : qg.depth * c.COUNT ≤ hg.depth * c.COUNT := Nat.mul_le_mul_right _ (by omega)
      omega

/-- A `pop` of the token of an open scope in a thread that reports high-water
marks is the reporting step followed by a `pop` that records nothing. -/
theorem pop_hiwat_step {c : Config} (hd1 : c.DebugPoolAllocation = false)
    (hd2 : c.DebugMissingPools = false) (hp : c.PrintPoolHiwat = true) (hcap : 2 ≤ c.pageEnd)
    {s : State} {inner outer : List SlotPtr} {t : SlotPtr}
    (hr : Reach c s (inner ++ t :: outer)) (hw : NoWrap c s) (hinv : HiwatInv c s) :
    ∃ s0 s1, pop c s t = Except.ok s1 ∧ SameButHiwat s s0 ∧
      pop c.quiet s0 t = Except.ok s1 ∧ Shrink s0 s1 ∧ HiwatInv c s0 ∧ HiwatInv c s1 ∧
      (∀ hot hg, s.tls = Tls.page hot → s.pages hot = some hg →
        printHiwat c s = Except.ok s0 ∧
        (hg.hiwat + 256 < hg.depth * c.COUNT + hg.next →
          ∀ p pg, s.pages p = some pg → pg.hiwat ≤ hg.depth * c.COUNT + hg.next ∧
            s0.pages p = some { pg with hiwat := hg.depth * c.COUNT + hg.next }) ∧
        (hg.depth * c.COUNT + hg.next ≤ hg.hiwat + 256 → s0 = s)) ∧
      ((∀ q, s.tls ≠ Tls.page q) → s0 = s) ∧
      (∀ p pg pg0, s.pages p = some pg → s0.pages p = some pg0 → pg.hiwat ≤ pg0.hiwat) := by
  obtain ⟨cells, base, hI, htok⟩ := hr.inv_general hd1 hd2 hcap
  obtain ⟨lo, a, hi, e1, e2, e3⟩ := TokensIn.split inner htok
  subst e1
  obtain ⟨s0, s1, r1, r2, r3, r4, r5, r6, r7, r8, r9⟩ :=
    pop_scope_general hd1 hd2 (by omega) hI e3
  have hsh : Shrink s0 s1 := pop_shrink (quiet_nonDebug hd1 hd2) r3
  obtain ⟨ids, h, hc, _⟩ := hI
  have hc0 : Chain c s0 ids h := r2.same_chain hc
  have hw0 : NoWrap c s0 := by
    unfold NoWrap at *
    rw [r2.1]
    exact hw
  by_cases hex : ∃ q, s.tls = Tls.page q
  · obtain ⟨hot, htls⟩ := hex
    have hhot := hc.hot_page htls
    obtain ⟨hg, hhg, _⟩ := hc.links h hot hhot
    have hbd := hr.bounded hot hg hhg
    obtain ⟨s2, q1, q2, q3, q4, q5, q6⟩ := hinv.print hcap hc hbd htls hhg hw
    have hs : s2 = s0 := by
      have := r9 hp hot htls
      rw [q1] at this
      cases this
      rfl
    subst hs
    have hinv1 : HiwatInv c s1 := by
      apply q3.shrink hcap hc0 hsh hw0
      intro hot1 hg0 htls1 hhg0
      rw [r2.2.1, htls] at htls1
      cases htls1
      exact q6 hg0 hhg0
    refine ⟨s2, s1, r1, r2, r3, hsh, q3, hinv1, ?_, r8, ?_⟩
    · intro hot1 hg1 htls1 hhg1
      rw [htls] at htls1
      cases htls1
      rw [hhg] at hhg1
      cases hhg1
      exact ⟨q1, q4, q5⟩
    · intro p pg pg0 hpg hpg0
      by_cases hex : hg.hiwat + 256 < hg.depth * c.COUNT + hg.next
      · obtain ⟨k1, k2⟩ := q4 hex p pg hpg
        rw [hpg0] at k2
        cases k2
        exact k1
      · have := q5 (by omega)
        subst this
        rw [hpg] at hpg0
        cases hpg0
        exact le_refl _
  · have hno : ∀ q, s.tls ≠ Tls.page q := fun q hq => hex ⟨q, hq⟩
    have hs := r8 hno
    subst hs
    have hinv1 : HiwatInv c s1 := by
      apply hinv.shrink hcap hc hsh hw
      intro hot1 hg0 htls1 _
      exact absurd htls1 (hno hot1)
    refine ⟨s0, s1, r1, r2, r3, hsh, hinv, hinv1, ?_, r8, ?_⟩
    · intro hot1 hg1 htls1 _
      exact absurd htls1 (hno hot1)
    · intro p pg pg0 hpg hpg0
      rw [hpg] at hpg0
      cases hpg0
      exact le_refl _

/-- What holds of the recorded marks holds in every state that a thread which
reports high-water marks reaches, while the marks fit their 32 bits. -/
theorem Reach.hiwat {c : Config} (hd1 : c.DebugPoolAllocation = false)
    (hd2 : c.DebugMissingPools = false) (hp : c.PrintPoolHiwat = true) (hcap : 2 ≤ c.pageEnd)
    {s : State} {toks : List SlotPtr} (hr : Reach c s toks) : NoWrap c s → HiwatInv c s := by
  induction hr with
  | init =>
    intro _
    refine ⟨?_, ?_, ?_⟩
    · intro p pg hpg
      cases hpg
    · intro p pg q qg hpg
      cases hpg
    · intro hot hg q qg _ hpg
      cases hpg
  | @push s toks s1 t hr0 hpush ih =>
    intro hw
    obtain ⟨cells, base, hI, _⟩ := hr0.inv_general hd1 hd2 hcap
    obtain ⟨cells1, base1, hI1, _⟩ := (Reach.push hr0 hpush).inv_general hd1 hd2 hcap
    obtain ⟨ids, h, hc, _⟩ := hI
    obtain ⟨ids1, h1, hc1, _⟩ := hI1
    have hfast := push_fast hd1 hpush
    have hb := (hc.register_frame (by omega) (by decide) hfast).2.1
    exact (ih (hw.mono hb)).register hcap hc hc1 (by decide) hfast hw
  | @autorelease s toks obj s1 r hr0 hobj hauto ih =>
    intro hw
    obtain ⟨cells, base, hI, _⟩ := hr0.inv_general hd1 hd2 hcap
    obtain ⟨cells1, base1, hI1, _⟩ :=
      (Reach.autorelease hr0 hobj hauto).inv_general hd1 hd2 hcap
    obtain ⟨t, hfast⟩ := autorelease_fast hauto
    obtain ⟨ids, h, hc, _⟩ := hI
    obtain ⟨ids1, h1, hc1, _⟩ := hI1
    have hb := (hc.register_frame (by omega) hobj.2 hfast).2.1
    exact (ih (hw.mono hb)).register hcap hc hc1 hobj.2 hfast hw
  | @pop s inner t outer s1 hr0 hpop ih =>
    intro hw
    obtain ⟨cells, base, hI, htok⟩ := hr0.inv_general hd1 hd2 hcap
    obtain ⟨lo, a, hi, e1, e2, e3⟩ := TokensIn.split inner htok
    subst e1
    obtain ⟨s0, s2, r1, _, _, _, _, hbrk, _⟩ := pop_scope_general hd1 hd2 (by omega) hI e3
    rw [hpop] at r1
    cases r1
    have hw0 : NoWrap c s := hw.mono (le_of_eq hbrk.symm)
    obtain ⟨s0, s2, k1, _, _, _, _, k6, _⟩ := pop_hiwat_step hd1 hd2 hp hcap hr0 hw0 (ih hw0)
    rw [hpop] at k1
    cases k1
    exact k6

theorem Grow.grow_refl (s : State) : Grow s s :=
  ⟨le_refl _, fun _ _ h => h, fun p pg pg1 h h1 => by
    rw [h] at h1
    cases h1
    exact le_refl _⟩

theorem Grow.grow_trans {s s1 s2 : State} (hbelow : ∀ p pg, s.pages p = some pg → p < s.brk)
    (h1 : Grow s s1) (h2 : Grow s1 s2) : Grow s s2 := by
  refine ⟨le_trans h1.1 h2.1, ?_, ?_⟩
  · intro p hp hn
    exact h2.2.1 p (lt_of_lt_of_le hp h1.1) (h1.2.1 p hp hn)
  · intro p pg pg2 hpg hpg2
    have hp := hbelow p pg hpg
    cases hp1 : s1.pages p with
    | none =>
      rw [h2.2.1 p (lt_of_lt_of_le hp h1.1) hp1] at hpg2
      cases hpg2
    | some pg1 => exact le_trans (h1.2.2 p pg pg1 hpg hp1) (h2.2.2 p pg1 pg2 hp1 hpg2)

/-- A registration leaves every recorded mark as it is. -/
theorem Chain.register_grow {c : Config} {s s1 : State} {ids : List Nat} {h obj : Nat}
    {t : SlotPtr} (hcap : 1 ≤ c.pageEnd) (hc : Chain c s ids h) (hobj : obj < 2 ^ 48)
    (hfast : autoreleaseFast c s obj = Except.ok (s1, t)) : Grow s s1 := by
  obtain ⟨f1, f2, f3, _⟩ := hc.register_frame hcap hobj hfast
  refine ⟨f2, ?_, ?_⟩
  · intro p hp hn
    cases hp1 : s1.pages p with
    | none => rfl
    | some pg1 =>
      have := (f3 p pg1 hp1 hn).2.1
      omega
  · intro p pg pg1 hpg hpg1
    obtain ⟨pg2, hpg2, _, _, k3⟩ := f1 p pg hpg
    rw [hpg1] at hpg2
    cases hpg2
    exact le_of_eq k3.symm

/-- A `pop` of the token of an open scope allocates nothing. -/
theorem pop_keeps_brk {c : Config} (hd1 : c.DebugPoolAllocation = false)
    (hd2 : c.DebugMissingPools = false) (hcap : 2 ≤ c.pageEnd) {s s1 : State}
    {inner outer : List SlotPtr} {t : SlotPtr} (hr : Reach c s (inner ++ t :: outer))
    (hpop : pop c s t = Except.ok s1) : s1.brk = s.brk := by
  obtain ⟨cells, base, hI, htok⟩ := hr.inv_general hd1 hd2 hcap
  obtain ⟨lo, a, hi, e1, e2, e3⟩ := TokensIn.split inner htok
  subst e1
  obtain ⟨s0, s2, r1, _, _, _, _, hbrk, _⟩ := pop_scope_general hd1 hd2 (by omega) hI e3
  rw [hpop] at r1
  cases r1
  exact hbrk

/-- One call of a thread that reports high-water marks lowers no recorded
mark. -/
theorem step_grow {c : Config} (hd1 : c.DebugPoolAllocation = false)
    (hd2 : c.DebugMissingPools = false) (hp : c.PrintPoolHiwat = true) (hcap : 2 ≤ c.pageEnd)
    {s s1 : State} {toks toks1 : List SlotPtr} {op : Op} (hr : Reach c s toks)
    (hop : ∀ obj, op = Op.autorelease obj → IsRef obj)
    (hstep : step c (s, toks) op = Except.ok (s1, toks1)) (hw : NoWrap c s1) : Grow s s1 := by
  obtain ⟨cells, base, hI, _⟩ := hr.inv_general hd1 hd2 hcap
  obtain ⟨ids, h, hc, _⟩ := hI
  cases op with
  | push =>
    simp only [step] at hstep
    cases hpush : push c s with
    | error e =>
      rw [hpush] at hstep
      cases hstep
    | ok r =>
      obtain ⟨s2, t⟩ := r
      rw [hpush] at hstep
      simp only [Except.ok.injEq, Prod.mk.injEq] at hstep
      obtain ⟨rfl, _⟩ := hstep
      exact hc.register_grow (by omega) (by decide) (push_fast hd1 hpush)
  | autorelease obj =>
    simp only [step] at hstep
    cases hauto : autorelease c s obj with
    | error e =>
      rw [hauto] at hstep
      cases hstep
    | ok r =>
      obtain ⟨s2, t⟩ := r
      rw [hauto] at hstep
      simp only [Except.ok.injEq, Prod.mk.injEq] at hstep
      obtain ⟨rfl, _⟩ := hstep
      obtain ⟨t1, hfast⟩ := autorelease_fast hauto
      exact hc.register_grow (by omega) (hop obj rfl).2 hfast
  | pop k =>
    simp only [step] at hstep
    cases hdrop : toks.drop k with
    | nil =>
      rw [hdrop] at hstep
      cases hstep
    | cons t outer =>
      rw [hdrop] at hstep
      simp only at hstep
      cases hpop : pop c s t with
      | error e =>
        rw [hpop] at hstep
        cases hstep
      | ok s2 =>
        rw [hpop] at hstep
        simp only [Except.ok.injEq, Prod.mk.injEq] at hstep
        obtain ⟨rfl, _⟩ := hstep
        have htoks : toks = toks.take k ++ t :: outer := by
          rw [← hdrop, List.take_append_drop]
        rw [htoks] at hr
        have hbrk := pop_keeps_brk hd1 hd2 hcap hr hpop
        have hw0 : NoWrap c s := hw.mono (le_of_eq hbrk.symm)
        obtain ⟨s0, s3, k1, k2, _, k4, _, _, _, _, k9⟩ :=
          pop_hiwat_step hd1 hd2 hp hcap hr hw0 (hr.hiwat hd1 hd2 hp hcap hw0)
        rw [hpop] at k1
        cases k1
        refine ⟨le_of_eq hbrk.symm, ?_, ?_⟩
        · intro p _ hn
          cases hp2 : s2.pages p with
          | none => rfl
          | some pg2 =>
            obtain ⟨pg0, hpg0, _⟩ := k4.2 p pg2 hp2
            rw [k2.same_none hn] at hpg0
            cases hpg0
        · intro p pg pg2 hpg hpg2
          obtain ⟨pg0, hpg0, _, _, m3⟩ := k4.2 p pg2 hpg2
          rw [m3]
          exact k9 p pg pg0 hpg hpg0

/-- No sequence of calls of a thread that reports high-water marks lowers a
recorded mark. -/
theorem run_grow {c : Config} (hd1 : c.DebugPoolAllocation = false)
    (hd2 : c.DebugMissingPools = false) (hp : c.PrintPoolHiwat = true) (hcap : 2 ≤ c.pageEnd) :
    ∀ (ops : List Op) (s : State) (toks : List SlotPtr) (s1 : State) (toks1 : List SlotPtr),
      Reach c s toks → (∀ obj, Op.autorelease obj ∈ ops → IsRef obj) →
      run c (s, toks) ops = Except.ok (s1, toks1) → NoWrap c s1 → Grow s s1 := by
  intro ops
  induction ops with
  | nil =>
    intro s toks s1 toks1 _ _ hrun _
    simp only [run, Except.ok.injEq, Prod.mk.injEq] at hrun
    obtain ⟨rfl, _⟩ := hrun
    exact Grow.grow_refl s
  | cons op ops ih =>
    intro s toks s1 toks1 hr href hrun hw
    simp only [run] at hrun
    cases hstep : step c (s, toks) op with
    | error e =>
      rw [hstep] at hrun
      cases hrun
    | ok st =>
      obtain ⟨s2, toks2⟩ := st
      rw [hstep] at hrun
      simp only at hrun
      have hone : run c (s, toks) [op] = Except.ok (s2, toks2) := by
        simp only [run, hstep]
      have hr2 : Reach c s2 toks2 :=
        reach_run [op] s toks s2 toks2 hr (fun obj hm => href obj (by
          rw [List.mem_singleton] at hm
          rw [hm]
          exact List.mem_cons_self _ _)) hone
      have hg2 := ih s2 toks2 s1 toks1 hr2
        (fun obj hm => href obj (List.mem_cons_of_mem _ hm)) hrun hw
      have hg1 := step_grow hd1 hd2 hp hcap hr
        (fun obj ho => href obj (by rw [ho]; exact List.mem_cons_self _ _)) hstep
        (hw.mono hg2.1)
      obtain ⟨cells, base, hI, _⟩ := hr.inv_general hd1 hd2 hcap
      obtain ⟨ids, h, hc, _⟩ := hI
      exact Grow.grow_trans
        (fun p pg hpg => hc.below p ((hc.live p).1 (by rw [hpg]; simp))) hg1 hg2

/-- C26 as stated fails: the stride of the mark is `COUNT`, the page size
divided by the slot size, not the slot capacity of a page.  With 4096-byte
pages the capacity is 505 and `COUNT` is 512.  After `spillOps` the hot page is
page 1, of depth 1, with one slot in use and no recorded mark; the `pop` of the
scope computes and records the mark 513, which is `1 * 512 + 1`, whereas depth
times capacity plus offset is 506. -/
theorem hiwat_stride_is_count :
    hiwatConfig.PrintPoolHiwat = true ∧ hiwatConfig.pageEnd = 505 ∧
    (hiwatConfig.SIZE - sizeofPage) / sizeofId = 505 ∧ hiwatConfig.COUNT = 512 ∧
    ((reached hiwatConfig spillOps).1.tls,
      ((reached hiwatConfig spillOps).1.pages 1).map
        (fun pg => (pg.depth, pg.next, pg.hiwat))) = (Tls.page 1, some (1, 1, 0)) ∧
    (match printHiwat hiwatConfig (reached hiwatConfig spillOps).1 with
      | Except.ok s0 => (s0.pages 1).map (fun pg => pg.hiwat)
      | Except.error _ => none) = some 513 ∧
    ((reached hiwatConfig (spillOps ++ [Op.pop 0])).1.pages 0).map (fun pg => pg.hiwat) =
      some 513 ∧
    513 ≠ 1 * ((hiwatConfig.SIZE - sizeofPage) / sizeofId) + 1 := by
  refine ⟨rfl, by decide, by decide, by decide, ?_, ?_, ?_, by decide⟩
  · decide!
  · decide!
  · decide!

/-- C26, amended: with high-water reporting on and the two pool-debugging
switches off, in every reachable state: (1) the stride `COUNT` of the mark is
the page size divided by the slot size, seven more than the slot capacity of a
page; (2) while the marks fit their 32 bits, a `pop` of the token of an open
scope returns, and it is `printHiwat()` followed by a `pop` that records
nothing: the mark is `depth * COUNT + next` of the hot page; when it exceeds
the recorded mark of the hot page by more than 256 it is recorded at every page
of the thread, otherwise no recorded mark changes; and the pages that are left
keep the mark they have after the reporting step; (3) over any sequence of
`push`, `autorelease` and `pop` calls whose marks fit their 32 bits, the
recorded mark of a page never goes down. -/
theorem hiwat_mark (c : Config) (hd1 : c.DebugPoolAllocation = false)
    (hd2 : c.DebugMissingPools = false) (hp : c.PrintPoolHiwat = true) (hcap : 2 ≤ c.pageEnd)
    (s : State) (toks : List SlotPtr) (hr : Reach c s toks) :
    c.COUNT = c.SIZE / sizeofId ∧ c.COUNT = c.pageEnd + 7 ∧
    (∀ inner t outer, toks = inner ++ t :: outer → s.brk * c.COUNT + 256 < 2 ^ 32 →
      ∃ s0 s1, pop c s t = Except.ok s1 ∧ pop c.quiet s0 t = Except.ok s1 ∧
        (∀ hot hg, s.tls = Tls.page hot → s.pages hot = some hg →
          printHiwat c s = Except.ok s0 ∧
          (hg.hiwat + 256 < hg.depth * c.COUNT + hg.next →
            ∀ p pg, s.pages p = some pg →
              s0.pages p = some { pg with hiwat := hg.depth * c.COUNT + hg.next }) ∧
          (hg.depth * c.COUNT + hg.next ≤ hg.hiwat + 256 → s0 = s)) ∧
        ((∀ q, s.tls ≠ Tls.page q) → s0 = s) ∧
        (∀ p pg1, s1.pages p = some pg1 →
          ∃ pg0, s0.pages p = some pg0 ∧ pg1.hiwat = pg0.hiwat)) ∧
    (∀ ops s1 toks1, (∀ obj, Op.autorelease obj ∈ ops → IsRef obj) →
      run c (s, toks) ops = Except.ok (s1, toks1) → s1.brk * c.COUNT + 256 < 2 ^ 32 →
      ∀ p pg pg1, s.pages p = some pg → s1.pages p = some pg1 → pg.hiwat ≤ pg1.hiwat) := by
  refine ⟨rfl, count_eq hcap, ?_, ?_⟩
  · intro inner t outer htoks hw
    subst htoks
    have hw0 : NoWrap c s := hw
    obtain ⟨s0, s1, k1, _, k3, k4, _, _, k7, k8, _⟩ :=
      pop_hiwat_step hd1 hd2 hp hcap hr hw0 (hr.hiwat hd1 hd2 hp hcap hw0)
    refine ⟨s0, s1, k1, k3, ?_, k8, ?_⟩
    · intro hot hg htls hhg
      obtain ⟨q1, q2, q3⟩ := k7 hot hg htls hhg
      exact ⟨q1, fun hex p pg hpg => (q2 hex p pg hpg).2, q3⟩
    · intro p pg1 hpg1
      obtain ⟨pg0, hpg0, _, _, m3⟩ := k4.2 p pg1 hpg1
      exact ⟨pg0, hpg0, m3⟩
  · intro ops s1 toks1 href hrun hw
    exact (run_grow hd1 hd2 hp hcap ops s toks s1 toks1 hr href hrun hw).2.2

/-- C26, an instance: the thread that reports high-water marks after the calls
`spillOps`, with a full first page and a second page of depth 1. -/
theorem hiwat_mark_witness :
    hiwatConfig.DebugPoolAllocation = false ∧ hiwatConfig.DebugMissingPools = false ∧
    hiwatConfig.PrintPoolHiwat = true ∧ 2 ≤ hiwatConfig.pageEnd ∧
    Reach hiwatConfig (reached hiwatConfig spillOps).1 (reached hiwatConfig spillOps).2 ∧
    hiwatConfig.COUNT = hiwatConfig.SIZE / sizeofId ∧
    hiwatConfig.COUNT = hiwatConfig.pageEnd + 7 ∧
    (∀ ops s1 toks1, (∀ obj, Op.autorelease obj ∈ ops → IsRef obj) →
      run hiwatConfig ((reached hiwatConfig spillOps).1, (reached hiwatConfig spillOps).2) ops =
        Except.ok (s1, toks1) →
      s1.brk * hiwatConfig.COUNT + 256 < 2 ^ 32 →
      ∀ p pg pg1, (reached hiwatConfig spillOps).1.pages p = some pg →
        s1.pages p = some pg1 → pg.hiwat ≤ pg1.hiwat) :=
  have hr : Reach hiwatConfig (reached hiwatConfig spillOps).1
      (reached hiwatConfig spillOps).2 :=
    reach_reached hiwatConfig spillOps (by decide!) (by
      intro obj hm
      simp only [spillOps, registerRange, List.mem_cons, List.mem_map, List.mem_range,
        Op.autorelease.injEq, reduceCtorEq, false_or] at hm
      obtain ⟨k, hk, rfl⟩ := hm
      exact ⟨by omega, by omega⟩)
  ⟨rfl, rfl, rfl, by decide, hr,
    (hiwat_mark hiwatConfig rfl rfl rfl (by decide) (reached hiwatConfig spillOps).1
      (reached hiwatConfig spillOps).2 hr).1,
    (hiwat_mark hiwatConfig rfl rfl rfl (by decide) (reached hiwatConfig spillOps).1
      (reached hiwatConfig spillOps).2 hr).2.1,
    (hiwat_mark hiwatConfig rfl rfl rfl (by decide) (reached hiwatConfig spillOps).1
      (reached hiwatConfig spillOps).2 hr).2.2.2⟩

end AutoreleasePool
